import Mathlib

/-!
# Maze generation and path search of `maze_game.c`

A shallow embedding of the two algorithms of
`src/Delivery04_GroupL/project/maze_game.c`:

* `GenImageMazeEx`, the grid-based maze generator, and
* `LoadPathAStar`, the path search over the generated image.

C `int` values are `Int` (no arithmetic of the two functions leaves the range
of a grid coordinate or a cell count), image extents are `Nat`.  A `float` is
the rational number it stands for, and `(float)v / 100.0f` is computed as
IEEE 754 binary32 arithmetic computes it (`chanceFloat`).  A pointer
`&reached[j]` is the index `j`.  Loops whose trip count is not fixed by a
`for` header take fuel, and the result of a call is an `Outcome`.

The C arrays `mazePoints`, `frontier`, `reached` and `path` are modelled
twice.  In `GenImageMazeEx` and `LoadPathAStar` they are lists that grow
without limit, which is convenient to reason about the algorithms.  In
`GenImageMazeExChecked` and `LoadPathAStarChecked` they have the capacity
that `malloc` gives them, and a write past it is undefined behaviour; a run
of these is a run of the former that stays within the arrays.
`GenImageMazeExMem` runs the generator on a block `mazePoints` that holds
arbitrary points when `malloc` returns it.
-/

namespace MazeGame

/-! ## Data model -/

/-- Grid coordinate: the `Point` struct of maze_game.c. -/
structure Point where
  x : Int
  y : Int
deriving DecidableEq, Repr

/-- Colour of one pixel: raylib's `Color`, four channels. -/
structure Color where
  r : Nat
  g : Nat
  b : Nat
  a : Nat
deriving DecidableEq, Repr

/-- The colour constant `BLACK` of raylib.h: a walkable cell. -/
def BLACK : Color := ⟨0, 0, 0, 255⟩

/-- The colour constant `WHITE` of raylib.h: a wall cell. -/
def WHITE : Color := ⟨255, 255, 255, 255⟩

/-- An image: raylib's `Image`, with its pixel buffer as a row-major list of
colours (pixel `(x, y)` at position `y * width + x`). -/
structure Image where
  width : Nat
  height : Nat
  data : List Color
deriving DecidableEq, Repr

/-- What a call produces: it returns a value, it is still inside a loop when
the fuel is used up, or it executes an operation C leaves undefined. -/
inductive Outcome (α : Type) where
  | returned : α → Outcome α
  | running : Outcome α
  | undefinedBehaviour : Outcome α
deriving DecidableEq, Repr

/-! ## raylib image primitives -/

/-- Inside the pixel rectangle of the image. -/
def inBounds (image : Image) (x y : Int) : Prop :=
  0 ≤ x ∧ x < image.width ∧ 0 ≤ y ∧ y < image.height

instance (image : Image) (x y : Int) : Decidable (inBounds image x y) := by
  unfold inBounds; infer_instance

/-- Position of pixel `(x, y)` in the buffer. -/
def pixelIndex (image : Image) (x y : Int) : Nat :=
  y.toNat * image.width + x.toNat

/-- The raylib call `GenImageColor(width, height, color)`: a buffer of
`width * height` pixels of one colour. -/
def GenImageColor (width height : Nat) (color : Color) : Image :=
  ⟨width, height, List.replicate (width * height) color⟩

/-- The raylib call `GetImageColor(image, x, y)`: the pixel at `(x, y)`, and
the zero colour when `(x, y)` is outside the image. -/
def GetImageColor (image : Image) (x y : Int) : Color :=
  if inBounds image x y then image.data.getD (pixelIndex image x y) ⟨0, 0, 0, 0⟩
  else ⟨0, 0, 0, 0⟩

/-- The raylib call `ImageDrawPixel(&image, x, y, color)`: overwrite the pixel
at `(x, y)`; a position outside the image is ignored. -/
def ImageDrawPixel (image : Image) (x y : Int) (color : Color) : Image :=
  if inBounds image x y then
    { image with data := image.data.set (pixelIndex image x y) color }
  else image

/-! ## Path search: `LoadPathAStar` -/

/-- Search node: the local struct `PathNode` of `LoadPathAStar`.  The C field
`PathNode *parent` points into the array `reached`; here it is the index of
that entry, `none` for `NULL`. -/
structure PathNode where
  p : Point
  gvalue : Int
  hvalue : Int
  parent : Option Nat
deriving DecidableEq, Repr

/-- The loop `for (j = 0; j < reachedSize; j++) if (reached[j].p == q) ... break`:
index of the first entry of `reached` at coordinate `q`. -/
def findReached : List PathNode → Point → Option Nat
  | [], _ => none
  | n :: rest, q =>
    if n.p.x = q.x ∧ n.p.y = q.y then some 0
    else (findReached rest q).map (· + 1)

/-- The test `isValid` on a neighbour: inside the map and black (red channel 0). -/
def isValid (map : Image) (q : Point) : Bool :=
  decide (q.x ≥ 0) && decide (q.y ≥ 0) && decide (q.x < map.width) &&
    decide (q.y < map.height) && decide ((GetImageColor map q.x q.y).r = 0)

/-- The four neighbours of a cell in the order of the array `neighbors`. -/
def neighbors (c : Point) : List Point :=
  [⟨c.x, c.y - 1⟩, ⟨c.x - 1, c.y⟩, ⟨c.x, c.y + 1⟩, ⟨c.x + 1, c.y⟩]

/-- Body of the loop over the four neighbours, on the pair
`(frontier, reached)`.  The two arrays are lists here, which grow without
limit; `visitNeighborChecked` is the same body with the arrays as `malloc`
allocates them. -/
def visitNeighbor (map : Image) (endP : Point) (currentNode : PathNode)
    (st : List PathNode × List PathNode) (nb : Point) :
    List PathNode × List PathNode :=
  let heuristic : Int := (Int.natAbs (nb.x - endP.x) : Int) + (Int.natAbs (nb.y - endP.y) : Int)
  let neighbor : PathNode := ⟨nb, currentNode.gvalue + 1, heuristic, none⟩
  if isValid map nb then
    let save : Bool :=
      match findReached st.2 nb with
      | none => true
      | some j =>
        match st.2.get? j with
        | some r => decide (neighbor.gvalue < r.gvalue)
        | none => false
    if save then
      (st.1 ++ [neighbor],
       st.2 ++ [{ neighbor with parent := findReached st.2 currentNode.p }])
    else st
  else st

/-- Priority `gvalue + hvalue` of a frontier entry. -/
def fvalue (n : PathNode) : Int := n.gvalue + n.hvalue

/-- Placeholder for a read outside a list (no such read happens: every index
used by the reorder pass is below `frontierSize`). -/
def nullNode : PathNode := ⟨⟨0, 0⟩, 0, 0, none⟩

/-- Inner loop of the reorder pass: starting from `maxGHIndex = i`, scan
`j = 0 .. frontierSize - 1` and move to `j` whenever the entry at `maxGHIndex`
has a strictly smaller priority. -/
def maxGHIndex (frontier : List PathNode) (i : Nat) : Nat :=
  (List.range frontier.length).foldl
    (fun m j => if fvalue (frontier.getD m nullNode) < fvalue (frontier.getD j nullNode) then j else m) i

/-- One round of the reorder pass: exchange the entries at `i` and
`maxGHIndex`. -/
def reorderStep (frontier : List PathNode) (i : Nat) : List PathNode :=
  let m := maxGHIndex frontier i
  let aux := frontier.getD i nullNode
  (frontier.set i (frontier.getD m nullNode)).set m aux

/-- The reorder pass over the frontier, `i = 0 .. frontierSize - 1`. -/
def reorderFrontier (frontier : List PathNode) : List PathNode :=
  (List.range frontier.length).foldl reorderStep frontier

/-- One iteration of `while (frontierSize > 0)`: take the entry at index 0,
visit its four neighbours, reorder the frontier. -/
def searchStep (map : Image) (endP : Point) (currentNode : PathNode)
    (rest reached : List PathNode) : List PathNode × List PathNode :=
  let st := (neighbors currentNode.p).foldl (visitNeighbor map endP currentNode) (rest, reached)
  (reorderFrontier st.1, st.2)

/-- The search loop `while (frontierSize > 0)` with its arrays unbounded: the
final `reached` array, or `none` when the fuel ends before the frontier is
empty.  The loop with the arrays as allocated is `searchLoopChecked`. -/
def searchLoop (map : Image) (endP : Point) :
    Nat → List PathNode → List PathNode → Option (List PathNode)
  | _, [], reached => some reached
  | 0, _ :: _, _ => none
  | fuel + 1, currentNode :: rest, reached =>
    searchLoop map endP fuel (searchStep map endP currentNode rest reached).1
      (searchStep map endP currentNode rest reached).2

/-- The backtracking loop
`while ((current != start) && pathCounter < reachedSize)`, whose body looks
`current` up in `reached`, stores it in `path` and moves to the parent of the
entry found; when no entry is found the body changes nothing. -/
def backtrack (reached : List PathNode) (start : Point) :
    Nat → Point → List Point → Outcome (List Point)
  | fuel, current, path =>
    if (current.x ≠ start.x ∨ current.y ≠ start.y) ∧ path.length < reached.length then
      match fuel with
      | 0 => Outcome.running
      | fuel + 1 =>
        match findReached reached current with
        | none => backtrack reached start fuel current path
        | some i =>
          match (reached.getD i nullNode).parent with
          | none => Outcome.undefinedBehaviour
          | some j => backtrack reached start fuel (reached.getD j nullNode).p (path ++ [current])
    else Outcome.returned path

/-- The function `LoadPathAStar(map, start, end, &pointCount)` with its
arrays unbounded: the array `path` it returns, as a list of `pointCount`
points.  The function with the arrays as allocated is
`LoadPathAStarChecked`. -/
def LoadPathAStar (fuel : Nat) (map : Image) (start endP : Point) : Outcome (List Point) :=
  let startNode : PathNode := ⟨start, 0, 0, none⟩
  match searchLoop map endP fuel [startNode] [startNode] with
  | none => Outcome.running
  | some reached => backtrack reached start fuel endP []

/-! ## raylib random numbers -/

/-- The random number generator of raylib, with its global state of type `σ`:
`SetRandomSeed(seed)`, `GetRandomValue(min, max)` and
`LoadRandomSequence(count, min, max)`, each taking the state the generator is
in and returning the next state, together with what raylib documents of them:
a value lies between `min` and `max`, both included, a sequence has `count`
values of that range, none repeated, and `SetRandomSeed` starts the stream
over: the state it leaves depends on the seed only. -/
structure RandomGen (σ : Type) where
  SetRandomSeed : σ → Nat → σ
  GetRandomValue : σ → Int → Int → Int × σ
  LoadRandomSequence : σ → Nat → Int → Int → List Int × σ
  value_range : ∀ s lo hi, lo ≤ hi →
    lo ≤ (GetRandomValue s lo hi).1 ∧ (GetRandomValue s lo hi).1 ≤ hi
  sequence_length : ∀ (s : σ) (count : Nat) (lo hi : Int), (count : Int) ≤ hi - lo + 1 →
    (LoadRandomSequence s count lo hi).1.length = count
  sequence_range : ∀ (s : σ) (count : Nat) (lo hi : Int), (count : Int) ≤ hi - lo + 1 →
    ∀ v ∈ (LoadRandomSequence s count lo hi).1, lo ≤ v ∧ v ≤ hi
  sequence_nodup : ∀ (s : σ) (count : Nat) (lo hi : Int), (count : Int) ≤ hi - lo + 1 →
    (LoadRandomSequence s count lo hi).1.Nodup
  seed_resets : ∀ (s s' : σ) (seed : Nat), SetRandomSeed s seed = SetRandomSeed s' seed

/-! ## Maze generation: `GenImageMazeEx` -/

/-- The integer nearest to `n / d`, and the even one of the two when `n / d`
lies halfway between two integers: the rounding of IEEE 754 arithmetic. -/
def roundHalfEven (n d : Nat) : Nat :=
  if 2 * (n % d) < d then n / d
  else if d < 2 * (n % d) then n / d + 1
  else if (n / d) % 2 = 0 then n / d else n / d + 1

/-- The number of binary places of the `float` nearest to `n / d`: the least
`s` with `2 ^ 23 ≤ (n / d) * 2 ^ s`, at which the quotient has a significand of
24 bits, and 149, the finest scale of a `float`, when there is none below. -/
def float32Scale (n d : Nat) : Nat → Nat → Nat
  | 0, s => s
  | fuel + 1, s => if d * 2 ^ 23 ≤ n * 2 ^ s then s else float32Scale n d fuel (s + 1)

/-- The value of the C expression `(float)v / 100.0f` in IEEE 754 binary32
arithmetic, rounding to nearest even: the pair of an integer `m` and a number
of binary places `s` that stands for `m / 2 ^ s`.  The conversion `(float)v`
is exact for `|v| < 2 ^ 24`, which covers the draws `0 .. 100` of the scan. -/
def chanceFloat (v : Int) : Int × Nat :=
  let s := float32Scale v.natAbs 100 149 0
  let m := roundHalfEven (v.natAbs * 2 ^ s) 100
  (if 0 ≤ v then (m : Int) else -(m : Int), s)

/-- The `float` `chance = (float)v / 100.0f` as a rational number. -/
def chanceValue (v : Int) : ℚ := mkRat (chanceFloat v).1 (2 ^ (chanceFloat v).2)

/-- The test `chance >= skipChance` of the scan, for the `float`
`chance = (float)v / 100.0f` and a `float` `skipChance` given by its value (a
finite `float` is a rational number; for a NaN the test of the source is
false): `m / 2 ^ s ≥ skipChance`, written over the numerator and denominator
of `skipChance`. -/
def chanceAtLeast (v : Int) (skipChance : ℚ) : Bool :=
  decide (skipChance.num * 2 ^ (chanceFloat v).2
    ≤ (chanceFloat v).1 * (skipChance.den : Int))

/-- State of the scan: the image, the points saved in `mazePoints` (with
`mazePointsCounter` their number) and the generator state. -/
structure ScanState (σ : Type) where
  imMaze : Image
  mazePoints : List Point
  rng : σ

/-- Sequencing of two steps of a computation. -/
def Outcome.bind {α β : Type} (o : Outcome α) (f : α → Outcome β) : Outcome β :=
  match o with
  | Outcome.returned a => f a
  | Outcome.running => Outcome.running
  | Outcome.undefinedBehaviour => Outcome.undefinedBehaviour

/-- Body of the two nested scan loops at pixel `(x, y)`, with the array
`mazePoints` a list that grows without limit (`scanCellChecked` is the body
with the array as allocated).  The C remainder `a % b` is `Int.tmod`, and is
undefined for `b = 0`. -/
def scanCell {σ : Type} (g : RandomGen σ) (spacingRows spacingCols : Int) (skipChance : ℚ)
    (y x : Nat) (st : ScanState σ) : Outcome (ScanState σ) :=
  if (x : Int) = 0 ∨ (x : Int) = (st.imMaze.width : Int) - 1 ∨
      (y : Int) = 0 ∨ (y : Int) = (st.imMaze.height : Int) - 1 then
    Outcome.returned { st with imMaze := ImageDrawPixel st.imMaze x y WHITE }
  else if spacingCols = 0 then Outcome.undefinedBehaviour
  else if Int.tmod x spacingCols = 0 then
    if spacingRows = 0 then Outcome.undefinedBehaviour
    else if Int.tmod y spacingRows = 0 then
      let draw := g.GetRandomValue st.rng 0 100
      if chanceAtLeast draw.1 skipChance then
        Outcome.returned
          { imMaze := ImageDrawPixel st.imMaze x y WHITE,
            mazePoints := st.mazePoints ++ [⟨x, y⟩],
            rng := draw.2 }
      else Outcome.returned { st with rng := draw.2 }
    else Outcome.returned st
  else Outcome.returned st

/-- The inner scan loop `for (x = 0; x < imMaze.width; x++)` of line `y`. -/
def scanRow {σ : Type} (g : RandomGen σ) (spacingRows spacingCols : Int) (skipChance : ℚ)
    (y : Nat) (st : ScanState σ) : Outcome (ScanState σ) :=
  (List.range st.imMaze.width).foldl
    (fun acc x => acc.bind (scanCell g spacingRows spacingCols skipChance y x))
    (Outcome.returned st)

/-- The outer scan loop `for (y = 0; y < imMaze.height; y++)`. -/
def scanImage {σ : Type} (g : RandomGen σ) (spacingRows spacingCols : Int) (skipChance : ℚ)
    (st : ScanState σ) : Outcome (ScanState σ) :=
  (List.range st.imMaze.height).foldl
    (fun acc y => acc.bind (scanRow g spacingRows spacingCols skipChance y))
    (Outcome.returned st)

/-- The array `directions`: up, down, left, right. -/
def directions : List Point := [⟨0, -1⟩, ⟨0, 1⟩, ⟨-1, 0⟩, ⟨1, 0⟩]

/-- The loop `while (GetImageColor(imMaze, currentPoint).r != 255)`: paint
`currentPoint` white and step in `currentDir`. -/
def growWall : Nat → Image → Point → Point → Outcome Image
  | fuel, imMaze, currentPoint, currentDir =>
    if (GetImageColor imMaze currentPoint.x currentPoint.y).r ≠ 255 then
      match fuel with
      | 0 => Outcome.running
      | fuel + 1 =>
        growWall fuel (ImageDrawPixel imMaze currentPoint.x currentPoint.y WHITE)
          ⟨currentPoint.x + currentDir.x, currentPoint.y + currentDir.y⟩ currentDir
    else Outcome.returned imMaze

/-- Read of `a[i]` for a C `int` index: undefined outside the array. -/
def readAt {α : Type} (a : List α) (i : Int) : Outcome α :=
  if i < 0 then Outcome.undefinedBehaviour
  else
    match a.get? i.toNat with
    | some v => Outcome.returned v
    | none => Outcome.undefinedBehaviour

/-- Body of the loop over the maze points: take `mazePoints[pointIndices[i]]`,
draw a direction, step once and grow the wall. -/
def growPoint {σ : Type} (g : RandomGen σ) (fuel : Nat) (mazePoints : List Point)
    (pointIndices : List Int) (i : Nat) (st : Image × σ) : Outcome (Image × σ) :=
  (readAt pointIndices i).bind fun idx =>
  (readAt mazePoints idx).bind fun currentPoint =>
  let draw := g.GetRandomValue st.2 0 3
  (readAt directions draw.1).bind fun currentDir =>
  (growWall fuel st.1 ⟨currentPoint.x + currentDir.x, currentPoint.y + currentDir.y⟩
    currentDir).bind fun imMaze =>
  Outcome.returned (imMaze, draw.2)

/-- The function `GenImageMazeEx(width, height, spacingRows, spacingCols,
skipChance)` with the array `mazePoints` unbounded, run from generator state
`rng`: the image it returns and the generator state it leaves.  The function
with the array as allocated is `GenImageMazeExChecked`. -/
def GenImageMazeEx {σ : Type} (g : RandomGen σ) (fuel : Nat) (rng : σ) (width height : Nat)
    (spacingRows spacingCols : Int) (skipChance : ℚ) : Outcome (Image × σ) :=
  (scanImage g spacingRows spacingCols skipChance
    ⟨GenImageColor width height BLACK, [], rng⟩).bind fun st =>
  let mazePointsCounter : Nat := st.mazePoints.length
  let seq := g.LoadRandomSequence st.rng mazePointsCounter 0 ((mazePointsCounter : Int) - 1)
  (List.range mazePointsCounter).foldl
    (fun acc i => acc.bind (growPoint g fuel st.mazePoints seq.1 i))
    (Outcome.returned (st.imMaze, seq.2))

/-! ## `GenImageMazeEx` with the array `mazePoints` as allocated

In `scanCell` the array `mazePoints` is a list that grows without limit.  The
source allocates it once, with `MAZE_WIDTH * MAZE_HEIGHT` points, whatever
`width` and `height` are.  Here the write `mazePoints[mazePointsCounter]` at
or past that capacity is undefined behaviour. -/

/-- Number of points the array `mazePoints` holds:
`malloc(MAZE_WIDTH * MAZE_HEIGHT * sizeof(Point))` with `MAZE_WIDTH` and
`MAZE_HEIGHT` both 64. -/
def mazePointsCapacity : Nat := 64 * 64

/-- Body of the two nested scan loops at pixel `(x, y)`, with the array
`mazePoints` as allocated.  The C remainder `a % b` is `Int.tmod`, and is
undefined for `b = 0`; the test `(x % spacingCols == 0) && (y % spacingRows
== 0)` computes the second remainder only when the first is 0. -/
def scanCellChecked {σ : Type} (g : RandomGen σ) (spacingRows spacingCols : Int)
    (skipChance : ℚ) (y x : Nat) (st : ScanState σ) : Outcome (ScanState σ) :=
  if (x : Int) = 0 ∨ (x : Int) = (st.imMaze.width : Int) - 1 ∨
      (y : Int) = 0 ∨ (y : Int) = (st.imMaze.height : Int) - 1 then
    Outcome.returned { st with imMaze := ImageDrawPixel st.imMaze x y WHITE }
  else if spacingCols = 0 then Outcome.undefinedBehaviour
  else if Int.tmod x spacingCols = 0 then
    if spacingRows = 0 then Outcome.undefinedBehaviour
    else if Int.tmod y spacingRows = 0 then
      let draw := g.GetRandomValue st.rng 0 100
      if chanceAtLeast draw.1 skipChance then
        if st.mazePoints.length < mazePointsCapacity then
          Outcome.returned
            { imMaze := ImageDrawPixel st.imMaze x y WHITE,
              mazePoints := st.mazePoints ++ [⟨x, y⟩],
              rng := draw.2 }
        else Outcome.undefinedBehaviour
      else Outcome.returned { st with rng := draw.2 }
    else Outcome.returned st
  else Outcome.returned st

/-- The inner scan loop `for (x = 0; x < imMaze.width; x++)` of line `y`, with
the array `mazePoints` as allocated. -/
def scanRowChecked {σ : Type} (g : RandomGen σ) (spacingRows spacingCols : Int)
    (skipChance : ℚ) (y : Nat) (st : ScanState σ) : Outcome (ScanState σ) :=
  (List.range st.imMaze.width).foldl
    (fun acc x => acc.bind (scanCellChecked g spacingRows spacingCols skipChance y x))
    (Outcome.returned st)

/-- The outer scan loop `for (y = 0; y < imMaze.height; y++)`, with the array
`mazePoints` as allocated. -/
def scanImageChecked {σ : Type} (g : RandomGen σ) (spacingRows spacingCols : Int)
    (skipChance : ℚ) (st : ScanState σ) : Outcome (ScanState σ) :=
  (List.range st.imMaze.height).foldl
    (fun acc y => acc.bind (scanRowChecked g spacingRows spacingCols skipChance y))
    (Outcome.returned st)

/-- The function `GenImageMazeEx(width, height, spacingRows, spacingCols,
skipChance)` with the array `mazePoints` as allocated, run from generator
state `rng`: the image it returns and the generator state it leaves.  The
growth loop reads `mazePoints[pointIndices[i]]` below `mazePointsCounter`
only (`readAt` is undefined past the points saved), so within the array. -/
def GenImageMazeExChecked {σ : Type} (g : RandomGen σ) (fuel : Nat) (rng : σ)
    (width height : Nat) (spacingRows spacingCols : Int) (skipChance : ℚ) :
    Outcome (Image × σ) :=
  (scanImageChecked g spacingRows spacingCols skipChance
    ⟨GenImageColor width height BLACK, [], rng⟩).bind fun st =>
  let mazePointsCounter : Nat := st.mazePoints.length
  let seq := g.LoadRandomSequence st.rng mazePointsCounter 0 ((mazePointsCounter : Int) - 1)
  (List.range mazePointsCounter).foldl
    (fun acc i => acc.bind (growPoint g fuel st.mazePoints seq.1 i))
    (Outcome.returned (st.imMaze, seq.2))

/-! ## Notions used to state the properties -/

/-- The pixel buffer has one entry per pixel. -/
def WellFormed (image : Image) : Prop :=
  image.data.length = image.width * image.height

instance (image : Image) : Decidable (WellFormed image) := by
  unfold WellFormed; infer_instance

/-- On the outer frame of a `width` by `height` grid. -/
def onBorder (width height : Nat) (x y : Int) : Prop :=
  x = 0 ∨ x = (width : Int) - 1 ∨ y = 0 ∨ y = (height : Int) - 1

instance (width height : Nat) (x y : Int) : Decidable (onBorder width height x y) := by
  unfold onBorder; infer_instance

/-- Every pixel of the outer frame of the image is `WHITE`. -/
def BorderWhite (image : Image) : Prop :=
  ∀ x y : Int, inBounds image x y → onBorder image.width image.height x y →
    GetImageColor image x y = WHITE

/-- Strictly inside the outer frame of a `width` by `height` grid. -/
def interior (width height : Nat) (p : Point) : Prop :=
  1 ≤ p.x ∧ p.x ≤ (width : Int) - 2 ∧ 1 ≤ p.y ∧ p.y ≤ (height : Int) - 2

instance (width height : Nat) (p : Point) : Decidable (interior width height p) := by
  unfold interior; infer_instance

/-- Every white pixel of the first image is white in the second. -/
def WhiteMono (im im' : Image) : Prop :=
  ∀ a b : Int, GetImageColor im a b = WHITE → GetImageColor im' a b = WHITE

/-- What the scan maintains: the extents of the image, its buffer size, and
that every saved point lies strictly inside the frame. -/
def ScanInv {σ : Type} (width height : Nat) (st : ScanState σ) : Prop :=
  st.imMaze.width = width ∧ st.imMaze.height = height ∧ WellFormed st.imMaze ∧
    ∀ p ∈ st.mazePoints, interior width height p

/-- Number of steps from `p` to the frame of the image when walking in
direction `dir` (one of the four entries of `directions`). -/
def wallDistance (image : Image) (p dir : Point) : Nat :=
  (if dir.x = 1 then ((image.width : Int) - 1 - p.x).toNat
    else if dir.x = -1 then p.x.toNat else 0) +
  (if dir.y = 1 then ((image.height : Int) - 1 - p.y).toNat
    else if dir.y = -1 then p.y.toNat else 0)

/-- The cells `a` and `b` differ by exactly 1 in exactly one coordinate and
are equal in the other. -/
def adjacent4 (a b : Point) : Prop :=
  (a.x = b.x ∧ Int.natAbs (a.y - b.y) = 1) ∨ (a.y = b.y ∧ Int.natAbs (a.x - b.x) = 1)

instance (a b : Point) : Decidable (adjacent4 a b) := by
  unfold adjacent4; infer_instance

/-- A walk of `n` moves from `a` to `b`, each move between 4-adjacent cells,
over cells that are inside the map and black (open). -/
inductive Route (map : Image) : Point → Point → Nat → Prop where
  | here (a : Point) : isValid map a = true → Route map a a 0
  | step {a b c : Point} {n : Nat} :
      Route map a b n → adjacent4 b c → isValid map c = true → Route map a c (n + 1)

/-- The cell `e` can be reached from `s` through 4-connected open cells. -/
def Reachable (map : Image) (s e : Point) : Prop := ∃ n, Route map s e n

/-- The number `d` is the breadth-first (shortest) distance from `s` to `e`:
some walk has `d` moves and no walk has fewer. -/
def ShortestDistance (map : Image) (s e : Point) (d : Nat) : Prop :=
  Route map s e d ∧ ∀ n, Route map s e n → d ≤ n

/-- Coordinates of the entries of a node array, in order. -/
def coords (l : List PathNode) : List Point := l.map PathNode.p

/-- The entry that `visitNeighbor` appends to `frontier` for neighbour `nb`. -/
def neighborNode (endP : Point) (currentNode : PathNode) (nb : Point) : PathNode :=
  ⟨nb, currentNode.gvalue + 1,
    (Int.natAbs (nb.x - endP.x) : Int) + (Int.natAbs (nb.y - endP.y) : Int), none⟩

/-- The entry that `visitNeighbor` appends to `reached` for neighbour `nb`:
the same node with its parent set to the first entry at the current cell. -/
def reachedNode (endP : Point) (currentNode : PathNode) (reached : List PathNode)
    (nb : Point) : PathNode :=
  ⟨nb, currentNode.gvalue + 1,
    (Int.natAbs (nb.x - endP.x) : Int) + (Int.natAbs (nb.y - endP.y) : Int),
    findReached reached currentNode.p⟩

/-- The state after `visitNeighbor` has saved neighbour `nb`. -/
def pushNeighbor (endP : Point) (currentNode : PathNode)
    (st : List PathNode × List PathNode) (nb : Point) : List PathNode × List PathNode :=
  (st.1 ++ [neighborNode endP currentNode nb],
   st.2 ++ [reachedNode endP currentNode st.2 nb])

/-- Number of distinct cells recorded in a node array. -/
def reachedCard (reached : List PathNode) : Nat := (coords reached).toFinset.card

/-- Shape of the array `reached`: entry 0 is the start node, and every later
entry is a valid cell whose parent is an earlier entry, the first one recorded
for its own cell, at a 4-adjacent cell. -/
def ReachedTree (map : Image) (start : Point) (reached : List PathNode) : Prop :=
  reached.head? = some ⟨start, 0, 0, none⟩ ∧
  ∀ i r, reached[i]? = some r → 0 < i →
    isValid map r.p = true ∧
    ∃ j pr, j < i ∧ r.parent = some j ∧ reached[j]? = some pr ∧
      findReached reached pr.p = some j ∧ adjacent4 pr.p r.p

/-- What holds of `(frontier, reached)` between two neighbours of the node
`cur` being expanded. -/
def FoldInv (map : Image) (start : Point) (cur : PathNode)
    (st : List PathNode × List PathNode) : Prop :=
  ReachedTree map start st.2 ∧
  (∀ n ∈ st.1, n.p ∈ coords st.2) ∧
  cur.p ∈ coords st.2 ∧
  (∀ q ∈ coords st.2, q = cur.p ∨ (∃ n ∈ st.1, n.p = q) ∨
    ∀ nb ∈ neighbors q, isValid map nb = true → nb ∈ coords st.2) ∧
  (∀ n ∈ st.1, 0 ≤ n.gvalue ∧ n.gvalue < reachedCard st.2) ∧
  (∀ r ∈ st.2, r.gvalue < reachedCard st.2) ∧
  0 ≤ cur.gvalue ∧ cur.gvalue < reachedCard st.2

/-- What holds of `(frontier, reached)` at the head of the search loop. -/
def SearchInv (map : Image) (start : Point) (frontier reached : List PathNode) : Prop :=
  ReachedTree map start reached ∧
  (∀ n ∈ frontier, n.p ∈ coords reached) ∧
  (∀ q ∈ coords reached, (∃ n ∈ frontier, n.p = q) ∨
    ∀ nb ∈ neighbors q, isValid map nb = true → nb ∈ coords reached) ∧
  (∀ n ∈ frontier, 0 ≤ n.gvalue ∧ n.gvalue < reachedCard reached) ∧
  (∀ r ∈ reached, r.gvalue < reachedCard reached)

/-- Weight of a frontier entry in the termination measure of the search loop,
for a bound `M` on the gvalues. -/
def nodeWeight (M : Nat) (n : PathNode) : Nat := 5 ^ (M - n.gvalue.toNat)

/-- Termination measure of the search loop: the total weight of the frontier. -/
def frontierMeasure (M : Nat) (frontier : List PathNode) : Nat :=
  (frontier.map (nodeWeight M)).sum

/-- The cells inside the map, as a finite set. -/
def cellSet (map : Image) : Finset Point :=
  ((Finset.range map.width) ×ˢ (Finset.range map.height)).image
    (fun xy => (⟨(xy.1 : Int), (xy.2 : Int)⟩ : Point))

/-- Fuel that is enough for the search loop on a map: `5 ^ (width * height + 1)`. -/
def searchFuel (map : Image) : Nat := 5 ^ (map.width * map.height + 1)

/-- Fuel that is enough for `LoadPathAStar` on a map. -/
def pathFuel (map : Image) : Nat := 4 * searchFuel map + 1

/-- An in-bounds open cell: inside the grid and black (red channel 0). -/
def OpenCell (map : Image) (c : Point) : Prop :=
  0 ≤ c.x ∧ c.x < map.width ∧ 0 ≤ c.y ∧ c.y < map.height ∧ (GetImageColor map c.x c.y).r = 0

instance (map : Image) (c : Point) : Decidable (OpenCell map c) := by
  unfold OpenCell; infer_instance

/-- An image from rows of digits: `1` is a wall (white), anything else is
walkable (black). -/
def imageOfRows (rows : List (List Nat)) : Image :=
  ⟨(rows.headD []).length, rows.length,
    rows.flatten.map (fun c => if c = 1 then WHITE else BLACK)⟩

/-- The 5 by 5 grid whose only walls are its frame. -/
def grid5 : Image :=
  imageOfRows [[1, 1, 1, 1, 1], [1, 0, 0, 0, 1], [1, 0, 0, 0, 1], [1, 0, 0, 0, 1], [1, 1, 1, 1, 1]]

/-- Two open cells, (1, 1) and (3, 1), each closed in by walls. -/
def ringGrid : Image :=
  imageOfRows [[1, 1, 1, 1, 1], [1, 0, 1, 0, 1], [1, 1, 1, 1, 1]]

/-- A 5 by 3 grid with walls at (1, 0), (1, 1) and (3, 1). -/
def grid53 : Image :=
  imageOfRows [[0, 1, 0, 0, 0], [0, 1, 0, 1, 0], [0, 0, 0, 0, 0]]

/-- Every pixel of the outer frame of the image is a wall: its red channel
is 255. -/
def BorderWall (image : Image) : Prop :=
  ∀ x y : Int, inBounds image x y → onBorder image.width image.height x y →
    (GetImageColor image x y).r = 255

/-- The cell `j` steps away from `p` in direction `dir`. -/
def stepFrom (p dir : Point) (j : Nat) : Point :=
  ⟨p.x + (j : Int) * dir.x, p.y + (j : Int) * dir.y⟩

/-- The cells that the loop of `growWall` paints, in the order it paints
them: the same loop, recording `currentPoint` at each `ImageDrawPixel`. -/
def growWallCells : Nat → Image → Point → Point → List Point
  | fuel, imMaze, currentPoint, currentDir =>
    if (GetImageColor imMaze currentPoint.x currentPoint.y).r ≠ 255 then
      match fuel with
      | 0 => []
      | fuel + 1 =>
        currentPoint ::
          growWallCells fuel (ImageDrawPixel imMaze currentPoint.x currentPoint.y WHITE)
            ⟨currentPoint.x + currentDir.x, currentPoint.y + currentDir.y⟩ currentDir
    else []

/-! ## The generator on a buffer without bounds tests

The code of `GenImageMazeExChecked` with every pixel access checked too: a
read or a write at a position outside the image is undefined behaviour
instead of being ignored by raylib. -/

/-- The call `ImageDrawPixel(&image, x, y, color)` when a position outside
the image is not tolerated. -/
def ImageDrawPixelStrict (image : Image) (x y : Int) (color : Color) : Outcome Image :=
  if inBounds image x y then Outcome.returned (ImageDrawPixel image x y color)
  else Outcome.undefinedBehaviour

/-- Body of the scan loops as `scanCellChecked`, with checked pixel writes. -/
def scanCellStrict {σ : Type} (g : RandomGen σ) (spacingRows spacingCols : Int)
    (skipChance : ℚ) (y x : Nat) (st : ScanState σ) : Outcome (ScanState σ) :=
  if (x : Int) = 0 ∨ (x : Int) = (st.imMaze.width : Int) - 1 ∨
      (y : Int) = 0 ∨ (y : Int) = (st.imMaze.height : Int) - 1 then
    (ImageDrawPixelStrict st.imMaze x y WHITE).bind fun im =>
      Outcome.returned { st with imMaze := im }
  else if spacingCols = 0 then Outcome.undefinedBehaviour
  else if Int.tmod x spacingCols = 0 then
    if spacingRows = 0 then Outcome.undefinedBehaviour
    else if Int.tmod y spacingRows = 0 then
      let draw := g.GetRandomValue st.rng 0 100
      if chanceAtLeast draw.1 skipChance then
        (ImageDrawPixelStrict st.imMaze x y WHITE).bind fun im =>
          if st.mazePoints.length < mazePointsCapacity then
            Outcome.returned
              { imMaze := im, mazePoints := st.mazePoints ++ [⟨x, y⟩], rng := draw.2 }
          else Outcome.undefinedBehaviour
      else Outcome.returned { st with rng := draw.2 }
    else Outcome.returned st
  else Outcome.returned st

/-- The inner scan loop as `scanRowChecked`, with checked pixel writes. -/
def scanRowStrict {σ : Type} (g : RandomGen σ) (spacingRows spacingCols : Int)
    (skipChance : ℚ) (y : Nat) (st : ScanState σ) : Outcome (ScanState σ) :=
  (List.range st.imMaze.width).foldl
    (fun acc x => acc.bind (scanCellStrict g spacingRows spacingCols skipChance y x))
    (Outcome.returned st)

/-- The outer scan loop as `scanImageChecked`, with checked pixel writes. -/
def scanImageStrict {σ : Type} (g : RandomGen σ) (spacingRows spacingCols : Int)
    (skipChance : ℚ) (st : ScanState σ) : Outcome (ScanState σ) :=
  (List.range st.imMaze.height).foldl
    (fun acc y => acc.bind (scanRowStrict g spacingRows spacingCols skipChance y))
    (Outcome.returned st)

/-- The loop of `growWall` with checked pixel accesses: `GetImageColor` and
`ImageDrawPixel` at `currentPoint` are undefined when `currentPoint` is
outside the image. -/
def growWallStrict : Nat → Image → Point → Point → Outcome Image
  | fuel, imMaze, currentPoint, currentDir =>
    if inBounds imMaze currentPoint.x currentPoint.y then
      if (GetImageColor imMaze currentPoint.x currentPoint.y).r ≠ 255 then
        match fuel with
        | 0 => Outcome.running
        | fuel + 1 =>
          growWallStrict fuel (ImageDrawPixel imMaze currentPoint.x currentPoint.y WHITE)
            ⟨currentPoint.x + currentDir.x, currentPoint.y + currentDir.y⟩ currentDir
      else Outcome.returned imMaze
    else Outcome.undefinedBehaviour

/-- Body of the loop over the maze points as `growPoint`, with checked pixel
accesses. -/
def growPointStrict {σ : Type} (g : RandomGen σ) (fuel : Nat) (mazePoints : List Point)
    (pointIndices : List Int) (i : Nat) (st : Image × σ) : Outcome (Image × σ) :=
  (readAt pointIndices i).bind fun idx =>
  (readAt mazePoints idx).bind fun currentPoint =>
  let draw := g.GetRandomValue st.2 0 3
  (readAt directions draw.1).bind fun currentDir =>
  (growWallStrict fuel st.1 ⟨currentPoint.x + currentDir.x, currentPoint.y + currentDir.y⟩
    currentDir).bind fun imMaze =>
  Outcome.returned (imMaze, draw.2)

/-- The function `GenImageMazeEx` with the array `mazePoints` as allocated and
every pixel access checked. -/
def GenImageMazeExStrict {σ : Type} (g : RandomGen σ) (fuel : Nat) (rng : σ)
    (width height : Nat) (spacingRows spacingCols : Int) (skipChance : ℚ) :
    Outcome (Image × σ) :=
  (scanImageStrict g spacingRows spacingCols skipChance
    ⟨GenImageColor width height BLACK, [], rng⟩).bind fun st =>
  let mazePointsCounter : Nat := st.mazePoints.length
  let seq := g.LoadRandomSequence st.rng mazePointsCounter 0 ((mazePointsCounter : Int) - 1)
  (List.range mazePointsCounter).foldl
    (fun acc i => acc.bind (growPointStrict g fuel st.mazePoints seq.1 i))
    (Outcome.returned (st.imMaze, seq.2))

/-! ## The scan, cut at a pixel -/

/-- The inner scan loop of line `y` cut after `x` iterations: the state of
the scan of that line just before the body runs at pixel `(x, y)`. -/
def scanRowUpTo {σ : Type} (g : RandomGen σ) (spacingRows spacingCols : Int)
    (skipChance : ℚ) (y x : Nat) (st : ScanState σ) : Outcome (ScanState σ) :=
  (List.range x).foldl
    (fun acc k => acc.bind (scanCell g spacingRows spacingCols skipChance y k))
    (Outcome.returned st)

/-- The outer scan loop cut after `y` lines. -/
def scanRows {σ : Type} (g : RandomGen σ) (spacingRows spacingCols : Int)
    (skipChance : ℚ) (st : ScanState σ) (y : Nat) : Outcome (ScanState σ) :=
  (List.range y).foldl
    (fun acc j => acc.bind (scanRow g spacingRows spacingCols skipChance j))
    (Outcome.returned st)

/-- The state of the scan just before its body runs at pixel `(x, y)`: lines
`0 .. y - 1` are done, and so are the first `x` pixels of line `y`. -/
def scanUpTo {σ : Type} (g : RandomGen σ) (spacingRows spacingCols : Int)
    (skipChance : ℚ) (st : ScanState σ) (y x : Nat) : Outcome (ScanState σ) :=
  (scanRows g spacingRows spacingCols skipChance st y).bind
    (scanRowUpTo g spacingRows spacingCols skipChance y x)

/-- The state in which `GenImageMazeEx` starts its scan. -/
def scanStart {σ : Type} (rng : σ) (width height : Nat) : ScanState σ :=
  ⟨GenImageColor width height BLACK, [], rng⟩

/-- The point `p` comes before `q` in the order of the scan: line by line,
and from left to right in a line. -/
def scanBefore (p q : Point) : Prop :=
  p.y < q.y ∨ (p.y = q.y ∧ p.x < q.x)

/-- The pixel `(a, b)` has been scanned when the scan stands at `(x, y)`. -/
def scannedAt (y x b a : Nat) : Prop := b < y ∨ (b = y ∧ a < x)

/-- The scan makes pixel `(x, y)` a seed point: it lies on the spacing
lattice and the chance drawn for it, in the state the scan has just before
that pixel, is at least `skipChance`. -/
def seededAt {σ : Type} (g : RandomGen σ) (spacingRows spacingCols : Int)
    (skipChance : ℚ) (st : ScanState σ) (x y : Nat) : Prop :=
  Int.tmod x spacingCols = 0 ∧ Int.tmod y spacingRows = 0 ∧
    ∃ s, scanUpTo g spacingRows spacingCols skipChance st y x = Outcome.returned s ∧
      chanceAtLeast (g.GetRandomValue s.rng 0 100).1 skipChance = true

/-- What holds of the scan state `s` when the scan stands at pixel `(x, y)`:
the scan invariant; the points saved are exactly the scanned interior pixels
that the scan makes seeds; they are saved in scan order; and an interior
pixel is white when it is a saved point and black otherwise. -/
def TraceInv {σ : Type} (g : RandomGen σ) (spacingRows spacingCols : Int)
    (skipChance : ℚ) (st : ScanState σ) (W H y x : Nat) (s : ScanState σ) : Prop :=
  ScanInv W H s ∧
  (∀ a b : Nat, (⟨a, b⟩ : Point) ∈ s.mazePoints ↔
    (scannedAt y x b a ∧ interior W H ⟨a, b⟩ ∧
      seededAt g spacingRows spacingCols skipChance st a b)) ∧
  s.mazePoints.Pairwise scanBefore ∧
  (∀ a b : Nat, interior W H ⟨a, b⟩ →
    (((⟨a, b⟩ : Point) ∈ s.mazePoints → GetImageColor s.imMaze a b = WHITE) ∧
     ((⟨a, b⟩ : Point) ∉ s.mazePoints → GetImageColor s.imMaze a b = BLACK)))

/-- Two outcomes of the same kind whose results, when there are any, are
related by `R`. -/
def Outcome.Rel {α β : Type} (R : α → β → Prop) : Outcome α → Outcome β → Prop
  | Outcome.returned a, Outcome.returned b => R a b
  | Outcome.running, Outcome.running => True
  | Outcome.undefinedBehaviour, Outcome.undefinedBehaviour => True
  | _, _ => False

/-- Two scan states that stand at the same place of the random stream, over
images of the same extents. -/
def SameDraws {σ : Type} (s1 s2 : ScanState σ) : Prop :=
  s1.rng = s2.rng ∧ s1.imMaze.width = s2.imMaze.width ∧
    s1.imMaze.height = s2.imMaze.height

/-- The seed points that the scan of `GenImageMazeEx`, with the array
`mazePoints` as allocated, records, in the order in which it records them. -/
def seedPoints {σ : Type} (g : RandomGen σ) (rng : σ) (width height : Nat)
    (spacingRows spacingCols : Int) (skipChance : ℚ) : Outcome (List Point) :=
  (scanImageChecked g spacingRows spacingCols skipChance (scanStart rng width height)).bind
    fun st => Outcome.returned st.mazePoints

/-! ## The frontier of `LoadPathAStar`, iteration by iteration -/

/-- The heuristic of `LoadPathAStar`: `abs(p.x - end.x) + abs(p.y - end.y)`. -/
def heuristic (endP p : Point) : Int :=
  (Int.natAbs (p.x - endP.x) : Int) + (Int.natAbs (p.y - endP.y) : Int)

/-- Priority `frontier[p].gvalue + frontier[p].hvalue` of the entry at index
`p` of the frontier. -/
def fAt (frontier : List PathNode) (p : Nat) : Int :=
  fvalue (frontier.getD p nullNode)

/-- The pair `(frontier, reached)` with which `LoadPathAStar` enters its
search loop. -/
def startState (start : Point) : List PathNode × List PathNode :=
  ([⟨start, 0, 0, none⟩], [⟨start, 0, 0, none⟩])

/-- The pair `(frontier, reached)` at the head of the search loop, `k`
iterations after the pair `st`; the loop has stopped when the frontier is
empty. -/
def searchState (map : Image) (endP : Point) :
    Nat → List PathNode × List PathNode → List PathNode × List PathNode
  | 0, st => st
  | _ + 1, ([], reached) => ([], reached)
  | k + 1, (currentNode :: rest, reached) =>
    searchState map endP k (searchStep map endP currentNode rest reached)

/-- The priorities along the frontier never decrease. -/
def FrontierSorted (frontier : List PathNode) : Prop :=
  ∀ p q : Nat, p < q → q < frontier.length → fAt frontier p ≤ fAt frontier q

/-- Every priority in the frontier is `F` or `F + 2`. -/
def TwoValued (F : Int) (frontier : List PathNode) : Prop :=
  ∀ n ∈ frontier, fvalue n = F ∨ fvalue n = F + 2

/-- What holds of the frontier at the head of the search loop from the second
iteration on: every entry carries the heuristic of its cell, the priorities
take at most two values, two apart, and they never decrease along the
frontier. -/
def FrontierInv (endP : Point) (frontier : List PathNode) : Prop :=
  (∀ n ∈ frontier, n.hvalue = heuristic endP n.p) ∧
  (∃ F, TwoValued F frontier) ∧ FrontierSorted frontier

/-- The array `reached` of the run of `LoadPathAStar` on `grid53` from (4, 1)
to (0, 0), at the head of the 7th iteration of the search loop. -/
def grid53Reached : List PathNode :=
  [⟨⟨4, 1⟩, 0, 0, none⟩, ⟨⟨4, 0⟩, 1, 4, some 0⟩, ⟨⟨4, 2⟩, 1, 6, some 0⟩,
   ⟨⟨3, 0⟩, 2, 3, some 1⟩, ⟨⟨2, 0⟩, 3, 2, some 3⟩, ⟨⟨2, 1⟩, 4, 3, some 4⟩,
   ⟨⟨3, 2⟩, 2, 5, some 2⟩, ⟨⟨2, 2⟩, 5, 4, some 5⟩]

/-! ## The fixed-spacing generator: `GenImageMaze` -/

/-- Body of the two nested scan loops of `GenImageMaze` at pixel `(x, y)`:
the test on the pixel is `(x % 3 == 0) && (y % 3 == 0)`.  The array
`mazePoints` holds `MAZE_WIDTH * MAZE_HEIGHT` points, as in `GenImageMazeEx`,
and the write `mazePoints[mazePointsCounter]` at or past that capacity is
undefined behaviour. -/
def scanCellMaze {σ : Type} (g : RandomGen σ) (skipChance : ℚ)
    (y x : Nat) (st : ScanState σ) : Outcome (ScanState σ) :=
  if (x : Int) = 0 ∨ (x : Int) = (st.imMaze.width : Int) - 1 ∨
      (y : Int) = 0 ∨ (y : Int) = (st.imMaze.height : Int) - 1 then
    Outcome.returned { st with imMaze := ImageDrawPixel st.imMaze x y WHITE }
  else if Int.tmod x 3 = 0 ∧ Int.tmod y 3 = 0 then
    let draw := g.GetRandomValue st.rng 0 100
    if chanceAtLeast draw.1 skipChance then
      if st.mazePoints.length < mazePointsCapacity then
        Outcome.returned
          { imMaze := ImageDrawPixel st.imMaze x y WHITE,
            mazePoints := st.mazePoints ++ [⟨x, y⟩],
            rng := draw.2 }
      else Outcome.undefinedBehaviour
    else Outcome.returned { st with rng := draw.2 }
  else Outcome.returned st

/-- The inner scan loop of `GenImageMaze`. -/
def scanRowMaze {σ : Type} (g : RandomGen σ) (skipChance : ℚ)
    (y : Nat) (st : ScanState σ) : Outcome (ScanState σ) :=
  (List.range st.imMaze.width).foldl
    (fun acc x => acc.bind (scanCellMaze g skipChance y x))
    (Outcome.returned st)

/-- The outer scan loop of `GenImageMaze`. -/
def scanImageMaze {σ : Type} (g : RandomGen σ) (skipChance : ℚ)
    (st : ScanState σ) : Outcome (ScanState σ) :=
  (List.range st.imMaze.height).foldl
    (fun acc y => acc.bind (scanRowMaze g skipChance y))
    (Outcome.returned st)

/-- The function `GenImageMaze(width, height, skipChance)` run from generator
state `rng`: the image it returns and the generator state it leaves.  Its
growth loop is, statement for statement, the one of `GenImageMazeEx`. -/
def GenImageMaze {σ : Type} (g : RandomGen σ) (fuel : Nat) (rng : σ) (width height : Nat)
    (skipChance : ℚ) : Outcome (Image × σ) :=
  (scanImageMaze g skipChance ⟨GenImageColor width height BLACK, [], rng⟩).bind fun st =>
  let mazePointsCounter : Nat := st.mazePoints.length
  let seq := g.LoadRandomSequence st.rng mazePointsCounter 0 ((mazePointsCounter : Int) - 1)
  (List.range mazePointsCounter).foldl
    (fun acc i => acc.bind (growPoint g fuel st.mazePoints seq.1 i))
    (Outcome.returned (st.imMaze, seq.2))

/-- The cells strictly inside the frame of a `width` by `height` grid. -/
def interiorSet (width height : Nat) : Finset Point :=
  ((Finset.range (width - 2)) ×ˢ (Finset.range (height - 2))).image
    (fun xy => (⟨(xy.1 : Int) + 1, (xy.2 : Int) + 1⟩ : Point))

/-! ## The search loop with its arrays bounded -/

/-- Body of the loop over the four neighbours when `frontier` and `reached`
hold `capacity` entries each, as `malloc` allocates them: the writes
`reached[reachedSize] = neighbor` and `frontier[frontierSize] = neighbor` at
or past `capacity` are undefined behaviour. -/
def visitNeighborChecked (capacity : Nat) (map : Image) (endP : Point)
    (currentNode : PathNode) (st : List PathNode × List PathNode) (nb : Point) :
    Outcome (List PathNode × List PathNode) :=
  let heuristic : Int := (Int.natAbs (nb.x - endP.x) : Int) + (Int.natAbs (nb.y - endP.y) : Int)
  let neighbor : PathNode := ⟨nb, currentNode.gvalue + 1, heuristic, none⟩
  if isValid map nb then
    let save : Bool :=
      match findReached st.2 nb with
      | none => true
      | some j =>
        match st.2.get? j with
        | some r => decide (neighbor.gvalue < r.gvalue)
        | none => false
    if save then
      if st.2.length < capacity ∧ st.1.length < capacity then
        Outcome.returned
          (st.1 ++ [neighbor],
           st.2 ++ [{ neighbor with parent := findReached st.2 currentNode.p }])
      else Outcome.undefinedBehaviour
    else Outcome.returned st
  else Outcome.returned st

/-- One iteration of the search loop with the arrays bounded. -/
def searchStepChecked (capacity : Nat) (map : Image) (endP : Point) (currentNode : PathNode)
    (rest reached : List PathNode) : Outcome (List PathNode × List PathNode) :=
  ((neighbors currentNode.p).foldl
    (fun acc nb => acc.bind fun st => visitNeighborChecked capacity map endP currentNode st nb)
    (Outcome.returned (rest, reached))).bind
  fun st => Outcome.returned (reorderFrontier st.1, st.2)

/-- The search loop with the arrays bounded. -/
def searchLoopChecked (capacity : Nat) (map : Image) (endP : Point) :
    Nat → List PathNode → List PathNode → Outcome (List PathNode)
  | _, [], reached => Outcome.returned reached
  | 0, _ :: _, _ => Outcome.running
  | fuel + 1, currentNode :: rest, reached =>
    (searchStepChecked capacity map endP currentNode rest reached).bind
      fun st => searchLoopChecked capacity map endP fuel st.1 st.2

/-- The backtracking loop of `LoadPathAStar` with the value of `current` at
its exit next to the array `path`. -/
def backtrackExit (reached : List PathNode) (start : Point) :
    Nat → Point → List Point → Outcome (Point × List Point)
  | fuel, current, path =>
    if (current.x ≠ start.x ∨ current.y ≠ start.y) ∧ path.length < reached.length then
      match fuel with
      | 0 => Outcome.running
      | fuel + 1 =>
        match findReached reached current with
        | none => backtrackExit reached start fuel current path
        | some i =>
          match (reached.getD i nullNode).parent with
          | none => Outcome.undefinedBehaviour
          | some j =>
            backtrackExit reached start fuel (reached.getD j nullNode).p (path ++ [current])
    else Outcome.returned (current, path)

/-- The start cell is recorded at index 0 of `reached` only. -/
def StartOnce (start : Point) (reached : List PathNode) : Prop :=
  ∀ i r, reached[i]? = some r → 0 < i → r.p ≠ start

/-- A 3 by 4 grid with one wall, at (1, 2). -/
def grid34 : Image :=
  imageOfRows [[0, 0, 0], [0, 0, 0], [0, 1, 0], [0, 0, 0]]

/-- The final array `reached` of the run of `LoadPathAStar` on `grid5` from
(1, 1) to (3, 3). -/
def grid5Reached : List PathNode :=
  [⟨⟨1, 1⟩, 0, 0, none⟩, ⟨⟨1, 2⟩, 1, 3, some 0⟩, ⟨⟨2, 1⟩, 1, 3, some 0⟩,
   ⟨⟨1, 3⟩, 2, 2, some 1⟩, ⟨⟨2, 2⟩, 2, 2, some 1⟩, ⟨⟨3, 1⟩, 2, 2, some 2⟩,
   ⟨⟨2, 3⟩, 3, 1, some 3⟩, ⟨⟨3, 2⟩, 3, 1, some 4⟩, ⟨⟨3, 3⟩, 4, 0, some 6⟩]

/-! ## The alternate A* fragment: `astarAlt.c` -/

/-- Node of the open list of the fragment: the struct `PathNode` with the
field `closed` that the fragment sets.  The C field `PathNode *parent` points
into `openList`; here it is the index of that entry, `none` for `NULL`. -/
structure AltPathNode where
  p : Point
  gvalue : Int
  hvalue : Int
  parent : Option Nat
  closed : Bool
deriving DecidableEq, Repr

/-- Placeholder for a read outside a list. -/
def nullAltNode : AltPathNode := ⟨⟨0, 0⟩, 0, 0, none, false⟩

/-- The test `isValid` of the fragment on a neighbour: inside the map and not
white (red channel other than 255). -/
def isValidAlt (map : Image) (q : Point) : Bool :=
  decide (q.x ≥ 0) && decide (q.y ≥ 0) && decide (q.x < map.width) &&
    decide (q.y < map.height) && decide ((GetImageColor map q.x q.y).r ≠ 255)

/-- The loop `for (j = 0; j < openListSize; j++) if (openList[j].p == neighbor)
... break`, which the fragment runs twice: index of the first of the
`openListSize` entries of `openList` at coordinate `q`. -/
def findInOpenList (openList : List AltPathNode) (openListSize : Nat) (q : Point) :
    Option Nat :=
  (List.range openListSize).find? fun j =>
    decide ((openList.getD j nullAltNode).p.x = q.x ∧ (openList.getD j nullAltNode).p.y = q.y)

/-- Body of the loop "Process each neighbor" of the fragment, on the pair
`(openList, openListSize)`; `currentNode` is the index in `openList` that the
pointer `currentNode` points at, and the length of `openList` is the number
of entries it is allocated with.  The sum `currentNode->gvalue + 1` is an
`int` sum, undefined when it overflows. -/
def processNeighbor (map : Image) (endP : Point) (currentNode : Nat)
    (st : List AltPathNode × Nat) (neighbor : Point) : Outcome (List AltPathNode × Nat) :=
  if ¬ (isValidAlt map neighbor = true) then Outcome.returned st
  else
    match st.1.get? currentNode with
    | none => Outcome.undefinedBehaviour
    | some cur =>
      if cur.gvalue = 2147483647 then Outcome.undefinedBehaviour
      else
        let tentativeGValue : Int := cur.gvalue + 1
        let inOpenList : Bool := (findInOpenList st.1 st.2 neighbor).isSome
        if !inOpenList || decide (tentativeGValue < cur.gvalue) then
          if !inOpenList then
            if st.2 < st.1.length then
              let slot := st.1.getD st.2 nullAltNode
              Outcome.returned
                (st.1.set st.2
                  { slot with
                    p := neighbor,
                    hvalue := (Int.natAbs (neighbor.x - endP.x) : Int)
                      + (Int.natAbs (neighbor.y - endP.y) : Int),
                    gvalue := tentativeGValue,
                    parent := some currentNode },
                 st.2 + 1)
            else Outcome.undefinedBehaviour
          else
            match findInOpenList st.1 st.2 neighbor with
            | none => Outcome.undefinedBehaviour
            | some j =>
              Outcome.returned
                (st.1.set j
                  { st.1.getD j nullAltNode with
                    gvalue := tentativeGValue,
                    parent := some currentNode },
                 st.2)
        else Outcome.returned st

/-! ## `LoadPathAStar` with its arrays as allocated -/

/-- Size in bytes of a `Point`, two `int`. -/
def pointSize : Nat := 8

/-- Size in bytes of a pointer, on a 64-bit target. -/
def pointerSize : Nat := 8

/-- Number of points the array `path` holds:
`malloc(map.height * map.width * sizeof(Point *))` bytes. -/
def pathCapacity (map : Image) : Nat := map.height * map.width * pointerSize / pointSize

/-- The backtracking loop of `LoadPathAStar` with the array `path` bounded by
`capacity` points: the write `path[pathCounter] = current` at or past
`capacity` is undefined behaviour. -/
def backtrackChecked (capacity : Nat) (reached : List PathNode) (start : Point) :
    Nat → Point → List Point → Outcome (List Point)
  | fuel, current, path =>
    if (current.x ≠ start.x ∨ current.y ≠ start.y) ∧ path.length < reached.length then
      match fuel with
      | 0 => Outcome.running
      | fuel + 1 =>
        match findReached reached current with
        | none => backtrackChecked capacity reached start fuel current path
        | some i =>
          if path.length < capacity then
            match (reached.getD i nullNode).parent with
            | none => Outcome.undefinedBehaviour
            | some j =>
              backtrackChecked capacity reached start fuel (reached.getD j nullNode).p
                (path ++ [current])
          else Outcome.undefinedBehaviour
    else Outcome.returned path

/-- The function `LoadPathAStar(map, start, end, &pointCount)` with its three
arrays as `malloc` allocates them: `frontier` and `reached` hold
`map.height * map.width` nodes each, `path` holds `pathCapacity map` points,
and a write past the end of one of them is undefined behaviour; so are the
writes `frontier[0] = startNode` and `reached[0] = startNode` when the map has
no cell. -/
def LoadPathAStarChecked (fuel : Nat) (map : Image) (start endP : Point) :
    Outcome (List Point) :=
  let startNode : PathNode := ⟨start, 0, 0, none⟩
  if 0 < map.height * map.width then
    (searchLoopChecked (map.height * map.width) map endP fuel [startNode] [startNode]).bind
      fun reached => backtrackChecked (pathCapacity map) reached start fuel endP []
  else Outcome.undefinedBehaviour

/-- The inner scan loop of line `y` cut after `x` iterations, with the array
`mazePoints` as allocated. -/
def scanRowUpToChecked {σ : Type} (g : RandomGen σ) (spacingRows spacingCols : Int)
    (skipChance : ℚ) (y x : Nat) (st : ScanState σ) : Outcome (ScanState σ) :=
  (List.range x).foldl
    (fun acc k => acc.bind (scanCellChecked g spacingRows spacingCols skipChance y k))
    (Outcome.returned st)

/-- The outer scan loop cut after `y` lines, with the array `mazePoints` as
allocated. -/
def scanRowsChecked {σ : Type} (g : RandomGen σ) (spacingRows spacingCols : Int)
    (skipChance : ℚ) (st : ScanState σ) (y : Nat) : Outcome (ScanState σ) :=
  (List.range y).foldl
    (fun acc j => acc.bind (scanRowChecked g spacingRows spacingCols skipChance j))
    (Outcome.returned st)

/-- The state of the scan, with the array `mazePoints` as allocated, just
before its body runs at pixel `(x, y)`: lines `0 .. y - 1` are done, and so
are the first `x` pixels of line `y`. -/
def scanUpToChecked {σ : Type} (g : RandomGen σ) (spacingRows spacingCols : Int)
    (skipChance : ℚ) (st : ScanState σ) (y x : Nat) : Outcome (ScanState σ) :=
  (scanRowsChecked g spacingRows spacingCols skipChance st y).bind
    (scanRowUpToChecked g spacingRows spacingCols skipChance y x)

/-- How a step `fC` that runs with an array of `cap` entries stands to the
step `f` that runs with that array unbounded, `len` being the number of
entries in use: a result of `fC` is the result of `f` and fits the array;
`f` never takes entries away; a result of `f` that fits the array is the
result of `fC`; and `fC` is never still running. -/
def CapacityRefines {α : Type} (len : α → Nat) (cap : Nat) (fC f : α → Outcome α) : Prop :=
  (∀ s s', fC s = Outcome.returned s' → f s = Outcome.returned s') ∧
  (∀ s s', fC s = Outcome.returned s' → len s ≤ cap → len s' ≤ cap) ∧
  (∀ s s', f s = Outcome.returned s' → len s ≤ len s') ∧
  (∀ s s', f s = Outcome.returned s' → len s' ≤ cap → fC s = Outcome.returned s') ∧
  (∀ s, fC s ≠ Outcome.running)

/-! ## `GenImageMazeEx` on the memory that `malloc` returns

In `scanCellChecked` the array `mazePoints` is the list of the points saved so
far.  In the source it is a block of `MAZE_WIDTH * MAZE_HEIGHT` points that
`malloc` returns with whatever the heap held before: here the block is a
function from slot to point, `mazePointsCounter` counts the slots written,
and a read of a slot inside the block gives what the slot holds, written or
not. -/

/-- State of the scan on the block `mazePoints`: the image, the contents of
the block slot by slot, `mazePointsCounter`, and the generator state. -/
structure ScanMem (σ : Type) where
  imMaze : Image
  mazePoints : Nat → Point
  mazePointsCounter : Nat
  rng : σ

/-- Body of the two nested scan loops at pixel `(x, y)` on the block
`mazePoints`: the statement `mazePoints[mazePointsCounter] = (Point){ x, y }`
overwrites one slot, and is undefined behaviour past the block. -/
def scanCellMem {σ : Type} (g : RandomGen σ) (spacingRows spacingCols : Int)
    (skipChance : ℚ) (y x : Nat) (st : ScanMem σ) : Outcome (ScanMem σ) :=
  if (x : Int) = 0 ∨ (x : Int) = (st.imMaze.width : Int) - 1 ∨
      (y : Int) = 0 ∨ (y : Int) = (st.imMaze.height : Int) - 1 then
    Outcome.returned { st with imMaze := ImageDrawPixel st.imMaze x y WHITE }
  else if spacingCols = 0 then Outcome.undefinedBehaviour
  else if Int.tmod x spacingCols = 0 then
    if spacingRows = 0 then Outcome.undefinedBehaviour
    else if Int.tmod y spacingRows = 0 then
      let draw := g.GetRandomValue st.rng 0 100
      if chanceAtLeast draw.1 skipChance then
        if st.mazePointsCounter < mazePointsCapacity then
          Outcome.returned
            { imMaze := ImageDrawPixel st.imMaze x y WHITE,
              mazePoints := fun i => if i = st.mazePointsCounter then ⟨x, y⟩
                else st.mazePoints i,
              mazePointsCounter := st.mazePointsCounter + 1,
              rng := draw.2 }
        else Outcome.undefinedBehaviour
      else Outcome.returned { st with rng := draw.2 }
    else Outcome.returned st
  else Outcome.returned st

/-- The inner scan loop of line `y` on the block `mazePoints`. -/
def scanRowMem {σ : Type} (g : RandomGen σ) (spacingRows spacingCols : Int)
    (skipChance : ℚ) (y : Nat) (st : ScanMem σ) : Outcome (ScanMem σ) :=
  (List.range st.imMaze.width).foldl
    (fun acc x => acc.bind (scanCellMem g spacingRows spacingCols skipChance y x))
    (Outcome.returned st)

/-- The outer scan loop on the block `mazePoints`. -/
def scanImageMem {σ : Type} (g : RandomGen σ) (spacingRows spacingCols : Int)
    (skipChance : ℚ) (st : ScanMem σ) : Outcome (ScanMem σ) :=
  (List.range st.imMaze.height).foldl
    (fun acc y => acc.bind (scanRowMem g spacingRows spacingCols skipChance y))
    (Outcome.returned st)

/-- Read of `mazePoints[i]` in the block, for a C `int` index: undefined
outside the block; inside it, the point that the slot holds. -/
def readMem (mazePoints : Nat → Point) (i : Int) : Outcome Point :=
  if i < 0 then Outcome.undefinedBehaviour
  else if i.toNat < mazePointsCapacity then Outcome.returned (mazePoints i.toNat)
  else Outcome.undefinedBehaviour

/-- Body of the loop over the maze points on the block `mazePoints`. -/
def growPointMem {σ : Type} (g : RandomGen σ) (fuel : Nat) (mazePoints : Nat → Point)
    (pointIndices : List Int) (i : Nat) (st : Image × σ) : Outcome (Image × σ) :=
  (readAt pointIndices i).bind fun idx =>
  (readMem mazePoints idx).bind fun currentPoint =>
  let draw := g.GetRandomValue st.2 0 3
  (readAt directions draw.1).bind fun currentDir =>
  (growWall fuel st.1 ⟨currentPoint.x + currentDir.x, currentPoint.y + currentDir.y⟩
    currentDir).bind fun imMaze =>
  Outcome.returned (imMaze, draw.2)

/-- The function `GenImageMazeEx(width, height, spacingRows, spacingCols,
skipChance)` on a block `mazePoints` that holds `heap` when `malloc` returns
it, run from generator state `rng`. -/
def GenImageMazeExMem {σ : Type} (g : RandomGen σ) (fuel : Nat) (heap : Nat → Point)
    (rng : σ) (width height : Nat) (spacingRows spacingCols : Int) (skipChance : ℚ) :
    Outcome (Image × σ) :=
  (scanImageMem g spacingRows spacingCols skipChance
    ⟨GenImageColor width height BLACK, heap, 0, rng⟩).bind fun st =>
  let seq := g.LoadRandomSequence st.rng st.mazePointsCounter 0
    ((st.mazePointsCounter : Int) - 1)
  (List.range st.mazePointsCounter).foldl
    (fun acc i => acc.bind (growPointMem g fuel st.mazePoints seq.1 i))
    (Outcome.returned (st.imMaze, seq.2))

/-- The two statements `SetRandomSeed(seed); GenImageMazeEx(...)` as the
program runs them: `prior` is the generator state before `SetRandomSeed`, and
`heap` is what the block `mazePoints` holds when `malloc` returns it. -/
def seededGenImageMazeEx {σ : Type} (g : RandomGen σ) (fuel : Nat) (heap : Nat → Point)
    (prior : σ) (seed : Nat) (width height : Nat) (spacingRows spacingCols : Int)
    (skipChance : ℚ) : Outcome (Image × σ) :=
  GenImageMazeExMem g fuel heap (g.SetRandomSeed prior seed) width height spacingRows
    spacingCols skipChance

/-- The "Generate" button of the editor: `SetRandomSeed(seed)` followed by
`GenImageMazeEx(MAZE_WIDTH, MAZE_HEIGHT, spacingRows, spacingCols,
(float)skipChance / 100)`. -/
def generateButton {σ : Type} (g : RandomGen σ) (fuel : Nat) (heap : Nat → Point)
    (prior : σ) (seed : Nat) (spacingRows spacingCols skipChance : Int) :
    Outcome (Image × σ) :=
  seededGenImageMazeEx g fuel heap prior seed 64 64 spacingRows spacingCols
    (chanceValue skipChance)

/-- The block `mazePoints` holds, in its first `mazePointsCounter` slots, the
points of the list, and the two states agree on the image and on the
generator. -/
def MemSim {σ : Type} (m : ScanMem σ) (st : ScanState σ) : Prop :=
  m.imMaze = st.imMaze ∧ m.rng = st.rng ∧ m.mazePointsCounter = st.mazePoints.length ∧
    ∀ i p, st.mazePoints[i]? = some p → m.mazePoints i = p

/-! ## Generators used to run the model -/

/-- A generator that always answers the largest value allowed and the
sequence `min, min + 1, ...`. -/
def maxGen : RandomGen Unit where
  SetRandomSeed := fun _ _ => ()
  GetRandomValue := fun s _ hi => (hi, s)
  LoadRandomSequence := fun s count lo _ =>
    ((List.range count).map (fun (i : Nat) => lo + (i : Int)), s)
  value_range := by intro s lo hi h; exact ⟨h, le_refl _⟩
  sequence_length := by intro s count lo hi _; simp
  sequence_range := by
    intro s count lo hi h v hv
    simp only [List.mem_map, List.mem_range] at hv
    obtain ⟨i, hi', rfl⟩ := hv
    omega
  sequence_nodup := by
    intro s count lo hi _
    refine List.Nodup.map ?_ (List.nodup_range count)
    intro a b hab
    simp only at hab
    omega
  seed_resets := by intro _ _ _; rfl

/-- A generator that always answers the smallest value allowed and the
sequence `min, min + 1, ...`. -/
def minGen : RandomGen Unit where
  SetRandomSeed := fun _ _ => ()
  GetRandomValue := fun s lo _ => (lo, s)
  LoadRandomSequence := fun s count lo _ =>
    ((List.range count).map (fun (i : Nat) => lo + (i : Int)), s)
  value_range := by intro s lo hi h; exact ⟨le_refl _, h⟩
  sequence_length := by intro s count lo hi _; simp
  sequence_range := by
    intro s count lo hi h v hv
    simp only [List.mem_map, List.mem_range] at hv
    obtain ⟨i, hi', rfl⟩ := hv
    omega
  sequence_nodup := by
    intro s count lo hi _
    refine List.Nodup.map ?_ (List.nodup_range count)
    intro a b hab
    simp only at hab
    omega
  seed_resets := by intro _ _ _; rfl

end MazeGame

/-! # Properties -/

namespace MazeGame

/-! ## Image primitives -/

theorem ImageDrawPixel_width (image : Image) (x y : Int) (c : Color) :
    (ImageDrawPixel image x y c).width = image.width := by
  unfold ImageDrawPixel; split <;> rfl

theorem ImageDrawPixel_height (image : Image) (x y : Int) (c : Color) :
    (ImageDrawPixel image x y c).height = image.height := by
  unfold ImageDrawPixel; split <;> rfl

theorem ImageDrawPixel_length (image : Image) (x y : Int) (c : Color) :
    (ImageDrawPixel image x y c).data.length = image.data.length := by
  unfold ImageDrawPixel; split <;> simp

theorem ImageDrawPixel_wellFormed {image : Image} (h : WellFormed image) (x y : Int) (c : Color) :
    WellFormed (ImageDrawPixel image x y c) := by
  unfold WellFormed at *
  rw [ImageDrawPixel_length, ImageDrawPixel_width, ImageDrawPixel_height, h]

theorem inBounds_ImageDrawPixel (image : Image) (x y : Int) (c : Color) (a b : Int) :
    inBounds (ImageDrawPixel image x y c) a b ↔ inBounds image a b := by
  unfold inBounds
  rw [ImageDrawPixel_width, ImageDrawPixel_height]

theorem pixelIndex_ImageDrawPixel (image : Image) (x y : Int) (c : Color) (a b : Int) :
    pixelIndex (ImageDrawPixel image x y c) a b = pixelIndex image a b := by
  unfold pixelIndex
  rw [ImageDrawPixel_width]

theorem pixelIndex_lt {image : Image} (h : WellFormed image) {x y : Int}
    (hb : inBounds image x y) : pixelIndex image x y < image.data.length := by
  obtain ⟨hx0, hx1, hy0, hy1⟩ := hb
  unfold pixelIndex
  rw [h]
  have hx : x.toNat < image.width := by omega
  have hy : y.toNat + 1 ≤ image.height := by omega
  calc y.toNat * image.width + x.toNat
      < y.toNat * image.width + image.width := by omega
    _ = image.width * (y.toNat + 1) := by ring
    _ ≤ image.width * image.height := Nat.mul_le_mul_left _ hy

/-- A pixel that has just been drawn has the colour drawn. -/
theorem GetImageColor_ImageDrawPixel_self {image : Image} (h : WellFormed image) {x y : Int}
    (hb : inBounds image x y) (c : Color) :
    GetImageColor (ImageDrawPixel image x y c) x y = c := by
  have hlt := pixelIndex_lt h hb
  unfold GetImageColor
  rw [if_pos ((inBounds_ImageDrawPixel image x y c x y).2 hb), pixelIndex_ImageDrawPixel]
  unfold ImageDrawPixel
  rw [if_pos hb]
  simp [List.getElem?_set, hlt]

/-- Drawing white keeps every white pixel white. -/
theorem GetImageColor_ImageDrawPixel_white (image : Image) (x y a b : Int)
    (hw : GetImageColor image a b = WHITE) :
    GetImageColor (ImageDrawPixel image x y WHITE) a b = WHITE := by
  unfold GetImageColor at hw ⊢
  by_cases hab : inBounds image a b
  · rw [if_pos hab] at hw
    rw [if_pos ((inBounds_ImageDrawPixel image x y WHITE a b).2 hab), pixelIndex_ImageDrawPixel]
    unfold ImageDrawPixel
    split
    · simp only [List.getD_eq_getElem?_getD, List.getElem?_set] at hw ⊢
      by_cases hidx : pixelIndex image x y = pixelIndex image a b
      · rw [if_pos hidx]
        split
        · rfl
        · rename_i hlen
          rw [hidx] at hlen
          rw [List.getElem?_eq_none (by omega)] at hw
          simp [WHITE] at hw
      · rw [if_neg hidx]; exact hw
    · exact hw
  · rw [if_neg hab] at hw
    simp [WHITE] at hw

theorem BorderWhite_ImageDrawPixel {image : Image} (h : BorderWhite image) (x y : Int) :
    BorderWhite (ImageDrawPixel image x y WHITE) := by
  intro a b hab hbord
  rw [ImageDrawPixel_width, ImageDrawPixel_height] at hbord
  exact GetImageColor_ImageDrawPixel_white image x y a b
    (h a b ((inBounds_ImageDrawPixel image x y WHITE a b).1 hab) hbord)

theorem GenImageColor_wellFormed (width height : Nat) (c : Color) :
    WellFormed (GenImageColor width height c) := by
  simp [WellFormed, GenImageColor]

/-! ## Loops with a fixed trip count -/

theorem Outcome.bind_returned {α β : Type} (a : α) (f : α → Outcome β) :
    (Outcome.returned a).bind f = f a := rfl

/-- Invariant rule for a `for (k = 0; k < n; k++)` loop whose body cannot
fail while the invariant holds. -/
theorem foldl_range_returned {α : Type} (f : Nat → α → Outcome α) (P : Nat → α → Prop)
    (n : Nat) (a : α) (h0 : P 0 a)
    (hstep : ∀ k s, k < n → P k s → ∃ s', f k s = Outcome.returned s' ∧ P (k + 1) s') :
    ∃ s', (List.range n).foldl (fun acc k => Outcome.bind acc (f k)) (Outcome.returned a)
        = Outcome.returned s' ∧ P n s' := by
  induction n with
  | zero => exact ⟨a, rfl, h0⟩
  | succ m ih =>
    obtain ⟨s, hs, hP⟩ := ih (fun k s hk hp => hstep k s (Nat.lt_succ_of_lt hk) hp)
    obtain ⟨s', hs', hP'⟩ := hstep m s (Nat.lt_succ_self m) hP
    refine ⟨s', ?_, hP'⟩
    rw [List.range_succ, List.foldl_append, hs]
    simpa [Outcome.bind] using hs'

/-! ## The scan of `GenImageMazeEx` -/

/-- The test `chanceAtLeast` is the comparison `chance >= skipChance` of the
source, for the `float` `chance = (float)v / 100.0f`. -/
theorem chanceAtLeast_iff (v : Int) (skipChance : ℚ) :
    chanceAtLeast v skipChance = true ↔ skipChance ≤ chanceValue v := by
  unfold chanceAtLeast chanceValue
  simp only [decide_eq_true_eq]
  have hden : (0 : ℚ) < (skipChance.den : ℚ) := by exact_mod_cast skipChance.den_pos
  have hpow : (0 : ℚ) < (2 : ℚ) ^ (chanceFloat v).2 := by positivity
  rw [Rat.mkRat_eq_div]
  push_cast
  rw [le_div_iff₀ hpow]
  conv_rhs => rw [← Rat.num_div_den skipChance]
  rw [div_mul_eq_mul_div, div_le_iff₀ hden]
  exact_mod_cast Iff.rfl

/-- The `float` `chance` of a draw that is not negative is not negative. -/
theorem chanceValue_nonneg (v : Int) (hv : 0 ≤ v) : 0 ≤ chanceValue v := by
  unfold chanceValue
  rw [Rat.mkRat_eq_div]
  apply div_nonneg
  · unfold chanceFloat
    simp only [if_pos hv]
    exact_mod_cast Int.natCast_nonneg _
  · positivity

/-- The `float` nearest to 0.3 is `10066330 / 2 ^ 25`, and it is the `chance`
of the draw 30: with `skipChance = 0.3f` a draw of 30 passes the test of the
scan. -/
theorem chanceAtLeast_float_example :
    chanceFloat 30 = (10066330, 25) ∧
    chanceAtLeast 30 (mkRat 10066330 (2 ^ 25)) = true ∧
    chanceAtLeast 29 (mkRat 10066330 (2 ^ 25)) = false := by
  refine ⟨by decide!, by decide!, by decide!⟩

theorem WhiteMono.refl (im : Image) : WhiteMono im im := fun _ _ h => h

theorem WhiteMono.trans {a b c : Image} (h1 : WhiteMono a b) (h2 : WhiteMono b c) :
    WhiteMono a c := fun x y h => h2 x y (h1 x y h)

theorem WhiteMono_ImageDrawPixel (im : Image) (x y : Int) :
    WhiteMono im (ImageDrawPixel im x y WHITE) :=
  fun a b h => GetImageColor_ImageDrawPixel_white im x y a b h

/-- One pixel of the scan: with non-zero spacings the body returns, keeps the
scan invariant, keeps white pixels white and leaves a frame pixel white. -/
theorem scanCell_returned {σ : Type} (g : RandomGen σ) (spacingRows spacingCols : Int)
    (hsr : spacingRows ≠ 0) (hsc : spacingCols ≠ 0) (skipChance : ℚ) (W H y x : Nat)
    (hx : x < W) (hy : y < H) (st : ScanState σ) (hinv : ScanInv W H st) :
    ∃ st', scanCell g spacingRows spacingCols skipChance y x st = Outcome.returned st' ∧
      ScanInv W H st' ∧ WhiteMono st.imMaze st'.imMaze ∧
      (onBorder W H x y → GetImageColor st'.imMaze x y = WHITE) := by
  obtain ⟨rfl, rfl, hwf, hpts⟩ := hinv
  have hb : inBounds st.imMaze (x : Int) (y : Int) := by
    unfold inBounds; omega
  unfold scanCell
  by_cases hbord : ((x : Int) = 0 ∨ (x : Int) = (st.imMaze.width : Int) - 1 ∨
      (y : Int) = 0 ∨ (y : Int) = (st.imMaze.height : Int) - 1)
  · rw [if_pos hbord]
    refine ⟨_, rfl, ⟨ImageDrawPixel_width _ _ _ _, ImageDrawPixel_height _ _ _ _,
      ImageDrawPixel_wellFormed hwf _ _ _, ?_⟩, WhiteMono_ImageDrawPixel _ _ _, ?_⟩
    · exact hpts
    · intro _; exact GetImageColor_ImageDrawPixel_self hwf hb WHITE
  · rw [if_neg hbord, if_neg hsc]
    have hint : interior st.imMaze.width st.imMaze.height ⟨x, y⟩ := by
      unfold interior
      simp only
      omega
    by_cases hmx : Int.tmod x spacingCols = 0
    · rw [if_pos hmx, if_neg hsr]
      by_cases hmy : Int.tmod y spacingRows = 0
      · rw [if_pos hmy]
        simp only
        by_cases hch : chanceAtLeast (g.GetRandomValue st.rng 0 100).1 skipChance = true
        · rw [if_pos hch]
          refine ⟨_, rfl, ⟨ImageDrawPixel_width _ _ _ _, ImageDrawPixel_height _ _ _ _,
            ImageDrawPixel_wellFormed hwf _ _ _, ?_⟩, WhiteMono_ImageDrawPixel _ _ _, ?_⟩
          · intro p hp
            rcases List.mem_append.1 hp with hp | hp
            · exact hpts p hp
            · rw [List.mem_singleton.1 hp]; exact hint
          · intro h; exact absurd h hbord
        · rw [if_neg hch]
          exact ⟨_, rfl, ⟨rfl, rfl, hwf, hpts⟩, WhiteMono.refl _, fun h => absurd h hbord⟩
      · rw [if_neg hmy]
        exact ⟨_, rfl, ⟨rfl, rfl, hwf, hpts⟩, WhiteMono.refl _, fun h => absurd h hbord⟩
    · rw [if_neg hmx]
      exact ⟨_, rfl, ⟨rfl, rfl, hwf, hpts⟩, WhiteMono.refl _, fun h => absurd h hbord⟩

/-- One line of the scan returns, keeps the invariant and white pixels, and
leaves the frame pixels of the line white. -/
theorem scanRow_returned {σ : Type} (g : RandomGen σ) (spacingRows spacingCols : Int)
    (hsr : spacingRows ≠ 0) (hsc : spacingCols ≠ 0) (skipChance : ℚ) (W H y : Nat)
    (hy : y < H) (st : ScanState σ) (hinv : ScanInv W H st) :
    ∃ st', scanRow g spacingRows spacingCols skipChance y st = Outcome.returned st' ∧
      ScanInv W H st' ∧ WhiteMono st.imMaze st'.imMaze ∧
      (∀ x : Nat, x < W → onBorder W H x y → GetImageColor st'.imMaze x y = WHITE) := by
  have hW : st.imMaze.width = W := hinv.1
  unfold scanRow
  rw [hW]
  have key := foldl_range_returned (scanCell g spacingRows spacingCols skipChance y)
    (fun k s => ScanInv W H s ∧ WhiteMono st.imMaze s.imMaze ∧
      ∀ x : Nat, x < k → onBorder W H x y → GetImageColor s.imMaze x y = WHITE)
    W st ⟨hinv, WhiteMono.refl _, fun x hx => absurd hx (Nat.not_lt_zero x)⟩
    (by
      intro k s hk ⟨hs, hmono, hdone⟩
      obtain ⟨s', hs', hinv', hmono', hwhite⟩ :=
        scanCell_returned g spacingRows spacingCols hsr hsc skipChance W H y k hk hy s hs
      refine ⟨s', hs', hinv', hmono.trans hmono', ?_⟩
      intro x hxk hbord
      rcases Nat.lt_succ_iff_lt_or_eq.1 hxk with hlt | rfl
      · exact hmono' _ _ (hdone x hlt hbord)
      · exact hwhite hbord)
  obtain ⟨s', hs', hinv', hmono', hwhite⟩ := key
  exact ⟨s', hs', hinv', hmono', hwhite⟩

/-- The whole scan returns, keeps the invariant and leaves the frame white. -/
theorem scanImage_returned {σ : Type} (g : RandomGen σ) (spacingRows spacingCols : Int)
    (hsr : spacingRows ≠ 0) (hsc : spacingCols ≠ 0) (skipChance : ℚ) (W H : Nat)
    (st : ScanState σ) (hinv : ScanInv W H st) :
    ∃ st', scanImage g spacingRows spacingCols skipChance st = Outcome.returned st' ∧
      ScanInv W H st' ∧ WhiteMono st.imMaze st'.imMaze ∧ BorderWhite st'.imMaze := by
  have hH : st.imMaze.height = H := hinv.2.1
  unfold scanImage
  rw [hH]
  have key := foldl_range_returned (scanRow g spacingRows spacingCols skipChance)
    (fun k s => ScanInv W H s ∧ WhiteMono st.imMaze s.imMaze ∧
      ∀ x y : Nat, y < k → x < W → onBorder W H x y → GetImageColor s.imMaze x y = WHITE)
    H st ⟨hinv, WhiteMono.refl _, fun x y hy => absurd hy (Nat.not_lt_zero y)⟩
    (by
      intro k s hk ⟨hs, hmono, hdone⟩
      obtain ⟨s', hs', hinv', hmono', hwhite⟩ :=
        scanRow_returned g spacingRows spacingCols hsr hsc skipChance W H k hk s hs
      refine ⟨s', hs', hinv', hmono.trans hmono', ?_⟩
      intro x y hyk hx hbord
      rcases Nat.lt_succ_iff_lt_or_eq.1 hyk with hlt | rfl
      · exact hmono' _ _ (hdone x y hlt hx hbord)
      · exact hwhite x hx hbord)
  obtain ⟨s', hs', hinv', hmono', hwhite⟩ := key
  refine ⟨s', hs', hinv', hmono', ?_⟩
  intro a b hab hbord
  obtain ⟨hw', hh', _, _⟩ := hinv'
  obtain ⟨ha0, ha1, hb0, hb1⟩ := hab
  rw [hw', hh'] at hbord
  rw [hw'] at ha1
  rw [hh'] at hb1
  have := hwhite a.toNat b.toNat (by omega) (by omega)
    (by rw [Int.toNat_of_nonneg ha0, Int.toNat_of_nonneg hb0]; exact hbord)
  rwa [Int.toNat_of_nonneg ha0, Int.toNat_of_nonneg hb0] at this

/-! ## The wall growth of `GenImageMazeEx` -/

/-- The walk that grows a wall stops: inside a white frame, with fuel for the
distance to the frame, it returns an image of the same extents whose frame is
still white. -/
theorem growWall_returned (dir : Point) (hdir : dir ∈ directions) (fuel : Nat) :
    ∀ (im : Image) (cur : Point), WellFormed im → BorderWhite im →
      inBounds im cur.x cur.y → wallDistance im cur dir ≤ fuel →
      ∃ im', growWall fuel im cur dir = Outcome.returned im' ∧
        im'.width = im.width ∧ im'.height = im.height ∧ WellFormed im' ∧
        BorderWhite im' ∧ WhiteMono im im' := by
  induction fuel with
  | zero =>
    intro im cur hwf hbw hcur hdist
    unfold growWall
    by_cases hr : (GetImageColor im cur.x cur.y).r ≠ 255
    · exfalso
      have hnb : ¬ onBorder im.width im.height cur.x cur.y := by
        intro hb
        apply hr
        rw [hbw cur.x cur.y hcur hb]; rfl
      unfold onBorder at hnb
      unfold inBounds at hcur
      unfold wallDistance at hdist
      simp only [directions, List.mem_cons, List.mem_singleton, List.not_mem_nil, or_false] at hdir
      rcases hdir with rfl | rfl | rfl | rfl <;> simp at hdist <;> omega
    · rw [if_neg hr]
      exact ⟨im, rfl, rfl, rfl, hwf, hbw, WhiteMono.refl _⟩
  | succ n ih =>
    intro im cur hwf hbw hcur hdist
    unfold growWall
    by_cases hr : (GetImageColor im cur.x cur.y).r ≠ 255
    · rw [if_pos hr]
      simp only
      have hnb : ¬ onBorder im.width im.height cur.x cur.y := by
        intro hb
        apply hr
        rw [hbw cur.x cur.y hcur hb]; rfl
      have hnext : inBounds (ImageDrawPixel im cur.x cur.y WHITE)
          (cur.x + dir.x) (cur.y + dir.y) := by
        rw [inBounds_ImageDrawPixel]
        unfold onBorder at hnb
        unfold inBounds at hcur ⊢
        simp only [directions, List.mem_cons, List.mem_singleton, List.not_mem_nil,
          or_false] at hdir
        rcases hdir with rfl | rfl | rfl | rfl <;> simp only <;> omega
      have hdist' : wallDistance (ImageDrawPixel im cur.x cur.y WHITE)
          ⟨cur.x + dir.x, cur.y + dir.y⟩ dir ≤ n := by
        unfold wallDistance at hdist ⊢
        rw [ImageDrawPixel_width, ImageDrawPixel_height]
        unfold onBorder at hnb
        unfold inBounds at hcur
        simp only [directions, List.mem_cons, List.mem_singleton, List.not_mem_nil,
          or_false] at hdir
        rcases hdir with rfl | rfl | rfl | rfl <;> simp at hdist ⊢ <;> omega
      obtain ⟨im', him', hw', hh', hwf', hbw', hmono'⟩ :=
        ih (ImageDrawPixel im cur.x cur.y WHITE) ⟨cur.x + dir.x, cur.y + dir.y⟩
          (ImageDrawPixel_wellFormed hwf _ _ _) (BorderWhite_ImageDrawPixel hbw _ _)
          hnext hdist'
      refine ⟨im', him', ?_, ?_, hwf', hbw', (WhiteMono_ImageDrawPixel _ _ _).trans hmono'⟩
      · rw [hw', ImageDrawPixel_width]
      · rw [hh', ImageDrawPixel_height]
    · rw [if_neg hr]
      exact ⟨im, rfl, rfl, rfl, hwf, hbw, WhiteMono.refl _⟩

theorem wallDistance_le (im : Image) (cur dir : Point) (hdir : dir ∈ directions)
    (hcur : inBounds im cur.x cur.y) : wallDistance im cur dir ≤ im.width + im.height := by
  unfold wallDistance
  unfold inBounds at hcur
  simp only [directions, List.mem_cons, List.mem_singleton, List.not_mem_nil, or_false] at hdir
  rcases hdir with rfl | rfl | rfl | rfl <;> simp <;> omega

theorem readAt_returned {α : Type} (a : List α) (i : Int) (h0 : 0 ≤ i)
    (h1 : i < (a.length : Int)) :
    ∃ v, readAt a i = Outcome.returned v ∧ v ∈ a := by
  have hlt : i.toNat < a.length := by omega
  refine ⟨a.get ⟨i.toNat, hlt⟩, ?_, List.get_mem _ _ _⟩
  unfold readAt
  rw [if_neg (by omega)]
  simp [List.getElem?_eq_getElem hlt]

/-- One maze point of the growth loop: inside a white frame the body returns
and the frame stays white. -/
theorem growPoint_returned {σ : Type} (g : RandomGen σ) (fuel W H : Nat)
    (mazePoints : List Point) (pointIndices : List Int) (i : Nat)
    (hpts : ∀ p ∈ mazePoints, interior W H p)
    (hlen : pointIndices.length = mazePoints.length)
    (hrange : ∀ v ∈ pointIndices, 0 ≤ v ∧ v ≤ (mazePoints.length : Int) - 1)
    (hi : i < mazePoints.length) (hfuel : W + H ≤ fuel) (st : Image × σ)
    (hw : st.1.width = W) (hh : st.1.height = H) (hwf : WellFormed st.1)
    (hbw : BorderWhite st.1) :
    ∃ st', growPoint g fuel mazePoints pointIndices i st = Outcome.returned st' ∧
      st'.1.width = W ∧ st'.1.height = H ∧ WellFormed st'.1 ∧ BorderWhite st'.1 ∧
      WhiteMono st.1 st'.1 := by
  obtain ⟨idx, hidx, hidxmem⟩ := readAt_returned pointIndices (i : Int) (by omega) (by omega)
  obtain ⟨hidx0, hidx1⟩ := hrange idx hidxmem
  obtain ⟨pt, hpt, hptmem⟩ := readAt_returned mazePoints idx hidx0 (by omega)
  obtain ⟨hd0, hd1⟩ := g.value_range st.2 0 3 (by decide)
  obtain ⟨dir, hdir, hdirmem⟩ := readAt_returned directions (g.GetRandomValue st.2 0 3).1 hd0
    (by simp only [directions, List.length_cons, List.length_nil]; omega)
  have hint := hpts pt hptmem
  have hcur : inBounds st.1 (pt.x + dir.x) (pt.y + dir.y) := by
    unfold interior at hint
    unfold inBounds
    rw [hw, hh]
    have hdirmem' := hdirmem
    simp only [directions, List.mem_cons, List.mem_singleton, List.not_mem_nil,
      or_false] at hdirmem'
    rcases hdirmem' with rfl | rfl | rfl | rfl <;> simp only <;> omega
  have hdist : wallDistance st.1 ⟨pt.x + dir.x, pt.y + dir.y⟩ dir ≤ fuel := by
    have := wallDistance_le st.1 ⟨pt.x + dir.x, pt.y + dir.y⟩ dir hdirmem hcur
    rw [hw, hh] at this
    omega
  obtain ⟨im', him', hw', hh', hwf', hbw', hmono'⟩ :=
    growWall_returned dir hdirmem fuel st.1 ⟨pt.x + dir.x, pt.y + dir.y⟩ hwf hbw hcur hdist
  refine ⟨(im', (g.GetRandomValue st.2 0 3).2), ?_, ?_, ?_, hwf', hbw', hmono'⟩
  · unfold growPoint
    rw [hidx, Outcome.bind_returned, hpt, Outcome.bind_returned]
    simp only
    rw [hdir, Outcome.bind_returned, him', Outcome.bind_returned]
  · rw [hw', hw]
  · rw [hh', hh]

/-- With non-zero spacings and fuel for one walk across the grid,
`GenImageMazeEx` returns a well-formed `width` by `height` image whose frame
is white. -/
theorem GenImageMazeEx_returned {σ : Type} (g : RandomGen σ) (fuel : Nat) (rng : σ)
    (width height : Nat) (spacingRows spacingCols : Int) (skipChance : ℚ)
    (hsr : spacingRows ≠ 0) (hsc : spacingCols ≠ 0) (hfuel : width + height ≤ fuel) :
    ∃ res, GenImageMazeEx g fuel rng width height spacingRows spacingCols skipChance
        = Outcome.returned res ∧
      res.1.width = width ∧ res.1.height = height ∧ WellFormed res.1 ∧ BorderWhite res.1 := by
  obtain ⟨st, hst, ⟨hw, hh, hwf, hpts⟩, _, hbw⟩ :=
    scanImage_returned g spacingRows spacingCols hsr hsc skipChance width height
      ⟨GenImageColor width height BLACK, [], rng⟩
      ⟨rfl, rfl, GenImageColor_wellFormed _ _ _, by intro p hp; cases hp⟩
  unfold GenImageMazeEx
  rw [hst, Outcome.bind_returned]
  simp only
  have hcnt : ((st.mazePoints.length : Nat) : Int) ≤ ((st.mazePoints.length : Int) - 1) - 0 + 1 := by
    omega
  have hlen := g.sequence_length st.rng st.mazePoints.length 0 _ hcnt
  have hrange := g.sequence_range st.rng st.mazePoints.length 0 _ hcnt
  obtain ⟨res, hres, hw', hh', hwf', hbw'⟩ :=
    foldl_range_returned
      (growPoint g fuel st.mazePoints
        (g.LoadRandomSequence st.rng st.mazePoints.length 0 ((st.mazePoints.length : Int) - 1)).1)
      (fun _ s => s.1.width = width ∧ s.1.height = height ∧ WellFormed s.1 ∧ BorderWhite s.1)
      st.mazePoints.length
      (st.imMaze,
        (g.LoadRandomSequence st.rng st.mazePoints.length 0 ((st.mazePoints.length : Int) - 1)).2)
      ⟨hw, hh, hwf, hbw⟩
      (by
        intro k s hk ⟨h1, h2, h3, h4⟩
        obtain ⟨s', hs', a1, a2, a3, a4, _⟩ :=
          growPoint_returned g fuel width height st.mazePoints _ k hpts hlen hrange hk hfuel
            s h1 h2 h3 h4
        exact ⟨s', hs', a1, a2, a3, a4⟩)
  exact ⟨res, hres, hw', hh', hwf', hbw'⟩

/-! ## Claims on `GenImageMazeEx` -/

/-- C10: run at the failing input.  With `skipChance = 1.0` on a 3 by 3 grid
with spacing 1 and a generator whose chance draw is 100, the scan plants a
seed at the interior cell (1, 1): the image returned, for every fuel, is white
everywhere, and its interior cell is a wall, not open. -/
theorem GenImageMazeEx_skip_one_plants_seed :
    (∀ fuel : Nat, GenImageMazeEx maxGen fuel () 3 3 1 1 1
        = Outcome.returned (⟨3, 3, List.replicate 9 WHITE⟩, ())) ∧
      (maxGen.GetRandomValue () 0 100).1 = 100 ∧
      chanceAtLeast 100 1 = true ∧
      GetImageColor ⟨3, 3, List.replicate 9 WHITE⟩ 1 1 = WHITE ∧
      (GetImageColor ⟨3, 3, List.replicate 9 WHITE⟩ 1 1).r ≠ 0 := by
  refine ⟨fun fuel => ?_, by decide!, by decide!, by decide!, by decide!⟩
  cases fuel with
  | zero => decide!
  | succ n => rfl

/-! ## Lookup in `reached` -/

theorem Point.eq_iff (a b : Point) : (a.x = b.x ∧ a.y = b.y) ↔ a = b := by
  constructor
  · intro ⟨h1, h2⟩
    cases a; cases b; simp only at h1 h2; subst h1; subst h2; rfl
  · intro h; subst h; exact ⟨rfl, rfl⟩

theorem findReached_eq_none {l : List PathNode} {q : Point} :
    findReached l q = none ↔ q ∉ coords l := by
  induction l with
  | nil => simp [findReached, coords]
  | cons n rest ih =>
    unfold findReached
    by_cases h : n.p.x = q.x ∧ n.p.y = q.y
    · rw [if_pos h]
      have := (Point.eq_iff _ _).1 h
      simp [coords, this]
    · rw [if_neg h]
      have hne : ¬ n.p = q := fun e => h ((Point.eq_iff _ _).2 e)
      have hne' : ¬ q = n.p := fun e => hne e.symm
      simp only [Option.map_eq_none', ih, coords, List.map_cons, List.mem_cons, hne',
        false_or]

theorem findReached_some {l : List PathNode} {q : Point} {i : Nat}
    (h : findReached l q = some i) : ∃ r, l[i]? = some r ∧ r.p = q := by
  induction l generalizing i with
  | nil => simp [findReached] at h
  | cons n rest ih =>
    unfold findReached at h
    by_cases hc : n.p.x = q.x ∧ n.p.y = q.y
    · rw [if_pos hc] at h
      injection h with h
      subst h
      exact ⟨n, List.getElem?_cons_zero, (Point.eq_iff _ _).1 hc⟩
    · rw [if_neg hc] at h
      cases hf : findReached rest q with
      | none => rw [hf] at h; simp at h
      | some j =>
        rw [hf] at h
        simp only [Option.map_some'] at h
        injection h with h
        subst h
        obtain ⟨r, hr, hp⟩ := ih hf
        exact ⟨r, by simpa using hr, hp⟩

theorem findReached_isSome_of_mem {l : List PathNode} {q : Point} (h : q ∈ coords l) :
    ∃ i, findReached l q = some i := by
  cases hf : findReached l q with
  | none => exact absurd h (findReached_eq_none.1 hf)
  | some i => exact ⟨i, rfl⟩

/-- The first entry at a coordinate stays the first when entries are appended. -/
theorem findReached_append_of_mem {l : List PathNode} (l' : List PathNode) {q : Point}
    (h : q ∈ coords l) : findReached (l ++ l') q = findReached l q := by
  induction l with
  | nil => simp [coords] at h
  | cons n rest ih =>
    simp only [List.cons_append]
    unfold findReached
    by_cases hc : n.p.x = q.x ∧ n.p.y = q.y
    · rw [if_pos hc, if_pos hc]
    · rw [if_neg hc, if_neg hc]
      have hne : ¬ q = n.p := fun e => hc ((Point.eq_iff _ _).2 e.symm)
      have : q ∈ coords rest := by
        simpa [coords, hne] using h
      rw [ih this]

theorem findReached_append_some {l : List PathNode} (l' : List PathNode) {q : Point} {i : Nat}
    (h : findReached l q = some i) : findReached (l ++ l') q = some i := by
  rw [findReached_append_of_mem l' _, h]
  by_contra hn
  rw [findReached_eq_none.2 hn] at h
  cases h

theorem findReached_head (n : PathNode) (rest : List PathNode) :
    findReached (n :: rest) n.p = some 0 := by
  unfold findReached
  rw [if_pos ⟨rfl, rfl⟩]

theorem coords_append (l l' : List PathNode) : coords (l ++ l') = coords l ++ coords l' := by
  simp [coords]

theorem mem_coords_of_mem {l : List PathNode} {r : PathNode} (h : r ∈ l) : r.p ∈ coords l :=
  List.mem_map_of_mem _ h

/-! ## One neighbour -/

/-- The two ways `visitNeighbor` can go: it leaves the state alone, and then a
valid neighbour is already in `reached`; or the neighbour is valid, is new or
improves on the gvalue recorded first for its cell, and is appended to both
arrays. -/
theorem visitNeighbor_cases (map : Image) (endP : Point) (cur : PathNode)
    (st : List PathNode × List PathNode) (nb : Point) :
    (visitNeighbor map endP cur st nb = st ∧ (isValid map nb = true → nb ∈ coords st.2)) ∨
    (isValid map nb = true ∧
      (nb ∉ coords st.2 ∨ ∃ r ∈ st.2, r.p = nb ∧ cur.gvalue + 1 < r.gvalue) ∧
      visitNeighbor map endP cur st nb = pushNeighbor endP cur st nb) := by
  unfold visitNeighbor
  by_cases hv : isValid map nb = true
  · simp only [hv, if_true]
    cases hf : findReached st.2 nb with
    | none =>
      right
      exact ⟨trivial, Or.inl (findReached_eq_none.1 hf), rfl⟩
    | some j =>
      obtain ⟨r, hr, hp⟩ := findReached_some hf
      simp only [List.get?_eq_getElem?, hr]
      by_cases hg : cur.gvalue + 1 < r.gvalue
      · right
        refine ⟨trivial, Or.inr ⟨r, List.getElem?_mem hr, hp, hg⟩, ?_⟩
        simp [hg, pushNeighbor, neighborNode, reachedNode]
      · left
        refine ⟨by simp [hg], fun _ => ?_⟩
        rw [← hp]
        exact mem_coords_of_mem (List.getElem?_mem hr)
  · left
    simp only [hv]
    exact ⟨by simp, fun h => absurd h (by simp)⟩

theorem adjacent4_of_mem_neighbors {c nb : Point} (h : nb ∈ neighbors c) : adjacent4 c nb := by
  simp only [neighbors, List.mem_cons, List.mem_singleton, List.not_mem_nil, or_false] at h
  rcases h with rfl | rfl | rfl | rfl
  · exact Or.inl ⟨rfl, by show Int.natAbs (c.y - (c.y - 1)) = 1; omega⟩
  · exact Or.inr ⟨rfl, by show Int.natAbs (c.x - (c.x - 1)) = 1; omega⟩
  · exact Or.inl ⟨rfl, by show Int.natAbs (c.y - (c.y + 1)) = 1; omega⟩
  · exact Or.inr ⟨rfl, by show Int.natAbs (c.x - (c.x + 1)) = 1; omega⟩

theorem adjacent4_symm {a b : Point} (h : adjacent4 a b) : adjacent4 b a := by
  unfold adjacent4 at *
  omega

theorem lt_length_of_getElem? {α : Type} {l : List α} {i : Nat} {a : α} (h : l[i]? = some a) :
    i < l.length := by
  by_contra hge
  rw [List.getElem?_eq_none (by omega)] at h
  cases h

theorem reachedCard_le_append (re : List PathNode) (x : PathNode) :
    reachedCard re ≤ reachedCard (re ++ [x]) := by
  unfold reachedCard
  rw [coords_append, List.toFinset_append]
  exact Finset.card_le_card Finset.subset_union_left

theorem reachedCard_append_new {re : List PathNode} {x : PathNode} (h : x.p ∉ coords re) :
    reachedCard (re ++ [x]) = reachedCard re + 1 := by
  unfold reachedCard
  have hx : coords (re ++ [x]) = coords re ++ [x.p] := by simp [coords]
  rw [hx, List.toFinset_append]
  have : (coords re).toFinset ∪ [x.p].toFinset = insert x.p (coords re).toFinset := by
    ext a; simp [or_comm]
  rw [this, Finset.card_insert_of_not_mem (by simpa using h)]

/-- Appending a valid cell next to a recorded one keeps the shape of
`reached`. -/
theorem ReachedTree_push {map : Image} {start : Point} {re : List PathNode}
    (h : ReachedTree map start re) (x : PathNode) (cur : Point) (hcur : cur ∈ coords re)
    (hpar : x.parent = findReached re cur) (hval : isValid map x.p = true)
    (hadj : adjacent4 cur x.p) : ReachedTree map start (re ++ [x]) := by
  obtain ⟨hhead, htree⟩ := h
  have hne : re ≠ [] := by
    intro e; rw [e] at hhead; simp at hhead
  refine ⟨by rw [List.head?_append_of_ne_nil _ hne]; exact hhead, ?_⟩
  intro i r hr hi
  by_cases hlt : i < re.length
  · rw [List.getElem?_append_left hlt] at hr
    obtain ⟨hv, j, pr, hj, hp, hpr, hf, ha⟩ := htree i r hr hi
    refine ⟨hv, j, pr, hj, hp, ?_, findReached_append_some _ hf, ha⟩
    rw [List.getElem?_append_left (by omega)]; exact hpr
  · have hlen := lt_length_of_getElem? hr
    simp only [List.length_append, List.length_singleton] at hlen
    have hi' : i = re.length := by omega
    subst hi'
    rw [List.getElem?_append_right (le_refl _)] at hr
    simp only [Nat.sub_self, List.getElem?_cons_zero, Option.some.injEq] at hr
    subst hr
    obtain ⟨j, hj⟩ := findReached_isSome_of_mem hcur
    obtain ⟨pr, hpr, hpp⟩ := findReached_some hj
    have hjlt := lt_length_of_getElem? hpr
    refine ⟨hval, j, pr, hjlt, by rw [hpar, hj], ?_, ?_, ?_⟩
    · rw [List.getElem?_append_left hjlt]; exact hpr
    · rw [hpp]; exact findReached_append_some _ hj
    · rw [hpp]; exact hadj

/-- Saving a neighbour keeps the invariant of the neighbour loop. -/
theorem FoldInv_push {map : Image} {start endP : Point} {cur : PathNode}
    {st : List PathNode × List PathNode} {nb : Point} (h : FoldInv map start cur st)
    (hnb : nb ∈ neighbors cur.p) (hval : isValid map nb = true)
    (hnew : nb ∉ coords st.2 ∨ ∃ r ∈ st.2, r.p = nb ∧ cur.gvalue + 1 < r.gvalue) :
    FoldInv map start cur (pushNeighbor endP cur st nb) := by
  obtain ⟨htree, hfr, hcur, hclosed, hgf, hgr, hg0, hgc⟩ := h
  have h1 : (pushNeighbor endP cur st nb).1 = st.1 ++ [neighborNode endP cur nb] := rfl
  have h2 : (pushNeighbor endP cur st nb).2 = st.2 ++ [reachedNode endP cur st.2 nb] := rfl
  have hcard : reachedCard st.2 ≤ reachedCard (pushNeighbor endP cur st nb).2 := by
    rw [h2]; exact reachedCard_le_append _ _
  have hgnew : cur.gvalue + 1 < reachedCard (pushNeighbor endP cur st nb).2 := by
    rcases hnew with hn | ⟨r, hr, _, hlt⟩
    · have hc := @reachedCard_append_new st.2 (reachedNode endP cur st.2 nb) hn
      rw [h2, hc]
      push_cast
      omega
    · have := hgr r hr
      omega
  have hsub : ∀ q, q ∈ coords st.2 → q ∈ coords (pushNeighbor endP cur st nb).2 := by
    intro q hq
    rw [h2, coords_append]
    exact List.mem_append_left _ hq
  have hnbin : nb ∈ coords (pushNeighbor endP cur st nb).2 := by
    rw [h2, coords_append]
    exact List.mem_append_right _ (by simp [coords, reachedNode])
  refine ⟨?_, ?_, hsub _ hcur, ?_, ?_, ?_, hg0, by omega⟩
  · rw [h2]
    exact ReachedTree_push htree _ cur.p hcur rfl hval (adjacent4_of_mem_neighbors hnb)
  · intro n hn
    rw [h1] at hn
    rcases List.mem_append.1 hn with hn | hn
    · exact hsub _ (hfr n hn)
    · rw [List.mem_singleton.1 hn]; exact hnbin
  · intro q hq
    rw [h2, coords_append] at hq
    rcases List.mem_append.1 hq with hq | hq
    · rcases hclosed q hq with a | ⟨n, hn, hnp⟩ | c
      · exact Or.inl a
      · exact Or.inr (Or.inl ⟨n, by rw [h1]; exact List.mem_append_left _ hn, hnp⟩)
      · exact Or.inr (Or.inr (fun nb' hnb' hv' => hsub _ (c nb' hnb' hv')))
    · have hq' : q = nb := by simpa [coords, reachedNode] using hq
      exact Or.inr (Or.inl ⟨neighborNode endP cur nb, by rw [h1]; simp, by rw [hq']; rfl⟩)
  · intro n hn
    rw [h1] at hn
    rcases List.mem_append.1 hn with hn | hn
    · have := hgf n hn
      omega
    · rw [List.mem_singleton.1 hn]
      show 0 ≤ cur.gvalue + 1 ∧ cur.gvalue + 1 < _
      omega
  · intro r hr
    rw [h2] at hr
    rcases List.mem_append.1 hr with hr | hr
    · have := hgr r hr
      omega
    · rw [List.mem_singleton.1 hr]
      exact hgnew

theorem FoldInv_visitNeighbor {map : Image} {start : Point} (endP : Point) {cur : PathNode}
    {st : List PathNode × List PathNode} {nb : Point} (h : FoldInv map start cur st)
    (hnb : nb ∈ neighbors cur.p) :
    FoldInv map start cur (visitNeighbor map endP cur st nb) := by
  rcases visitNeighbor_cases map endP cur st nb with ⟨he, _⟩ | ⟨hv, hnew, he⟩
  · rw [he]; exact h
  · rw [he]; exact FoldInv_push h hnb hv hnew

theorem coords_subset_visitNeighbor (map : Image) (endP : Point) (cur : PathNode)
    (st : List PathNode × List PathNode) (nb q : Point) (hq : q ∈ coords st.2) :
    q ∈ coords (visitNeighbor map endP cur st nb).2 := by
  rcases visitNeighbor_cases map endP cur st nb with ⟨he, _⟩ | ⟨_, _, he⟩
  · rw [he]; exact hq
  · rw [he]
    unfold pushNeighbor
    simp only
    rw [coords_append]
    exact List.mem_append_left _ hq

theorem mem_coords_visitNeighbor (map : Image) (endP : Point) (cur : PathNode)
    (st : List PathNode × List PathNode) (nb : Point) (hv : isValid map nb = true) :
    nb ∈ coords (visitNeighbor map endP cur st nb).2 := by
  rcases visitNeighbor_cases map endP cur st nb with ⟨he, hin⟩ | ⟨_, _, he⟩
  · rw [he]; exact hin hv
  · rw [he]
    show nb ∈ coords (st.2 ++ [reachedNode endP cur st.2 nb])
    rw [coords_append]
    exact List.mem_append_right _ (by simp [coords, reachedNode])

theorem coords_subset_foldl (map : Image) (endP : Point) (cur : PathNode) (l : List Point) :
    ∀ (st : List PathNode × List PathNode) (q : Point), q ∈ coords st.2 →
      q ∈ coords (l.foldl (visitNeighbor map endP cur) st).2 := by
  induction l with
  | nil => intro st q hq; exact hq
  | cons a t ih =>
    intro st q hq
    rw [List.foldl_cons]
    exact ih _ q (coords_subset_visitNeighbor map endP cur st a q hq)

/-- After the neighbour loop every valid neighbour visited is in `reached`. -/
theorem mem_coords_foldl (map : Image) (endP : Point) (cur : PathNode) (l : List Point) :
    ∀ (st : List PathNode × List PathNode) (nb : Point), nb ∈ l → isValid map nb = true →
      nb ∈ coords (l.foldl (visitNeighbor map endP cur) st).2 := by
  induction l with
  | nil => intro st nb h; cases h
  | cons a t ih =>
    intro st nb hmem hv
    rw [List.foldl_cons]
    rcases List.mem_cons.1 hmem with rfl | hmem
    · exact coords_subset_foldl map endP cur t _ _ (mem_coords_visitNeighbor map endP cur st nb hv)
    · exact ih _ nb hmem hv

theorem FoldInv_foldl {map : Image} {start : Point} (endP : Point) {cur : PathNode}
    (l : List Point) (hl : ∀ nb ∈ l, nb ∈ neighbors cur.p) :
    ∀ st : List PathNode × List PathNode, FoldInv map start cur st →
      FoldInv map start cur (l.foldl (visitNeighbor map endP cur) st) := by
  induction l with
  | nil => intro st h; exact h
  | cons a t ih =>
    intro st h
    rw [List.foldl_cons]
    exact ih (fun nb hnb => hl nb (List.mem_cons_of_mem _ hnb)) _
      (FoldInv_visitNeighbor endP h (hl a (List.mem_cons_self _ _)))

/-! ## The reorder pass is a permutation -/

theorem perm_set_getD {α : Type} (d : α) :
    ∀ (xs : List α) (k : Nat) (x : α), k < xs.length →
      (xs.getD k d :: xs.set k x).Perm (x :: xs) := by
  intro xs
  induction xs with
  | nil => intro k x hk; simp at hk
  | cons b t ih =>
    intro k x hk
    cases k with
    | zero =>
      show (b :: x :: t).Perm (x :: b :: t)
      exact List.Perm.swap x b t
    | succ k =>
      show (t.getD k d :: b :: t.set k x).Perm (x :: b :: t)
      have hk' : k < t.length := by simpa using hk
      exact ((List.Perm.swap b (t.getD k d) (t.set k x)).trans
        ((ih k x hk').cons b)).trans (List.Perm.swap x b t)

/-- Exchanging two entries of a list gives a permutation of it. -/
theorem perm_swap_getD {α : Type} (d : α) :
    ∀ (l : List α) (i m : Nat), i < l.length → m < l.length →
      ((l.set i (l.getD m d)).set m (l.getD i d)).Perm l := by
  intro l
  induction l with
  | nil => intro i m hi; simp at hi
  | cons b t ih =>
    intro i m hi hm
    cases i with
    | zero =>
      cases m with
      | zero => exact List.Perm.refl _
      | succ j =>
        show (t.getD j d :: t.set j b).Perm (b :: t)
        exact perm_set_getD d t j b (by simpa using hm)
    | succ k =>
      cases m with
      | zero =>
        show (t.getD k d :: t.set k b).Perm (b :: t)
        exact perm_set_getD d t k b (by simpa using hi)
      | succ j =>
        show (b :: (t.set k (t.getD j d)).set j (t.getD k d)).Perm (b :: t)
        exact (ih k j (by simpa using hi) (by simpa using hm)).cons b

theorem maxGHIndex_foldl_lt (frontier : List PathNode) (n : Nat) (l : List Nat) :
    ∀ i : Nat, i < n → (∀ j ∈ l, j < n) →
      l.foldl (fun m j => if fvalue (frontier.getD m nullNode) < fvalue (frontier.getD j nullNode)
        then j else m) i < n := by
  induction l with
  | nil => intro i hi _; exact hi
  | cons a t ih =>
    intro i hi hl
    rw [List.foldl_cons]
    apply ih
    · split
      · exact hl a (List.mem_cons_self _ _)
      · exact hi
    · intro j hj; exact hl j (List.mem_cons_of_mem _ hj)

theorem maxGHIndex_lt (frontier : List PathNode) (i : Nat) (hi : i < frontier.length) :
    maxGHIndex frontier i < frontier.length := by
  unfold maxGHIndex
  exact maxGHIndex_foldl_lt frontier frontier.length _ i hi
    (fun j hj => List.mem_range.1 hj)

theorem reorderStep_perm (frontier : List PathNode) (i : Nat) (hi : i < frontier.length) :
    (reorderStep frontier i).Perm frontier := by
  unfold reorderStep
  exact perm_swap_getD nullNode frontier i _ hi (maxGHIndex_lt frontier i hi)

theorem reorder_foldl_perm (l : List Nat) :
    ∀ frontier : List PathNode, (∀ i ∈ l, i < frontier.length) →
      (l.foldl reorderStep frontier).Perm frontier := by
  induction l with
  | nil => intro frontier _; exact List.Perm.refl _
  | cons a t ih =>
    intro frontier hl
    rw [List.foldl_cons]
    have hp := reorderStep_perm frontier a (hl a (List.mem_cons_self _ _))
    refine (ih _ ?_).trans hp
    intro i hi
    rw [hp.length_eq]
    exact hl i (List.mem_cons_of_mem _ hi)

/-- The reorder pass only permutes the frontier. -/
theorem reorderFrontier_perm (frontier : List PathNode) :
    (reorderFrontier frontier).Perm frontier := by
  unfold reorderFrontier
  exact reorder_foldl_perm _ frontier (fun i hi => List.mem_range.1 hi)

/-! ## Termination measure -/

theorem nodeWeight_pos (M : Nat) (n : PathNode) : 0 < nodeWeight M n := by
  unfold nodeWeight
  exact Nat.pow_pos (by decide)

theorem frontierMeasure_cons (M : Nat) (n : PathNode) (l : List PathNode) :
    frontierMeasure M (n :: l) = nodeWeight M n + frontierMeasure M l := by
  simp [frontierMeasure]

theorem frontierMeasure_append (M : Nat) (l l' : List PathNode) :
    frontierMeasure M (l ++ l') = frontierMeasure M l + frontierMeasure M l' := by
  simp [frontierMeasure]

theorem frontierMeasure_perm (M : Nat) {l l' : List PathNode} (h : l.Perm l') :
    frontierMeasure M l = frontierMeasure M l' := by
  unfold frontierMeasure
  exact (h.map _).sum_eq

theorem frontierMeasure_visitNeighbor (M : Nat) (map : Image) (endP : Point) (cur : PathNode)
    (st : List PathNode × List PathNode) (nb : Point) :
    frontierMeasure M (visitNeighbor map endP cur st nb).1
      ≤ frontierMeasure M st.1 + 5 ^ (M - (cur.gvalue + 1).toNat) := by
  rcases visitNeighbor_cases map endP cur st nb with ⟨he, _⟩ | ⟨_, _, he⟩
  · rw [he]; exact Nat.le_add_right _ _
  · rw [he]
    show frontierMeasure M (st.1 ++ [neighborNode endP cur nb]) ≤ _
    rw [frontierMeasure_append]
    simp [frontierMeasure, nodeWeight, neighborNode]

theorem frontierMeasure_foldl (M : Nat) (map : Image) (endP : Point) (cur : PathNode)
    (l : List Point) :
    ∀ st : List PathNode × List PathNode,
      frontierMeasure M (l.foldl (visitNeighbor map endP cur) st).1
        ≤ frontierMeasure M st.1 + l.length * 5 ^ (M - (cur.gvalue + 1).toNat) := by
  induction l with
  | nil => intro st; simp
  | cons a t ih =>
    intro st
    rw [List.foldl_cons]
    have h1 := ih (visitNeighbor map endP cur st a)
    have h2 := frontierMeasure_visitNeighbor M map endP cur st a
    simp only [List.length_cons]
    have : (t.length + 1) * 5 ^ (M - (cur.gvalue + 1).toNat)
        = t.length * 5 ^ (M - (cur.gvalue + 1).toNat) + 5 ^ (M - (cur.gvalue + 1).toNat) := by
      ring
    omega

theorem mem_cellSet {map : Image} {q : Point} (h : isValid map q = true) : q ∈ cellSet map := by
  unfold isValid at h
  simp only [Bool.and_eq_true, decide_eq_true_eq] at h
  obtain ⟨⟨⟨⟨hx0, hy0⟩, hx1⟩, hy1⟩, _⟩ := h
  unfold cellSet
  rw [Finset.mem_image]
  refine ⟨(q.x.toNat, q.y.toNat), ?_, ?_⟩
  · rw [Finset.mem_product, Finset.mem_range, Finset.mem_range]
    constructor
    · show q.x.toNat < map.width
      omega
    · show q.y.toNat < map.height
      omega
  · show (⟨(q.x.toNat : Int), (q.y.toNat : Int)⟩ : Point) = q
    rw [Int.toNat_of_nonneg hx0, Int.toNat_of_nonneg hy0]

theorem cellSet_card_le (map : Image) : (cellSet map).card ≤ map.width * map.height := by
  unfold cellSet
  refine le_trans Finset.card_image_le ?_
  rw [Finset.card_product, Finset.card_range, Finset.card_range]

/-- At most `width * height + 1` distinct cells are ever recorded. -/
theorem reachedCard_le {map : Image} {start : Point} {re : List PathNode}
    (h : ReachedTree map start re) : reachedCard re ≤ map.width * map.height + 1 := by
  have hsub : (coords re).toFinset ⊆ insert start (cellSet map) := by
    intro q hq
    rw [List.mem_toFinset] at hq
    obtain ⟨r, hr, rfl⟩ := List.mem_map.1 hq
    obtain ⟨i, hi⟩ := List.mem_iff_getElem?.1 hr
    rcases Nat.eq_zero_or_pos i with rfl | hpos
    · have hhead := h.1
      cases re with
      | nil => simp at hi
      | cons a t =>
        simp only [List.head?_cons, Option.some.injEq] at hhead
        simp only [List.getElem?_cons_zero, Option.some.injEq] at hi
        rw [← hi, hhead]
        exact Finset.mem_insert_self _ _
    · exact Finset.mem_insert_of_mem (mem_cellSet (h.2 i r hi hpos).1)
  unfold reachedCard
  calc (coords re).toFinset.card
      ≤ (insert start (cellSet map)).card := Finset.card_le_card hsub
    _ ≤ (cellSet map).card + 1 := Finset.card_insert_le _ _
    _ ≤ map.width * map.height + 1 := Nat.add_le_add_right (cellSet_card_le map) 1

/-! ## One iteration of the search loop -/

theorem FoldInv_of_SearchInv {map : Image} {start : Point} {cur : PathNode}
    {rest re : List PathNode} (h : SearchInv map start (cur :: rest) re) :
    FoldInv map start cur (rest, re) := by
  obtain ⟨htree, hfr, hclosed, hgf, hgr⟩ := h
  have hcg := hgf cur (List.mem_cons_self _ _)
  refine ⟨htree, fun n hn => hfr n (List.mem_cons_of_mem _ hn),
    hfr cur (List.mem_cons_self _ _), ?_, fun n hn => hgf n (List.mem_cons_of_mem _ hn),
    hgr, hcg.1, hcg.2⟩
  intro q hq
  rcases hclosed q hq with ⟨n, hn, hnp⟩ | hc
  · rcases List.mem_cons.1 hn with rfl | hn
    · exact Or.inl hnp.symm
    · exact Or.inr (Or.inl ⟨n, hn, hnp⟩)
  · exact Or.inr (Or.inr hc)

/-- One iteration of the search loop keeps the loop invariant. -/
theorem searchStep_inv {map : Image} {start : Point} (endP : Point) {cur : PathNode}
    {rest re : List PathNode} (h : SearchInv map start (cur :: rest) re) :
    SearchInv map start (searchStep map endP cur rest re).1
      (searchStep map endP cur rest re).2 := by
  have hfold := FoldInv_foldl endP (neighbors cur.p) (fun _ hnb => hnb) (rest, re)
    (FoldInv_of_SearchInv h)
  have hvis := mem_coords_foldl map endP cur (neighbors cur.p) (rest, re)
  obtain ⟨htree, hfr, _, hclosed, hgf, hgr, _, _⟩ := hfold
  have hperm := reorderFrontier_perm
    ((neighbors cur.p).foldl (visitNeighbor map endP cur) (rest, re)).1
  unfold searchStep
  simp only
  refine ⟨htree, fun n hn => hfr n (hperm.mem_iff.1 hn), ?_,
    fun n hn => hgf n (hperm.mem_iff.1 hn), hgr⟩
  intro q hq
  rcases hclosed q hq with rfl | ⟨n, hn, hnp⟩ | hc
  · exact Or.inr (fun nb hnb hv => hvis nb hnb hv)
  · exact Or.inl ⟨n, hperm.mem_iff.2 hn, hnp⟩
  · exact Or.inr hc

/-- One iteration of the search loop lowers the termination measure. -/
theorem searchStep_measure {map : Image} {start : Point} (endP : Point) {cur : PathNode}
    {rest re : List PathNode} (M : Nat) (h : SearchInv map start (cur :: rest) re)
    (hM : reachedCard re ≤ M) :
    frontierMeasure M (searchStep map endP cur rest re).1
      < frontierMeasure M (cur :: rest) := by
  obtain ⟨hg0, hg1⟩ := h.2.2.2.1 cur (List.mem_cons_self _ _)
  have hfold := frontierMeasure_foldl M map endP cur (neighbors cur.p) (rest, re)
  have hlen : (neighbors cur.p).length = 4 := rfl
  rw [hlen] at hfold
  have hperm := frontierMeasure_perm M (reorderFrontier_perm
    ((neighbors cur.p).foldl (visitNeighbor map endP cur) (rest, re)).1)
  unfold searchStep
  simp only
  rw [hperm, frontierMeasure_cons]
  have hexp : M - cur.gvalue.toNat = (M - (cur.gvalue + 1).toNat) + 1 := by omega
  have hw : nodeWeight M cur = 5 * 5 ^ (M - (cur.gvalue + 1).toNat) := by
    unfold nodeWeight
    rw [hexp, pow_succ]
    ring
  have hpos : 0 < 5 ^ (M - (cur.gvalue + 1).toNat) := Nat.pow_pos (by decide)
  rw [hw]
  simp only at hfold
  omega

/-! ## The search loop -/

theorem searchLoop_nil (map : Image) (endP : Point) (k : Nat) (re : List PathNode) :
    searchLoop map endP k [] re = some re := by
  cases k <;> rfl

/-- The search loop stops: once the fuel covers the termination measure it
returns, and its result satisfies the loop invariant with an empty frontier. -/
theorem searchLoop_returns {map : Image} {start : Point} (endP : Point) (k : Nat) :
    ∀ fr re : List PathNode, SearchInv map start fr re →
      frontierMeasure (map.width * map.height + 1) fr ≤ k →
      ∃ re', searchLoop map endP k fr re = some re' ∧ SearchInv map start [] re' := by
  induction k with
  | zero =>
    intro fr re hinv hk
    cases fr with
    | nil => exact ⟨re, rfl, hinv⟩
    | cons cur rest =>
      rw [frontierMeasure_cons] at hk
      have := nodeWeight_pos (map.width * map.height + 1) cur
      omega
  | succ n ih =>
    intro fr re hinv hk
    cases fr with
    | nil => exact ⟨re, rfl, hinv⟩
    | cons cur rest =>
      have hlt := searchStep_measure endP (map.width * map.height + 1) hinv
        (reachedCard_le hinv.1)
      exact ih _ _ (searchStep_inv endP hinv) (by omega)

/-- Whatever the fuel, a result of the search loop satisfies the loop
invariant with an empty frontier. -/
theorem searchLoop_inv {map : Image} {start : Point} (endP : Point) (k : Nat) :
    ∀ fr re re' : List PathNode, SearchInv map start fr re →
      searchLoop map endP k fr re = some re' → SearchInv map start [] re' := by
  induction k with
  | zero =>
    intro fr re re' hinv hres
    cases fr with
    | nil =>
      rw [searchLoop_nil] at hres
      injection hres with hres
      rw [← hres]; exact hinv
    | cons cur rest => cases hres
  | succ n ih =>
    intro fr re re' hinv hres
    cases fr with
    | nil =>
      rw [searchLoop_nil] at hres
      injection hres with hres
      rw [← hres]; exact hinv
    | cons cur rest => exact ih _ _ re' (searchStep_inv endP hinv) hres

theorem SearchInv_init (map : Image) (start : Point) :
    SearchInv map start [⟨start, 0, 0, none⟩] [⟨start, 0, 0, none⟩] := by
  refine ⟨⟨rfl, ?_⟩, ?_, ?_, ?_, ?_⟩
  · intro i r hr hi
    have := lt_length_of_getElem? hr
    simp only [List.length_singleton] at this
    omega
  · intro n hn
    rw [List.mem_singleton.1 hn]
    simp [coords]
  · intro q hq
    refine Or.inl ⟨⟨start, 0, 0, none⟩, List.mem_singleton.2 rfl, ?_⟩
    have hq' : q = start := by simpa [coords] using hq
    rw [hq']
  · intro n hn
    rw [List.mem_singleton.1 hn]
    simp [reachedCard, coords]
  · intro r hr
    rw [List.mem_singleton.1 hr]
    simp [reachedCard, coords]

theorem frontierMeasure_init (map : Image) (start : Point) :
    frontierMeasure (map.width * map.height + 1) [⟨start, 0, 0, none⟩] = searchFuel map := by
  simp [frontierMeasure, nodeWeight, searchFuel]

theorem searchLoop_cons_succ (map : Image) (endP : Point) (k : Nat) (cur : PathNode)
    (rest re : List PathNode) :
    searchLoop map endP (k + 1) (cur :: rest) re
      = searchLoop map endP k (searchStep map endP cur rest re).1
          (searchStep map endP cur rest re).2 := rfl

/-- More fuel does not change a result of the search loop. -/
theorem searchLoop_mono (map : Image) (endP : Point) (k : Nat) :
    ∀ fr re r : List PathNode, searchLoop map endP k fr re = some r →
      searchLoop map endP (k + 1) fr re = some r := by
  induction k with
  | zero =>
    intro fr re r h
    cases fr with
    | nil => rw [searchLoop_nil] at h ⊢; exact h
    | cons cur rest => cases h
  | succ n ih =>
    intro fr re r h
    cases fr with
    | nil => rw [searchLoop_nil] at h ⊢; exact h
    | cons cur rest =>
      rw [searchLoop_cons_succ] at h ⊢
      exact ih _ _ r h

theorem length_visitNeighbor_le (map : Image) (endP : Point) (cur : PathNode)
    (st : List PathNode × List PathNode) (nb : Point) :
    (visitNeighbor map endP cur st nb).2.length ≤ st.2.length + 1 := by
  rcases visitNeighbor_cases map endP cur st nb with ⟨he, _⟩ | ⟨_, _, he⟩
  · rw [he]; exact Nat.le_succ _
  · rw [he]
    show (st.2 ++ [reachedNode endP cur st.2 nb]).length ≤ _
    simp

theorem length_foldl_le (map : Image) (endP : Point) (cur : PathNode) (l : List Point) :
    ∀ st : List PathNode × List PathNode,
      (l.foldl (visitNeighbor map endP cur) st).2.length ≤ st.2.length + l.length := by
  induction l with
  | nil => intro st; exact Nat.le_refl _
  | cons a t ih =>
    intro st
    rw [List.foldl_cons]
    have h1 := ih (visitNeighbor map endP cur st a)
    have h2 := length_visitNeighbor_le map endP cur st a
    simp only [List.length_cons]
    omega

theorem length_searchStep_le (map : Image) (endP : Point) (cur : PathNode)
    (rest re : List PathNode) :
    (searchStep map endP cur rest re).2.length ≤ re.length + 4 := by
  exact length_foldl_le map endP cur (neighbors cur.p) (rest, re)

/-- The array `reached` grows by at most four entries for each unit of the
termination measure. -/
theorem searchLoop_length {map : Image} {start : Point} (endP : Point) (k : Nat) :
    ∀ fr re re' : List PathNode, SearchInv map start fr re →
      searchLoop map endP k fr re = some re' →
      re'.length ≤ re.length + 4 * frontierMeasure (map.width * map.height + 1) fr := by
  induction k with
  | zero =>
    intro fr re re' hinv hres
    cases fr with
    | nil =>
      rw [searchLoop_nil] at hres
      injection hres with hres
      rw [← hres]; exact Nat.le_add_right _ _
    | cons cur rest => cases hres
  | succ n ih =>
    intro fr re re' hinv hres
    cases fr with
    | nil =>
      rw [searchLoop_nil] at hres
      injection hres with hres
      rw [← hres]; exact Nat.le_add_right _ _
    | cons cur rest =>
      rw [searchLoop_cons_succ] at hres
      have h1 := ih _ _ re' (searchStep_inv endP hinv) hres
      have h2 := length_searchStep_le map endP cur rest re
      have h3 := searchStep_measure endP (map.width * map.height + 1) hinv
        (reachedCard_le hinv.1)
      omega

/-! ## Reachable cells and `reached` -/

theorem mem_neighbors_of_adjacent4 {b c : Point} (h : adjacent4 b c) : c ∈ neighbors b := by
  unfold adjacent4 at h
  cases b with
  | mk bx by' =>
    cases c with
    | mk cx cy =>
      simp only at h
      simp only [neighbors, List.mem_cons, List.mem_singleton, List.not_mem_nil, or_false,
        Point.mk.injEq]
      omega

/-- When the frontier is empty, every cell reachable from the start is in
`reached`. -/
theorem mem_coords_of_route {map : Image} {start : Point} {re : List PathNode}
    (hinv : SearchInv map start [] re) {e : Point} {n : Nat} (h : Route map start e n) :
    e ∈ coords re := by
  induction h with
  | here _ =>
    have hhead := hinv.1.1
    cases re with
    | nil => simp at hhead
    | cons x t =>
      simp only [List.head?_cons, Option.some.injEq] at hhead
      rw [hhead]
      simp [coords]
  | step _ hadj hval ih =>
    rcases hinv.2.2.1 _ ih with ⟨n, hn, _⟩ | hc
    · cases hn
    · exact hc _ (mem_neighbors_of_adjacent4 hadj) hval

/-- Every cell recorded in `reached` can be reached from a valid start. -/
theorem route_of_getElem? {map : Image} {start : Point} {re : List PathNode}
    (htree : ReachedTree map start re) (hs : isValid map start = true) :
    ∀ (i : Nat) (r : PathNode), re[i]? = some r → ∃ n, Route map start r.p n := by
  intro i
  induction i using Nat.strong_induction_on with
  | _ i ih =>
    intro r hr
    rcases Nat.eq_zero_or_pos i with rfl | hpos
    · have hhead := htree.1
      cases re with
      | nil => simp at hr
      | cons x t =>
        simp only [List.head?_cons, Option.some.injEq] at hhead
        simp only [List.getElem?_cons_zero, Option.some.injEq] at hr
        rw [← hr, hhead]
        exact ⟨0, Route.here start hs⟩
    · obtain ⟨hv, j, pr, hj, _, hpr, _, hadj⟩ := htree.2 i r hr hpos
      obtain ⟨n, hn⟩ := ih j hj pr hpr
      exact ⟨n + 1, Route.step hn hadj hv⟩

theorem reachable_of_mem_coords {map : Image} {start : Point} {re : List PathNode}
    (htree : ReachedTree map start re) (hs : isValid map start = true) {q : Point}
    (hq : q ∈ coords re) : Reachable map start q := by
  obtain ⟨r, hr, rfl⟩ := List.mem_map.1 hq
  obtain ⟨i, hi⟩ := List.mem_iff_getElem?.1 hr
  exact route_of_getElem? htree hs i r hi

/-! ## Backtracking -/

theorem backtrack_stop (re : List PathNode) (start : Point) (fuel : Nat) (q : Point)
    (path : List Point)
    (h : ¬ ((q.x ≠ start.x ∨ q.y ≠ start.y) ∧ path.length < re.length)) :
    backtrack re start fuel q path = Outcome.returned path := by
  unfold backtrack
  rw [if_neg h]

theorem backtrack_zero (re : List PathNode) (start : Point) (q : Point) (path : List Point)
    (h : (q.x ≠ start.x ∨ q.y ≠ start.y) ∧ path.length < re.length) :
    backtrack re start 0 q path = Outcome.running := by
  unfold backtrack
  rw [if_pos h]

theorem backtrack_miss (re : List PathNode) (start : Point) (fuel : Nat) (q : Point)
    (path : List Point)
    (h : (q.x ≠ start.x ∨ q.y ≠ start.y) ∧ path.length < re.length)
    (hf : findReached re q = none) :
    backtrack re start (fuel + 1) q path = backtrack re start fuel q path := by
  conv_lhs => unfold backtrack
  rw [if_pos h]
  simp only [hf]

theorem backtrack_null (re : List PathNode) (start : Point) (fuel : Nat) (q : Point)
    (path : List Point)
    (h : (q.x ≠ start.x ∨ q.y ≠ start.y) ∧ path.length < re.length) {i : Nat}
    (hf : findReached re q = some i) (hp : (re.getD i nullNode).parent = none) :
    backtrack re start (fuel + 1) q path = Outcome.undefinedBehaviour := by
  conv_lhs => unfold backtrack
  rw [if_pos h]
  simp only [hf, hp]

theorem backtrack_hit (re : List PathNode) (start : Point) (fuel : Nat) (q : Point)
    (path : List Point)
    (h : (q.x ≠ start.x ∨ q.y ≠ start.y) ∧ path.length < re.length) {i j : Nat}
    (hf : findReached re q = some i) (hp : (re.getD i nullNode).parent = some j) :
    backtrack re start (fuel + 1) q path
      = backtrack re start fuel (re.getD j nullNode).p (path ++ [q]) := by
  conv_lhs => unfold backtrack
  rw [if_pos h]
  simp only [hf, hp]

/-- More fuel does not change a result of the backtracking loop. -/
theorem backtrack_mono (re : List PathNode) (start : Point) (fuel : Nat) :
    ∀ (q : Point) (path : List Point) (o : Outcome (List Point)),
      backtrack re start fuel q path = o → o ≠ Outcome.running →
      backtrack re start (fuel + 1) q path = o := by
  induction fuel with
  | zero =>
    intro q path o h ho
    by_cases hc : (q.x ≠ start.x ∨ q.y ≠ start.y) ∧ path.length < re.length
    · rw [backtrack_zero re start q path hc] at h
      exact absurd h.symm ho
    · rw [backtrack_stop re start _ q path hc] at h ⊢
      exact h
  | succ n ih =>
    intro q path o h ho
    by_cases hc : (q.x ≠ start.x ∨ q.y ≠ start.y) ∧ path.length < re.length
    · cases hf : findReached re q with
      | none =>
        rw [backtrack_miss re start _ q path hc hf] at h ⊢
        exact ih q path o h ho
      | some i =>
        cases hp : (re.getD i nullNode).parent with
        | none =>
          rw [backtrack_null re start _ q path hc hf hp] at h ⊢
          exact h
        | some j =>
          rw [backtrack_hit re start _ q path hc hf hp] at h ⊢
          exact ih _ _ o h ho
    · rw [backtrack_stop re start _ q path hc] at h ⊢
      exact h

/-- When the cell looked for is not in `reached`, the backtracking loop never
ends: its body changes nothing and its test stays true. -/
theorem backtrack_running (re : List PathNode) (start q : Point)
    (hq : q.x ≠ start.x ∨ q.y ≠ start.y) (hlen : 0 < re.length)
    (hf : findReached re q = none) (fuel : Nat) :
    backtrack re start fuel q [] = Outcome.running := by
  have hc : (q.x ≠ start.x ∨ q.y ≠ start.y) ∧ ([] : List Point).length < re.length :=
    ⟨hq, hlen⟩
  induction fuel with
  | zero => exact backtrack_zero re start q [] hc
  | succ n ih => rw [backtrack_miss re start n q [] hc hf]; exact ih

theorem getD_of_getElem? {l : List PathNode} {i : Nat} {r : PathNode} (h : l[i]? = some r) :
    l.getD i nullNode = r := by
  rw [List.getD_eq_getElem?_getD, h]
  rfl

/-- From a cell recorded in `reached` the backtracking loop returns: it
appends to `path` a chain of valid cells, none of them the start, that begins
at the cell and ends next to the start. -/
theorem backtrack_returns {map : Image} {start : Point} {re : List PathNode}
    (htree : ReachedTree map start re) :
    ∀ (i : Nat) (q : Point) (path : List Point), findReached re q = some i →
      path.length + i < re.length → ∀ fuel : Nat, i ≤ fuel →
      ∃ cells, backtrack re start fuel q path = Outcome.returned (path ++ cells) ∧
        List.Chain' adjacent4 (cells ++ [start]) ∧
        (cells ++ [start]).head? = some q ∧
        (∀ c ∈ cells, isValid map c = true ∧ c ≠ start) := by
  intro i
  induction i using Nat.strong_induction_on with
  | _ i ih =>
    intro q path hf hlen fuel hfuel
    obtain ⟨r, hr, hrp⟩ := findReached_some hf
    by_cases hq : q = start
    · refine ⟨[], ?_, by simp, by simp [hq], by simp⟩
      rw [List.append_nil]
      apply backtrack_stop
      rw [hq]
      simp
    · have hc : (q.x ≠ start.x ∨ q.y ≠ start.y) ∧ path.length < re.length := by
        constructor
        · by_contra hn
          apply hq
          apply (Point.eq_iff _ _).1
          constructor
          · by_contra hx; exact hn (Or.inl hx)
          · by_contra hy; exact hn (Or.inr hy)
        · omega
      have hpos : 0 < i := by
        rcases Nat.eq_zero_or_pos i with rfl | hpos
        · exfalso
          have hhead := htree.1
          cases re with
          | nil => simp at hr
          | cons x t =>
            simp only [List.head?_cons, Option.some.injEq] at hhead
            simp only [List.getElem?_cons_zero, Option.some.injEq] at hr
            apply hq
            rw [← hrp, ← hr, hhead]
        · exact hpos
      obtain ⟨hv, j, pr, hj, hpar, hpr, hfj, hadj⟩ := htree.2 i r hr hpos
      cases fuel with
      | zero => omega
      | succ f =>
        have hgi := getD_of_getElem? hr
        have hgj := getD_of_getElem? hpr
        rw [backtrack_hit re start f q path hc hf (by rw [hgi]; exact hpar), hgj]
        obtain ⟨cells, hres, hchain, hhead, hvalid⟩ :=
          ih j hj pr.p (path ++ [q]) hfj
            (by simp only [List.length_append, List.length_singleton]; omega) f (by omega)
        refine ⟨q :: cells, ?_, ?_, by simp, ?_⟩
        · rw [hres]; simp
        · rw [List.cons_append]
          refine List.Chain'.cons' hchain ?_
          intro y hy
          rw [hhead] at hy
          simp only [Option.mem_def, Option.some.injEq] at hy
          rw [← hy, ← hrp]
          exact adjacent4_symm hadj
        · intro c hcmem
          rcases List.mem_cons.1 hcmem with rfl | hcmem
          · exact ⟨by rw [← hrp]; exact hv, hq⟩
          · exact hvalid c hcmem

/-! ## The whole of `LoadPathAStar` -/

theorem isValid_iff_openCell (map : Image) (c : Point) :
    isValid map c = true ↔ OpenCell map c := by
  unfold isValid OpenCell
  simp only [Bool.and_eq_true, decide_eq_true_eq]
  constructor
  · intro ⟨⟨⟨⟨a, b⟩, c'⟩, d⟩, e⟩
    exact ⟨a, c', b, d, e⟩
  · intro ⟨a, c', b, d, e⟩
    exact ⟨⟨⟨⟨a, b⟩, c'⟩, d⟩, e⟩

/-- More fuel does not change a path returned by `LoadPathAStar`. -/
theorem LoadPathAStar_mono (map : Image) (start endP : Point) (fuel : Nat) (p : List Point)
    (h : LoadPathAStar fuel map start endP = Outcome.returned p) :
    LoadPathAStar (fuel + 1) map start endP = Outcome.returned p := by
  unfold LoadPathAStar at h ⊢
  simp only at h ⊢
  cases hs : searchLoop map endP fuel [⟨start, 0, 0, none⟩] [⟨start, 0, 0, none⟩] with
  | none => rw [hs] at h; cases h
  | some re =>
    rw [hs] at h
    rw [searchLoop_mono map endP fuel _ _ re hs]
    simp only at h ⊢
    exact backtrack_mono re start fuel endP [] _ h (by intro hc; cases hc)

theorem LoadPathAStar_mono_le (map : Image) (start endP : Point) {fuel fuel' : Nat}
    (hle : fuel ≤ fuel') (p : List Point)
    (h : LoadPathAStar fuel map start endP = Outcome.returned p) :
    LoadPathAStar fuel' map start endP = Outcome.returned p := by
  induction fuel', hle using Nat.le_induction with
  | base => exact h
  | succ n _ ih => exact LoadPathAStar_mono map start endP n p ih

/-- The path returned does not depend on the fuel. -/
theorem LoadPathAStar_unique (map : Image) (start endP : Point) {fuel fuel' : Nat}
    {p p' : List Point} (h : LoadPathAStar fuel map start endP = Outcome.returned p)
    (h' : LoadPathAStar fuel' map start endP = Outcome.returned p') : p = p' := by
  have h1 := LoadPathAStar_mono_le map start endP (Nat.le_max_left fuel fuel') p h
  have h2 := LoadPathAStar_mono_le map start endP (Nat.le_max_right fuel fuel') p' h'
  rw [h1] at h2
  injection h2

/-- The search loop of `LoadPathAStar` returns with fuel `pathFuel map`, and
the array `reached` it leaves is shorter than that fuel. -/
theorem search_returns (map : Image) (start endP : Point) (fuel : Nat)
    (hfuel : pathFuel map ≤ fuel) :
    ∃ re, searchLoop map endP fuel [⟨start, 0, 0, none⟩] [⟨start, 0, 0, none⟩] = some re ∧
      SearchInv map start [] re ∧ re.length ≤ fuel := by
  have hm := frontierMeasure_init map start
  unfold pathFuel at hfuel
  obtain ⟨re, hre, hinv⟩ := @searchLoop_returns map start endP fuel _ _
    (SearchInv_init map start) (by rw [hm]; omega)
  have hlen := searchLoop_length endP fuel _ _ re (SearchInv_init map start) hre
  rw [hm] at hlen
  simp only [List.length_singleton] at hlen
  exact ⟨re, hre, hinv, by omega⟩

/-- Main property of `LoadPathAStar`: from a valid start, for a reachable end
and enough fuel, it returns a chain of valid cells, none of them the start,
that begins at the end cell and, with the start appended, ends at the start. -/
theorem LoadPathAStar_returns (map : Image) (start endP : Point)
    (hs : isValid map start = true) (hr : Reachable map start endP) (fuel : Nat)
    (hfuel : pathFuel map ≤ fuel) :
    ∃ cells, LoadPathAStar fuel map start endP = Outcome.returned cells ∧
      List.Chain' adjacent4 (cells ++ [start]) ∧
      (cells ++ [start]).head? = some endP ∧
      (∀ c ∈ cells, isValid map c = true ∧ c ≠ start) := by
  have _ := hs
  obtain ⟨re, hre, hinv, hlen⟩ := search_returns map start endP fuel hfuel
  obtain ⟨n, hroute⟩ := hr
  obtain ⟨i, hi⟩ := findReached_isSome_of_mem (mem_coords_of_route hinv hroute)
  obtain ⟨r, hri, _⟩ := findReached_some hi
  have hilt := lt_length_of_getElem? hri
  obtain ⟨cells, hres, hchain, hhead, hvalid⟩ :=
    backtrack_returns hinv.1 i endP [] hi (by simpa using hilt) fuel (by omega)
  refine ⟨cells, ?_, hchain, hhead, hvalid⟩
  unfold LoadPathAStar
  simp only [hre]
  simpa using hres

/-- A chain of valid cells that ends at the start, read backwards, is a walk
from the start. -/
theorem route_of_chain {map : Image} {start : Point} (hs : isValid map start = true) :
    ∀ (cells : List Point) (q : Point), List.Chain' adjacent4 (cells ++ [start]) →
      (cells ++ [start]).head? = some q → (∀ c ∈ cells, isValid map c = true) →
      Route map start q cells.length := by
  intro cells
  induction cells with
  | nil =>
    intro q _ hhead _
    simp only [List.nil_append, List.head?_cons, Option.some.injEq] at hhead
    rw [← hhead]
    exact Route.here start hs
  | cons c cs ih =>
    intro q hchain hhead hvalid
    simp only [List.cons_append, List.head?_cons, Option.some.injEq] at hhead
    subst hhead
    rw [List.cons_append] at hchain
    have hne : cs ++ [start] ≠ [] := by simp
    obtain ⟨q', hq'⟩ : ∃ q', (cs ++ [start]).head? = some q' := by
      cases hcs : cs ++ [start] with
      | nil => exact absurd hcs hne
      | cons a t => exact ⟨a, rfl⟩
    have hadj : adjacent4 c q' := List.Chain'.rel_head? hchain hq'
    have hroute := ih q' hchain.tail hq' (fun x hx => hvalid x (List.mem_cons_of_mem _ hx))
    exact Route.step hroute (adjacent4_symm hadj) (hvalid c (List.mem_cons_self _ _))

/-- A walk is at least as long as the Manhattan distance between its ends. -/
theorem manhattan_le_of_route {map : Image} {a b : Point} {n : Nat} (h : Route map a b n) :
    Int.natAbs (a.x - b.x) + Int.natAbs (a.y - b.y) ≤ n := by
  induction h with
  | here _ => simp
  | step _ hadj _ ih =>
    unfold adjacent4 at hadj
    omega

/-! ## Runs on concrete grids -/

theorem LoadPathAStar_grid5 :
    LoadPathAStar 20 grid5 ⟨1, 1⟩ ⟨3, 3⟩
      = Outcome.returned [⟨3, 3⟩, ⟨2, 3⟩, ⟨1, 3⟩, ⟨1, 2⟩] := by
  decide!

theorem route_grid5 : Route grid5 ⟨1, 1⟩ ⟨3, 3⟩ 4 :=
  route_of_chain (by decide!) [⟨3, 3⟩, ⟨2, 3⟩, ⟨1, 3⟩, ⟨1, 2⟩] ⟨3, 3⟩
    (by
      simp only [List.cons_append, List.nil_append, List.chain'_cons, List.chain'_singleton,
        and_true]
      decide!)
    (by decide!) (by decide!)

theorem LoadPathAStar_grid53 :
    LoadPathAStar 20 grid53 ⟨4, 1⟩ ⟨0, 0⟩
      = Outcome.returned
          [⟨0, 0⟩, ⟨0, 1⟩, ⟨0, 2⟩, ⟨1, 2⟩, ⟨2, 2⟩, ⟨2, 1⟩, ⟨2, 0⟩, ⟨3, 0⟩, ⟨4, 0⟩] := by
  decide!

theorem route_grid53 : Route grid53 ⟨4, 1⟩ ⟨0, 0⟩ 7 :=
  route_of_chain (by decide!)
    [⟨0, 0⟩, ⟨0, 1⟩, ⟨0, 2⟩, ⟨1, 2⟩, ⟨2, 2⟩, ⟨3, 2⟩, ⟨4, 2⟩] ⟨0, 0⟩
    (by
      simp only [List.cons_append, List.nil_append, List.chain'_cons, List.chain'_singleton,
        and_true]
      decide!)
    (by decide!) (by decide!)

/-- In `ringGrid` no walk leaves the cell (1, 1). -/
theorem route_ringGrid {e : Point} {n : Nat} (h : Route ringGrid ⟨1, 1⟩ e n) :
    e = ⟨1, 1⟩ := by
  induction h with
  | here _ => rfl
  | step _ hadj hval ih =>
    subst ih
    have hmem := mem_neighbors_of_adjacent4 hadj
    simp only [neighbors, List.mem_cons, List.mem_singleton, List.not_mem_nil, or_false] at hmem
    rcases hmem with rfl | rfl | rfl | rfl <;> exact absurd hval (by decide!)

theorem not_reachable_ringGrid : ¬ Reachable ringGrid ⟨1, 1⟩ ⟨3, 1⟩ := by
  intro ⟨n, h⟩
  have := route_ringGrid h
  exact absurd this (by decide)

/-- C3, run at the failing input: on the 5 by 3 grid with walls at (1, 0),
(1, 1) and (3, 1), from the open cell (4, 1) to the open cell (0, 0),
`LoadPathAStar` returns, whatever the fuel, a route of 9 moves through
(4, 0), (3, 0), (2, 0), although a walk of 7 moves exists: the route returned
is not a shortest one. -/
theorem LoadPathAStar_not_shortest :
    OpenCell grid53 ⟨4, 1⟩ ∧ OpenCell grid53 ⟨0, 0⟩ ∧
      LoadPathAStar 20 grid53 ⟨4, 1⟩ ⟨0, 0⟩
        = Outcome.returned
            [⟨0, 0⟩, ⟨0, 1⟩, ⟨0, 2⟩, ⟨1, 2⟩, ⟨2, 2⟩, ⟨2, 1⟩, ⟨2, 0⟩, ⟨3, 0⟩, ⟨4, 0⟩] ∧
      (∀ fuel cells, LoadPathAStar fuel grid53 ⟨4, 1⟩ ⟨0, 0⟩ = Outcome.returned cells →
        cells.length = 9) ∧
      Route grid53 ⟨4, 1⟩ ⟨0, 0⟩ 7 ∧
      ¬ ShortestDistance grid53 ⟨4, 1⟩ ⟨0, 0⟩ 9 := by
  refine ⟨by decide!, by decide!, LoadPathAStar_grid53, ?_, route_grid53, ?_⟩
  · intro fuel cells h
    have := LoadPathAStar_unique grid53 ⟨4, 1⟩ ⟨0, 0⟩ h LoadPathAStar_grid53
    subst this
    rfl
  · intro hd
    have := hd.2 7 route_grid53
    omega

/-- C4, the defect in general: for every grid and every pair of distinct
in-bounds open cells start, end with end not reachable from start,
`LoadPathAStar` never returns: for every fuel the call is still running (the
backtracking loop looks the end cell up in `reached`, does not find it, and
repeats with its state unchanged). -/
theorem LoadPathAStar_unreachable_never_returns (map : Image) (start endP : Point)
    (hs : OpenCell map start) (he : OpenCell map endP) (hne : start ≠ endP)
    (hnr : ¬ Reachable map start endP) (fuel : Nat) :
    LoadPathAStar fuel map start endP = Outcome.running := by
  have _ := he
  have hs' := (isValid_iff_openCell map start).2 hs
  unfold LoadPathAStar
  simp only
  cases hsl : searchLoop map endP fuel [⟨start, 0, 0, none⟩] [⟨start, 0, 0, none⟩] with
  | none => rfl
  | some re =>
    simp only
    have hinv := @searchLoop_inv map start endP fuel _ _ re (SearchInv_init map start) hsl
    have hnot : endP ∉ coords re := fun hmem => hnr (reachable_of_mem_coords hinv.1 hs' hmem)
    have hlen : 0 < re.length := by
      have hhead := hinv.1.1
      cases re with
      | nil => simp at hhead
      | cons x t => simp
    apply backtrack_running re start endP _ hlen (findReached_eq_none.2 hnot)
    by_contra hn
    apply hne
    apply ((Point.eq_iff _ _).1 _).symm
    constructor
    · by_contra hx; exact hn (Or.inl hx)
    · by_contra hy; exact hn (Or.inr hy)

/-- C4 at the failing input: in `ringGrid` the open cells (1, 1) and (3, 1)
are separated by walls, and `LoadPathAStar` from (1, 1) to (3, 1) is still
running with fuel 1000 and with the fuel `pathFuel ringGrid`, which is enough
for every search that returns. -/
theorem LoadPathAStar_unreachable_never_returns_witness :
    LoadPathAStar 1000 ringGrid ⟨1, 1⟩ ⟨3, 1⟩ = Outcome.running ∧
      LoadPathAStar (pathFuel ringGrid) ringGrid ⟨1, 1⟩ ⟨3, 1⟩ = Outcome.running :=
  ⟨LoadPathAStar_unreachable_never_returns ringGrid ⟨1, 1⟩ ⟨3, 1⟩ (by decide!)
      (by decide!) (by decide) not_reachable_ringGrid 1000,
    LoadPathAStar_unreachable_never_returns ringGrid ⟨1, 1⟩ ⟨3, 1⟩ (by decide!)
      (by decide!) (by decide) not_reachable_ringGrid (pathFuel ringGrid)⟩

/-! ## Pixels that a draw leaves alone -/

theorem pixelIndex_inj {image : Image} {x y a b : Int} (h1 : inBounds image x y)
    (h2 : inBounds image a b) (h : pixelIndex image x y = pixelIndex image a b) :
    x = a ∧ y = b := by
  obtain ⟨hx0, hx1, hy0, hy1⟩ := h1
  obtain ⟨ha0, ha1, hb0, hb1⟩ := h2
  unfold pixelIndex at h
  have hx : x.toNat < image.width := by omega
  have ha : a.toNat < image.width := by omega
  have hmod := congrArg (fun n => n % image.width) h
  simp only [Nat.mul_comm _ image.width, Nat.mul_add_mod, Nat.mod_eq_of_lt hx,
    Nat.mod_eq_of_lt ha] at hmod
  have hdiv : y.toNat * image.width = b.toNat * image.width := by omega
  have hy : y.toNat = b.toNat := Nat.eq_of_mul_eq_mul_right (by omega) hdiv
  constructor <;> omega

/-- Drawing a pixel leaves every other pixel as it was. -/
theorem GetImageColor_ImageDrawPixel_other (image : Image) (x y a b : Int) (c : Color)
    (hne : ¬ (a = x ∧ b = y)) :
    GetImageColor (ImageDrawPixel image x y c) a b = GetImageColor image a b := by
  by_cases hxy : inBounds image x y
  · unfold GetImageColor
    by_cases hab : inBounds image a b
    · rw [if_pos hab, if_pos ((inBounds_ImageDrawPixel image x y c a b).2 hab),
        pixelIndex_ImageDrawPixel]
      unfold ImageDrawPixel
      rw [if_pos hxy]
      have hidx : pixelIndex image x y ≠ pixelIndex image a b := by
        intro he
        have := pixelIndex_inj hxy hab he
        exact hne ⟨this.1.symm, this.2.symm⟩
      simp only [List.getD_eq_getElem?_getD, List.getElem?_set, if_neg hidx]
    · rw [if_neg hab, if_neg (fun h => hab ((inBounds_ImageDrawPixel image x y c a b).1 h))]
  · unfold ImageDrawPixel
    rw [if_neg hxy]

theorem BorderWall_of_BorderWhite {image : Image} (h : BorderWhite image) : BorderWall image := by
  intro x y hb ho
  rw [h x y hb ho]
  rfl

theorem BorderWall_ImageDrawPixel {image : Image} (hwf : WellFormed image)
    (h : BorderWall image) (x y : Int) : BorderWall (ImageDrawPixel image x y WHITE) := by
  intro a b hab hbord
  rw [ImageDrawPixel_width, ImageDrawPixel_height] at hbord
  have hab' := (inBounds_ImageDrawPixel image x y WHITE a b).1 hab
  by_cases he : a = x ∧ b = y
  · obtain ⟨rfl, rfl⟩ := he
    rw [GetImageColor_ImageDrawPixel_self hwf hab']
    rfl
  · rw [GetImageColor_ImageDrawPixel_other image x y a b WHITE he]
    exact h a b hab' hbord

theorem stepFrom_zero (p dir : Point) : stepFrom p dir 0 = p := by
  cases p
  simp [stepFrom]

theorem stepFrom_succ (p dir : Point) (j : Nat) :
    stepFrom ⟨p.x + dir.x, p.y + dir.y⟩ dir j = stepFrom p dir (j + 1) := by
  unfold stepFrom
  simp only [Point.mk.injEq]
  constructor <;> (push_cast; ring)

theorem stepFrom_ne_self {p dir : Point} (hdir : dir ∈ directions) (j : Nat) :
    stepFrom p dir (j + 1) ≠ p := by
  intro h
  cases p with
  | mk px py =>
    unfold stepFrom at h
    simp only [Point.mk.injEq] at h
    simp only [directions, List.mem_cons, List.mem_singleton, List.not_mem_nil,
      or_false] at hdir
    rcases hdir with rfl | rfl | rfl | rfl <;> simp at h <;> omega

/-! ## The walk that grows a wall, cell by cell -/

theorem not_onBorder_of_not_wall {im : Image} (hbw : BorderWall im) {cur : Point}
    (hcur : inBounds im cur.x cur.y) (hr : (GetImageColor im cur.x cur.y).r ≠ 255) :
    ¬ onBorder im.width im.height cur.x cur.y :=
  fun hb => hr (hbw cur.x cur.y hcur hb)

theorem inBounds_step {im : Image} {cur dir : Point} (hdir : dir ∈ directions)
    (hcur : inBounds im cur.x cur.y) (hnb : ¬ onBorder im.width im.height cur.x cur.y) :
    inBounds im (cur.x + dir.x) (cur.y + dir.y) := by
  unfold onBorder at hnb
  unfold inBounds at hcur ⊢
  simp only [directions, List.mem_cons, List.mem_singleton, List.not_mem_nil,
    or_false] at hdir
  rcases hdir with rfl | rfl | rfl | rfl <;> simp only <;> omega

theorem wallDistance_step {im : Image} {cur dir : Point} (hdir : dir ∈ directions)
    (hcur : inBounds im cur.x cur.y) (hnb : ¬ onBorder im.width im.height cur.x cur.y) :
    wallDistance im ⟨cur.x + dir.x, cur.y + dir.y⟩ dir + 1 = wallDistance im cur dir := by
  unfold wallDistance
  unfold onBorder at hnb
  unfold inBounds at hcur
  simp only [directions, List.mem_cons, List.mem_singleton, List.not_mem_nil,
    or_false] at hdir
  rcases hdir with rfl | rfl | rfl | rfl <;> simp <;> omega

theorem wallDistance_ImageDrawPixel (im : Image) (x y : Int) (c : Color) (p dir : Point) :
    wallDistance (ImageDrawPixel im x y c) p dir = wallDistance im p dir := by
  unfold wallDistance
  rw [ImageDrawPixel_width, ImageDrawPixel_height]

/-- The walk of `growWall`, cell by cell: inside a frame of walls it returns
after painting `k` cells, the first `k` cells from its starting cell in its
direction; none of them was a wall before, the next cell in that direction
was a wall already, all `k` are white afterwards, and every other pixel is
as it was. -/
theorem growWall_walk (dir : Point) (hdir : dir ∈ directions) (fuel : Nat) :
    ∀ (im : Image) (cur : Point), WellFormed im → BorderWall im →
      inBounds im cur.x cur.y → wallDistance im cur dir ≤ fuel →
      ∃ (k : Nat) (im' : Image), growWall fuel im cur dir = Outcome.returned im' ∧
        growWallCells fuel im cur dir = (List.range k).map (stepFrom cur dir) ∧
        k ≤ wallDistance im cur dir ∧
        (∀ j, j < k → inBounds im (stepFrom cur dir j).x (stepFrom cur dir j).y ∧
          (GetImageColor im (stepFrom cur dir j).x (stepFrom cur dir j).y).r ≠ 255 ∧
          GetImageColor im' (stepFrom cur dir j).x (stepFrom cur dir j).y = WHITE) ∧
        inBounds im (stepFrom cur dir k).x (stepFrom cur dir k).y ∧
        (GetImageColor im (stepFrom cur dir k).x (stepFrom cur dir k).y).r = 255 ∧
        (∀ a b : Int, (∀ j, j < k → stepFrom cur dir j ≠ ⟨a, b⟩) →
          GetImageColor im' a b = GetImageColor im a b) ∧
        im'.width = im.width ∧ im'.height = im.height ∧ WellFormed im' := by
  induction fuel with
  | zero =>
    intro im cur hwf hbw hcur hdist
    by_cases hr : (GetImageColor im cur.x cur.y).r ≠ 255
    · exfalso
      have hnb := not_onBorder_of_not_wall hbw hcur hr
      have := wallDistance_step hdir hcur hnb
      omega
    · refine ⟨0, im, ?_, ?_, Nat.zero_le _, ?_, ?_, ?_, ?_, rfl, rfl, hwf⟩
      · unfold growWall; rw [if_neg hr]
      · unfold growWallCells; rw [if_neg hr]; rfl
      · intro j hj; omega
      · rw [stepFrom_zero]; exact hcur
      · rw [stepFrom_zero]; exact not_not.1 hr
      · intro a b _; rfl
  | succ n ih =>
    intro im cur hwf hbw hcur hdist
    by_cases hr : (GetImageColor im cur.x cur.y).r ≠ 255
    · have hnb := not_onBorder_of_not_wall hbw hcur hr
      have hstep := wallDistance_step hdir hcur hnb
      have hnext : inBounds (ImageDrawPixel im cur.x cur.y WHITE)
          (cur.x + dir.x) (cur.y + dir.y) :=
        (inBounds_ImageDrawPixel im cur.x cur.y WHITE _ _).2 (inBounds_step hdir hcur hnb)
      obtain ⟨k, im', hres, hcells, hk, hpainted, hstopin, hstop, hframe, hw', hh', hwf'⟩ :=
        ih (ImageDrawPixel im cur.x cur.y WHITE) ⟨cur.x + dir.x, cur.y + dir.y⟩
          (ImageDrawPixel_wellFormed hwf _ _ _) (BorderWall_ImageDrawPixel hwf hbw _ _) hnext
          (by rw [wallDistance_ImageDrawPixel]; omega)
      rw [wallDistance_ImageDrawPixel] at hk
      have hother : ∀ j : Nat,
          GetImageColor (ImageDrawPixel im cur.x cur.y WHITE) (stepFrom cur dir (j + 1)).x
              (stepFrom cur dir (j + 1)).y
            = GetImageColor im (stepFrom cur dir (j + 1)).x (stepFrom cur dir (j + 1)).y := by
        intro j
        apply GetImageColor_ImageDrawPixel_other
        intro ⟨h1, h2⟩
        apply stepFrom_ne_self hdir j (p := cur)
        cases cur
        simp only at h1 h2
        cases hs : stepFrom _ dir (j + 1)
        rw [hs] at h1 h2
        simp only at h1 h2
        rw [h1, h2]
      refine ⟨k + 1, im', ?_, ?_, by omega, ?_, ?_, ?_, ?_, ?_, ?_, hwf'⟩
      · unfold growWall
        rw [if_pos hr]
        exact hres
      · unfold growWallCells
        rw [if_pos hr]
        simp only
        rw [hcells, List.range_succ_eq_map, List.map_cons, stepFrom_zero, List.map_map]
        congr 1
        apply List.map_congr_left
        intro j _
        exact stepFrom_succ cur dir j
      · intro j hj
        cases j with
        | zero =>
          rw [stepFrom_zero]
          refine ⟨hcur, hr, ?_⟩
          rw [hframe cur.x cur.y]
          · exact GetImageColor_ImageDrawPixel_self hwf hcur WHITE
          · intro j' _ he
            rw [stepFrom_succ] at he
            exact stepFrom_ne_self hdir j' he
        | succ j' =>
          have hp := hpainted j' (by omega)
          rw [stepFrom_succ] at hp
          rw [inBounds_ImageDrawPixel, hother j'] at hp
          exact hp
      · rw [stepFrom_succ, inBounds_ImageDrawPixel] at hstopin
        exact hstopin
      · rw [stepFrom_succ, hother k] at hstop
        exact hstop
      · intro a b hne
        rw [hframe a b]
        · apply GetImageColor_ImageDrawPixel_other
          intro ⟨h1, h2⟩
          apply hne 0 (by omega)
          rw [stepFrom_zero, h1, h2]
        · intro j hj he
          rw [stepFrom_succ] at he
          exact hne (j + 1) (by omega) he
      · rw [hw', ImageDrawPixel_width]
      · rw [hh', ImageDrawPixel_height]
    · refine ⟨0, im, ?_, ?_, Nat.zero_le _, ?_, ?_, ?_, ?_, rfl, rfl, hwf⟩
      · unfold growWall; rw [if_neg hr]
      · unfold growWallCells; rw [if_neg hr]; rfl
      · intro j hj; omega
      · rw [stepFrom_zero]; exact hcur
      · rw [stepFrom_zero]; exact not_not.1 hr
      · intro a b _; rfl

theorem wallDistance_of_interior {im : Image} {s d : Point}
    (hs : interior im.width im.height s) (hd : d ∈ directions) :
    inBounds im (s.x + d.x) (s.y + d.y) ∧
      wallDistance im ⟨s.x + d.x, s.y + d.y⟩ d ≤ max im.width im.height - 2 := by
  unfold interior at hs
  unfold inBounds wallDistance
  simp only [directions, List.mem_cons, List.mem_singleton, List.not_mem_nil, or_false] at hd
  rcases hd with rfl | rfl | rfl | rfl <;> simp <;> omega

/-- The frame of `grid5` is made of walls. -/
theorem BorderWall_grid5 : BorderWall grid5 := by
  intro x y hb ho
  have hw : grid5.width = 5 := rfl
  have hh : grid5.height = 5 := rfl
  obtain ⟨h1, h2, h3, h4⟩ := hb
  rw [hw] at h2
  rw [hh] at h4
  have hx : x = 0 ∨ x = 1 ∨ x = 2 ∨ x = 3 ∨ x = 4 := by omega
  have hy : y = 0 ∨ y = 1 ∨ y = 2 ∨ y = 3 ∨ y = 4 := by omega
  rcases hx with rfl | rfl | rfl | rfl | rfl <;>
    rcases hy with rfl | rfl | rfl | rfl | rfl <;>
    first
      | decide!
      | exact absurd ho (by decide!)

/-! ## Claims on the wall growth -/

/-- C13: for every seed point `s` that the growth loop of `GenImageMazeEx`
processes (entry `pointIndices[i]` of `mazePoints`, strictly inside a frame
of walls) with the direction `d` it draws, the wall-growing step paints
white exactly the cells `s + d, s + 2d, ..., s + kd`, none of which was a
wall before, where `s + (k + 1)d` is the first cell in that direction that
was a wall already, and leaves every other cell of the image as it was; if
`s + d` is a wall already the image is unchanged. -/
theorem growPoint_paints_run {σ : Type} (g : RandomGen σ) (fuel : Nat)
    (mazePoints : List Point) (pointIndices : List Int) (i : Nat) (st : Image × σ)
    (hpts : ∀ p ∈ mazePoints, interior st.1.width st.1.height p)
    (hlen : pointIndices.length = mazePoints.length)
    (hrange : ∀ v ∈ pointIndices, 0 ≤ v ∧ v ≤ (mazePoints.length : Int) - 1)
    (hi : i < mazePoints.length) (hfuel : st.1.width + st.1.height ≤ fuel)
    (hwf : WellFormed st.1) (hbw : BorderWall st.1) :
    ∃ (idx : Int) (s d : Point) (k : Nat) (im' : Image),
      readAt pointIndices i = Outcome.returned idx ∧
      readAt mazePoints idx = Outcome.returned s ∧
      readAt directions (g.GetRandomValue st.2 0 3).1 = Outcome.returned d ∧
      growPoint g fuel mazePoints pointIndices i st
        = Outcome.returned (im', (g.GetRandomValue st.2 0 3).2) ∧
      growWallCells fuel st.1 ⟨s.x + d.x, s.y + d.y⟩ d
        = (List.range k).map (fun j => stepFrom s d (j + 1)) ∧
      (∀ j, 1 ≤ j → j ≤ k →
        (GetImageColor st.1 (stepFrom s d j).x (stepFrom s d j).y).r ≠ 255 ∧
        GetImageColor im' (stepFrom s d j).x (stepFrom s d j).y = WHITE) ∧
      (GetImageColor st.1 (stepFrom s d (k + 1)).x (stepFrom s d (k + 1)).y).r = 255 ∧
      (∀ a b : Int, (∀ j, 1 ≤ j → j ≤ k → stepFrom s d j ≠ ⟨a, b⟩) →
        GetImageColor im' a b = GetImageColor st.1 a b) ∧
      (k = 0 → im' = st.1) := by
  obtain ⟨idx, hidx, hidxmem⟩ := readAt_returned pointIndices (i : Int) (by omega) (by omega)
  obtain ⟨hidx0, hidx1⟩ := hrange idx hidxmem
  obtain ⟨s, hs, hsmem⟩ := readAt_returned mazePoints idx hidx0 (by omega)
  obtain ⟨hd0, hd1⟩ := g.value_range st.2 0 3 (by decide)
  obtain ⟨d, hd, hdmem⟩ := readAt_returned directions (g.GetRandomValue st.2 0 3).1 hd0
    (by simp only [directions, List.length_cons, List.length_nil]; omega)
  obtain ⟨hcur, hdist⟩ := wallDistance_of_interior (hpts s hsmem) hdmem
  obtain ⟨k, im', hres, hcells, _, hpainted, _, hstop, hframe, _, _, _⟩ :=
    growWall_walk d hdmem fuel st.1 ⟨s.x + d.x, s.y + d.y⟩ hwf hbw hcur (by omega)
  refine ⟨idx, s, d, k, im', hidx, hs, hd, ?_, ?_, ?_, ?_, ?_, ?_⟩
  · unfold growPoint
    rw [hidx, Outcome.bind_returned, hs, Outcome.bind_returned]
    simp only
    rw [hd, Outcome.bind_returned, hres, Outcome.bind_returned]
  · rw [hcells]
    apply List.map_congr_left
    intro j _
    exact stepFrom_succ s d j
  · intro j h1 hk
    obtain ⟨j', rfl⟩ : ∃ j', j = j' + 1 := ⟨j - 1, by omega⟩
    have := hpainted j' (by omega)
    rw [stepFrom_succ] at this
    exact ⟨this.2.1, this.2.2⟩
  · rw [stepFrom_succ] at hstop
    exact hstop
  · intro a b hne
    apply hframe
    intro j hj he
    rw [stepFrom_succ] at he
    exact hne (j + 1) (by omega) (by omega) he
  · intro hk0
    subst hk0
    rw [stepFrom_zero] at hstop
    unfold growWall at hres
    rw [if_neg (by simpa using hstop)] at hres
    injection hres with hres
    exact hres.symm

/-- C13 on a 5 by 5 image with a white frame: one maze point, (1, 2), and a
generator that draws direction 3 (right). -/
theorem growPoint_paints_run_witness :
    ∃ (idx : Int) (s d : Point) (k : Nat) (im' : Image),
      readAt [(0 : Int)] (0 : Nat) = Outcome.returned idx ∧
      readAt [(⟨1, 2⟩ : Point)] idx = Outcome.returned s ∧
      readAt directions (maxGen.GetRandomValue () 0 3).1 = Outcome.returned d ∧
      growPoint maxGen 10 [⟨1, 2⟩] [0] 0 (grid5, ())
        = Outcome.returned (im', (maxGen.GetRandomValue () 0 3).2) ∧
      growWallCells 10 grid5 ⟨s.x + d.x, s.y + d.y⟩ d
        = (List.range k).map (fun j => stepFrom s d (j + 1)) ∧
      (∀ j, 1 ≤ j → j ≤ k →
        (GetImageColor grid5 (stepFrom s d j).x (stepFrom s d j).y).r ≠ 255 ∧
        GetImageColor im' (stepFrom s d j).x (stepFrom s d j).y = WHITE) ∧
      (GetImageColor grid5 (stepFrom s d (k + 1)).x (stepFrom s d (k + 1)).y).r = 255 ∧
      (∀ a b : Int, (∀ j, 1 ≤ j → j ≤ k → stepFrom s d j ≠ ⟨a, b⟩) →
        GetImageColor im' a b = GetImageColor grid5 a b) ∧
      (k = 0 → im' = grid5) :=
  growPoint_paints_run maxGen 10 [⟨1, 2⟩] [0] 0 (grid5, ())
    (by
      intro p hp
      rw [List.mem_singleton.1 hp]
      decide!)
    rfl
    (by
      intro v hv
      rw [List.mem_singleton.1 hv]
      decide)
    (by decide) (by decide!) (by decide!) BorderWall_grid5

/-- C14: for every image whose frame cells are all walls and every seed
point strictly inside the frame, the wall-growing walk in any of the four
directions terminates (it returns once the fuel covers the larger extent of
the image), after painting at most `max(width, height) - 2` cells. -/
theorem growWall_terminates (im : Image) (s d : Point) (hwf : WellFormed im)
    (hbw : BorderWall im) (hs : interior im.width im.height s) (hd : d ∈ directions)
    (fuel : Nat) (hfuel : max im.width im.height ≤ fuel) :
    ∃ im', growWall fuel im ⟨s.x + d.x, s.y + d.y⟩ d = Outcome.returned im' ∧
      (growWallCells fuel im ⟨s.x + d.x, s.y + d.y⟩ d).length ≤ max im.width im.height - 2 := by
  obtain ⟨hcur, hdist⟩ := wallDistance_of_interior hs hd
  obtain ⟨k, im', hres, hcells, hk, _⟩ :=
    growWall_walk d hd fuel im ⟨s.x + d.x, s.y + d.y⟩ hwf hbw hcur (by omega)
  refine ⟨im', hres, ?_⟩
  rw [hcells, List.length_map, List.length_range]
  omega

/-- C14 on `grid5`, from the seed (1, 2) towards the right. -/
theorem growWall_terminates_witness :
    ∃ im', growWall 5 grid5 ⟨(1 : Int) + 1, (2 : Int) + 0⟩ ⟨1, 0⟩ = Outcome.returned im' ∧
      (growWallCells 5 grid5 ⟨(1 : Int) + 1, (2 : Int) + 0⟩ ⟨1, 0⟩).length
        ≤ max grid5.width grid5.height - 2 :=
  growWall_terminates grid5 ⟨1, 2⟩ ⟨1, 0⟩ (by decide!) BorderWall_grid5 (by decide!)
    (by decide) 5 (by decide!)

/-! ## The checked generator does what the generator does -/

/-- Two loop bodies that agree on every state the invariant allows give the
same loop. -/
theorem foldl_range_congr {α : Type} (f f' : Nat → α → Outcome α) (P : Nat → α → Prop)
    (n : Nat) (a : α) (h0 : P 0 a)
    (hstep : ∀ k s, k < n → P k s → ∃ s', f k s = Outcome.returned s' ∧ P (k + 1) s')
    (hcongr : ∀ k s, k < n → P k s → f' k s = f k s) :
    (List.range n).foldl (fun acc k => Outcome.bind acc (f' k)) (Outcome.returned a)
      = (List.range n).foldl (fun acc k => Outcome.bind acc (f k)) (Outcome.returned a) := by
  have key : ∃ s, (List.range n).foldl (fun acc k => Outcome.bind acc (f' k))
        (Outcome.returned a) = Outcome.returned s ∧
      (List.range n).foldl (fun acc k => Outcome.bind acc (f k)) (Outcome.returned a)
        = Outcome.returned s ∧ P n s := by
    induction n with
    | zero => exact ⟨a, rfl, rfl, h0⟩
    | succ m ih =>
      obtain ⟨s, hs', hs, hP⟩ := ih (fun k s hk hp => hstep k s (Nat.lt_succ_of_lt hk) hp)
        (fun k s hk hp => hcongr k s (Nat.lt_succ_of_lt hk) hp)
      obtain ⟨t, ht, hPt⟩ := hstep m s (Nat.lt_succ_self m) hP
      refine ⟨t, ?_, ?_, hPt⟩
      · rw [List.range_succ, List.foldl_append, hs']
        simp only [List.foldl_cons, List.foldl_nil, Outcome.bind_returned]
        rw [hcongr m s (Nat.lt_succ_self m) hP, ht]
      · rw [List.range_succ, List.foldl_append, hs]
        simp only [List.foldl_cons, List.foldl_nil, Outcome.bind_returned]
        exact ht
  obtain ⟨s, h1, h2, _⟩ := key
  rw [h1, h2]

/-- Inside a frame of walls the walk never leaves the image: the checked walk
is the walk. -/
theorem growWallStrict_eq (dir : Point) (hdir : dir ∈ directions) (fuel : Nat) :
    ∀ (im : Image) (cur : Point), WellFormed im → BorderWall im →
      inBounds im cur.x cur.y →
      growWallStrict fuel im cur dir = growWall fuel im cur dir := by
  induction fuel with
  | zero =>
    intro im cur _ _ hcur
    unfold growWallStrict growWall
    rw [if_pos hcur]
  | succ n ih =>
    intro im cur hwf hbw hcur
    unfold growWallStrict growWall
    rw [if_pos hcur]
    by_cases hr : (GetImageColor im cur.x cur.y).r ≠ 255
    · rw [if_pos hr, if_pos hr]
      simp only
      have hnb := not_onBorder_of_not_wall hbw hcur hr
      exact ih _ _ (ImageDrawPixel_wellFormed hwf _ _ _) (BorderWall_ImageDrawPixel hwf hbw _ _)
        ((inBounds_ImageDrawPixel im cur.x cur.y WHITE _ _).2 (inBounds_step hdir hcur hnb))
    · rw [if_neg hr, if_neg hr]

theorem growPointStrict_eq {σ : Type} (g : RandomGen σ) (fuel W H : Nat)
    (mazePoints : List Point) (pointIndices : List Int) (i : Nat)
    (hpts : ∀ p ∈ mazePoints, interior W H p)
    (hlen : pointIndices.length = mazePoints.length)
    (hrange : ∀ v ∈ pointIndices, 0 ≤ v ∧ v ≤ (mazePoints.length : Int) - 1)
    (hi : i < mazePoints.length) (st : Image × σ)
    (hw : st.1.width = W) (hh : st.1.height = H) (hwf : WellFormed st.1)
    (hbw : BorderWall st.1) :
    growPointStrict g fuel mazePoints pointIndices i st
      = growPoint g fuel mazePoints pointIndices i st := by
  obtain ⟨idx, hidx, hidxmem⟩ := readAt_returned pointIndices (i : Int) (by omega) (by omega)
  obtain ⟨hidx0, hidx1⟩ := hrange idx hidxmem
  obtain ⟨s, hs, hsmem⟩ := readAt_returned mazePoints idx hidx0 (by omega)
  obtain ⟨hd0, hd1⟩ := g.value_range st.2 0 3 (by decide)
  obtain ⟨d, hd, hdmem⟩ := readAt_returned directions (g.GetRandomValue st.2 0 3).1 hd0
    (by simp only [directions, List.length_cons, List.length_nil]; omega)
  have hint := hpts s hsmem
  rw [← hw, ← hh] at hint
  obtain ⟨hcur, _⟩ := wallDistance_of_interior hint hdmem
  unfold growPointStrict growPoint
  rw [hidx, Outcome.bind_returned, Outcome.bind_returned, hs, Outcome.bind_returned,
    Outcome.bind_returned]
  simp only
  rw [hd, Outcome.bind_returned, Outcome.bind_returned,
    growWallStrict_eq d hdmem fuel st.1 _ hwf hbw hcur]

/-! ## Grids without an interior -/

theorem onBorder_of_small {W H : Nat} (hsmall : W < 3 ∨ H < 3) {x y : Nat} (hx : x < W)
    (hy : y < H) :
    (x : Int) = 0 ∨ (x : Int) = (W : Int) - 1 ∨ (y : Int) = 0 ∨ (y : Int) = (H : Int) - 1 := by
  omega

/-! ## The scan, pixel by pixel -/

theorem Outcome.bind_assoc {α β γ : Type} (o : Outcome α) (f : α → Outcome β)
    (h : β → Outcome γ) : (o.bind f).bind h = o.bind (fun a => (f a).bind h) := by
  cases o <;> rfl

theorem scanRowUpTo_zero {σ : Type} (g : RandomGen σ) (spacingRows spacingCols : Int)
    (skipChance : ℚ) (y : Nat) (st : ScanState σ) :
    scanRowUpTo g spacingRows spacingCols skipChance y 0 st = Outcome.returned st := rfl

theorem scanRowUpTo_succ {σ : Type} (g : RandomGen σ) (spacingRows spacingCols : Int)
    (skipChance : ℚ) (y x : Nat) (st : ScanState σ) :
    scanRowUpTo g spacingRows spacingCols skipChance y (x + 1) st
      = (scanRowUpTo g spacingRows spacingCols skipChance y x st).bind
          (scanCell g spacingRows spacingCols skipChance y x) := by
  unfold scanRowUpTo
  rw [List.range_succ, List.foldl_append]
  rfl

theorem scanRow_eq_scanRowUpTo {σ : Type} (g : RandomGen σ) (spacingRows spacingCols : Int)
    (skipChance : ℚ) (y : Nat) (st : ScanState σ) :
    scanRow g spacingRows spacingCols skipChance y st
      = scanRowUpTo g spacingRows spacingCols skipChance y st.imMaze.width st := rfl

theorem scanRows_succ {σ : Type} (g : RandomGen σ) (spacingRows spacingCols : Int)
    (skipChance : ℚ) (st : ScanState σ) (y : Nat) :
    scanRows g spacingRows spacingCols skipChance st (y + 1)
      = (scanRows g spacingRows spacingCols skipChance st y).bind
          (scanRow g spacingRows spacingCols skipChance y) := by
  unfold scanRows
  rw [List.range_succ, List.foldl_append]
  rfl

theorem scanImage_eq_scanRows {σ : Type} (g : RandomGen σ) (spacingRows spacingCols : Int)
    (skipChance : ℚ) (st : ScanState σ) :
    scanImage g spacingRows spacingCols skipChance st
      = scanRows g spacingRows spacingCols skipChance st st.imMaze.height := rfl

theorem scanUpTo_succ {σ : Type} (g : RandomGen σ) (spacingRows spacingCols : Int)
    (skipChance : ℚ) (st : ScanState σ) (y x : Nat) :
    scanUpTo g spacingRows spacingCols skipChance st y (x + 1)
      = (scanUpTo g spacingRows spacingCols skipChance st y x).bind
          (scanCell g spacingRows spacingCols skipChance y x) := by
  unfold scanUpTo
  rw [Outcome.bind_assoc]
  congr 1
  funext s
  exact scanRowUpTo_succ g spacingRows spacingCols skipChance y x s

theorem scanUpTo_zero {σ : Type} (g : RandomGen σ) (spacingRows spacingCols : Int)
    (skipChance : ℚ) (st : ScanState σ) (y : Nat) :
    scanUpTo g spacingRows spacingCols skipChance st y 0
      = scanRows g spacingRows spacingCols skipChance st y := by
  unfold scanUpTo
  cases scanRows g spacingRows spacingCols skipChance st y <;> rfl

/-- The end of a line is the beginning of the next. -/
theorem scanUpTo_next_row {σ : Type} (g : RandomGen σ) (spacingRows spacingCols : Int)
    (skipChance : ℚ) (st : ScanState σ) (y : Nat) (s0 : ScanState σ)
    (h0 : scanUpTo g spacingRows spacingCols skipChance st y 0 = Outcome.returned s0) :
    scanUpTo g spacingRows spacingCols skipChance st (y + 1) 0
      = scanUpTo g spacingRows spacingCols skipChance st y s0.imMaze.width := by
  rw [scanUpTo_zero] at h0
  rw [scanUpTo_zero, scanRows_succ, h0, Outcome.bind_returned]
  unfold scanUpTo
  rw [h0, Outcome.bind_returned]
  rfl

theorem GetImageColor_GenImageColor (width height : Nat) (c : Color) (x y : Int)
    (hb : inBounds (GenImageColor width height c) x y) :
    GetImageColor (GenImageColor width height c) x y = c := by
  have hlt := pixelIndex_lt (GenImageColor_wellFormed width height c) hb
  unfold GetImageColor
  rw [if_pos hb]
  have hlen : (GenImageColor width height c).data.length = width * height := by
    simp [GenImageColor]
  have hlt2 : pixelIndex (GenImageColor width height c) x y < width * height := by
    rw [← hlen]; exact hlt
  simp only [GenImageColor, List.getD_eq_getElem?_getD] at hlt2 ⊢
  rw [List.getElem?_replicate, if_pos hlt2]
  rfl

theorem interior_nat (W H : Nat) (p : Point) (h : interior W H p) :
    ∃ a b : Nat, p = ⟨a, b⟩ := by
  obtain ⟨h1, _, h3, _⟩ := h
  refine ⟨p.x.toNat, p.y.toNat, ?_⟩
  apply (Point.eq_iff _ _).1
  constructor
  · show p.x = ((p.x.toNat : Nat) : Int); omega
  · show p.y = ((p.y.toNat : Nat) : Int); omega

theorem point_nat_eq (a b x y : Nat) :
    (⟨a, b⟩ : Point) = ⟨x, y⟩ ↔ (a = x ∧ b = y) := by
  constructor
  · intro h
    have h1 := congrArg Point.x h
    have h2 := congrArg Point.y h
    simp only at h1 h2
    omega
  · rintro ⟨rfl, rfl⟩; rfl

/-- A pixel at which the scan saves nothing: the trace moves on unchanged. -/
theorem TraceInv_step_same {σ : Type} (g : RandomGen σ) (spacingRows spacingCols : Int)
    (skipChance : ℚ) (st : ScanState σ) (W H y x : Nat) (s s' : ScanState σ)
    (hinv : TraceInv g spacingRows spacingCols skipChance st W H y x s)
    (hsi : ScanInv W H s') (hmp : s'.mazePoints = s.mazePoints)
    (hcol : ∀ a b : Nat, interior W H ⟨a, b⟩ →
      GetImageColor s'.imMaze a b = GetImageColor s.imMaze a b)
    (hno : ¬ (interior W H ⟨x, y⟩ ∧
      seededAt g spacingRows spacingCols skipChance st x y)) :
    TraceInv g spacingRows spacingCols skipChance st W H y (x + 1) s' := by
  obtain ⟨_, hM, hP, hC⟩ := hinv
  refine ⟨hsi, ?_, ?_, ?_⟩
  · intro a b
    rw [hmp, hM a b]
    constructor
    · rintro ⟨hsc, hi, hse⟩
      exact ⟨by unfold scannedAt at *; omega, hi, hse⟩
    · rintro ⟨hsc, hi, hse⟩
      refine ⟨?_, hi, hse⟩
      by_cases hab : a = x ∧ b = y
      · obtain ⟨rfl, rfl⟩ := hab; exact absurd ⟨hi, hse⟩ hno
      · unfold scannedAt at *; omega
  · rw [hmp]; exact hP
  · intro a b hi; rw [hmp, hcol a b hi]; exact hC a b hi

/-- A pixel at which the scan saves a point and paints it. -/
theorem TraceInv_step_add {σ : Type} (g : RandomGen σ) (spacingRows spacingCols : Int)
    (skipChance : ℚ) (st : ScanState σ) (W H y x : Nat) (s s' : ScanState σ)
    (hinv : TraceInv g spacingRows spacingCols skipChance st W H y x s)
    (hint : interior W H ⟨x, y⟩)
    (hseed : seededAt g spacingRows spacingCols skipChance st x y)
    (hmp : s'.mazePoints = s.mazePoints ++ [⟨x, y⟩])
    (him : s'.imMaze = ImageDrawPixel s.imMaze x y WHITE) :
    TraceInv g spacingRows spacingCols skipChance st W H y (x + 1) s' := by
  obtain ⟨⟨hw, hh, hwf, hpts⟩, hM, hP, hC⟩ := hinv
  have hb : inBounds s.imMaze (x : Int) (y : Int) := by
    obtain ⟨h1, h2, h3, h4⟩ := hint
    simp only at h1 h2 h3 h4
    unfold inBounds; rw [hw, hh]; omega
  have hnot : (⟨x, y⟩ : Point) ∉ s.mazePoints := by
    intro hmem
    have := ((hM x y).1 hmem).1
    unfold scannedAt at this; omega
  refine ⟨⟨?_, ?_, ?_, ?_⟩, ?_, ?_, ?_⟩
  · rw [him, ImageDrawPixel_width, hw]
  · rw [him, ImageDrawPixel_height, hh]
  · rw [him]; exact ImageDrawPixel_wellFormed hwf _ _ _
  · intro p hp
    rw [hmp] at hp
    rcases List.mem_append.1 hp with hp | hp
    · exact hpts p hp
    · rw [List.mem_singleton.1 hp]; exact hint
  · intro a b
    rw [hmp, List.mem_append, List.mem_singleton, hM a b, point_nat_eq]
    constructor
    · rintro (⟨hsc, hi, hse⟩ | ⟨rfl, rfl⟩)
      · exact ⟨by unfold scannedAt at *; omega, hi, hse⟩
      · exact ⟨by unfold scannedAt; omega, hint, hseed⟩
    · rintro ⟨hsc, hi, hse⟩
      by_cases hab : a = x ∧ b = y
      · exact Or.inr hab
      · exact Or.inl ⟨by unfold scannedAt at *; omega, hi, hse⟩
  · rw [hmp]
    refine List.pairwise_append.2 ⟨hP, List.pairwise_singleton _ _, ?_⟩
    intro p hp q hq
    rw [List.mem_singleton.1 hq]
    obtain ⟨a, b, rfl⟩ := interior_nat W H p (hpts p hp)
    have := ((hM a b).1 hp).1
    unfold scannedAt at this
    unfold scanBefore
    simp only
    omega
  · intro a b hi
    by_cases hab : a = x ∧ b = y
    · obtain ⟨rfl, rfl⟩ := hab
      constructor
      · intro _; rw [him]; exact GetImageColor_ImageDrawPixel_self hwf hb WHITE
      · intro hn; rw [hmp] at hn
        exact absurd (List.mem_append.2 (Or.inr (List.mem_singleton.2 rfl))) hn
    · have hab2 : ¬ ((a : Int) = (x : Int) ∧ (b : Int) = (y : Int)) := by omega
      have hmem : (⟨a, b⟩ : Point) ∈ s'.mazePoints ↔ (⟨a, b⟩ : Point) ∈ s.mazePoints := by
        rw [hmp, List.mem_append, List.mem_singleton, point_nat_eq]
        constructor
        · rintro (h | h)
          · exact h
          · exact absurd h hab
        · intro h; exact Or.inl h
      rw [hmem, him, GetImageColor_ImageDrawPixel_other _ _ _ _ _ _ hab2]
      exact hC a b hi
/-- One pixel of the scan moves the trace on by one pixel. -/
theorem scanCell_trace {σ : Type} (g : RandomGen σ) (spacingRows spacingCols : Int)
    (hsr : spacingRows ≠ 0) (hsc : spacingCols ≠ 0) (skipChance : ℚ) (st : ScanState σ)
    (W H y x : Nat) (hx : x < W) (hy : y < H) (s : ScanState σ)
    (hs : scanUpTo g spacingRows spacingCols skipChance st y x = Outcome.returned s)
    (hinv : TraceInv g spacingRows spacingCols skipChance st W H y x s) :
    ∃ s', scanUpTo g spacingRows spacingCols skipChance st y (x + 1) = Outcome.returned s' ∧
      TraceInv g spacingRows spacingCols skipChance st W H y (x + 1) s' := by
  rw [scanUpTo_succ, hs, Outcome.bind_returned]
  obtain ⟨hw, hh, hwf, hpts⟩ := hinv.1
  unfold scanCell
  by_cases hbord : ((x : Int) = 0 ∨ (x : Int) = (s.imMaze.width : Int) - 1 ∨
      (y : Int) = 0 ∨ (y : Int) = (s.imMaze.height : Int) - 1)
  · rw [if_pos hbord]
    refine ⟨_, rfl, TraceInv_step_same g spacingRows spacingCols skipChance st W H y x s _ hinv
      ⟨?_, ?_, ImageDrawPixel_wellFormed hwf _ _ _, hpts⟩ rfl ?_ ?_⟩
    · show (ImageDrawPixel s.imMaze x y WHITE).width = W
      rw [ImageDrawPixel_width, hw]
    · show (ImageDrawPixel s.imMaze x y WHITE).height = H
      rw [ImageDrawPixel_height, hh]
    · intro a b hi
      apply GetImageColor_ImageDrawPixel_other
      unfold interior at hi
      simp only at hi
      rw [hw, hh] at hbord
      omega
    · rintro ⟨hi, _⟩
      unfold interior at hi
      simp only at hi
      rw [hw, hh] at hbord
      omega
  · rw [if_neg hbord, if_neg hsc]
    have hint : interior W H ⟨x, y⟩ := by
      unfold interior
      simp only
      rw [hw, hh] at hbord
      omega
    by_cases hmx : Int.tmod x spacingCols = 0
    · rw [if_pos hmx, if_neg hsr]
      by_cases hmy : Int.tmod y spacingRows = 0
      · rw [if_pos hmy]
        simp only
        by_cases hch : chanceAtLeast (g.GetRandomValue s.rng 0 100).1 skipChance = true
        · rw [if_pos hch]
          exact ⟨_, rfl, TraceInv_step_add g spacingRows spacingCols skipChance st W H y x s _
            hinv hint ⟨hmx, hmy, s, hs, hch⟩ rfl rfl⟩
        · rw [if_neg hch]
          refine ⟨_, rfl, TraceInv_step_same g spacingRows spacingCols skipChance st W H y x s _
            hinv ⟨hw, hh, hwf, hpts⟩ rfl (fun _ _ _ => rfl) ?_⟩
          rintro ⟨_, _, _, s2, hs2, hch2⟩
          rw [hs] at hs2
          cases hs2
          exact hch hch2
      · rw [if_neg hmy]
        exact ⟨_, rfl, TraceInv_step_same g spacingRows spacingCols skipChance st W H y x s _
            hinv ⟨hw, hh, hwf, hpts⟩ rfl (fun _ _ _ => rfl) (fun h => hmy h.2.2.1)⟩
    · rw [if_neg hmx]
      exact ⟨_, rfl, TraceInv_step_same g spacingRows spacingCols skipChance st W H y x s _
            hinv ⟨hw, hh, hwf, hpts⟩ rfl (fun _ _ _ => rfl) (fun h => hmx h.2.1)⟩

/-- The trace along one line of the scan. -/
theorem scanUpTo_trace_row {σ : Type} (g : RandomGen σ) (spacingRows spacingCols : Int)
    (hsr : spacingRows ≠ 0) (hsc : spacingCols ≠ 0) (skipChance : ℚ) (st : ScanState σ)
    (W H y : Nat) (hy : y < H)
    (h0 : ∃ s0, scanUpTo g spacingRows spacingCols skipChance st y 0 = Outcome.returned s0 ∧
      TraceInv g spacingRows spacingCols skipChance st W H y 0 s0) :
    ∀ x, x ≤ W →
      ∃ s, scanUpTo g spacingRows spacingCols skipChance st y x = Outcome.returned s ∧
        TraceInv g spacingRows spacingCols skipChance st W H y x s := by
  intro x
  induction x with
  | zero => intro _; exact h0
  | succ x ih =>
    intro hx
    obtain ⟨s, hs, hinv⟩ := ih (by omega)
    exact scanCell_trace g spacingRows spacingCols hsr hsc skipChance st W H y x (by omega) hy
      s hs hinv

/-- The trace at the end of a line is the trace at the start of the next. -/
theorem TraceInv_next_row {σ : Type} (g : RandomGen σ) (spacingRows spacingCols : Int)
    (skipChance : ℚ) (st : ScanState σ) (W H y : Nat) (s : ScanState σ)
    (hinv : TraceInv g spacingRows spacingCols skipChance st W H y W s) :
    TraceInv g spacingRows spacingCols skipChance st W H (y + 1) 0 s := by
  obtain ⟨hsi, hM, hP, hC⟩ := hinv
  refine ⟨hsi, ?_, hP, hC⟩
  intro a b
  rw [hM a b]
  constructor
  · rintro ⟨hsc, hi, hse⟩
    refine ⟨?_, hi, hse⟩
    unfold scannedAt at *
    omega
  · rintro ⟨hsc, hi, hse⟩
    refine ⟨?_, hi, hse⟩
    have h2 := hi.2.1
    simp only at h2
    unfold scannedAt at *
    omega

/-- The trace at the start of every line, from the start state of
`GenImageMazeEx`. -/
theorem scanUpTo_trace_rows {σ : Type} (g : RandomGen σ) (spacingRows spacingCols : Int)
    (hsr : spacingRows ≠ 0) (hsc : spacingCols ≠ 0) (skipChance : ℚ) (rng : σ)
    (W H : Nat) :
    ∀ y, y ≤ H →
      ∃ s, scanUpTo g spacingRows spacingCols skipChance (scanStart rng W H) y 0
          = Outcome.returned s ∧
        TraceInv g spacingRows spacingCols skipChance (scanStart rng W H) W H y 0 s := by
  intro y
  induction y with
  | zero =>
    intro _
    refine ⟨scanStart rng W H, rfl,
      ⟨rfl, rfl, GenImageColor_wellFormed _ _ _, by intro p hp; cases hp⟩, ?_, ?_, ?_⟩
    · intro a b
      constructor
      · intro h; cases h
      · rintro ⟨h, _⟩; unfold scannedAt at h; omega
    · exact List.Pairwise.nil
    · intro a b hi
      constructor
      · intro h; cases h
      · intro _
        apply GetImageColor_GenImageColor
        unfold interior at hi
        simp only at hi
        unfold inBounds GenImageColor
        simp only
        omega
  | succ y ih =>
    intro hy
    obtain ⟨s0, hs0, hinv0⟩ := ih (by omega)
    obtain ⟨s, hs, hinv⟩ := scanUpTo_trace_row g spacingRows spacingCols hsr hsc skipChance
      (scanStart rng W H) W H y (by omega) ⟨s0, hs0, hinv0⟩ W (le_refl W)
    refine ⟨s, ?_, TraceInv_next_row g spacingRows spacingCols skipChance _ W H y s hinv⟩
    rw [scanUpTo_next_row g spacingRows spacingCols skipChance _ y s0 hs0, hinv0.1.1]
    exact hs

/-- The trace at every pixel of the grid. -/
theorem scanUpTo_trace {σ : Type} (g : RandomGen σ) (spacingRows spacingCols : Int)
    (hsr : spacingRows ≠ 0) (hsc : spacingCols ≠ 0) (skipChance : ℚ) (rng : σ)
    (W H y x : Nat) (hy : y < H) (hx : x ≤ W) :
    ∃ s, scanUpTo g spacingRows spacingCols skipChance (scanStart rng W H) y x
        = Outcome.returned s ∧
      TraceInv g spacingRows spacingCols skipChance (scanStart rng W H) W H y x s :=
  scanUpTo_trace_row g spacingRows spacingCols hsr hsc skipChance (scanStart rng W H) W H y hy
    (scanUpTo_trace_rows g spacingRows spacingCols hsr hsc skipChance rng W H y (by omega)) x hx

/-- The trace at the end of the scan. -/
theorem scanImage_trace {σ : Type} (g : RandomGen σ) (spacingRows spacingCols : Int)
    (hsr : spacingRows ≠ 0) (hsc : spacingCols ≠ 0) (skipChance : ℚ) (rng : σ)
    (W H : Nat) :
    ∃ s, scanImage g spacingRows spacingCols skipChance (scanStart rng W H)
        = Outcome.returned s ∧
      TraceInv g spacingRows spacingCols skipChance (scanStart rng W H) W H H 0 s := by
  obtain ⟨s, hs, hinv⟩ :=
    scanUpTo_trace_rows g spacingRows spacingCols hsr hsc skipChance rng W H H (le_refl H)
  refine ⟨s, ?_, hinv⟩
  rw [scanImage_eq_scanRows, ← scanUpTo_zero]
  exact hs

/-! ## The scan under two values of `skipChance` -/

theorem Outcome.Rel.bind {α β γ δ : Type} {R : α → β → Prop} {S : γ → δ → Prop}
    {o1 : Outcome α} {o2 : Outcome β} {f : α → Outcome γ} {h : β → Outcome δ}
    (ho : Outcome.Rel R o1 o2) (hf : ∀ a b, R a b → Outcome.Rel S (f a) (h b)) :
    Outcome.Rel S (o1.bind f) (o2.bind h) := by
  cases o1 <;> cases o2 <;> first | exact hf _ _ ho | exact ho | exact False.elim ho

theorem Outcome.Rel.foldl {α β ι : Type} {R : α → β → Prop}
    (f : ι → α → Outcome α) (h : ι → β → Outcome β)
    (hf : ∀ k a b, R a b → Outcome.Rel R (f k a) (h k b)) (l : List ι) :
    ∀ (o1 : Outcome α) (o2 : Outcome β), Outcome.Rel R o1 o2 →
      Outcome.Rel R (l.foldl (fun acc k => acc.bind (f k)) o1)
        (l.foldl (fun acc k => acc.bind (h k)) o2) := by
  induction l with
  | nil => intro o1 o2 ho; exact ho
  | cons k l ih =>
    intro o1 o2 ho
    exact ih _ _ (Outcome.Rel.bind ho (hf k))

theorem Outcome.Rel.returned {α β : Type} {R : α → β → Prop} {o1 : Outcome α}
    {o2 : Outcome β} (ho : Outcome.Rel R o1 o2) {a : α} {b : β}
    (h1 : o1 = Outcome.returned a) (h2 : o2 = Outcome.returned b) : R a b := by
  subst h1; subst h2; exact ho

/-- The body of the scan consumes the random stream in the same way under
any two values of `skipChance`. -/
theorem scanCell_sameDraws {σ : Type} (g : RandomGen σ) (spacingRows spacingCols : Int)
    (skip1 skip2 : ℚ) (y x : Nat) (s1 s2 : ScanState σ) (h : SameDraws s1 s2) :
    Outcome.Rel SameDraws (scanCell g spacingRows spacingCols skip1 y x s1)
      (scanCell g spacingRows spacingCols skip2 y x s2) := by
  obtain ⟨hr, hw, hh⟩ := h
  unfold scanCell
  rw [hw, hh, hr]
  by_cases hbord : ((x : Int) = 0 ∨ (x : Int) = (s2.imMaze.width : Int) - 1 ∨
      (y : Int) = 0 ∨ (y : Int) = (s2.imMaze.height : Int) - 1)
  · rw [if_pos hbord, if_pos hbord]
    exact ⟨rfl, by simp only [ImageDrawPixel_width]; exact hw,
      by simp only [ImageDrawPixel_height]; exact hh⟩
  · rw [if_neg hbord, if_neg hbord]
    by_cases hsc : spacingCols = 0
    · rw [if_pos hsc, if_pos hsc]; trivial
    · rw [if_neg hsc, if_neg hsc]
      by_cases hmx : Int.tmod x spacingCols = 0
      · rw [if_pos hmx, if_pos hmx]
        by_cases hsr : spacingRows = 0
        · rw [if_pos hsr, if_pos hsr]; trivial
        · rw [if_neg hsr, if_neg hsr]
          by_cases hmy : Int.tmod y spacingRows = 0
          · rw [if_pos hmy, if_pos hmy]
            simp only
            have e1 : ∀ c, (ImageDrawPixel s1.imMaze x y c).width = s2.imMaze.width := by
              intro c; rw [ImageDrawPixel_width, hw]
            have e2 : ∀ c, (ImageDrawPixel s1.imMaze x y c).height = s2.imMaze.height := by
              intro c; rw [ImageDrawPixel_height, hh]
            have e3 : ∀ c, (ImageDrawPixel s2.imMaze x y c).width = s2.imMaze.width := by
              intro c; rw [ImageDrawPixel_width]
            have e4 : ∀ c, (ImageDrawPixel s2.imMaze x y c).height = s2.imMaze.height := by
              intro c; rw [ImageDrawPixel_height]
            by_cases c1 : chanceAtLeast (g.GetRandomValue s2.rng 0 100).1 skip1 = true <;>
            by_cases c2 : chanceAtLeast (g.GetRandomValue s2.rng 0 100).1 skip2 = true
            · rw [if_pos c1, if_pos c2]
              exact ⟨rfl, (e1 _).trans (e3 _).symm, (e2 _).trans (e4 _).symm⟩
            · rw [if_pos c1, if_neg c2]
              exact ⟨rfl, e1 _, e2 _⟩
            · rw [if_neg c1, if_pos c2]
              exact ⟨rfl, hw.trans (e3 _).symm, hh.trans (e4 _).symm⟩
            · rw [if_neg c1, if_neg c2]
              exact ⟨rfl, hw, hh⟩
          · rw [if_neg hmy, if_neg hmy]; exact ⟨hr, hw, hh⟩
      · rw [if_neg hmx, if_neg hmx]; exact ⟨hr, hw, hh⟩

theorem scanRowUpTo_sameDraws {σ : Type} (g : RandomGen σ) (spacingRows spacingCols : Int)
    (skip1 skip2 : ℚ) (y x : Nat) (s1 s2 : ScanState σ) (h : SameDraws s1 s2) :
    Outcome.Rel SameDraws (scanRowUpTo g spacingRows spacingCols skip1 y x s1)
      (scanRowUpTo g spacingRows spacingCols skip2 y x s2) :=
  Outcome.Rel.foldl _ _ (scanCell_sameDraws g spacingRows spacingCols skip1 skip2 y) _ _ _ h

theorem scanRow_sameDraws {σ : Type} (g : RandomGen σ) (spacingRows spacingCols : Int)
    (skip1 skip2 : ℚ) (y : Nat) (s1 s2 : ScanState σ) (h : SameDraws s1 s2) :
    Outcome.Rel SameDraws (scanRow g spacingRows spacingCols skip1 y s1)
      (scanRow g spacingRows spacingCols skip2 y s2) := by
  rw [scanRow_eq_scanRowUpTo, scanRow_eq_scanRowUpTo, h.2.1]
  exact scanRowUpTo_sameDraws g spacingRows spacingCols skip1 skip2 y _ s1 s2 h

/-- At every pixel the scan stands at the same place of the random stream
under any two values of `skipChance`. -/
theorem scanUpTo_sameDraws {σ : Type} (g : RandomGen σ) (spacingRows spacingCols : Int)
    (skip1 skip2 : ℚ) (st : ScanState σ) (y x : Nat) :
    Outcome.Rel SameDraws (scanUpTo g spacingRows spacingCols skip1 st y x)
      (scanUpTo g spacingRows spacingCols skip2 st y x) := by
  unfold scanUpTo scanRows
  refine Outcome.Rel.bind ?_ (scanRowUpTo_sameDraws g spacingRows spacingCols skip1 skip2 y x)
  exact Outcome.Rel.foldl _ _ (scanRow_sameDraws g spacingRows spacingCols skip1 skip2) _ _ _
    ⟨rfl, rfl, rfl⟩

/-- The test `chance >= skipChance` passes for a lower `skipChance` when it
passes for a higher one. -/
theorem chanceAtLeast_anti (v : Int) (skip1 skip2 : ℚ) (h : skip1 ≤ skip2)
    (h2 : chanceAtLeast v skip2 = true) : chanceAtLeast v skip1 = true :=
  (chanceAtLeast_iff v skip1).2 (le_trans h ((chanceAtLeast_iff v skip2).1 h2))

theorem scanBefore_irrefl (p : Point) : ¬ scanBefore p p := by
  unfold scanBefore; omega

theorem tmod_nat_eq_emod (x : Nat) (b : Int) : Int.tmod x b = (x : Int) % b := by
  rcases le_total 0 b with hb | hb
  · exact Int.tmod_eq_emod (Int.ofNat_nonneg x) hb
  · obtain ⟨c, rfl⟩ : ∃ c, b = -c := ⟨-b, by omega⟩
    rw [Int.tmod_neg, Int.emod_neg]
    exact Int.tmod_eq_emod (Int.ofNat_nonneg x) (by omega)

theorem getD_set_eq {α : Type} (d : α) (l : List α) (a p : Nat) (x : α)
    (ha : a < l.length) :
    (l.set a x).getD p d = if a = p then x else l.getD p d := by
  simp only [List.getD_eq_getElem?_getD, List.getElem?_set]
  by_cases hap : a = p
  · subst hap
    simp [ha]
  · simp [hap]

theorem getD_mem {α : Type} (d : α) (l : List α) (p : Nat) (hp : p < l.length) :
    l.getD p d ∈ l := by
  rw [List.getD_eq_getElem?_getD, List.getElem?_eq_getElem hp]
  exact List.getElem_mem hp

theorem fAt_reorderStep (l : List PathNode) (i p : Nat) (hi : i < l.length) :
    fAt (reorderStep l i) p
      = if maxGHIndex l i = p then fAt l i
        else if i = p then fAt l (maxGHIndex l i) else fAt l p := by
  have hm := maxGHIndex_lt l i hi
  unfold fAt reorderStep
  simp only
  rw [getD_set_eq nullNode _ _ _ _ (by rw [List.length_set]; exact hm),
    getD_set_eq nullNode _ _ _ _ hi]
  by_cases h1 : maxGHIndex l i = p
  · rw [if_pos h1, if_pos h1]
  · rw [if_neg h1, if_neg h1]
    by_cases h2 : i = p
    · rw [if_pos h2, if_pos h2]
    · rw [if_neg h2, if_neg h2]

theorem length_reorderStep (l : List PathNode) (i : Nat) :
    (reorderStep l i).length = l.length := by
  unfold reorderStep
  simp only [List.length_set]

/-- The inner loop of the reorder pass on a frontier whose priorities are `L`
or `H`, after `k` rounds: the index is still `i` and no entry seen is above
the entry at `i`, or the entry at `i` is `L` and the index is the first entry
that is `H`. -/
theorem maxGHIndex_scan (l : List PathNode) (L H : Int) (hLH : L < H) (i : Nat)
    (hi : i < l.length) (htwo : ∀ p, p < l.length → fAt l p = L ∨ fAt l p = H) :
    ∀ k, k ≤ l.length →
      ∃ m, (List.range k).foldl
          (fun m j => if fvalue (l.getD m nullNode) < fvalue (l.getD j nullNode) then j else m) i
          = m ∧ m < l.length ∧
        ((m = i ∧ ∀ p, p < k → fAt l p ≤ fAt l i) ∨
         (fAt l i = L ∧ fAt l m = H ∧ m < k ∧ ∀ p, p < m → fAt l p = L)) := by
  intro k
  induction k with
  | zero =>
    intro _
    exact ⟨i, rfl, hi, Or.inl ⟨rfl, fun p hp => absurd hp (Nat.not_lt_zero p)⟩⟩
  | succ k ih =>
    intro hk
    obtain ⟨m, hm, hmlt, hcase⟩ := ih (by omega)
    rw [List.range_succ, List.foldl_append, hm]
    simp only [List.foldl_cons, List.foldl_nil]
    have hfm : fvalue (l.getD m nullNode) = fAt l m := rfl
    have hfk : fvalue (l.getD k nullNode) = fAt l k := rfl
    rw [hfm, hfk]
    rcases hcase with ⟨rfl, hle⟩ | ⟨hiL, hmH, hmk, hbefore⟩
    · by_cases hlt : fAt l m < fAt l k
      · rw [if_pos hlt]
        refine ⟨k, rfl, by omega, Or.inr ⟨?_, ?_, by omega, ?_⟩⟩
        · rcases htwo m hi with h | h
          · exact h
          · rcases htwo k (by omega) with h2 | h2 <;> omega
        · rcases htwo k (by omega) with h2 | h2
          · rcases htwo m hi with h | h <;> omega
          · exact h2
        · intro p hp
          have h1 := hle p hp
          rcases htwo p (by omega) with h | h
          · exact h
          · rcases htwo m hi with h3 | h3
            · omega
            · rcases htwo k (by omega) with h2 | h2 <;> omega
      · rw [if_neg hlt]
        refine ⟨m, rfl, hmlt, Or.inl ⟨rfl, ?_⟩⟩
        intro p hp
        rcases Nat.lt_succ_iff_lt_or_eq.1 hp with h | h
        · exact hle p h
        · rw [h]; omega
    · have hnot : ¬ fAt l m < fAt l k := by
        rcases htwo k (by omega) with h2 | h2 <;> omega
      rw [if_neg hnot]
      exact ⟨m, rfl, hmlt, Or.inr ⟨hiL, hmH, by omega, hbefore⟩⟩

theorem maxGHIndex_two (l : List PathNode) (L H : Int) (hLH : L < H) (i : Nat)
    (hi : i < l.length) (htwo : ∀ p, p < l.length → fAt l p = L ∨ fAt l p = H) :
    (maxGHIndex l i = i ∧ ∀ p, p < l.length → fAt l p ≤ fAt l i) ∨
    (fAt l i = L ∧ fAt l (maxGHIndex l i) = H ∧
      ∀ p, p < maxGHIndex l i → fAt l p = L) := by
  obtain ⟨m, hm, _, hcase⟩ := maxGHIndex_scan l L H hLH i hi htwo l.length (le_refl _)
  have hm2 : maxGHIndex l i = m := hm
  rw [hm2]
  rcases hcase with ⟨h1, h2⟩ | ⟨h1, h2, _, h4⟩
  · exact Or.inl ⟨h1, h2⟩
  · exact Or.inr ⟨h1, h2, h4⟩

/-- One round of the reorder pass on a frontier whose priorities are `L` or
`H`: if the first `i` entries are in order, so are the first `i + 1`
afterwards. -/
theorem reorderStep_sorted (l : List PathNode) (L H : Int) (hLH : L < H) (i : Nat)
    (hi : i < l.length) (htwo : ∀ p, p < l.length → fAt l p = L ∨ fAt l p = H)
    (hsorted : ∀ p q, p < q → q < i → fAt l p ≤ fAt l q) :
    ∀ p q, p < q → q < i + 1 → fAt (reorderStep l i) p ≤ fAt (reorderStep l i) q := by
  intro p q hpq hq
  rw [fAt_reorderStep l i p hi, fAt_reorderStep l i q hi]
  have hp2 := htwo p (by omega)
  have hq2 := htwo q (by omega)
  have hi2 := htwo i hi
  rcases maxGHIndex_two l L H hLH i hi htwo with ⟨hm, hall⟩ | ⟨hiL, hmH, hbefore⟩
  · rw [hm]
    have e1 : (if i = p then fAt l i else if i = p then fAt l i else fAt l p) = fAt l p := by
      by_cases h : i = p
      · rw [if_pos h, h]
      · rw [if_neg h, if_neg h]
    have e2 : (if i = q then fAt l i else if i = q then fAt l i else fAt l q) = fAt l q := by
      by_cases h : i = q
      · rw [if_pos h, h]
      · rw [if_neg h, if_neg h]
    rw [e1, e2]
    rcases Nat.lt_succ_iff_lt_or_eq.1 hq with h | h
    · exact hsorted p q hpq h
    · rw [h]; exact hall p (by omega)
  · have hpi : ¬ i = p := by omega
    by_cases hmp : maxGHIndex l i = p
    · rw [if_pos hmp]
      have hmq : ¬ maxGHIndex l i = q := by omega
      rw [if_neg hmq]
      by_cases hiq : i = q
      · rw [if_pos hiq]; omega
      · rw [if_neg hiq]; omega
    · rw [if_neg hmp, if_neg hpi]
      by_cases hmq : maxGHIndex l i = q
      · rw [if_pos hmq]
        have := hbefore p (by omega)
        omega
      · rw [if_neg hmq]
        by_cases hiq : i = q
        · rw [if_pos hiq]; omega
        · rw [if_neg hiq]
          exact hsorted p q hpq (by omega)

/-- The reorder pass puts a frontier whose priorities take two values in
order of priority, lowest first. -/
theorem reorderFrontier_sorted (l : List PathNode) (L H : Int) (hLH : L < H)
    (htwo : ∀ n ∈ l, fvalue n = L ∨ fvalue n = H) :
    FrontierSorted (reorderFrontier l) := by
  have key : ∀ k, k ≤ l.length →
      ((List.range k).foldl reorderStep l).length = l.length ∧
      ((List.range k).foldl reorderStep l).Perm l ∧
      ∀ p q, p < q → q < k →
        fAt ((List.range k).foldl reorderStep l) p ≤ fAt ((List.range k).foldl reorderStep l) q := by
    intro k
    induction k with
    | zero =>
      intro _
      exact ⟨rfl, List.Perm.refl _, fun p q _ hq => absurd hq (Nat.not_lt_zero q)⟩
    | succ k ih =>
      intro hk
      obtain ⟨hlen, hperm, hs⟩ := ih (by omega)
      rw [List.range_succ, List.foldl_append]
      simp only [List.foldl_cons, List.foldl_nil]
      have hk2 : k < ((List.range k).foldl reorderStep l).length := by rw [hlen]; omega
      have htwo2 : ∀ p, p < ((List.range k).foldl reorderStep l).length →
          fAt ((List.range k).foldl reorderStep l) p = L ∨
          fAt ((List.range k).foldl reorderStep l) p = H := by
        intro p hp
        exact htwo _ (hperm.mem_iff.1 (getD_mem nullNode _ p hp))
      refine ⟨by rw [length_reorderStep, hlen],
        (reorderStep_perm _ k hk2).trans hperm, ?_⟩
      exact reorderStep_sorted _ L H hLH k hk2 htwo2 hs
  obtain ⟨hlen, _, hs⟩ := key l.length (le_refl _)
  intro p q hpq hq
  have hlen2 : (reorderFrontier l).length = l.length := hlen
  rw [hlen2] at hq
  exact hs p q hpq hq

/-! ## The frontier at the head of the search loop -/

theorem mem_frontier_visitNeighbor (map : Image) (endP : Point) (cur : PathNode)
    (st : List PathNode × List PathNode) (nb : Point) (n : PathNode)
    (h : n ∈ (visitNeighbor map endP cur st nb).1) :
    n ∈ st.1 ∨ n = neighborNode endP cur nb := by
  rcases visitNeighbor_cases map endP cur st nb with ⟨he, _⟩ | ⟨_, _, he⟩
  · rw [he] at h; exact Or.inl h
  · rw [he] at h
    unfold pushNeighbor at h
    simp only [List.mem_append, List.mem_singleton] at h
    exact h

theorem mem_frontier_foldl (map : Image) (endP : Point) (cur : PathNode) (nbs : List Point) :
    ∀ (st : List PathNode × List PathNode) (n : PathNode),
      n ∈ (nbs.foldl (visitNeighbor map endP cur) st).1 →
      n ∈ st.1 ∨ ∃ nb ∈ nbs, n = neighborNode endP cur nb := by
  induction nbs with
  | nil => intro st n h; exact Or.inl h
  | cons a t ih =>
    intro st n h
    rw [List.foldl_cons] at h
    rcases ih _ n h with h1 | ⟨nb, hnb, hn⟩
    · rcases mem_frontier_visitNeighbor map endP cur st a n h1 with h2 | h2
      · exact Or.inl h2
      · exact Or.inr ⟨a, List.mem_cons_self _ _, h2⟩
    · exact Or.inr ⟨nb, List.mem_cons_of_mem _ hnb, hn⟩

/-- The heuristic of a neighbour is one more or one less than that of the
cell. -/
theorem heuristic_neighbor (endP c nb : Point) (h : nb ∈ neighbors c) :
    heuristic endP nb = heuristic endP c + 1 ∨ heuristic endP nb + 1 = heuristic endP c := by
  simp only [neighbors, List.mem_cons, List.mem_singleton, List.not_mem_nil, or_false] at h
  unfold heuristic
  rcases h with rfl | rfl | rfl | rfl <;> simp only <;> omega

/-- One iteration of the search loop, when the entries left in the frontier
carry their heuristic and have the priority of the current cell or that
priority plus 2: the frontier is in order at the head of the next
iteration. -/
theorem FrontierInv_searchStep (map : Image) (endP : Point) (cur : PathNode)
    (rest re : List PathNode)
    (hA : ∀ n ∈ rest, n.hvalue = heuristic endP n.p)
    (hB : TwoValued (cur.gvalue + heuristic endP cur.p) rest) :
    FrontierInv endP (searchStep map endP cur rest re).1 := by
  have hmem : ∀ n ∈ ((neighbors cur.p).foldl (visitNeighbor map endP cur) (rest, re)).1,
      n.hvalue = heuristic endP n.p ∧
      (fvalue n = cur.gvalue + heuristic endP cur.p ∨
        fvalue n = cur.gvalue + heuristic endP cur.p + 2) := by
    intro n hn
    rcases mem_frontier_foldl map endP cur _ _ n hn with h | ⟨nb, hnb, rfl⟩
    · exact ⟨hA n h, hB n h⟩
    · refine ⟨rfl, ?_⟩
      have hh := heuristic_neighbor endP cur.p nb hnb
      have hf : fvalue (neighborNode endP cur nb) = cur.gvalue + 1 + heuristic endP nb := rfl
      rw [hf]
      omega
  have hperm := reorderFrontier_perm
    ((neighbors cur.p).foldl (visitNeighbor map endP cur) (rest, re)).1
  refine ⟨?_, ⟨cur.gvalue + heuristic endP cur.p, ?_⟩, ?_⟩
  · intro n hn
    exact (hmem n (hperm.mem_iff.1 hn)).1
  · intro n hn
    exact (hmem n (hperm.mem_iff.1 hn)).2
  · exact reorderFrontier_sorted _ (cur.gvalue + heuristic endP cur.p)
      (cur.gvalue + heuristic endP cur.p + 2) (by omega) (fun n hn => (hmem n hn).2)

/-- In a frontier in order the entry at index 0 has the lowest priority. -/
theorem FrontierSorted_head (cur : PathNode) (rest : List PathNode)
    (h : FrontierSorted (cur :: rest)) : ∀ n ∈ cur :: rest, fvalue cur ≤ fvalue n := by
  intro n hn
  rcases List.mem_cons.1 hn with rfl | hn
  · exact le_refl _
  · obtain ⟨j, hj, rfl⟩ := List.getElem_of_mem hn
    have := h 0 (j + 1) (by omega) (by simp only [List.length_cons]; omega)
    unfold fAt at this
    simp only [List.getD_cons_zero, List.getD_cons_succ] at this
    rw [List.getD_eq_getElem?_getD, List.getElem?_eq_getElem hj] at this
    exact this

theorem FrontierInv_cons (endP : Point) (cur : PathNode) (rest : List PathNode)
    (h : FrontierInv endP (cur :: rest)) :
    (∀ n ∈ rest, n.hvalue = heuristic endP n.p) ∧
    TwoValued (cur.gvalue + heuristic endP cur.p) rest := by
  obtain ⟨hA, ⟨F, hF⟩, hS⟩ := h
  refine ⟨fun n hn => hA n (List.mem_cons_of_mem _ hn), ?_⟩
  intro n hn
  have h0 := FrontierSorted_head cur rest hS n (List.mem_cons_of_mem _ hn)
  have hc := hF cur (List.mem_cons_self _ _)
  have hn2 := hF n (List.mem_cons_of_mem _ hn)
  have hcur : fvalue cur = cur.gvalue + heuristic endP cur.p := by
    unfold fvalue; rw [hA cur (List.mem_cons_self _ _)]
  omega

/-- The frontier stays in order from one head of the search loop to the
next. -/
theorem FrontierInv_searchState (map : Image) (endP : Point) (k : Nat) :
    ∀ st : List PathNode × List PathNode, FrontierInv endP st.1 →
      FrontierInv endP (searchState map endP k st).1 := by
  induction k with
  | zero => intro st h; exact h
  | succ k ih =>
    intro st h
    obtain ⟨fr, re⟩ := st
    cases fr with
    | nil => exact h
    | cons cur rest =>
      obtain ⟨hA, hB⟩ := FrontierInv_cons endP cur rest h
      exact ih _ (FrontierInv_searchStep map endP cur rest re hA hB)

/-- The states of `searchState` are the states the search loop passes
through: running the loop from the state after `k` iterations is running it
from the first state with `k` more units of fuel. -/
theorem searchLoop_searchState (map : Image) (endP : Point) (fuel k : Nat) :
    ∀ fr re : List PathNode,
      searchLoop map endP (fuel + k) fr re
        = searchLoop map endP fuel (searchState map endP k (fr, re)).1
            (searchState map endP k (fr, re)).2 := by
  induction k with
  | zero => intro fr re; rfl
  | succ k ih =>
    intro fr re
    cases fr with
    | nil =>
      rw [searchLoop_nil]
      show some re = searchLoop map endP fuel [] re
      rw [searchLoop_nil]
    | cons cur rest =>
      show searchLoop map endP (fuel + k + 1) (cur :: rest) re = _
      rw [searchLoop_cons_succ, ih]
      rfl

/-- C18: in every run of `LoadPathAStar`, on any map and for any `start` and
`end`, at every iteration of the search loop the node taken from the frontier
(the entry at index 0, after the reorder pass of the iteration before) has the
lowest priority `gvalue + hvalue` of all nodes in the frontier at that moment.
The state `(cur :: rest, re)` after `k` iterations is a state of the run: the
loop run from it is the loop run from the start with `k` more units of
fuel. -/
theorem searchState_head_lowest (map : Image) (start endP : Point) (k : Nat)
    (cur : PathNode) (rest re : List PathNode)
    (h : searchState map endP k (startState start) = (cur :: rest, re)) :
    (∀ fuel, searchLoop map endP (fuel + k) [⟨start, 0, 0, none⟩] [⟨start, 0, 0, none⟩]
      = searchLoop map endP fuel (cur :: rest) re) ∧
    ∀ n ∈ cur :: rest, fvalue cur ≤ fvalue n := by
  constructor
  · intro fuel
    have := searchLoop_searchState map endP fuel k [⟨start, 0, 0, none⟩] [⟨start, 0, 0, none⟩]
    rw [this]
    have h2 : searchState map endP k ([⟨start, 0, 0, none⟩], [⟨start, 0, 0, none⟩])
        = (cur :: rest, re) := h
    rw [h2]
  · cases k with
    | zero =>
      have h2 : (([⟨start, 0, 0, none⟩], [⟨start, 0, 0, none⟩]) :
          List PathNode × List PathNode) = (cur :: rest, re) := h
      have h3 := congrArg Prod.fst h2
      simp only [List.cons.injEq] at h3
      obtain ⟨rfl, rfl⟩ := h3
      intro n hn
      rw [List.mem_singleton.1 hn]
    | succ k =>
      have hinv : FrontierInv endP (searchState map endP (k + 1) (startState start)).1 := by
        show FrontierInv endP (searchState map endP k
          (searchStep map endP ⟨start, 0, 0, none⟩ [] [⟨start, 0, 0, none⟩])).1
        apply FrontierInv_searchState
        exact FrontierInv_searchStep map endP _ [] _ (fun n hn => by cases hn)
          (fun n hn => by cases hn)
      rw [h] at hinv
      exact FrontierSorted_head cur rest hinv.2.2
/-- C18 on the 5 by 3 grid `grid53` with start (4, 1) and end (0, 0), at the
head of the 8th iteration: the frontier holds two nodes at (2, 2), of
priorities 7 and 9, and the one of priority 7 is at index 0. -/
theorem searchState_head_lowest_witness :
    searchState grid53 ⟨0, 0⟩ 7 (startState ⟨4, 1⟩)
      = ([⟨⟨2, 2⟩, 3, 4, none⟩, ⟨⟨2, 2⟩, 5, 4, none⟩],
         [⟨⟨4, 1⟩, 0, 0, none⟩, ⟨⟨4, 0⟩, 1, 4, some 0⟩, ⟨⟨4, 2⟩, 1, 6, some 0⟩,
          ⟨⟨3, 0⟩, 2, 3, some 1⟩, ⟨⟨2, 0⟩, 3, 2, some 3⟩, ⟨⟨2, 1⟩, 4, 3, some 4⟩,
          ⟨⟨3, 2⟩, 2, 5, some 2⟩, ⟨⟨2, 2⟩, 5, 4, some 5⟩, ⟨⟨2, 2⟩, 3, 4, some 6⟩]) ∧
    ∀ n ∈ [(⟨⟨2, 2⟩, 3, 4, none⟩ : PathNode), ⟨⟨2, 2⟩, 5, 4, none⟩],
      fvalue (⟨⟨2, 2⟩, 3, 4, none⟩ : PathNode) ≤ fvalue n :=
  ⟨by decide!,
    (searchState_head_lowest grid53 ⟨4, 1⟩ ⟨0, 0⟩ 7 ⟨⟨2, 2⟩, 3, 4, none⟩ [⟨⟨2, 2⟩, 5, 4, none⟩]
      [⟨⟨4, 1⟩, 0, 0, none⟩, ⟨⟨4, 0⟩, 1, 4, some 0⟩, ⟨⟨4, 2⟩, 1, 6, some 0⟩,
        ⟨⟨3, 0⟩, 2, 3, some 1⟩, ⟨⟨2, 0⟩, 3, 2, some 3⟩, ⟨⟨2, 1⟩, 4, 3, some 4⟩,
        ⟨⟨3, 2⟩, 2, 5, some 2⟩, ⟨⟨2, 2⟩, 5, 4, some 5⟩, ⟨⟨2, 2⟩, 3, 4, some 6⟩]
      (by decide!)).2⟩

/-- C19 fails in the code: a cell already recorded in `reached` that is
offered a strictly lower tentative g (`current g + 1`) gets a second entry at
the end of `reached`, and its first entry is left as it was.  The coordinate
lookup in `reached`, which stops at the first entry of the cell, finds after
the step the same index `j` and the same entry `r` as before, with the old,
higher g and the old predecessor. -/
theorem visitNeighbor_keeps_first_record (map : Image) (endP : Point) (cur : PathNode)
    (st : List PathNode × List PathNode) (nb : Point) (j : Nat) (r : PathNode)
    (hvalid : isValid map nb = true)
    (hj : findReached st.2 nb = some j) (hr : st.2.get? j = some r)
    (hlow : cur.gvalue + 1 < r.gvalue) :
    (visitNeighbor map endP cur st nb).2 = st.2 ++ [reachedNode endP cur st.2 nb] ∧
    (reachedNode endP cur st.2 nb).gvalue = cur.gvalue + 1 ∧
    findReached (visitNeighbor map endP cur st nb).2 nb = some j ∧
    (visitNeighbor map endP cur st nb).2.get? j = some r ∧
    cur.gvalue + 1 < r.gvalue := by
  have hvn : (visitNeighbor map endP cur st nb).2 = st.2 ++ [reachedNode endP cur st.2 nb] := by
    unfold visitNeighbor
    simp only [hvalid, if_true, hj, hr]
    simp [hlow, reachedNode]
  refine ⟨hvn, rfl, ?_, ?_, hlow⟩
  · rw [hvn]
    exact findReached_append_some _ hj
  · rw [hvn]
    rw [List.get?_eq_getElem?] at hr ⊢
    rw [List.getElem?_append_left (lt_length_of_getElem? hr)]
    exact hr
/-- C19 in the run on `grid53` from (4, 1) to (0, 0).  The 7th iteration of
the search loop takes the node at (3, 2), of g 2, from the frontier.  Its
first neighbour (3, 1) is a wall; its second neighbour (2, 2) is recorded at
index 7 with g 5 and predecessor 5, and is offered g 3.  The step appends the
entry of g 3 and predecessor 6, and the lookup of (2, 2) still finds index 7
with g 5 and predecessor 5. -/
theorem visitNeighbor_keeps_first_record_witness :
    searchState grid53 ⟨0, 0⟩ 6 (startState ⟨4, 1⟩)
      = ([⟨⟨3, 2⟩, 2, 5, none⟩, ⟨⟨2, 2⟩, 5, 4, none⟩], grid53Reached) ∧
    visitNeighbor grid53 ⟨0, 0⟩ ⟨⟨3, 2⟩, 2, 5, none⟩
        ([⟨⟨2, 2⟩, 5, 4, none⟩], grid53Reached) ⟨3, 1⟩
      = ([⟨⟨2, 2⟩, 5, 4, none⟩], grid53Reached) ∧
    reachedNode ⟨0, 0⟩ ⟨⟨3, 2⟩, 2, 5, none⟩ grid53Reached ⟨2, 2⟩ = ⟨⟨2, 2⟩, 3, 4, some 6⟩ ∧
    ((visitNeighbor grid53 ⟨0, 0⟩ ⟨⟨3, 2⟩, 2, 5, none⟩
        ([⟨⟨2, 2⟩, 5, 4, none⟩], grid53Reached) ⟨2, 2⟩).2
      = grid53Reached ++ [reachedNode ⟨0, 0⟩ ⟨⟨3, 2⟩, 2, 5, none⟩ grid53Reached ⟨2, 2⟩] ∧
    (reachedNode ⟨0, 0⟩ ⟨⟨3, 2⟩, 2, 5, none⟩ grid53Reached ⟨2, 2⟩).gvalue = 2 + 1 ∧
    findReached (visitNeighbor grid53 ⟨0, 0⟩ ⟨⟨3, 2⟩, 2, 5, none⟩
        ([⟨⟨2, 2⟩, 5, 4, none⟩], grid53Reached) ⟨2, 2⟩).2 ⟨2, 2⟩ = some 7 ∧
    (visitNeighbor grid53 ⟨0, 0⟩ ⟨⟨3, 2⟩, 2, 5, none⟩
        ([⟨⟨2, 2⟩, 5, 4, none⟩], grid53Reached) ⟨2, 2⟩).2.get? 7
      = some ⟨⟨2, 2⟩, 5, 4, some 5⟩ ∧
    (2 : Int) + 1 < 5) :=
  ⟨by decide!, by decide!, by decide!,
    visitNeighbor_keeps_first_record grid53 ⟨0, 0⟩ ⟨⟨3, 2⟩, 2, 5, none⟩
      ([⟨⟨2, 2⟩, 5, 4, none⟩], grid53Reached) ⟨2, 2⟩ 7 ⟨⟨2, 2⟩, 5, 4, some 5⟩
      (by decide!) (by decide!) (by decide!) (by decide!)⟩

theorem searchState_succ_right (map : Image) (endP : Point) (k : Nat) :
    ∀ st : List PathNode × List PathNode,
      searchState map endP (k + 1) st = searchState map endP 1 (searchState map endP k st) := by
  induction k with
  | zero => intro st; rfl
  | succ k ih =>
    intro st
    obtain ⟨fr, re⟩ := st
    cases fr with
    | nil => rfl
    | cons cur rest =>
      show searchState map endP (k + 1) (searchStep map endP cur rest re) = _
      rw [ih]
      rfl

/-- C20 fails as stated.  On the 5 by 5 grid `grid5`, with start (1, 1) and
end (1, 2), the 2nd iteration of the search loop takes the node at the end
cell (1, 2) from the frontier and leaves a frontier of three nodes; the 3rd
iteration takes the node at (2, 1) and expands it, recording (3, 1).  The
loop is still running after 8 iterations and stops after the 9th, with 9
entries in `reached`. -/
theorem searchLoop_end_removed_counterexample :
    searchState grid5 ⟨1, 2⟩ 1 (startState ⟨1, 1⟩)
      = ([⟨⟨1, 2⟩, 1, 0, none⟩, ⟨⟨2, 1⟩, 1, 2, none⟩],
         [⟨⟨1, 1⟩, 0, 0, none⟩, ⟨⟨1, 2⟩, 1, 0, some 0⟩, ⟨⟨2, 1⟩, 1, 2, some 0⟩]) ∧
    searchState grid5 ⟨1, 2⟩ 2 (startState ⟨1, 1⟩)
      = ([⟨⟨2, 1⟩, 1, 2, none⟩, ⟨⟨1, 3⟩, 2, 1, none⟩, ⟨⟨2, 2⟩, 2, 1, none⟩],
         [⟨⟨1, 1⟩, 0, 0, none⟩, ⟨⟨1, 2⟩, 1, 0, some 0⟩, ⟨⟨2, 1⟩, 1, 2, some 0⟩,
          ⟨⟨1, 3⟩, 2, 1, some 1⟩, ⟨⟨2, 2⟩, 2, 1, some 1⟩]) ∧
    searchState grid5 ⟨1, 2⟩ 3 (startState ⟨1, 1⟩)
      = ([⟨⟨2, 2⟩, 2, 1, none⟩, ⟨⟨1, 3⟩, 2, 1, none⟩, ⟨⟨3, 1⟩, 2, 3, none⟩],
         [⟨⟨1, 1⟩, 0, 0, none⟩, ⟨⟨1, 2⟩, 1, 0, some 0⟩, ⟨⟨2, 1⟩, 1, 2, some 0⟩,
          ⟨⟨1, 3⟩, 2, 1, some 1⟩, ⟨⟨2, 2⟩, 2, 1, some 1⟩, ⟨⟨3, 1⟩, 2, 3, some 2⟩]) ∧
    searchLoop grid5 ⟨1, 2⟩ 8 [⟨⟨1, 1⟩, 0, 0, none⟩] [⟨⟨1, 1⟩, 0, 0, none⟩] = none ∧
    (searchLoop grid5 ⟨1, 2⟩ 9 [⟨⟨1, 1⟩, 0, 0, none⟩] [⟨⟨1, 1⟩, 0, 0, none⟩]).map List.length
      = some 9 :=
  ⟨by decide!, by decide!, by decide!, by decide!, by decide!⟩

/-! ## The number of seed points -/

theorem mem_interiorSet {width height : Nat} {p : Point} (h : interior width height p) :
    p ∈ interiorSet width height := by
  obtain ⟨h1, h2, h3, h4⟩ := h
  unfold interiorSet
  rw [Finset.mem_image]
  refine ⟨((p.x - 1).toNat, (p.y - 1).toNat), ?_, ?_⟩
  · rw [Finset.mem_product, Finset.mem_range, Finset.mem_range]
    constructor
    · show (p.x - 1).toNat < width - 2
      omega
    · show (p.y - 1).toNat < height - 2
      omega
  · apply (Point.eq_iff _ _).1
    constructor
    · show (((p.x - 1).toNat : Nat) : Int) + 1 = p.x
      omega
    · show (((p.y - 1).toNat : Nat) : Int) + 1 = p.y
      omega

theorem interiorSet_card_le (width height : Nat) :
    (interiorSet width height).card ≤ (width - 2) * (height - 2) := by
  unfold interiorSet
  refine le_trans Finset.card_image_le ?_
  rw [Finset.card_product, Finset.card_range, Finset.card_range]

/-- A list of distinct interior cells has at most `(width - 2) * (height - 2)`
entries. -/
theorem length_le_of_interior (width height : Nat) (l : List Point) (hnd : l.Nodup)
    (hint : ∀ p ∈ l, interior width height p) :
    l.length ≤ (width - 2) * (height - 2) := by
  have hsub : l.toFinset ⊆ interiorSet width height := by
    intro p hp
    exact mem_interiorSet (hint p (List.mem_toFinset.1 hp))
  have hcard := Finset.card_le_card hsub
  rw [List.toFinset_card_of_nodup hnd] at hcard
  exact le_trans hcard (interiorSet_card_le width height)

theorem nodup_of_pairwise_scanBefore (l : List Point) (h : l.Pairwise scanBefore) :
    l.Nodup := by
  unfold List.Nodup
  refine List.Pairwise.imp ?_ h
  intro a b hab he
  rw [he] at hab
  exact scanBefore_irrefl b hab

/-! ## Where the walls of the maze come from -/

/-- The bounded body does what the body does, or writes past the capacity. -/
theorem visitNeighborChecked_cases (capacity : Nat) (map : Image) (endP : Point)
    (cur : PathNode) (st : List PathNode × List PathNode) (nb : Point) :
    visitNeighborChecked capacity map endP cur st nb
        = Outcome.returned (visitNeighbor map endP cur st nb) ∨
      visitNeighborChecked capacity map endP cur st nb = Outcome.undefinedBehaviour := by
  unfold visitNeighborChecked visitNeighbor
  simp only
  split_ifs <;> first | exact Or.inl rfl | exact Or.inr rfl

theorem foldl_visitNeighborChecked (capacity : Nat) (map : Image) (endP : Point)
    (cur : PathNode) (l : List Point) :
    ∀ st : List PathNode × List PathNode,
      l.foldl (fun acc nb => acc.bind fun s => visitNeighborChecked capacity map endP cur s nb)
          (Outcome.returned st)
        = Outcome.returned (l.foldl (visitNeighbor map endP cur) st) ∨
      l.foldl (fun acc nb => acc.bind fun s => visitNeighborChecked capacity map endP cur s nb)
          (Outcome.returned st)
        = Outcome.undefinedBehaviour := by
  induction l with
  | nil => intro st; exact Or.inl rfl
  | cons a t ih =>
    intro st
    rw [List.foldl_cons, List.foldl_cons, Outcome.bind_returned]
    rcases visitNeighborChecked_cases capacity map endP cur st a with h | h
    · rw [h]; exact ih _
    · rw [h]
      right
      clear ih h
      induction t with
      | nil => rfl
      | cons b t iht => rw [List.foldl_cons]; exact iht

theorem searchStepChecked_cases (capacity : Nat) (map : Image) (endP : Point)
    (cur : PathNode) (rest re : List PathNode) :
    searchStepChecked capacity map endP cur rest re
        = Outcome.returned (searchStep map endP cur rest re) ∨
      searchStepChecked capacity map endP cur rest re = Outcome.undefinedBehaviour := by
  unfold searchStepChecked
  rcases foldl_visitNeighborChecked capacity map endP cur (neighbors cur.p) (rest, re) with h | h
  · rw [h]; exact Or.inl rfl
  · rw [h]; exact Or.inr rfl

/-- When the search loop returns, the bounded loop returns the same array or
writes past the capacity: it is not still running. -/
theorem searchLoopChecked_cases (capacity : Nat) (map : Image) (endP : Point) (fuel : Nat) :
    ∀ fr re re' : List PathNode, searchLoop map endP fuel fr re = some re' →
      searchLoopChecked capacity map endP fuel fr re = Outcome.returned re' ∨
      searchLoopChecked capacity map endP fuel fr re = Outcome.undefinedBehaviour := by
  induction fuel with
  | zero =>
    intro fr re re' h
    cases fr with
    | nil =>
      rw [searchLoop_nil] at h
      injection h with h
      subst h
      exact Or.inl rfl
    | cons cur rest => cases h
  | succ n ih =>
    intro fr re re' h
    cases fr with
    | nil =>
      rw [searchLoop_nil] at h
      injection h with h
      subst h
      exact Or.inl rfl
    | cons cur rest =>
      rw [searchLoop_cons_succ] at h
      have hdef : searchLoopChecked capacity map endP (n + 1) (cur :: rest) re
          = (searchStepChecked capacity map endP cur rest re).bind
              (fun st => searchLoopChecked capacity map endP n st.1 st.2) := rfl
      rw [hdef]
      rcases searchStepChecked_cases capacity map endP cur rest re with hs | hs
      · rw [hs, Outcome.bind_returned]
        exact ih _ _ re' h
      · rw [hs]; exact Or.inr rfl

/-- When the search loop returns, its states have arrived at an empty
frontier. -/
theorem searchState_of_searchLoop (map : Image) (endP : Point) (fuel : Nat) :
    ∀ fr re re' : List PathNode, searchLoop map endP fuel fr re = some re' →
      searchState map endP fuel (fr, re) = ([], re') := by
  induction fuel with
  | zero =>
    intro fr re re' h
    cases fr with
    | nil =>
      rw [searchLoop_nil] at h
      injection h with h
      subst h
      rfl
    | cons cur rest => cases h
  | succ n ih =>
    intro fr re re' h
    cases fr with
    | nil =>
      rw [searchLoop_nil] at h
      injection h with h
      subst h
      rfl
    | cons cur rest =>
      rw [searchLoop_cons_succ] at h
      exact ih _ _ re' h

/-- C22: for every map and every `start` and `end`, the search loop of
`LoadPathAStar` terminates: with fuel `searchFuel map` it returns, and after
that many iterations at most the frontier is empty.  With the arrays
`frontier` and `reached` bounded by the `width * height` entries they are
allocated with, the loop is not still running either: it has returned, or it
has written past the end of an array. -/
theorem searchLoop_terminates (map : Image) (start endP : Point) :
    ∃ re,
      searchLoop map endP (searchFuel map) [⟨start, 0, 0, none⟩] [⟨start, 0, 0, none⟩]
        = some re ∧
      searchState map endP (searchFuel map) (startState start) = ([], re) ∧
      searchLoopChecked (map.width * map.height) map endP (searchFuel map)
        [⟨start, 0, 0, none⟩] [⟨start, 0, 0, none⟩] ≠ Outcome.running := by
  obtain ⟨re, hre, _⟩ := @searchLoop_returns map start endP (searchFuel map) _ _
    (SearchInv_init map start) (by rw [frontierMeasure_init])
  refine ⟨re, hre, searchState_of_searchLoop map endP _ _ _ re hre, ?_⟩
  rcases searchLoopChecked_cases (map.width * map.height) map endP _ _ _ re hre with h | h
  · rw [h]; intro hc; cases hc
  · rw [h]; intro hc; cases hc
theorem searchLoopChecked_nil (capacity : Nat) (map : Image) (endP : Point) (k : Nat)
    (re : List PathNode) :
    searchLoopChecked capacity map endP k [] re = Outcome.returned re := by
  cases k <;> rfl

/-- More fuel does not change what the bounded search loop arrives at. -/
theorem searchLoopChecked_mono (capacity : Nat) (map : Image) (endP : Point) (k : Nat) :
    ∀ (fr re : List PathNode) (o : Outcome (List PathNode)),
      searchLoopChecked capacity map endP k fr re = o → o ≠ Outcome.running →
      searchLoopChecked capacity map endP (k + 1) fr re = o := by
  induction k with
  | zero =>
    intro fr re o h ho
    cases fr with
    | nil => rw [searchLoopChecked_nil] at h ⊢; exact h
    | cons cur rest => exact absurd h.symm ho
  | succ n ih =>
    intro fr re o h ho
    cases fr with
    | nil => rw [searchLoopChecked_nil] at h ⊢; exact h
    | cons cur rest =>
      have hdef : ∀ m, searchLoopChecked capacity map endP (m + 1) (cur :: rest) re
          = (searchStepChecked capacity map endP cur rest re).bind
              (fun st => searchLoopChecked capacity map endP m st.1 st.2) := fun _ => rfl
      rw [hdef] at h ⊢
      cases hs : searchStepChecked capacity map endP cur rest re with
      | returned st =>
        rw [hs, Outcome.bind_returned] at h
        rw [Outcome.bind_returned]
        exact ih _ _ o h ho
      | running => rw [hs] at h; exact h
      | undefinedBehaviour => rw [hs] at h; exact h

theorem searchLoopChecked_mono_le (capacity : Nat) (map : Image) (endP : Point)
    {k k' : Nat} (hle : k ≤ k') (fr re : List PathNode) (o : Outcome (List PathNode))
    (h : searchLoopChecked capacity map endP k fr re = o) (ho : o ≠ Outcome.running) :
    searchLoopChecked capacity map endP k' fr re = o := by
  induction k', hle using Nat.le_induction with
  | base => exact h
  | succ n _ ih => exact searchLoopChecked_mono capacity map endP n fr re o ih ho

/-- C23 fails in the code.  On the 3 by 4 grid `grid34`, whose 12 cells are
open but (1, 2), with start (1, 3) and end (0, 0), the array `reached` holds
12 entries at the head of the 10th iteration of the search loop and 13 after
it: the 10th iteration writes `reached[12]`, past the 12 entries the array is
allocated with.  With the arrays bounded by `width * height` the search loop
is undefined behaviour for every fuel from 10 on; the unbounded loop returns
13 entries. -/
theorem searchLoop_reached_overflow :
    grid34.width * grid34.height = 12 ∧ OpenCell grid34 ⟨1, 3⟩ ∧ OpenCell grid34 ⟨0, 0⟩ ∧
    (searchState grid34 ⟨0, 0⟩ 9 (startState ⟨1, 3⟩)).2.length = 12 ∧
    (searchState grid34 ⟨0, 0⟩ 10 (startState ⟨1, 3⟩)).2.length = 13 ∧
    (searchLoop grid34 ⟨0, 0⟩ 13 [⟨⟨1, 3⟩, 0, 0, none⟩] [⟨⟨1, 3⟩, 0, 0, none⟩]).map List.length
      = some 13 ∧
    ∀ fuel, 10 ≤ fuel →
      searchLoopChecked (grid34.width * grid34.height) grid34 ⟨0, 0⟩ fuel
        [⟨⟨1, 3⟩, 0, 0, none⟩] [⟨⟨1, 3⟩, 0, 0, none⟩] = Outcome.undefinedBehaviour := by
  refine ⟨by decide!, by decide!, by decide!, by decide!, by decide!, by decide!, ?_⟩
  intro fuel hfuel
  exact searchLoopChecked_mono_le _ grid34 ⟨0, 0⟩ hfuel _ _ _ (by decide!)
    (by intro h; cases h)

/-! ## The shape of `reached` during the search -/

theorem SearchInv_searchState {map : Image} {start : Point} (endP : Point) (k : Nat) :
    ∀ st : List PathNode × List PathNode, SearchInv map start st.1 st.2 →
      SearchInv map start (searchState map endP k st).1 (searchState map endP k st).2 := by
  induction k with
  | zero => intro st h; exact h
  | succ k ih =>
    intro st h
    obtain ⟨fr, re⟩ := st
    cases fr with
    | nil => exact h
    | cons cur rest => exact ih _ (searchStep_inv endP h)

theorem StartOnce_visitNeighbor {map : Image} {start : Point} (endP : Point) {cur : PathNode}
    {st : List PathNode × List PathNode} (nb : Point) (h : FoldInv map start cur st)
    (hso : StartOnce start st.2) :
    StartOnce start (visitNeighbor map endP cur st nb).2 := by
  rcases visitNeighbor_cases map endP cur st nb with ⟨he, _⟩ | ⟨_, hnew, he⟩
  · rw [he]; exact hso
  · rw [he]
    have hhead := h.1.1
    have hcg := h.2.2.2.2.2.2.1
    intro i r hr hi
    have hr' : (st.2 ++ [reachedNode endP cur st.2 nb])[i]? = some r := hr
    by_cases hlt : i < st.2.length
    · rw [List.getElem?_append_left hlt] at hr'
      exact hso i r hr' hi
    · have hilen := lt_length_of_getElem? hr'
      simp only [List.length_append, List.length_singleton] at hilen
      have hieq : i = st.2.length := by omega
      subst hieq
      rw [List.getElem?_append_right (le_refl _)] at hr'
      simp only [Nat.sub_self, List.getElem?_cons_zero, Option.some.injEq] at hr'
      rw [← hr']
      show nb ≠ start
      intro hns
      subst hns
      cases hre : st.2 with
      | nil => rw [hre] at hhead; simp at hhead
      | cons x t =>
        rw [hre] at hhead
        simp only [List.head?_cons, Option.some.injEq] at hhead
        rcases hnew with hnot | ⟨r2, hr2, hp2, hg2⟩
        · apply hnot
          rw [hre, hhead]
          simp [coords]
        · obtain ⟨i2, hi2⟩ := List.mem_iff_getElem?.1 hr2
          rcases Nat.eq_zero_or_pos i2 with rfl | hpos
          · rw [hre] at hi2
            simp only [List.getElem?_cons_zero, Option.some.injEq] at hi2
            rw [← hi2, hhead] at hg2
            simp only at hg2
            omega
          · exact hso i2 r2 hi2 hpos hp2

theorem StartOnce_foldl {map : Image} {start : Point} (endP : Point) {cur : PathNode}
    (l : List Point) (hl : ∀ nb ∈ l, nb ∈ neighbors cur.p) :
    ∀ st : List PathNode × List PathNode, FoldInv map start cur st → StartOnce start st.2 →
      StartOnce start (l.foldl (visitNeighbor map endP cur) st).2 := by
  induction l with
  | nil => intro st _ h; exact h
  | cons a t ih =>
    intro st h hso
    rw [List.foldl_cons]
    exact ih (fun nb hnb => hl nb (List.mem_cons_of_mem _ hnb)) _
      (FoldInv_visitNeighbor endP h (hl a (List.mem_cons_self _ _)))
      (StartOnce_visitNeighbor endP a h hso)

theorem StartOnce_searchState {map : Image} {start : Point} (endP : Point) (k : Nat) :
    ∀ st : List PathNode × List PathNode, SearchInv map start st.1 st.2 →
      StartOnce start st.2 → StartOnce start (searchState map endP k st).2 := by
  induction k with
  | zero => intro st _ h; exact h
  | succ k ih =>
    intro st h hso
    obtain ⟨fr, re⟩ := st
    cases fr with
    | nil => exact hso
    | cons cur rest =>
      refine ih _ (searchStep_inv endP h) ?_
      exact StartOnce_foldl endP (neighbors cur.p) (fun _ hnb => hnb) (rest, re)
        (FoldInv_of_SearchInv h) hso

theorem StartOnce_init (start : Point) : StartOnce start [⟨start, 0, 0, none⟩] := by
  intro i r hr hi
  have := lt_length_of_getElem? hr
  simp only [List.length_singleton] at this
  omega

/-- The backtracking loop never follows a null predecessor: on an array
`reached` of the shape the search keeps, it returns or is still running. -/
theorem backtrack_ne_undefined {map : Image} {start : Point} {re : List PathNode}
    (htree : ReachedTree map start re) (fuel : Nat) :
    ∀ (q : Point) (path : List Point),
      backtrack re start fuel q path ≠ Outcome.undefinedBehaviour := by
  induction fuel with
  | zero =>
    intro q path
    by_cases hc : (q.x ≠ start.x ∨ q.y ≠ start.y) ∧ path.length < re.length
    · rw [backtrack_zero re start q path hc]; intro h; cases h
    · rw [backtrack_stop re start _ q path hc]; intro h; cases h
  | succ n ih =>
    intro q path
    by_cases hc : (q.x ≠ start.x ∨ q.y ≠ start.y) ∧ path.length < re.length
    · cases hf : findReached re q with
      | none =>
        rw [backtrack_miss re start _ q path hc hf]
        exact ih q path
      | some i =>
        obtain ⟨r, hr, hrp⟩ := findReached_some hf
        have hpos : 0 < i := by
          rcases Nat.eq_zero_or_pos i with rfl | hpos
          · exfalso
            have hhead := htree.1
            cases re with
            | nil => simp at hr
            | cons x t =>
              simp only [List.head?_cons, Option.some.injEq] at hhead
              simp only [List.getElem?_cons_zero, Option.some.injEq] at hr
              have hqs : q = start := by rw [← hrp, ← hr, hhead]
              rw [hqs] at hc
              rcases hc.1 with h | h <;> exact h rfl
          · exact hpos
        obtain ⟨_, j, pr, _, hpar, _, _, _⟩ := htree.2 i r hr hpos
        rw [backtrack_hit re start _ q path hc hf
          (by rw [getD_of_getElem? hr]; exact hpar)]
        exact ih _ _
    · rw [backtrack_stop re start _ q path hc]; intro h; cases h

/-! ## The backtracking loop, step by step -/

theorem backtrackExit_stop (re : List PathNode) (start : Point) (fuel : Nat) (q : Point)
    (path : List Point)
    (h : ¬ ((q.x ≠ start.x ∨ q.y ≠ start.y) ∧ path.length < re.length)) :
    backtrackExit re start fuel q path = Outcome.returned (q, path) := by
  unfold backtrackExit
  rw [if_neg h]

theorem backtrackExit_zero (re : List PathNode) (start : Point) (q : Point)
    (path : List Point)
    (h : (q.x ≠ start.x ∨ q.y ≠ start.y) ∧ path.length < re.length) :
    backtrackExit re start 0 q path = Outcome.running := by
  unfold backtrackExit
  rw [if_pos h]

theorem backtrackExit_miss (re : List PathNode) (start : Point) (fuel : Nat) (q : Point)
    (path : List Point)
    (h : (q.x ≠ start.x ∨ q.y ≠ start.y) ∧ path.length < re.length)
    (hf : findReached re q = none) :
    backtrackExit re start (fuel + 1) q path = backtrackExit re start fuel q path := by
  conv_lhs => unfold backtrackExit
  rw [if_pos h]
  simp only [hf]

theorem backtrackExit_null (re : List PathNode) (start : Point) (fuel : Nat) (q : Point)
    (path : List Point)
    (h : (q.x ≠ start.x ∨ q.y ≠ start.y) ∧ path.length < re.length) {i : Nat}
    (hf : findReached re q = some i) (hp : (re.getD i nullNode).parent = none) :
    backtrackExit re start (fuel + 1) q path = Outcome.undefinedBehaviour := by
  conv_lhs => unfold backtrackExit
  rw [if_pos h]
  simp only [hf, hp]

theorem backtrackExit_hit (re : List PathNode) (start : Point) (fuel : Nat) (q : Point)
    (path : List Point)
    (h : (q.x ≠ start.x ∨ q.y ≠ start.y) ∧ path.length < re.length) {i j : Nat}
    (hf : findReached re q = some i) (hp : (re.getD i nullNode).parent = some j) :
    backtrackExit re start (fuel + 1) q path
      = backtrackExit re start fuel (re.getD j nullNode).p (path ++ [q]) := by
  conv_lhs => unfold backtrackExit
  rw [if_pos h]
  simp only [hf, hp]

/-- The loop `backtrack` is the loop `backtrackExit` with the value of
`current` at the exit left out. -/
theorem backtrack_eq_backtrackExit (re : List PathNode) (start : Point) (fuel : Nat) :
    ∀ (q : Point) (path : List Point),
      backtrack re start fuel q path
        = (backtrackExit re start fuel q path).bind (fun r => Outcome.returned r.2) := by
  induction fuel with
  | zero =>
    intro q path
    by_cases hc : (q.x ≠ start.x ∨ q.y ≠ start.y) ∧ path.length < re.length
    · rw [backtrack_zero re start q path hc, backtrackExit_zero re start q path hc]; rfl
    · rw [backtrack_stop re start _ q path hc, backtrackExit_stop re start _ q path hc]; rfl
  | succ n ih =>
    intro q path
    by_cases hc : (q.x ≠ start.x ∨ q.y ≠ start.y) ∧ path.length < re.length
    · cases hf : findReached re q with
      | none =>
        rw [backtrack_miss re start _ q path hc hf, backtrackExit_miss re start _ q path hc hf]
        exact ih q path
      | some i =>
        cases hp : (re.getD i nullNode).parent with
        | none =>
          rw [backtrack_null re start _ q path hc hf hp,
            backtrackExit_null re start _ q path hc hf hp]
          rfl
        | some j =>
          rw [backtrack_hit re start _ q path hc hf hp,
            backtrackExit_hit re start _ q path hc hf hp]
          exact ih _ _
    · rw [backtrack_stop re start _ q path hc, backtrackExit_stop re start _ q path hc]; rfl

/-- From a cell recorded in `reached` the backtracking loop leaves with
`current` at the start: the cells it appends to `path` are distinct, none is
the start, each is looked up at an index of `reached` no higher than the
index `i` of the first, and there are at most `i` of them. -/
theorem backtrackExit_trace {map : Image} {start : Point} {re : List PathNode}
    (htree : ReachedTree map start re) :
    ∀ (i : Nat) (q : Point) (path : List Point), findReached re q = some i →
      path.length + i < re.length → ∀ fuel : Nat, i ≤ fuel →
      ∃ cells, backtrackExit re start fuel q path = Outcome.returned (start, path ++ cells) ∧
        cells.length ≤ i ∧ cells.Nodup ∧
        (∀ c ∈ cells, c ≠ start ∧ ∃ i', i' ≤ i ∧ findReached re c = some i') := by
  intro i
  induction i using Nat.strong_induction_on with
  | _ i ih =>
    intro q path hf hlen fuel hfuel
    obtain ⟨r, hr, hrp⟩ := findReached_some hf
    by_cases hq : q = start
    · refine ⟨[], ?_, Nat.zero_le _, List.nodup_nil, by simp⟩
      rw [List.append_nil, ← hq]
      apply backtrackExit_stop
      rw [hq]
      simp
    · have hc : (q.x ≠ start.x ∨ q.y ≠ start.y) ∧ path.length < re.length := by
        constructor
        · by_contra hn
          apply hq
          apply (Point.eq_iff _ _).1
          constructor
          · by_contra hx; exact hn (Or.inl hx)
          · by_contra hy; exact hn (Or.inr hy)
        · omega
      have hpos : 0 < i := by
        rcases Nat.eq_zero_or_pos i with rfl | hpos
        · exfalso
          have hhead := htree.1
          cases re with
          | nil => simp at hr
          | cons x t =>
            simp only [List.head?_cons, Option.some.injEq] at hhead
            simp only [List.getElem?_cons_zero, Option.some.injEq] at hr
            apply hq
            rw [← hrp, ← hr, hhead]
        · exact hpos
      obtain ⟨_, j, pr, hj, hpar, hpr, hfj, _⟩ := htree.2 i r hr hpos
      cases fuel with
      | zero => omega
      | succ f =>
        have hgi := getD_of_getElem? hr
        have hgj := getD_of_getElem? hpr
        rw [backtrackExit_hit re start f q path hc hf (by rw [hgi]; exact hpar), hgj]
        obtain ⟨cells, hres, hclen, hnd, hmem⟩ :=
          ih j hj pr.p (path ++ [q]) hfj
            (by simp only [List.length_append, List.length_singleton]; omega) f (by omega)
        refine ⟨q :: cells, ?_, ?_, ?_, ?_⟩
        · rw [hres]; simp
        · simp only [List.length_cons]; omega
        · refine List.nodup_cons.2 ⟨?_, hnd⟩
          intro hqc
          obtain ⟨_, i', hi', hfi'⟩ := hmem q hqc
          rw [hf] at hfi'
          injection hfi' with hfi'
          omega
        · intro c hcmem
          rcases List.mem_cons.1 hcmem with rfl | hcmem
          · exact ⟨hq, i, le_refl _, hf⟩
          · obtain ⟨h1, i', hi', hfi'⟩ := hmem c hcmem
            exact ⟨h1, i', by omega, hfi'⟩

/-- C25: when the search of `LoadPathAStar` has returned the array `reached`
and the end cell is recorded in it, the backtracking loop terminates (it
returns with fuel for one step per entry of `reached`), it leaves with
`current` at the start, and the number of steps it has taken, which is the
number `pathCounter` of cells stored, is less than `reachedSize`: the
guard `pathCounter < reachedSize` is still true at the exit and has not cut
the route short. -/
theorem backtrack_arrives_at_start (map : Image) (start endP : Point) (fuel : Nat)
    (re : List PathNode)
    (hre : searchLoop map endP fuel [⟨start, 0, 0, none⟩] [⟨start, 0, 0, none⟩] = some re)
    (hend : endP ∈ coords re) (fuel' : Nat) (hfuel : re.length ≤ fuel') :
    ∃ cells, backtrackExit re start fuel' endP [] = Outcome.returned (start, cells) ∧
      backtrack re start fuel' endP [] = Outcome.returned cells ∧
      cells.length < re.length := by
  have hinv := searchLoop_inv endP fuel _ _ re (SearchInv_init map start) hre
  obtain ⟨i, hi⟩ := findReached_isSome_of_mem hend
  obtain ⟨r, hri, _⟩ := findReached_some hi
  have hilt := lt_length_of_getElem? hri
  obtain ⟨cells, hres, hlen, _, _⟩ :=
    backtrackExit_trace hinv.1 i endP [] hi (by simpa using hilt) fuel' (by omega)
  rw [List.nil_append] at hres
  refine ⟨cells, hres, ?_, by omega⟩
  rw [backtrack_eq_backtrackExit, hres]
  rfl

/-- C25 on `grid5` with start (1, 1) and end (3, 3): the search leaves 9
entries in `reached` and the backtracking loop stores 4 cells. -/
theorem backtrack_arrives_at_start_witness :
    searchLoop grid5 ⟨3, 3⟩ 9 [⟨⟨1, 1⟩, 0, 0, none⟩] [⟨⟨1, 1⟩, 0, 0, none⟩]
      = some grid5Reached ∧
    (⟨3, 3⟩ : Point) ∈ coords grid5Reached ∧
    ∃ cells, backtrackExit grid5Reached ⟨1, 1⟩ 9 ⟨3, 3⟩ [] = Outcome.returned (⟨1, 1⟩, cells) ∧
      backtrack grid5Reached ⟨1, 1⟩ 9 ⟨3, 3⟩ [] = Outcome.returned cells ∧
      cells.length < grid5Reached.length :=
  ⟨by decide!, by decide!,
    backtrack_arrives_at_start grid5 ⟨1, 1⟩ ⟨3, 3⟩ 9 grid5Reached (by decide!) (by decide!)
      9 (by decide!)⟩

/-! ## The alternate A* fragment -/

/-- C21 fails in the code.  In the fragment `astarAlt.c` the test that guards
the update is `!inOpenList || tentativeGValue < currentNode->gvalue`, and
`tentativeGValue` is `currentNode->gvalue + 1`, which is never below
`currentNode->gvalue`.  So for every open list, every current node (whose
`gvalue + 1` does not overflow) and every valid neighbour that is already in
the open list, whatever g is recorded for that neighbour, the step changes
nothing: the neighbour is not updated. -/
theorem processNeighbor_open_neighbor_unchanged (map : Image) (endP : Point)
    (currentNode : Nat) (st : List AltPathNode × Nat) (neighbor : Point)
    (cur : AltPathNode) (j : Nat)
    (hvalid : isValidAlt map neighbor = true)
    (hcur : st.1.get? currentNode = some cur) (hg : cur.gvalue ≠ 2147483647)
    (hj : findInOpenList st.1 st.2 neighbor = some j) :
    processNeighbor map endP currentNode st neighbor = Outcome.returned st := by
  unfold processNeighbor
  rw [if_neg (by simp [hvalid])]
  simp only [hcur, if_neg hg, hj, Option.isSome_some, Bool.not_true, Bool.false_or,
    decide_eq_true_eq]
  rw [if_neg (by omega)]

/-- C21 on `grid5`: the open list holds the current node at (1, 1) with g 0
and its neighbour (1, 2) with g 5.  The tentative g is 1, lower than 5, and
the step leaves the open list as it was: the neighbour keeps g 5 and no
parent. -/
theorem processNeighbor_open_neighbor_unchanged_witness :
    (0 : Int) + 1 < 5 ∧
    processNeighbor grid5 ⟨3, 3⟩ 0
        ([⟨⟨1, 1⟩, 0, 4, none, true⟩, ⟨⟨1, 2⟩, 5, 3, none, false⟩, nullAltNode], 2) ⟨1, 2⟩
      = Outcome.returned
          ([⟨⟨1, 1⟩, 0, 4, none, true⟩, ⟨⟨1, 2⟩, 5, 3, none, false⟩, nullAltNode], 2) :=
  ⟨by decide,
    processNeighbor_open_neighbor_unchanged grid5 ⟨3, 3⟩ 0
      ([⟨⟨1, 1⟩, 0, 4, none, true⟩, ⟨⟨1, 2⟩, 5, 3, none, false⟩, nullAltNode], 2) ⟨1, 2⟩
      ⟨⟨1, 1⟩, 0, 4, none, true⟩ 1 (by decide!) (by decide!) (by decide!) (by decide!)⟩

/-! ## The bounded search and the search -/

theorem pathCapacity_eq (map : Image) : pathCapacity map = map.height * map.width := by
  unfold pathCapacity pointerSize pointSize
  exact Nat.mul_div_cancel _ (by decide)

/-- A result of the bounded search loop is the result of the search loop. -/
theorem searchLoop_of_checked (capacity : Nat) (map : Image) (endP : Point) (fuel : Nat) :
    ∀ fr re re' : List PathNode,
      searchLoopChecked capacity map endP fuel fr re = Outcome.returned re' →
      searchLoop map endP fuel fr re = some re' := by
  induction fuel with
  | zero =>
    intro fr re re' h
    cases fr with
    | nil =>
      rw [searchLoopChecked_nil] at h
      injection h with h
      subst h
      rfl
    | cons cur rest => cases h
  | succ n ih =>
    intro fr re re' h
    cases fr with
    | nil =>
      rw [searchLoopChecked_nil] at h
      injection h with h
      subst h
      rfl
    | cons cur rest =>
      rw [searchLoop_cons_succ]
      have hdef : searchLoopChecked capacity map endP (n + 1) (cur :: rest) re
          = (searchStepChecked capacity map endP cur rest re).bind
              (fun st => searchLoopChecked capacity map endP n st.1 st.2) := rfl
      rw [hdef] at h
      rcases searchStepChecked_cases capacity map endP cur rest re with hs | hs
      · rw [hs, Outcome.bind_returned] at h
        exact ih _ _ re' h
      · rw [hs] at h; cases h

theorem visitNeighborChecked_length (capacity : Nat) (map : Image) (endP : Point)
    (cur : PathNode) (st st' : List PathNode × List PathNode) (nb : Point)
    (h : visitNeighborChecked capacity map endP cur st nb = Outcome.returned st')
    (hl : st.2.length ≤ capacity) : st'.2.length ≤ capacity := by
  unfold visitNeighborChecked at h
  simp only at h
  split_ifs at h with h1 h2 h3
  · injection h with h
    rw [← h]
    simp only [List.length_append, List.length_singleton]
    omega
  · injection h with h
    rw [← h]; exact hl
  · injection h with h
    rw [← h]; exact hl

theorem foldl_visitNeighborChecked_length (capacity : Nat) (map : Image) (endP : Point)
    (cur : PathNode) (l : List Point) :
    ∀ st st' : List PathNode × List PathNode,
      l.foldl (fun acc nb => acc.bind fun s => visitNeighborChecked capacity map endP cur s nb)
          (Outcome.returned st) = Outcome.returned st' →
      st.2.length ≤ capacity → st'.2.length ≤ capacity := by
  induction l with
  | nil =>
    intro st st' h hl
    injection h with h
    rw [← h]; exact hl
  | cons a t ih =>
    intro st st' h hl
    rw [List.foldl_cons, Outcome.bind_returned] at h
    cases hv : visitNeighborChecked capacity map endP cur st a with
    | returned s1 =>
      rw [hv] at h
      exact ih s1 st' h (visitNeighborChecked_length capacity map endP cur st s1 a hv hl)
    | running =>
      rw [hv] at h
      exfalso
      clear ih hv
      induction t with
      | nil => cases h
      | cons b t iht => rw [List.foldl_cons] at h; exact iht h
    | undefinedBehaviour =>
      rw [hv] at h
      exfalso
      clear ih hv
      induction t with
      | nil => cases h
      | cons b t iht => rw [List.foldl_cons] at h; exact iht h

/-- The bounded search loop leaves no more than `capacity` entries in
`reached`. -/
theorem searchLoopChecked_length (capacity : Nat) (map : Image) (endP : Point) (fuel : Nat) :
    ∀ fr re re' : List PathNode,
      searchLoopChecked capacity map endP fuel fr re = Outcome.returned re' →
      re.length ≤ capacity → re'.length ≤ capacity := by
  induction fuel with
  | zero =>
    intro fr re re' h hl
    cases fr with
    | nil =>
      rw [searchLoopChecked_nil] at h
      injection h with h
      rw [← h]; exact hl
    | cons cur rest => cases h
  | succ n ih =>
    intro fr re re' h hl
    cases fr with
    | nil =>
      rw [searchLoopChecked_nil] at h
      injection h with h
      rw [← h]; exact hl
    | cons cur rest =>
      have hdef : searchLoopChecked capacity map endP (n + 1) (cur :: rest) re
          = (searchStepChecked capacity map endP cur rest re).bind
              (fun st => searchLoopChecked capacity map endP n st.1 st.2) := rfl
      rw [hdef] at h
      cases hs : searchStepChecked capacity map endP cur rest re with
      | returned st =>
        rw [hs, Outcome.bind_returned] at h
        refine ih _ _ re' h ?_
        unfold searchStepChecked at hs
        cases hf : (neighbors cur.p).foldl
            (fun acc nb => acc.bind fun s => visitNeighborChecked capacity map endP cur s nb)
            (Outcome.returned (rest, re)) with
        | returned s1 =>
          rw [hf, Outcome.bind_returned] at hs
          injection hs with hs
          rw [← hs]
          exact foldl_visitNeighborChecked_length capacity map endP cur _ _ s1 hf hl
        | running => rw [hf] at hs; cases hs
        | undefinedBehaviour => rw [hf] at hs; cases hs
      | running => rw [hs] at h; cases h
      | undefinedBehaviour => rw [hs] at h; cases h

/-- On an array `reached` no longer than the capacity of `path`, the bounded
backtracking loop is the backtracking loop: it stores fewer points than
`reached` has entries. -/
theorem backtrackChecked_eq (capacity : Nat) (re : List PathNode) (start : Point)
    (hcap : re.length ≤ capacity) (fuel : Nat) :
    ∀ (q : Point) (path : List Point),
      backtrackChecked capacity re start fuel q path = backtrack re start fuel q path := by
  induction fuel with
  | zero =>
    intro q path
    unfold backtrackChecked backtrack
    rfl
  | succ n ih =>
    intro q path
    unfold backtrackChecked backtrack
    by_cases hc : (q.x ≠ start.x ∨ q.y ≠ start.y) ∧ path.length < re.length
    · rw [if_pos hc, if_pos hc]
      simp only
      cases hf : findReached re q with
      | none => simp only; exact ih q path
      | some i =>
        simp only
        rw [if_pos (by omega)]
        cases hp : (re.getD i nullNode).parent with
        | none => rfl
        | some j => simp only; exact ih _ _
    · rw [if_neg hc, if_neg hc]

/-- A path returned with the arrays bounded is the path the function returns
with its arrays unbounded. -/
theorem LoadPathAStar_of_checked (map : Image) (start endP : Point) (fuel : Nat)
    (cells : List Point)
    (h : LoadPathAStarChecked fuel map start endP = Outcome.returned cells) :
    LoadPathAStar fuel map start endP = Outcome.returned cells ∧
      ∃ re, searchLoopChecked (map.height * map.width) map endP fuel
          [⟨start, 0, 0, none⟩] [⟨start, 0, 0, none⟩] = Outcome.returned re ∧
        re.length ≤ map.height * map.width := by
  unfold LoadPathAStarChecked at h
  simp only at h
  by_cases hpos : 0 < map.height * map.width
  · rw [if_pos hpos] at h
    cases hs : searchLoopChecked (map.height * map.width) map endP fuel
        [⟨start, 0, 0, none⟩] [⟨start, 0, 0, none⟩] with
    | returned re =>
      rw [hs, Outcome.bind_returned] at h
      have hlen := searchLoopChecked_length _ map endP fuel _ _ re hs
        (by simp only [List.length_singleton]; omega)
      rw [backtrackChecked_eq _ re start (by rw [pathCapacity_eq]; exact hlen)] at h
      refine ⟨?_, re, rfl, hlen⟩
      unfold LoadPathAStar
      simp only
      rw [searchLoop_of_checked _ map endP fuel _ _ re hs]
      exact h
    | running => rw [hs] at h; cases h
    | undefinedBehaviour => rw [hs] at h; cases h
  · rw [if_neg hpos] at h; cases h

theorem openCell_pos {map : Image} {c : Point} (h : OpenCell map c) :
    0 < map.height * map.width := by
  obtain ⟨h1, h2, h3, h4, _⟩ := h
  have hw : 0 < map.width := by omega
  have hh : 0 < map.height := by omega
  exact Nat.mul_pos hh hw

/-- When the bounded search loop has returned, the call with the arrays
bounded is the call with the arrays unbounded, for any fuel that covers the
search. -/
theorem LoadPathAStarChecked_eq (map : Image) (start endP : Point) (fuel0 : Nat)
    (re : List PathNode) (hpos : 0 < map.height * map.width)
    (hre : searchLoopChecked (map.height * map.width) map endP fuel0
      [⟨start, 0, 0, none⟩] [⟨start, 0, 0, none⟩] = Outcome.returned re)
    (fuel : Nat) (hfuel : fuel0 ≤ fuel) :
    LoadPathAStarChecked fuel map start endP = LoadPathAStar fuel map start endP ∧
      searchLoop map endP fuel [⟨start, 0, 0, none⟩] [⟨start, 0, 0, none⟩] = some re := by
  have hre2 := searchLoopChecked_mono_le _ map endP hfuel _ _ _ hre (by intro h; cases h)
  have hlen := searchLoopChecked_length _ map endP fuel _ _ re hre2
    (by simp only [List.length_singleton]; omega)
  have hsl := searchLoop_of_checked _ map endP fuel _ _ re hre2
  refine ⟨?_, hsl⟩
  unfold LoadPathAStarChecked LoadPathAStar
  simp only
  rw [if_pos hpos, hre2, Outcome.bind_returned, hsl,
    backtrackChecked_eq _ re start (by rw [pathCapacity_eq]; exact hlen)]

/-- With fuel `pathFuel map` the call with the arrays bounded is not still
running, whatever the cells: it has returned or it has written past an
array. -/
theorem LoadPathAStarChecked_not_running (map : Image) (start endP : Point)
    (hs : isValid map start = true) (hr : Reachable map start endP) (fuel : Nat)
    (hfuel : pathFuel map ≤ fuel) :
    LoadPathAStarChecked fuel map start endP ≠ Outcome.running := by
  obtain ⟨re, hre, hinv, hlen⟩ := search_returns map start endP fuel hfuel
  unfold LoadPathAStarChecked
  simp only
  by_cases hpos : 0 < map.height * map.width
  · rw [if_pos hpos]
    rcases searchLoopChecked_cases (map.height * map.width) map endP fuel _ _ re hre with h | h
    · have h2 := (LoadPathAStarChecked_eq map start endP fuel re hpos h fuel (le_refl _)).1
      obtain ⟨cells, hres, _⟩ := LoadPathAStar_returns map start endP hs hr fuel hfuel
      rw [hres] at h2
      unfold LoadPathAStarChecked at h2
      simp only at h2
      rw [if_pos hpos] at h2
      rw [h2]
      intro hc; cases hc
    · rw [h]; intro hc; cases hc
  · rw [if_neg hpos]; intro hc; cases hc

/-- What `LoadPathAStar` returns for a reachable end, whatever the fuel: a
chain of valid cells, none of them the start and none repeated, that begins
at the end cell and, with the start appended, ends at the start. -/
theorem LoadPathAStar_returned_spec (map : Image) (start endP : Point)
    (hs : isValid map start = true) (hr : Reachable map start endP) (fuel : Nat)
    (cells : List Point) (h : LoadPathAStar fuel map start endP = Outcome.returned cells) :
    List.Chain' adjacent4 (cells ++ [start]) ∧
      (cells ++ [start]).head? = some endP ∧
      (∀ c ∈ cells, isValid map c = true ∧ c ≠ start) := by
  obtain ⟨cells', hres, hchain, hhead, hvalid⟩ :=
    LoadPathAStar_returns map start endP hs hr (pathFuel map) (le_refl _)
  have := LoadPathAStar_unique map start endP h hres
  subst this
  exact ⟨hchain, hhead, hvalid⟩

/-- When the bounded search loop has returned the array `reached`, the call
with the arrays bounded returns for a reachable end, with any fuel that
covers the search and has one unit per entry of `reached`. -/
theorem LoadPathAStarChecked_returns (map : Image) (start endP : Point)
    (hs : isValid map start = true) (hr : Reachable map start endP) (fuel0 : Nat)
    (re : List PathNode)
    (hre : searchLoopChecked (map.height * map.width) map endP fuel0
      [⟨start, 0, 0, none⟩] [⟨start, 0, 0, none⟩] = Outcome.returned re)
    (fuel : Nat) (hfuel : fuel0 ≤ fuel) (hlen : re.length ≤ fuel) :
    ∃ cells, LoadPathAStarChecked fuel map start endP = Outcome.returned cells := by
  have hpos : 0 < map.height * map.width :=
    openCell_pos ((isValid_iff_openCell map start).1 hs)
  obtain ⟨heq, hsl⟩ := LoadPathAStarChecked_eq map start endP fuel0 re hpos hre fuel hfuel
  have hinv := searchLoop_inv endP fuel _ _ re (SearchInv_init map start) hsl
  obtain ⟨n, hroute⟩ := hr
  obtain ⟨i, hi⟩ := findReached_isSome_of_mem (mem_coords_of_route hinv hroute)
  obtain ⟨r, hri, _⟩ := findReached_some hi
  have hilt := lt_length_of_getElem? hri
  obtain ⟨cells, hres, _⟩ :=
    backtrack_returns hinv.1 i endP [] hi (by simpa using hilt) fuel (by omega)
  refine ⟨cells, ?_⟩
  rw [heq]
  unfold LoadPathAStar
  simp only [hsl]
  simpa using hres








theorem LoadPathAStarChecked_grid5 :
    LoadPathAStarChecked 20 grid5 ⟨1, 1⟩ ⟨3, 3⟩
      = Outcome.returned [⟨3, 3⟩, ⟨2, 3⟩, ⟨1, 3⟩, ⟨1, 2⟩] := by
  decide!

theorem LoadPathAStarChecked_grid5_same :
    LoadPathAStarChecked 20 grid5 ⟨1, 1⟩ ⟨1, 1⟩ = Outcome.returned [] := by
  decide!

/-- The two ways the call with the arrays bounded comes to an end for a
reachable end cell: it returns whenever the bounded search loop has returned,
and with fuel `pathFuel map` it is not still running. -/
theorem LoadPathAStarChecked_ends (map : Image) (start endP : Point)
    (hs : OpenCell map start) (hr : Reachable map start endP) :
    (∀ fuel0 re,
      searchLoopChecked (map.height * map.width) map endP fuel0
        [⟨start, 0, 0, none⟩] [⟨start, 0, 0, none⟩] = Outcome.returned re →
      ∀ fuel, fuel0 ≤ fuel → re.length ≤ fuel →
        ∃ cells, LoadPathAStarChecked fuel map start endP = Outcome.returned cells) ∧
    (∀ fuel, pathFuel map ≤ fuel →
      LoadPathAStarChecked fuel map start endP ≠ Outcome.running) := by
  have hs' := (isValid_iff_openCell map start).2 hs
  exact ⟨fun fuel0 re hre fuel h0 hlen =>
      LoadPathAStarChecked_returns map start endP hs' hr fuel0 re hre fuel h0 hlen,
    fun fuel hfuel => LoadPathAStarChecked_not_running map start endP hs' hr fuel hfuel⟩



/-- C2, counterexample: on the 5 by 5 grid whose only walls are the frame,
with start (1, 1) and end (3, 3) (both open, the end reachable, shortest
distance 4), `LoadPathAStar` returns 4 cells, not 5 = distance + 1, whatever
the fuel; the run stays within the arrays as allocated. -/
theorem LoadPathAStar_count_counterexample :
    OpenCell grid5 ⟨1, 1⟩ ∧ OpenCell grid5 ⟨3, 3⟩ ∧ ShortestDistance grid5 ⟨1, 1⟩ ⟨3, 3⟩ 4 ∧
      LoadPathAStar 20 grid5 ⟨1, 1⟩ ⟨3, 3⟩
        = Outcome.returned [⟨3, 3⟩, ⟨2, 3⟩, ⟨1, 3⟩, ⟨1, 2⟩] ∧
      (∀ fuel cells, LoadPathAStar fuel grid5 ⟨1, 1⟩ ⟨3, 3⟩ = Outcome.returned cells →
        cells.length = 4 ∧ cells.length ≠ 4 + 1) ∧
      LoadPathAStarChecked 20 grid5 ⟨1, 1⟩ ⟨3, 3⟩
        = Outcome.returned [⟨3, 3⟩, ⟨2, 3⟩, ⟨1, 3⟩, ⟨1, 2⟩] ∧
      ∀ fuel cells, LoadPathAStarChecked fuel grid5 ⟨1, 1⟩ ⟨3, 3⟩ = Outcome.returned cells →
        cells.length = 4 ∧ cells.length ≠ 4 + 1 := by
  have hall : ∀ fuel cells, LoadPathAStar fuel grid5 ⟨1, 1⟩ ⟨3, 3⟩ = Outcome.returned cells →
      cells.length = 4 ∧ cells.length ≠ 4 + 1 := by
    intro fuel cells h
    have := LoadPathAStar_unique grid5 ⟨1, 1⟩ ⟨3, 3⟩ h LoadPathAStar_grid5
    subst this
    exact ⟨rfl, by decide⟩
  refine ⟨by decide!, by decide!, ⟨route_grid5, ?_⟩, LoadPathAStar_grid5, hall,
    LoadPathAStarChecked_grid5, ?_⟩
  · intro n hn
    have h := manhattan_le_of_route hn
    have h4 : Int.natAbs ((1 : Int) - 3) + Int.natAbs ((1 : Int) - 3) = 4 := by decide
    simp only at h
    omega
  · intro fuel cells h
    exact hall fuel cells (LoadPathAStar_of_checked grid5 ⟨1, 1⟩ ⟨3, 3⟩ fuel cells h).1

/-- C5, counterexample: on the 5 by 5 grid, `LoadPathAStar(grid, c, c)` for
the open cell c = (1, 1) returns the empty path, not `[c]`, whatever the
fuel; the run stays within the arrays as allocated. -/
theorem LoadPathAStar_same_cell_counterexample :
    OpenCell grid5 ⟨1, 1⟩ ∧ LoadPathAStar 20 grid5 ⟨1, 1⟩ ⟨1, 1⟩ = Outcome.returned [] ∧
      (∀ fuel cells, LoadPathAStar fuel grid5 ⟨1, 1⟩ ⟨1, 1⟩ = Outcome.returned cells →
        cells.length ≠ 1 ∧ cells ≠ [⟨1, 1⟩]) ∧
      LoadPathAStarChecked 20 grid5 ⟨1, 1⟩ ⟨1, 1⟩ = Outcome.returned [] ∧
      ∀ fuel cells, LoadPathAStarChecked fuel grid5 ⟨1, 1⟩ ⟨1, 1⟩ = Outcome.returned cells →
        cells.length ≠ 1 ∧ cells ≠ [⟨1, 1⟩] := by
  have h20 : LoadPathAStar 20 grid5 ⟨1, 1⟩ ⟨1, 1⟩ = Outcome.returned [] := by decide!
  have hall : ∀ fuel cells, LoadPathAStar fuel grid5 ⟨1, 1⟩ ⟨1, 1⟩ = Outcome.returned cells →
      cells.length ≠ 1 ∧ cells ≠ [⟨1, 1⟩] := by
    intro fuel cells h
    have := LoadPathAStar_unique grid5 ⟨1, 1⟩ ⟨1, 1⟩ h h20
    subst this
    exact ⟨by decide, by intro hc; cases hc⟩
  exact ⟨by decide!, h20, hall, LoadPathAStarChecked_grid5_same, fun fuel cells h =>
    hall fuel cells (LoadPathAStar_of_checked grid5 ⟨1, 1⟩ ⟨1, 1⟩ fuel cells h).1⟩

/-- C6, counterexample: on the 5 by 5 grid with start (1, 1) and end (3, 3)
the sequence returned begins with the end cell (3, 3) and ends with (1, 2):
its first cell is not the start and its last cell is not the end, whatever
the fuel; the run stays within the arrays as allocated. -/
theorem LoadPathAStar_order_counterexample :
    OpenCell grid5 ⟨1, 1⟩ ∧ OpenCell grid5 ⟨3, 3⟩ ∧ Reachable grid5 ⟨1, 1⟩ ⟨3, 3⟩ ∧
      LoadPathAStar 20 grid5 ⟨1, 1⟩ ⟨3, 3⟩
        = Outcome.returned [⟨3, 3⟩, ⟨2, 3⟩, ⟨1, 3⟩, ⟨1, 2⟩] ∧
      (∀ fuel cells, LoadPathAStar fuel grid5 ⟨1, 1⟩ ⟨3, 3⟩ = Outcome.returned cells →
        cells.head? ≠ some ⟨1, 1⟩ ∧ cells.getLast? ≠ some ⟨3, 3⟩) ∧
      LoadPathAStarChecked 20 grid5 ⟨1, 1⟩ ⟨3, 3⟩
        = Outcome.returned [⟨3, 3⟩, ⟨2, 3⟩, ⟨1, 3⟩, ⟨1, 2⟩] ∧
      ∀ fuel cells, LoadPathAStarChecked fuel grid5 ⟨1, 1⟩ ⟨3, 3⟩ = Outcome.returned cells →
        cells.head? ≠ some ⟨1, 1⟩ ∧ cells.getLast? ≠ some ⟨3, 3⟩ := by
  have hall : ∀ fuel cells, LoadPathAStar fuel grid5 ⟨1, 1⟩ ⟨3, 3⟩ = Outcome.returned cells →
      cells.head? ≠ some ⟨1, 1⟩ ∧ cells.getLast? ≠ some ⟨3, 3⟩ := by
    intro fuel cells h
    have := LoadPathAStar_unique grid5 ⟨1, 1⟩ ⟨3, 3⟩ h LoadPathAStar_grid5
    subst this
    exact ⟨by decide, by decide⟩
  exact ⟨by decide!, by decide!, ⟨4, route_grid5⟩, LoadPathAStar_grid5, hall,
    LoadPathAStarChecked_grid5, fun fuel cells h =>
      hall fuel cells (LoadPathAStar_of_checked grid5 ⟨1, 1⟩ ⟨3, 3⟩ fuel cells h).1⟩

/-! ## Claims on `LoadPathAStar` with its arrays as allocated -/

/-- C2, amended: for every grid and every pair of in-bounds open cells start,
end with end reachable from start, whenever `LoadPathAStar`, run with its
arrays as allocated, returns, the cells returned do not include the start
and, followed by the start, form a chain of 4-adjacent cells beginning at the
end: the number of cells returned (pointCount) is the number of moves of the
returned route from start to end, not that number plus one, and it is at
least the shortest distance.  The call returns whenever its search loop has
returned without writing past `frontier` or `reached`, and with fuel
`pathFuel map` it is not still running.  On the 5 by 5 grid whose only walls
are the frame, with start (1, 1) and end (3, 3), it returns 4 cells. -/
theorem LoadPathAStarChecked_count (map : Image) (start endP : Point)
    (hs : OpenCell map start) (he : OpenCell map endP) (hr : Reachable map start endP) :
    (∀ fuel cells, LoadPathAStarChecked fuel map start endP = Outcome.returned cells →
      start ∉ cells ∧
      List.Chain' adjacent4 (cells ++ [start]) ∧ (cells ++ [start]).head? = some endP ∧
      Route map start endP cells.length ∧
      ∀ d, ShortestDistance map start endP d → d ≤ cells.length) ∧
    (∀ fuel0 re,
      searchLoopChecked (map.height * map.width) map endP fuel0
        [⟨start, 0, 0, none⟩] [⟨start, 0, 0, none⟩] = Outcome.returned re →
      ∀ fuel, fuel0 ≤ fuel → re.length ≤ fuel →
        ∃ cells, LoadPathAStarChecked fuel map start endP = Outcome.returned cells) ∧
    (∀ fuel, pathFuel map ≤ fuel →
      LoadPathAStarChecked fuel map start endP ≠ Outcome.running) ∧
    LoadPathAStarChecked 20 grid5 ⟨1, 1⟩ ⟨3, 3⟩
      = Outcome.returned [⟨3, 3⟩, ⟨2, 3⟩, ⟨1, 3⟩, ⟨1, 2⟩] := by
  have _ := he
  have hs' := (isValid_iff_openCell map start).2 hs
  refine ⟨?_, (LoadPathAStarChecked_ends map start endP hs hr).1,
    (LoadPathAStarChecked_ends map start endP hs hr).2, LoadPathAStarChecked_grid5⟩
  intro fuel cells h
  obtain ⟨hchain, hhead, hvalid⟩ := LoadPathAStar_returned_spec map start endP hs' hr fuel cells
    (LoadPathAStar_of_checked map start endP fuel cells h).1
  have hroute := route_of_chain hs' cells endP hchain hhead (fun c hc => (hvalid c hc).1)
  exact ⟨fun hmem => (hvalid start hmem).2 rfl, hchain, hhead, hroute,
    fun d hd => hd.2 _ hroute⟩

/-- C2, amended, on the 5 by 5 grid with start (1, 1) and end (3, 3), where
the call with the arrays as allocated returns 4 cells. -/
theorem LoadPathAStarChecked_count_witness :
    (∀ fuel cells, LoadPathAStarChecked fuel grid5 ⟨1, 1⟩ ⟨3, 3⟩ = Outcome.returned cells →
      (⟨1, 1⟩ : Point) ∉ cells ∧
      List.Chain' adjacent4 (cells ++ [(⟨1, 1⟩ : Point)]) ∧
      (cells ++ [(⟨1, 1⟩ : Point)]).head? = some ⟨3, 3⟩ ∧
      Route grid5 ⟨1, 1⟩ ⟨3, 3⟩ cells.length ∧
      ∀ d, ShortestDistance grid5 ⟨1, 1⟩ ⟨3, 3⟩ d → d ≤ cells.length) ∧
    (∀ fuel0 re,
      searchLoopChecked (grid5.height * grid5.width) grid5 ⟨3, 3⟩ fuel0
        [⟨⟨1, 1⟩, 0, 0, none⟩] [⟨⟨1, 1⟩, 0, 0, none⟩] = Outcome.returned re →
      ∀ fuel, fuel0 ≤ fuel → re.length ≤ fuel →
        ∃ cells, LoadPathAStarChecked fuel grid5 ⟨1, 1⟩ ⟨3, 3⟩ = Outcome.returned cells) ∧
    (∀ fuel, pathFuel grid5 ≤ fuel →
      LoadPathAStarChecked fuel grid5 ⟨1, 1⟩ ⟨3, 3⟩ ≠ Outcome.running) ∧
    LoadPathAStarChecked 20 grid5 ⟨1, 1⟩ ⟨3, 3⟩
      = Outcome.returned [⟨3, 3⟩, ⟨2, 3⟩, ⟨1, 3⟩, ⟨1, 2⟩] :=
  LoadPathAStarChecked_count grid5 ⟨1, 1⟩ ⟨3, 3⟩ (by decide!) (by decide!) ⟨4, route_grid5⟩

/-- C5, amended: for every grid and every in-bounds open cell c, whenever
`LoadPathAStar(grid, c, c)`, run with its arrays as allocated, returns, it
returns the empty path: pointCount = 0, the start cell is never stored.  The
call returns whenever its search loop has returned without writing past
`frontier` or `reached`, and with fuel `pathFuel map` it is not still
running. -/
theorem LoadPathAStarChecked_same_cell (map : Image) (c : Point) (hc : OpenCell map c) :
    (∀ fuel cells, LoadPathAStarChecked fuel map c c = Outcome.returned cells →
      cells = [] ∧ cells.length = 0) ∧
    (∀ fuel0 re,
      searchLoopChecked (map.height * map.width) map c fuel0
        [⟨c, 0, 0, none⟩] [⟨c, 0, 0, none⟩] = Outcome.returned re →
      ∀ fuel, fuel0 ≤ fuel → re.length ≤ fuel →
        LoadPathAStarChecked fuel map c c = Outcome.returned []) ∧
    (∀ fuel, pathFuel map ≤ fuel → LoadPathAStarChecked fuel map c c ≠ Outcome.running) := by
  have hc' := (isValid_iff_openCell map c).2 hc
  have hr : Reachable map c c := ⟨0, Route.here c hc'⟩
  have hempty : ∀ fuel cells, LoadPathAStarChecked fuel map c c = Outcome.returned cells →
      cells = [] := by
    intro fuel cells h
    have h1 := (LoadPathAStar_of_checked map c c fuel cells h).1
    unfold LoadPathAStar at h1
    simp only at h1
    cases hsl : searchLoop map c fuel [⟨c, 0, 0, none⟩] [⟨c, 0, 0, none⟩] with
    | none => rw [hsl] at h1; cases h1
    | some re =>
      rw [hsl] at h1
      simp only at h1
      rw [backtrack_stop re c fuel c [] (by simp)] at h1
      injection h1 with h1
      exact h1.symm
  refine ⟨fun fuel cells h => ?_, fun fuel0 re hre fuel h0 hlen => ?_,
    (LoadPathAStarChecked_ends map c c hc hr).2⟩
  · have := hempty fuel cells h
    subst this
    exact ⟨rfl, rfl⟩
  · obtain ⟨cells, hcells⟩ :=
      (LoadPathAStarChecked_ends map c c hc hr).1 fuel0 re hre fuel h0 hlen
    have := hempty fuel cells hcells
    subst this
    exact hcells

/-- C5, amended, on the 5 by 5 grid at the cell (1, 1), where the call with
the arrays as allocated returns the empty path. -/
theorem LoadPathAStarChecked_same_cell_witness :
    ((∀ fuel cells, LoadPathAStarChecked fuel grid5 ⟨1, 1⟩ ⟨1, 1⟩ = Outcome.returned cells →
      cells = [] ∧ cells.length = 0) ∧
    (∀ fuel0 re,
      searchLoopChecked (grid5.height * grid5.width) grid5 ⟨1, 1⟩ fuel0
        [⟨⟨1, 1⟩, 0, 0, none⟩] [⟨⟨1, 1⟩, 0, 0, none⟩] = Outcome.returned re →
      ∀ fuel, fuel0 ≤ fuel → re.length ≤ fuel →
        LoadPathAStarChecked fuel grid5 ⟨1, 1⟩ ⟨1, 1⟩ = Outcome.returned []) ∧
    (∀ fuel, pathFuel grid5 ≤ fuel →
      LoadPathAStarChecked fuel grid5 ⟨1, 1⟩ ⟨1, 1⟩ ≠ Outcome.running)) ∧
    LoadPathAStarChecked 20 grid5 ⟨1, 1⟩ ⟨1, 1⟩ = Outcome.returned [] :=
  ⟨LoadPathAStarChecked_same_cell grid5 ⟨1, 1⟩ (by decide!), LoadPathAStarChecked_grid5_same⟩

/-- C6, amended: for every grid and every pair of distinct in-bounds open
cells start, end with end reachable from start, whenever `LoadPathAStar`, run
with its arrays as allocated, returns, the sequence returned is in
end-to-start order and leaves the start out: its first cell is the end, its
last cell is 4-adjacent to the start, and the start is not in it.  The call
returns whenever its search loop has returned without writing past
`frontier` or `reached`, and with fuel `pathFuel map` it is not still
running. -/
theorem LoadPathAStarChecked_order (map : Image) (start endP : Point)
    (hs : OpenCell map start) (he : OpenCell map endP) (hne : start ≠ endP)
    (hr : Reachable map start endP) :
    (∀ fuel cells, LoadPathAStarChecked fuel map start endP = Outcome.returned cells →
      cells.head? = some endP ∧
      (∃ last, cells.getLast? = some last ∧ adjacent4 last start) ∧
      start ∉ cells) ∧
    (∀ fuel0 re,
      searchLoopChecked (map.height * map.width) map endP fuel0
        [⟨start, 0, 0, none⟩] [⟨start, 0, 0, none⟩] = Outcome.returned re →
      ∀ fuel, fuel0 ≤ fuel → re.length ≤ fuel →
        ∃ cells, LoadPathAStarChecked fuel map start endP = Outcome.returned cells) ∧
    (∀ fuel, pathFuel map ≤ fuel →
      LoadPathAStarChecked fuel map start endP ≠ Outcome.running) := by
  have _ := he
  have hs' := (isValid_iff_openCell map start).2 hs
  refine ⟨?_, LoadPathAStarChecked_ends map start endP hs hr⟩
  intro fuel cells h
  obtain ⟨hchain, hhead, hvalid⟩ := LoadPathAStar_returned_spec map start endP hs' hr fuel cells
    (LoadPathAStar_of_checked map start endP fuel cells h).1
  refine ⟨?_, ?_, fun hmem => (hvalid start hmem).2 rfl⟩
  · cases cells with
    | nil =>
      simp only [List.nil_append, List.head?_cons, Option.some.injEq] at hhead
      exact absurd hhead hne
    | cons c cs => simpa using hhead
  · have hne' : cells ≠ [] := by
      intro hnil
      rw [hnil] at hhead
      simp only [List.nil_append, List.head?_cons, Option.some.injEq] at hhead
      exact hne hhead
    cases hl : cells.getLast? with
    | none => exact absurd (List.getLast?_eq_none_iff.1 hl) hne'
    | some last =>
      refine ⟨last, rfl, ?_⟩
      exact (List.chain'_append.1 hchain).2.2 last hl start rfl

/-- C6, amended, on the 5 by 5 grid with start (1, 1) and end (3, 3), where
the call with the arrays as allocated returns (3, 3), (2, 3), (1, 3),
(1, 2). -/
theorem LoadPathAStarChecked_order_witness :
    ((∀ fuel cells, LoadPathAStarChecked fuel grid5 ⟨1, 1⟩ ⟨3, 3⟩ = Outcome.returned cells →
      cells.head? = some ⟨3, 3⟩ ∧
      (∃ last, cells.getLast? = some last ∧ adjacent4 last ⟨1, 1⟩) ∧
      (⟨1, 1⟩ : Point) ∉ cells) ∧
    (∀ fuel0 re,
      searchLoopChecked (grid5.height * grid5.width) grid5 ⟨3, 3⟩ fuel0
        [⟨⟨1, 1⟩, 0, 0, none⟩] [⟨⟨1, 1⟩, 0, 0, none⟩] = Outcome.returned re →
      ∀ fuel, fuel0 ≤ fuel → re.length ≤ fuel →
        ∃ cells, LoadPathAStarChecked fuel grid5 ⟨1, 1⟩ ⟨3, 3⟩ = Outcome.returned cells) ∧
    (∀ fuel, pathFuel grid5 ≤ fuel →
      LoadPathAStarChecked fuel grid5 ⟨1, 1⟩ ⟨3, 3⟩ ≠ Outcome.running)) ∧
    LoadPathAStarChecked 20 grid5 ⟨1, 1⟩ ⟨3, 3⟩
      = Outcome.returned [⟨3, 3⟩, ⟨2, 3⟩, ⟨1, 3⟩, ⟨1, 2⟩] :=
  ⟨LoadPathAStarChecked_order grid5 ⟨1, 1⟩ ⟨3, 3⟩ (by decide!) (by decide!) (by decide)
      ⟨4, route_grid5⟩,
    LoadPathAStarChecked_grid5⟩

/-- C20, amended: the search loop of `LoadPathAStar` stops only when the
frontier is empty.  A state `(cur :: rest, re)` of the run, with a non-empty
frontier, is followed by another iteration, which takes `cur` from the
frontier and expands it, whatever node was taken before and also when `cur`
is at the end cell.  When the loop, run with `frontier` and `reached` as
allocated, returns the array `reached`, every cell that can be reached from
`start` through open cells is recorded in it; with fuel `pathFuel map` that
loop is not still running: it has returned or it has written past the end of
an array. -/
theorem searchLoop_stops_on_empty_frontier (map : Image) (start endP : Point) (k : Nat)
    (cur : PathNode) (rest re : List PathNode)
    (h : searchState map endP k (startState start) = (cur :: rest, re)) :
    searchState map endP (k + 1) (startState start) = searchStep map endP cur rest re ∧
    (∀ fuel, searchLoop map endP (fuel + 1 + k) [⟨start, 0, 0, none⟩] [⟨start, 0, 0, none⟩]
      = searchLoop map endP fuel (searchStep map endP cur rest re).1
          (searchStep map endP cur rest re).2) ∧
    (searchLoop map endP k [⟨start, 0, 0, none⟩] [⟨start, 0, 0, none⟩] = none) ∧
    (∀ fuel re',
      searchLoopChecked (map.height * map.width) map endP fuel
        [⟨start, 0, 0, none⟩] [⟨start, 0, 0, none⟩] = Outcome.returned re' →
      ∀ c, Reachable map start c → c ∈ coords re') ∧
    searchLoopChecked (map.height * map.width) map endP (pathFuel map)
      [⟨start, 0, 0, none⟩] [⟨start, 0, 0, none⟩] ≠ Outcome.running := by
  have hl : ∀ fuel, searchLoop map endP (fuel + k) [⟨start, 0, 0, none⟩] [⟨start, 0, 0, none⟩]
      = searchLoop map endP fuel (cur :: rest) re := by
    intro fuel
    rw [searchLoop_searchState map endP fuel k [⟨start, 0, 0, none⟩] [⟨start, 0, 0, none⟩]]
    have h2 : searchState map endP k ([⟨start, 0, 0, none⟩], [⟨start, 0, 0, none⟩])
        = (cur :: rest, re) := h
    rw [h2]
  refine ⟨?_, ?_, ?_, ?_, ?_⟩
  · rw [searchState_succ_right, h]
    rfl
  · intro fuel
    rw [hl (fuel + 1)]
    rfl
  · have := hl 0
    rw [Nat.zero_add] at this
    rw [this]
    rfl
  · intro fuel re' hre' c ⟨n, hn⟩
    have hsl := searchLoop_of_checked _ map endP fuel _ _ re' hre'
    have hinv := searchLoop_inv endP fuel _ _ re' (SearchInv_init map start) hsl
    exact mem_coords_of_route hinv hn
  · obtain ⟨re', hre', _, _⟩ := search_returns map start endP (pathFuel map) (le_refl _)
    rcases searchLoopChecked_cases (map.height * map.width) map endP _ _ _ re' hre' with h | h
    · rw [h]; intro hc; cases hc
    · rw [h]; intro hc; cases hc

/-- C20, amended, on `grid5` with start (1, 1) and end (1, 2), at the head of
the 2nd iteration, where the entry at index 0 of the frontier is the node at
the end cell: the loop goes on.  The loop with the arrays as allocated
returns after 9 iterations, with 9 entries in `reached`. -/
theorem searchLoop_stops_on_empty_frontier_witness :
    searchState grid5 ⟨1, 2⟩ 1 (startState ⟨1, 1⟩)
      = ([⟨⟨1, 2⟩, 1, 0, none⟩, ⟨⟨2, 1⟩, 1, 2, none⟩],
         [⟨⟨1, 1⟩, 0, 0, none⟩, ⟨⟨1, 2⟩, 1, 0, some 0⟩, ⟨⟨2, 1⟩, 1, 2, some 0⟩]) ∧
    (searchLoopChecked (grid5.height * grid5.width) grid5 ⟨1, 2⟩ 9
        [⟨⟨1, 1⟩, 0, 0, none⟩] [⟨⟨1, 1⟩, 0, 0, none⟩]
      = Outcome.returned
          [⟨⟨1, 1⟩, 0, 0, none⟩, ⟨⟨1, 2⟩, 1, 0, some 0⟩, ⟨⟨2, 1⟩, 1, 2, some 0⟩,
           ⟨⟨1, 3⟩, 2, 1, some 1⟩, ⟨⟨2, 2⟩, 2, 1, some 1⟩, ⟨⟨3, 1⟩, 2, 3, some 2⟩,
           ⟨⟨2, 3⟩, 3, 2, some 4⟩, ⟨⟨3, 2⟩, 3, 2, some 4⟩, ⟨⟨3, 3⟩, 4, 3, some 6⟩]) ∧
    (searchState grid5 ⟨1, 2⟩ (1 + 1) (startState ⟨1, 1⟩)
      = searchStep grid5 ⟨1, 2⟩ ⟨⟨1, 2⟩, 1, 0, none⟩ [⟨⟨2, 1⟩, 1, 2, none⟩]
          [⟨⟨1, 1⟩, 0, 0, none⟩, ⟨⟨1, 2⟩, 1, 0, some 0⟩, ⟨⟨2, 1⟩, 1, 2, some 0⟩] ∧
    (∀ fuel, searchLoop grid5 ⟨1, 2⟩ (fuel + 1 + 1) [⟨⟨1, 1⟩, 0, 0, none⟩]
        [⟨⟨1, 1⟩, 0, 0, none⟩]
      = searchLoop grid5 ⟨1, 2⟩ fuel
          (searchStep grid5 ⟨1, 2⟩ ⟨⟨1, 2⟩, 1, 0, none⟩ [⟨⟨2, 1⟩, 1, 2, none⟩]
            [⟨⟨1, 1⟩, 0, 0, none⟩, ⟨⟨1, 2⟩, 1, 0, some 0⟩, ⟨⟨2, 1⟩, 1, 2, some 0⟩]).1
          (searchStep grid5 ⟨1, 2⟩ ⟨⟨1, 2⟩, 1, 0, none⟩ [⟨⟨2, 1⟩, 1, 2, none⟩]
            [⟨⟨1, 1⟩, 0, 0, none⟩, ⟨⟨1, 2⟩, 1, 0, some 0⟩, ⟨⟨2, 1⟩, 1, 2, some 0⟩]).2) ∧
    (searchLoop grid5 ⟨1, 2⟩ 1 [⟨⟨1, 1⟩, 0, 0, none⟩] [⟨⟨1, 1⟩, 0, 0, none⟩] = none) ∧
    (∀ fuel re',
      searchLoopChecked (grid5.height * grid5.width) grid5 ⟨1, 2⟩ fuel
        [⟨⟨1, 1⟩, 0, 0, none⟩] [⟨⟨1, 1⟩, 0, 0, none⟩] = Outcome.returned re' →
      ∀ c, Reachable grid5 ⟨1, 1⟩ c → c ∈ coords re') ∧
    searchLoopChecked (grid5.height * grid5.width) grid5 ⟨1, 2⟩ (pathFuel grid5)
      [⟨⟨1, 1⟩, 0, 0, none⟩] [⟨⟨1, 1⟩, 0, 0, none⟩] ≠ Outcome.running) :=
  ⟨by decide!, by decide!,
    searchLoop_stops_on_empty_frontier grid5 ⟨1, 1⟩ ⟨1, 2⟩ 1 ⟨⟨1, 2⟩, 1, 0, none⟩
      [⟨⟨2, 1⟩, 1, 2, none⟩]
      [⟨⟨1, 1⟩, 0, 0, none⟩, ⟨⟨1, 2⟩, 1, 0, some 0⟩, ⟨⟨2, 1⟩, 1, 2, some 0⟩] (by decide!)⟩

/-- The bounded backtracking loop never follows a null predecessor and never
writes past `path`: on an array `reached` of the shape the search keeps and
no longer than the capacity of `path`, it returns or is still running. -/
theorem backtrackChecked_ne_undefined {map : Image} {start : Point} {re : List PathNode}
    (htree : ReachedTree map start re) (capacity : Nat) (hcap : re.length ≤ capacity)
    (fuel : Nat) (q : Point) (path : List Point) :
    backtrackChecked capacity re start fuel q path ≠ Outcome.undefinedBehaviour := by
  rw [backtrackChecked_eq capacity re start hcap fuel q path]
  exact backtrack_ne_undefined htree fuel q path

/-- C24: at the head of every iteration of the search loop of
`LoadPathAStar`, and so in the array `reached` the loop leaves, the start
node is at index 0 with no predecessor, no other entry is at the start cell,
and every other entry has a predecessor that is an earlier entry of `reached`
at a 4-adjacent cell.  Hence, on the array `reached` that the search loop
leaves, the backtracking loop never follows a null predecessor: from any
cell and with any fuel it returns or is still running, and with the arrays
as allocated, on a map that has a cell, it does not write past `path`
either. -/
theorem reached_tree_invariant (map : Image) (start endP : Point) (k : Nat) :
    (searchState map endP k (startState start)).2.head? = some ⟨start, 0, 0, none⟩ ∧
    (∀ i r, (searchState map endP k (startState start)).2[i]? = some r → 0 < i →
      r.p ≠ start ∧
      ∃ j pr, j < i ∧ r.parent = some j ∧
        (searchState map endP k (startState start)).2[j]? = some pr ∧ adjacent4 pr.p r.p) ∧
    (∀ fuel re,
      searchLoop map endP fuel [⟨start, 0, 0, none⟩] [⟨start, 0, 0, none⟩] = some re →
      ∀ fuel' q path, backtrack re start fuel' q path ≠ Outcome.undefinedBehaviour) ∧
    (0 < map.height * map.width → ∀ fuel re,
      searchLoopChecked (map.height * map.width) map endP fuel
        [⟨start, 0, 0, none⟩] [⟨start, 0, 0, none⟩] = Outcome.returned re →
      ∀ fuel' q path,
        backtrackChecked (pathCapacity map) re start fuel' q path
          ≠ Outcome.undefinedBehaviour) := by
  have hinv := SearchInv_searchState endP k (startState start) (SearchInv_init map start)
  have hso := StartOnce_searchState endP k (startState start) (SearchInv_init map start)
    (StartOnce_init start)
  refine ⟨hinv.1.1, ?_, ?_, ?_⟩
  · intro i r hr hi
    obtain ⟨_, j, pr, hj, hpar, hpr, _, hadj⟩ := hinv.1.2 i r hr hi
    exact ⟨hso i r hr hi, j, pr, hj, hpar, hpr, hadj⟩
  · intro fuel re hre fuel' q path
    have hinv2 := searchLoop_inv endP fuel _ _ re (SearchInv_init map start) hre
    exact backtrack_ne_undefined hinv2.1 fuel' q path
  · intro hpos fuel re hre fuel' q path
    have hsl := searchLoop_of_checked _ map endP fuel _ _ re hre
    have hinv2 := searchLoop_inv endP fuel _ _ re (SearchInv_init map start) hsl
    have hlen := searchLoopChecked_length _ map endP fuel _ _ re hre
      (by simp only [List.length_singleton]; omega)
    exact backtrackChecked_ne_undefined hinv2.1 _ (by rw [pathCapacity_eq]; exact hlen)
      fuel' q path

/-! ## The scan with `mazePoints` as allocated and the scan -/

theorem foldl_bind_running {α ι : Type} (f : ι → α → Outcome α) (l : List ι) :
    l.foldl (fun acc k => acc.bind (f k)) Outcome.running = Outcome.running := by
  induction l with
  | nil => rfl
  | cons a t ih => exact ih

theorem foldl_bind_undefined {α ι : Type} (f : ι → α → Outcome α) (l : List ι) :
    l.foldl (fun acc k => acc.bind (f k)) Outcome.undefinedBehaviour
      = Outcome.undefinedBehaviour := by
  induction l with
  | nil => rfl
  | cons a t ih => exact ih

/-- A loop of steps that refine their unbounded steps refines the unbounded
loop. -/
theorem CapacityRefines_foldl {α ι : Type} (len : α → Nat) (cap : Nat)
    (fC f : ι → α → Outcome α) (h : ∀ k, CapacityRefines len cap (fC k) (f k))
    (l : List ι) :
    CapacityRefines len cap
      (fun s => l.foldl (fun acc k => acc.bind (fC k)) (Outcome.returned s))
      (fun s => l.foldl (fun acc k => acc.bind (f k)) (Outcome.returned s)) := by
  induction l with
  | nil =>
    refine ⟨fun s s' hs => hs, ?_, ?_, fun s s' hs _ => hs, ?_⟩
    · intro s s' hs hl
      injection hs with hs
      rw [← hs]; exact hl
    · intro s s' hs
      injection hs with hs
      rw [← hs]
    · intro s hs; cases hs
  | cons a t ih =>
    obtain ⟨a1, a2, a3, a4, a5⟩ := h a
    obtain ⟨i1, i2, i3, i4, i5⟩ := ih
    refine ⟨?_, ?_, ?_, ?_, ?_⟩
    · intro s s' hs
      simp only [List.foldl_cons, Outcome.bind_returned] at hs ⊢
      cases hc : fC a s with
      | returned s1 =>
        rw [hc] at hs
        rw [a1 s s1 hc]
        exact i1 s1 s' hs
      | running => rw [hc, foldl_bind_running] at hs; cases hs
      | undefinedBehaviour => rw [hc, foldl_bind_undefined] at hs; cases hs
    · intro s s' hs hl
      simp only [List.foldl_cons, Outcome.bind_returned] at hs
      cases hc : fC a s with
      | returned s1 =>
        rw [hc] at hs
        exact i2 s1 s' hs (a2 s s1 hc hl)
      | running => rw [hc, foldl_bind_running] at hs; cases hs
      | undefinedBehaviour => rw [hc, foldl_bind_undefined] at hs; cases hs
    · intro s s' hs
      simp only [List.foldl_cons, Outcome.bind_returned] at hs
      cases hc : f a s with
      | returned s1 =>
        rw [hc] at hs
        exact le_trans (a3 s s1 hc) (i3 s1 s' hs)
      | running => rw [hc, foldl_bind_running] at hs; cases hs
      | undefinedBehaviour => rw [hc, foldl_bind_undefined] at hs; cases hs
    · intro s s' hs hl
      simp only [List.foldl_cons, Outcome.bind_returned] at hs ⊢
      cases hc : f a s with
      | returned s1 =>
        rw [hc] at hs
        rw [a4 s s1 hc (le_trans (i3 s1 s' hs) hl)]
        exact i4 s1 s' hs hl
      | running => rw [hc, foldl_bind_running] at hs; cases hs
      | undefinedBehaviour => rw [hc, foldl_bind_undefined] at hs; cases hs
    · intro s hs
      simp only [List.foldl_cons, Outcome.bind_returned] at hs
      cases hc : fC a s with
      | returned s1 =>
        rw [hc] at hs
        exact i5 s1 hs
      | running => exact a5 s hc
      | undefinedBehaviour => rw [hc, foldl_bind_undefined] at hs; cases hs

/-- Two steps in a row that refine their unbounded steps refine the two
unbounded steps in a row. -/
theorem CapacityRefines_bind {α : Type} (len : α → Nat) (cap : Nat)
    (fC f hC h : α → Outcome α) (hf : CapacityRefines len cap fC f)
    (hh : CapacityRefines len cap hC h) :
    CapacityRefines len cap (fun s => (fC s).bind hC) (fun s => (f s).bind h) := by
  obtain ⟨a1, a2, a3, a4, a5⟩ := hf
  obtain ⟨i1, i2, i3, i4, i5⟩ := hh
  refine ⟨?_, ?_, ?_, ?_, ?_⟩
  · intro s s' hs
    simp only at hs ⊢
    cases hc : fC s with
    | returned s1 =>
      rw [hc, Outcome.bind_returned] at hs
      rw [a1 s s1 hc, Outcome.bind_returned]
      exact i1 s1 s' hs
    | running => rw [hc] at hs; cases hs
    | undefinedBehaviour => rw [hc] at hs; cases hs
  · intro s s' hs hl
    simp only at hs
    cases hc : fC s with
    | returned s1 =>
      rw [hc, Outcome.bind_returned] at hs
      exact i2 s1 s' hs (a2 s s1 hc hl)
    | running => rw [hc] at hs; cases hs
    | undefinedBehaviour => rw [hc] at hs; cases hs
  · intro s s' hs
    simp only at hs
    cases hc : f s with
    | returned s1 =>
      rw [hc, Outcome.bind_returned] at hs
      exact le_trans (a3 s s1 hc) (i3 s1 s' hs)
    | running => rw [hc] at hs; cases hs
    | undefinedBehaviour => rw [hc] at hs; cases hs
  · intro s s' hs hl
    simp only at hs ⊢
    cases hc : f s with
    | returned s1 =>
      rw [hc, Outcome.bind_returned] at hs
      rw [a4 s s1 hc (le_trans (i3 s1 s' hs) hl), Outcome.bind_returned]
      exact i4 s1 s' hs hl
    | running => rw [hc] at hs; cases hs
    | undefinedBehaviour => rw [hc] at hs; cases hs
  · intro s hs
    simp only at hs
    cases hc : fC s with
    | returned s1 =>
      rw [hc, Outcome.bind_returned] at hs
      exact i5 s1 hs
    | running => exact a5 s hc
    | undefinedBehaviour => rw [hc] at hs; cases hs

/-- When the unbounded step returns more entries than the array holds, the
step with the array as allocated is undefined behaviour; when the unbounded
step is undefined behaviour, so is the other. -/
theorem CapacityRefines_overflow {α : Type} {len : α → Nat} {cap : Nat}
    {fC f : α → Outcome α} (h : CapacityRefines len cap fC f) (s : α) (hl : len s ≤ cap) :
    (∀ s', f s = Outcome.returned s' → cap < len s' → fC s = Outcome.undefinedBehaviour) ∧
    (f s = Outcome.undefinedBehaviour → fC s = Outcome.undefinedBehaviour) ∧
    (f s = Outcome.running → fC s = Outcome.undefinedBehaviour) := by
  obtain ⟨a1, a2, a3, a4, a5⟩ := h
  refine ⟨?_, ?_, ?_⟩
  · intro s' hs hlt
    cases hc : fC s with
    | returned s1 =>
      have h1 := a1 s s1 hc
      rw [hs] at h1
      injection h1 with h1
      have := a2 s s1 hc hl
      rw [← h1] at this
      omega
    | running => exact absurd hc (a5 s)
    | undefinedBehaviour => rfl
  · intro hs
    cases hc : fC s with
    | returned s1 =>
      have h1 := a1 s s1 hc
      rw [hs] at h1
      cases h1
    | running => exact absurd hc (a5 s)
    | undefinedBehaviour => rfl
  · intro hs
    cases hc : fC s with
    | returned s1 =>
      have h1 := a1 s s1 hc
      rw [hs] at h1
      cases h1
    | running => exact absurd hc (a5 s)
    | undefinedBehaviour => rfl

/-- One pixel of the scan with `mazePoints` as allocated: it does what the
pixel of the scan does, or the scan saves a point and the array is full. -/
theorem scanCellChecked_cases {σ : Type} (g : RandomGen σ) (spacingRows spacingCols : Int)
    (skipChance : ℚ) (y x : Nat) (s : ScanState σ) :
    scanCellChecked g spacingRows spacingCols skipChance y x s
        = scanCell g spacingRows spacingCols skipChance y x s ∨
      (scanCellChecked g spacingRows spacingCols skipChance y x s
          = Outcome.undefinedBehaviour ∧
        ¬ s.mazePoints.length < mazePointsCapacity ∧
        ∃ s', scanCell g spacingRows spacingCols skipChance y x s = Outcome.returned s' ∧
          s'.mazePoints.length = s.mazePoints.length + 1) := by
  unfold scanCellChecked scanCell
  by_cases h1 : ((x : Int) = 0 ∨ (x : Int) = (s.imMaze.width : Int) - 1 ∨
      (y : Int) = 0 ∨ (y : Int) = (s.imMaze.height : Int) - 1)
  · left; rw [if_pos h1, if_pos h1]
  · rw [if_neg h1, if_neg h1]
    by_cases h2 : spacingCols = 0
    · left; rw [if_pos h2, if_pos h2]
    · rw [if_neg h2, if_neg h2]
      by_cases h3 : Int.tmod x spacingCols = 0
      · rw [if_pos h3, if_pos h3]
        by_cases h4 : spacingRows = 0
        · left; rw [if_pos h4, if_pos h4]
        · rw [if_neg h4, if_neg h4]
          by_cases h5 : Int.tmod y spacingRows = 0
          · rw [if_pos h5, if_pos h5]
            simp only
            by_cases h6 : chanceAtLeast (g.GetRandomValue s.rng 0 100).1 skipChance = true
            · rw [if_pos h6, if_pos h6]
              by_cases h7 : s.mazePoints.length < mazePointsCapacity
              · left; rw [if_pos h7]
              · right
                rw [if_neg h7]
                exact ⟨rfl, h7, _, rfl, by simp⟩
            · left; rw [if_neg h6, if_neg h6]
          · left; rw [if_neg h5, if_neg h5]
      · left; rw [if_neg h3, if_neg h3]

/-- One pixel of the scan saves one point at most, and is never still
running. -/
theorem scanCell_length {σ : Type} (g : RandomGen σ) (spacingRows spacingCols : Int)
    (skipChance : ℚ) (y x : Nat) (s : ScanState σ) :
    scanCell g spacingRows spacingCols skipChance y x s ≠ Outcome.running ∧
    ∀ s', scanCell g spacingRows spacingCols skipChance y x s = Outcome.returned s' →
      s'.mazePoints.length = s.mazePoints.length ∨
      s'.mazePoints.length = s.mazePoints.length + 1 := by
  unfold scanCell
  by_cases h1 : ((x : Int) = 0 ∨ (x : Int) = (s.imMaze.width : Int) - 1 ∨
      (y : Int) = 0 ∨ (y : Int) = (s.imMaze.height : Int) - 1)
  · rw [if_pos h1]
    exact ⟨(by intro h; cases h), fun s' hs => by injection hs with hs; rw [← hs]; exact Or.inl rfl⟩
  · rw [if_neg h1]
    by_cases h2 : spacingCols = 0
    · rw [if_pos h2]
      exact ⟨(by intro h; cases h), fun s' hs => by cases hs⟩
    · rw [if_neg h2]
      by_cases h3 : Int.tmod x spacingCols = 0
      · rw [if_pos h3]
        by_cases h4 : spacingRows = 0
        · rw [if_pos h4]
          exact ⟨(by intro h; cases h), fun s' hs => by cases hs⟩
        · rw [if_neg h4]
          by_cases h5 : Int.tmod y spacingRows = 0
          · rw [if_pos h5]
            simp only
            by_cases h6 : chanceAtLeast (g.GetRandomValue s.rng 0 100).1 skipChance = true
            · rw [if_pos h6]
              exact ⟨(by intro h; cases h),
                fun s' hs => by injection hs with hs; rw [← hs]; right; simp⟩
            · rw [if_neg h6]
              exact ⟨(by intro h; cases h),
                fun s' hs => by injection hs with hs; rw [← hs]; exact Or.inl rfl⟩
          · rw [if_neg h5]
            exact ⟨(by intro h; cases h),
              fun s' hs => by injection hs with hs; rw [← hs]; exact Or.inl rfl⟩
      · rw [if_neg h3]
        exact ⟨(by intro h; cases h),
          fun s' hs => by injection hs with hs; rw [← hs]; exact Or.inl rfl⟩

/-- One pixel of the scan with `mazePoints` as allocated refines the pixel of
the scan. -/
theorem scanCellChecked_refines {σ : Type} (g : RandomGen σ) (spacingRows spacingCols : Int)
    (skipChance : ℚ) (y x : Nat) :
    CapacityRefines (fun s : ScanState σ => s.mazePoints.length) mazePointsCapacity
      (scanCellChecked g spacingRows spacingCols skipChance y x)
      (scanCell g spacingRows spacingCols skipChance y x) := by
  refine ⟨?_, ?_, ?_, ?_, ?_⟩
  · intro s s' hs
    rcases scanCellChecked_cases g spacingRows spacingCols skipChance y x s with h | ⟨h, _⟩
    · rw [← h]; exact hs
    · rw [h] at hs; cases hs
  · intro s s' hs hl
    simp only at hl ⊢
    rcases scanCellChecked_cases g spacingRows spacingCols skipChance y x s with h | ⟨h, _⟩
    · rw [h] at hs
      rcases (scanCell_length g spacingRows spacingCols skipChance y x s).2 s' hs with e | e
      · omega
      · by_cases hlt : s.mazePoints.length < mazePointsCapacity
        · omega
        · exfalso
          rcases scanCellChecked_cases g spacingRows spacingCols skipChance y x s with
            h' | ⟨h', _⟩
          · -- a point was saved with the array full: the checked step is undefined
            unfold scanCellChecked scanCell at h
            unfold scanCell at hs
            by_cases h1 : ((x : Int) = 0 ∨ (x : Int) = (s.imMaze.width : Int) - 1 ∨
                (y : Int) = 0 ∨ (y : Int) = (s.imMaze.height : Int) - 1)
            · rw [if_pos h1] at hs
              injection hs with hs
              rw [← hs] at e
              simp only at e
              omega
            · rw [if_neg h1] at hs
              by_cases h2 : spacingCols = 0
              · rw [if_pos h2] at hs; cases hs
              · rw [if_neg h2] at hs
                by_cases h3 : Int.tmod x spacingCols = 0
                · rw [if_pos h3] at hs
                  by_cases h4 : spacingRows = 0
                  · rw [if_pos h4] at hs; cases hs
                  · rw [if_neg h4] at hs
                    by_cases h5 : Int.tmod y spacingRows = 0
                    · rw [if_pos h5] at hs
                      simp only at hs
                      by_cases h6 : chanceAtLeast (g.GetRandomValue s.rng 0 100).1 skipChance
                          = true
                      · rw [if_neg h1, if_neg h1, if_neg h2, if_neg h2, if_pos h3, if_pos h3,
                          if_neg h4, if_neg h4, if_pos h5, if_pos h5] at h
                        simp only at h
                        rw [if_pos h6, if_pos h6, if_neg hlt] at h
                        cases h
                      · rw [if_neg h6] at hs
                        injection hs with hs
                        rw [← hs] at e
                        simp only at e
                        omega
                    · rw [if_neg h5] at hs
                      injection hs with hs
                      rw [← hs] at e
                      omega
                · rw [if_neg h3] at hs
                  injection hs with hs
                  rw [← hs] at e
                  omega
          · rw [h'] at h; rw [← h] at hs; cases hs
    · rw [h] at hs; cases hs
  · intro s s' hs
    simp only
    rcases (scanCell_length g spacingRows spacingCols skipChance y x s).2 s' hs with e | e <;>
      omega
  · intro s s' hs hl
    simp only at hl
    rcases scanCellChecked_cases g spacingRows spacingCols skipChance y x s with
      h | ⟨_, hfull, s2, hs2, e⟩
    · rw [h]; exact hs
    · exfalso
      rw [hs] at hs2
      injection hs2 with hs2
      rw [← hs2] at e
      have := (scanCell_length g spacingRows spacingCols skipChance y x s).2 s' hs
      omega
  · intro s hs
    rcases scanCellChecked_cases g spacingRows spacingCols skipChance y x s with h | ⟨h, _⟩
    · rw [h] at hs
      exact (scanCell_length g spacingRows spacingCols skipChance y x s).1 hs
    · rw [h] at hs; cases hs

theorem scanRowUpToChecked_refines {σ : Type} (g : RandomGen σ)
    (spacingRows spacingCols : Int) (skipChance : ℚ) (y x : Nat) :
    CapacityRefines (fun s : ScanState σ => s.mazePoints.length) mazePointsCapacity
      (scanRowUpToChecked g spacingRows spacingCols skipChance y x)
      (scanRowUpTo g spacingRows spacingCols skipChance y x) :=
  CapacityRefines_foldl _ _ _ _
    (fun k => scanCellChecked_refines g spacingRows spacingCols skipChance y k) (List.range x)

theorem scanRowChecked_refines {σ : Type} (g : RandomGen σ) (spacingRows spacingCols : Int)
    (skipChance : ℚ) (y : Nat) :
    CapacityRefines (fun s : ScanState σ => s.mazePoints.length) mazePointsCapacity
      (scanRowChecked g spacingRows spacingCols skipChance y)
      (scanRow g spacingRows spacingCols skipChance y) := by
  have h := fun x => scanRowUpToChecked_refines g spacingRows spacingCols skipChance y x
  exact ⟨fun s s' hs => (h s.imMaze.width).1 s s' hs,
    fun s s' hs => (h s.imMaze.width).2.1 s s' hs,
    fun s s' hs => (h s.imMaze.width).2.2.1 s s' hs,
    fun s s' hs => (h s.imMaze.width).2.2.2.1 s s' hs,
    fun s hs => (h s.imMaze.width).2.2.2.2 s hs⟩

theorem scanRowsChecked_refines {σ : Type} (g : RandomGen σ) (spacingRows spacingCols : Int)
    (skipChance : ℚ) (y : Nat) :
    CapacityRefines (fun s : ScanState σ => s.mazePoints.length) mazePointsCapacity
      (fun s => scanRowsChecked g spacingRows spacingCols skipChance s y)
      (fun s => scanRows g spacingRows spacingCols skipChance s y) :=
  CapacityRefines_foldl _ _ _ _
    (fun k => scanRowChecked_refines g spacingRows spacingCols skipChance k) (List.range y)

/-- The scan with `mazePoints` as allocated refines the scan. -/
theorem scanImageChecked_refines {σ : Type} (g : RandomGen σ) (spacingRows spacingCols : Int)
    (skipChance : ℚ) :
    CapacityRefines (fun s : ScanState σ => s.mazePoints.length) mazePointsCapacity
      (scanImageChecked g spacingRows spacingCols skipChance)
      (scanImage g spacingRows spacingCols skipChance) := by
  have h := fun y => scanRowsChecked_refines g spacingRows spacingCols skipChance y
  exact ⟨fun s s' hs => (h s.imMaze.height).1 s s' hs,
    fun s s' hs => (h s.imMaze.height).2.1 s s' hs,
    fun s s' hs => (h s.imMaze.height).2.2.1 s s' hs,
    fun s s' hs => (h s.imMaze.height).2.2.2.1 s s' hs,
    fun s hs => (h s.imMaze.height).2.2.2.2 s hs⟩

theorem scanUpToChecked_refines {σ : Type} (g : RandomGen σ) (spacingRows spacingCols : Int)
    (skipChance : ℚ) (y x : Nat) :
    CapacityRefines (fun s : ScanState σ => s.mazePoints.length) mazePointsCapacity
      (fun s => scanUpToChecked g spacingRows spacingCols skipChance s y x)
      (fun s => scanUpTo g spacingRows spacingCols skipChance s y x) :=
  CapacityRefines_bind _ _ _ _ _ _
    (scanRowsChecked_refines g spacingRows spacingCols skipChance y)
    (scanRowUpToChecked_refines g spacingRows spacingCols skipChance y x)

/-! ## `GenImageMazeExChecked` and `GenImageMazeEx` -/

theorem scanStart_inv {σ : Type} (rng : σ) (W H : Nat) :
    ScanInv W H (scanStart rng W H) :=
  ⟨rfl, rfl, GenImageColor_wellFormed _ _ _, by intro p hp; cases hp⟩

/-- A result of the scan with `mazePoints` as allocated is the result of the
scan, and holds no more points than the array does. -/
theorem scanImageChecked_returned {σ : Type} (g : RandomGen σ) (spacingRows spacingCols : Int)
    (skipChance : ℚ) (rng : σ) (W H : Nat) (st : ScanState σ)
    (h : scanImageChecked g spacingRows spacingCols skipChance (scanStart rng W H)
      = Outcome.returned st) :
    scanImage g spacingRows spacingCols skipChance (scanStart rng W H) = Outcome.returned st ∧
      st.mazePoints.length ≤ mazePointsCapacity := by
  obtain ⟨a1, a2, _, _, _⟩ := scanImageChecked_refines g spacingRows spacingCols skipChance
  exact ⟨a1 _ _ h, a2 _ _ h (Nat.zero_le _)⟩

/-- A result of the scan that fits the array is the result of the scan with
`mazePoints` as allocated. -/
theorem scanImageChecked_of_le {σ : Type} (g : RandomGen σ) (spacingRows spacingCols : Int)
    (skipChance : ℚ) (rng : σ) (W H : Nat) (st : ScanState σ)
    (h : scanImage g spacingRows spacingCols skipChance (scanStart rng W H)
      = Outcome.returned st)
    (hl : st.mazePoints.length ≤ mazePointsCapacity) :
    scanImageChecked g spacingRows spacingCols skipChance (scanStart rng W H)
      = Outcome.returned st :=
  (scanImageChecked_refines g spacingRows spacingCols skipChance).2.2.2.1 _ _ h hl

/-- A scan that saves more points than the array holds writes past the array. -/
theorem scanImageChecked_overflow {σ : Type} (g : RandomGen σ) (spacingRows spacingCols : Int)
    (skipChance : ℚ) (rng : σ) (W H : Nat) (st : ScanState σ)
    (h : scanImage g spacingRows spacingCols skipChance (scanStart rng W H)
      = Outcome.returned st)
    (hl : mazePointsCapacity < st.mazePoints.length) :
    scanImageChecked g spacingRows spacingCols skipChance (scanStart rng W H)
      = Outcome.undefinedBehaviour :=
  (CapacityRefines_overflow (scanImageChecked_refines g spacingRows spacingCols skipChance) _
    (Nat.zero_le _)).1 st h hl

/-- The function with `mazePoints` as allocated is its scan followed by the
growth loop of `GenImageMazeEx`. -/
theorem GenImageMazeExChecked_of_scan {σ : Type} (g : RandomGen σ) (fuel : Nat) (rng : σ)
    (width height : Nat) (spacingRows spacingCols : Int) (skipChance : ℚ) :
    (∀ st, scanImage g spacingRows spacingCols skipChance (scanStart rng width height)
        = Outcome.returned st →
      st.mazePoints.length ≤ mazePointsCapacity →
      GenImageMazeExChecked g fuel rng width height spacingRows spacingCols skipChance
        = GenImageMazeEx g fuel rng width height spacingRows spacingCols skipChance) ∧
    (∀ st, scanImage g spacingRows spacingCols skipChance (scanStart rng width height)
        = Outcome.returned st →
      mazePointsCapacity < st.mazePoints.length →
      GenImageMazeExChecked g fuel rng width height spacingRows spacingCols skipChance
        = Outcome.undefinedBehaviour) ∧
    (∀ res, GenImageMazeExChecked g fuel rng width height spacingRows spacingCols skipChance
        = Outcome.returned res →
      GenImageMazeEx g fuel rng width height spacingRows spacingCols skipChance
        = Outcome.returned res ∧
      ∃ st, scanImageChecked g spacingRows spacingCols skipChance (scanStart rng width height)
          = Outcome.returned st ∧
        scanImage g spacingRows spacingCols skipChance (scanStart rng width height)
          = Outcome.returned st ∧
        st.mazePoints.length ≤ mazePointsCapacity) := by
  refine ⟨?_, ?_, ?_⟩
  · intro st h hl
    have hc := scanImageChecked_of_le g spacingRows spacingCols skipChance rng width height st
      h hl
    unfold scanStart at h hc
    unfold GenImageMazeExChecked GenImageMazeEx
    rw [h, hc]
  · intro st h hl
    have hc := scanImageChecked_overflow g spacingRows spacingCols skipChance rng width height
      st h hl
    unfold scanStart at hc
    unfold GenImageMazeExChecked
    rw [hc]
    rfl
  · intro res h
    cases hc : scanImageChecked g spacingRows spacingCols skipChance
        (scanStart rng width height) with
    | returned st =>
      obtain ⟨hs, hl⟩ := scanImageChecked_returned g spacingRows spacingCols skipChance rng
        width height st hc
      refine ⟨?_, st, rfl, hs, hl⟩
      have hc2 := hc
      have hs2 := hs
      unfold scanStart at hc2 hs2
      unfold GenImageMazeExChecked at h
      unfold GenImageMazeEx
      rw [hc2] at h
      rw [hs2]
      exact h
    | running =>
      exfalso
      unfold scanStart at hc
      unfold GenImageMazeExChecked at h
      rw [hc] at h
      cases h
    | undefinedBehaviour =>
      exfalso
      unfold scanStart at hc
      unfold GenImageMazeExChecked at h
      rw [hc] at h
      cases h

/-- With non-zero spacings the scan saves points strictly inside the frame,
each once: no more than `(width - 2) * (height - 2)` of them. -/
theorem scanImage_length_le {σ : Type} (g : RandomGen σ) (spacingRows spacingCols : Int)
    (hsr : spacingRows ≠ 0) (hsc : spacingCols ≠ 0) (skipChance : ℚ) (rng : σ)
    (W H : Nat) :
    ∃ st, scanImage g spacingRows spacingCols skipChance (scanStart rng W H)
        = Outcome.returned st ∧
      st.mazePoints.length ≤ (W - 2) * (H - 2) := by
  obtain ⟨final, hf, hsi, _, hP, _⟩ :=
    scanImage_trace g spacingRows spacingCols hsr hsc skipChance rng W H
  exact ⟨final, hf, length_le_of_interior W H final.mazePoints
    (nodup_of_pairwise_scanBefore _ hP) hsi.2.2.2⟩

/-- With non-zero spacings and fuel for one walk across the grid, the
function with `mazePoints` as allocated returns what `GenImageMazeEx`
returns when the scan saves no more points than the array holds, and writes
past the array when the scan saves more. -/
theorem GenImageMazeExChecked_cases {σ : Type} (g : RandomGen σ) (fuel : Nat) (rng : σ)
    (width height : Nat) (spacingRows spacingCols : Int) (skipChance : ℚ)
    (hsr : spacingRows ≠ 0) (hsc : spacingCols ≠ 0) (hfuel : width + height ≤ fuel) :
    ∃ st res,
      scanImage g spacingRows spacingCols skipChance (scanStart rng width height)
        = Outcome.returned st ∧
      GenImageMazeEx g fuel rng width height spacingRows spacingCols skipChance
        = Outcome.returned res ∧
      st.mazePoints.length ≤ (width - 2) * (height - 2) ∧
      ((st.mazePoints.length ≤ mazePointsCapacity ∧
          scanImageChecked g spacingRows spacingCols skipChance (scanStart rng width height)
            = Outcome.returned st ∧
          GenImageMazeExChecked g fuel rng width height spacingRows spacingCols skipChance
            = Outcome.returned res) ∨
        (mazePointsCapacity < st.mazePoints.length ∧
          scanImageChecked g spacingRows spacingCols skipChance (scanStart rng width height)
            = Outcome.undefinedBehaviour ∧
          GenImageMazeExChecked g fuel rng width height spacingRows spacingCols skipChance
            = Outcome.undefinedBehaviour)) := by
  obtain ⟨st, hst, hlen⟩ :=
    scanImage_length_le g spacingRows spacingCols hsr hsc skipChance rng width height
  obtain ⟨res, hres, _⟩ :=
    GenImageMazeEx_returned g fuel rng width height spacingRows spacingCols skipChance
      hsr hsc hfuel
  obtain ⟨h1, h2, _⟩ := GenImageMazeExChecked_of_scan g fuel rng width height spacingRows
    spacingCols skipChance
  refine ⟨st, res, hst, hres, hlen, ?_⟩
  rcases Nat.lt_or_ge mazePointsCapacity st.mazePoints.length with hlt | hge
  · exact Or.inr ⟨hlt,
      scanImageChecked_overflow g spacingRows spacingCols skipChance rng width height st hst hlt,
      h2 st hst hlt⟩
  · exact Or.inl ⟨hge,
      scanImageChecked_of_le g spacingRows spacingCols skipChance rng width height st hst hge,
      by rw [h1 st hst hge]; exact hres⟩

/-- With non-zero spacings and fuel for one walk across the grid the function
with `mazePoints` as allocated is not still running. -/
theorem GenImageMazeExChecked_ne_running {σ : Type} (g : RandomGen σ) (fuel : Nat) (rng : σ)
    (width height : Nat) (spacingRows spacingCols : Int) (skipChance : ℚ)
    (hsr : spacingRows ≠ 0) (hsc : spacingCols ≠ 0) (hfuel : width + height ≤ fuel) :
    GenImageMazeExChecked g fuel rng width height spacingRows spacingCols skipChance
      ≠ Outcome.running := by
  obtain ⟨st, res, hst, hres, hlen, h | h⟩ :=
    GenImageMazeExChecked_cases g fuel rng width height spacingRows spacingCols skipChance
      hsr hsc hfuel
  · rw [h.2.2]; intro hc; cases hc
  · rw [h.2.2]; intro hc; cases hc

/-! ## The generator with every pixel access checked -/

/-- Invariant rule for two `for (k = 0; k < n; k++)` loops whose bodies agree
on every state the invariant allows, when a body that returns keeps the
invariant: the loops have the same outcome. -/
theorem foldl_range_congr_inv {α : Type} (f f' : Nat → α → Outcome α) (P : Nat → α → Prop)
    (n : Nat) (a : α) (h0 : P 0 a)
    (hstep : ∀ k s s', k < n → P k s → f k s = Outcome.returned s' → P (k + 1) s')
    (hcongr : ∀ k s, k < n → P k s → f' k s = f k s) :
    (List.range n).foldl (fun acc k => Outcome.bind acc (f' k)) (Outcome.returned a)
        = (List.range n).foldl (fun acc k => Outcome.bind acc (f k)) (Outcome.returned a) ∧
      ∀ s, (List.range n).foldl (fun acc k => Outcome.bind acc (f k)) (Outcome.returned a)
          = Outcome.returned s → P n s := by
  induction n with
  | zero =>
    refine ⟨rfl, ?_⟩
    intro s hs
    injection hs with hs
    rw [← hs]; exact h0
  | succ m ih =>
    obtain ⟨heq, hP⟩ := ih (fun k s s' hk hp => hstep k s s' (Nat.lt_succ_of_lt hk) hp)
      (fun k s hk hp => hcongr k s (Nat.lt_succ_of_lt hk) hp)
    rw [List.range_succ, List.foldl_append, List.foldl_append, heq]
    simp only [List.foldl_cons, List.foldl_nil]
    cases hm : (List.range m).foldl (fun acc k => Outcome.bind acc (f k))
        (Outcome.returned a) with
    | returned s =>
      rw [Outcome.bind_returned, Outcome.bind_returned]
      refine ⟨hcongr m s (Nat.lt_succ_self m) (hP s hm), ?_⟩
      intro s' hs'
      exact hstep m s s' (Nat.lt_succ_self m) (hP s hm) hs'
    | running => exact ⟨rfl, fun s hs => by cases hs⟩
    | undefinedBehaviour => exact ⟨rfl, fun s hs => by cases hs⟩

/-- One pixel of the scan keeps the extents of the image. -/
theorem scanCell_dims {σ : Type} (g : RandomGen σ) (spacingRows spacingCols : Int)
    (skipChance : ℚ) (y x : Nat) (s s' : ScanState σ)
    (h : scanCell g spacingRows spacingCols skipChance y x s = Outcome.returned s') :
    s'.imMaze.width = s.imMaze.width ∧ s'.imMaze.height = s.imMaze.height := by
  unfold scanCell at h
  by_cases h1 : ((x : Int) = 0 ∨ (x : Int) = (s.imMaze.width : Int) - 1 ∨
      (y : Int) = 0 ∨ (y : Int) = (s.imMaze.height : Int) - 1)
  · rw [if_pos h1] at h
    injection h with h
    rw [← h]
    exact ⟨ImageDrawPixel_width _ _ _ _, ImageDrawPixel_height _ _ _ _⟩
  · rw [if_neg h1] at h
    by_cases h2 : spacingCols = 0
    · rw [if_pos h2] at h; cases h
    · rw [if_neg h2] at h
      by_cases h3 : Int.tmod x spacingCols = 0
      · rw [if_pos h3] at h
        by_cases h4 : spacingRows = 0
        · rw [if_pos h4] at h; cases h
        · rw [if_neg h4] at h
          by_cases h5 : Int.tmod y spacingRows = 0
          · rw [if_pos h5] at h
            simp only at h
            by_cases h6 : chanceAtLeast (g.GetRandomValue s.rng 0 100).1 skipChance = true
            · rw [if_pos h6] at h
              injection h with h
              rw [← h]
              exact ⟨ImageDrawPixel_width _ _ _ _, ImageDrawPixel_height _ _ _ _⟩
            · rw [if_neg h6] at h
              injection h with h
              rw [← h]
              exact ⟨rfl, rfl⟩
          · rw [if_neg h5] at h
            injection h with h
            rw [← h]
            exact ⟨rfl, rfl⟩
      · rw [if_neg h3] at h
        injection h with h
        rw [← h]
        exact ⟨rfl, rfl⟩

/-- At a pixel of the image the checked write is the write: the body of the
scan with checked pixel writes is the body of the scan with `mazePoints` as
allocated. -/
theorem scanCellStrict_eq {σ : Type} (g : RandomGen σ) (spacingRows spacingCols : Int)
    (skipChance : ℚ) (y x : Nat) (st : ScanState σ) (hb : inBounds st.imMaze x y) :
    scanCellStrict g spacingRows spacingCols skipChance y x st
      = scanCellChecked g spacingRows spacingCols skipChance y x st := by
  unfold scanCellStrict scanCellChecked ImageDrawPixelStrict
  simp only [if_pos hb, Outcome.bind_returned]

theorem scanRowStrict_eq {σ : Type} (g : RandomGen σ) (spacingRows spacingCols : Int)
    (skipChance : ℚ) (W H y : Nat) (hy : y < H) (st : ScanState σ)
    (hw : st.imMaze.width = W) (hh : st.imMaze.height = H) :
    scanRowStrict g spacingRows spacingCols skipChance y st
        = scanRowChecked g spacingRows spacingCols skipChance y st ∧
      ∀ s, scanRowChecked g spacingRows spacingCols skipChance y st = Outcome.returned s →
        s.imMaze.width = W ∧ s.imMaze.height = H := by
  unfold scanRowStrict scanRowChecked
  rw [hw]
  apply foldl_range_congr_inv _ _ (fun _ s => s.imMaze.width = W ∧ s.imMaze.height = H) W st
    ⟨hw, hh⟩
  · intro k s s' _ ⟨h1, h2⟩ hs
    have hd := scanCell_dims g spacingRows spacingCols skipChance y k s s'
      ((scanCellChecked_refines g spacingRows spacingCols skipChance y k).1 s s' hs)
    exact ⟨by rw [hd.1, h1], by rw [hd.2, h2]⟩
  · intro k s hk ⟨h1, h2⟩
    apply scanCellStrict_eq
    unfold inBounds
    omega

theorem scanImageStrict_eq {σ : Type} (g : RandomGen σ) (spacingRows spacingCols : Int)
    (skipChance : ℚ) (W H : Nat) (st : ScanState σ)
    (hw : st.imMaze.width = W) (hh : st.imMaze.height = H) :
    scanImageStrict g spacingRows spacingCols skipChance st
      = scanImageChecked g spacingRows spacingCols skipChance st := by
  unfold scanImageStrict scanImageChecked
  rw [hh]
  refine (foldl_range_congr_inv _ _ (fun _ s => s.imMaze.width = W ∧ s.imMaze.height = H) H st
    ⟨hw, hh⟩ ?_ ?_).1
  · intro k s s' hk ⟨h1, h2⟩ hs
    exact (scanRowStrict_eq g spacingRows spacingCols skipChance W H k hk s h1 h2).2 s' hs
  · intro k s hk ⟨h1, h2⟩
    exact (scanRowStrict_eq g spacingRows spacingCols skipChance W H k hk s h1 h2).1

/-! ## Grids without an interior -/

theorem scanCell_small {σ : Type} (g : RandomGen σ) (spacingRows spacingCols : Int)
    (skipChance : ℚ) (y x : Nat) (st : ScanState σ)
    (hsmall : st.imMaze.width < 3 ∨ st.imMaze.height < 3) (hx : x < st.imMaze.width)
    (hy : y < st.imMaze.height) :
    scanCell g spacingRows spacingCols skipChance y x st
      = scanCell g 1 1 skipChance y x st := by
  have hb := onBorder_of_small hsmall hx hy
  unfold scanCell
  rw [if_pos hb, if_pos hb]

theorem scanRow_small {σ : Type} (g : RandomGen σ) (spacingRows spacingCols : Int)
    (skipChance : ℚ) (W H y : Nat) (hsmall : W < 3 ∨ H < 3) (hy : y < H) (st : ScanState σ)
    (hinv : ScanInv W H st) :
    scanRow g spacingRows spacingCols skipChance y st = scanRow g 1 1 skipChance y st := by
  have hW : st.imMaze.width = W := hinv.1
  unfold scanRow
  rw [hW]
  apply foldl_range_congr _ _ (fun _ s => ScanInv W H s) W st hinv
  · intro k s hk hs
    obtain ⟨s', hs', hinv', _, _⟩ :=
      scanCell_returned g 1 1 (by decide) (by decide) skipChance W H y k hk hy s hs
    exact ⟨s', hs', hinv'⟩
  · intro k s hk hs
    obtain ⟨h1, h2, _, _⟩ := hs
    exact scanCell_small g spacingRows spacingCols skipChance y k s (by rw [h1, h2]; exact hsmall)
      (by omega) (by omega)

/-- On a grid without an interior the spacings are never looked at: the scan
does what it does with spacing 1. -/
theorem scanImage_small {σ : Type} (g : RandomGen σ) (spacingRows spacingCols : Int)
    (skipChance : ℚ) (W H : Nat) (hsmall : W < 3 ∨ H < 3) (st : ScanState σ)
    (hinv : ScanInv W H st) :
    scanImage g spacingRows spacingCols skipChance st = scanImage g 1 1 skipChance st := by
  have hH : st.imMaze.height = H := hinv.2.1
  unfold scanImage
  rw [hH]
  apply foldl_range_congr _ _ (fun _ s => ScanInv W H s) H st hinv
  · intro k s hk hs
    obtain ⟨s', hs', hinv', _, _⟩ :=
      scanRow_returned g 1 1 (by decide) (by decide) skipChance W H k hk s hs
    exact ⟨s', hs', hinv'⟩
  · intro k s hk hs
    exact scanRow_small g spacingRows spacingCols skipChance W H k hsmall hk s hs

/-- With non-zero spacings, or on a grid without an interior, the scan
returns, keeps the scan invariant and leaves the frame white. -/
theorem scanImage_returned_or_small {σ : Type} (g : RandomGen σ)
    (spacingRows spacingCols : Int) (skipChance : ℚ) (rng : σ) (W H : Nat)
    (hsp : (spacingRows ≠ 0 ∧ spacingCols ≠ 0) ∨ W < 3 ∨ H < 3) :
    ∃ st, scanImage g spacingRows spacingCols skipChance (scanStart rng W H)
        = Outcome.returned st ∧
      ScanInv W H st ∧ BorderWhite st.imMaze ∧ st.mazePoints.length ≤ (W - 2) * (H - 2) := by
  rcases hsp with ⟨hsr, hsc⟩ | hsmall
  · obtain ⟨st, hst, hinv, _, hbw⟩ :=
      scanImage_returned g spacingRows spacingCols hsr hsc skipChance W H _
        (scanStart_inv rng W H)
    obtain ⟨st', hst', hlen⟩ :=
      scanImage_length_le g spacingRows spacingCols hsr hsc skipChance rng W H
    rw [hst] at hst'
    injection hst' with hst'
    rw [← hst'] at hlen
    exact ⟨st, hst, hinv, hbw, hlen⟩
  · obtain ⟨st, hst, hinv, _, hbw⟩ :=
      scanImage_returned g 1 1 (by decide) (by decide) skipChance W H _ (scanStart_inv rng W H)
    obtain ⟨st', hst', hlen⟩ :=
      scanImage_length_le g 1 1 (by decide) (by decide) skipChance rng W H
    rw [hst] at hst'
    injection hst' with hst'
    rw [← hst'] at hlen
    refine ⟨st, ?_, hinv, hbw, hlen⟩
    rw [scanImage_small g spacingRows spacingCols skipChance W H hsmall _ (scanStart_inv rng W H)]
    exact hst

/-- With non-zero spacings, or on a grid without an interior, and with fuel
for one walk across the grid, the generator with every pixel access checked
has the outcome of the generator with `mazePoints` as allocated: no pixel
access falls outside the image. -/
theorem GenImageMazeExStrict_eq {σ : Type} (g : RandomGen σ) (fuel : Nat) (rng : σ)
    (width height : Nat) (spacingRows spacingCols : Int) (skipChance : ℚ)
    (hsp : (spacingRows ≠ 0 ∧ spacingCols ≠ 0) ∨ width < 3 ∨ height < 3)
    (hfuel : width + height ≤ fuel) :
    GenImageMazeExStrict g fuel rng width height spacingRows spacingCols skipChance
      = GenImageMazeExChecked g fuel rng width height spacingRows spacingCols skipChance := by
  obtain ⟨st0, hst0, ⟨hw, hh, hwf, hpts⟩, hbw, _⟩ :=
    scanImage_returned_or_small g spacingRows spacingCols skipChance rng width height hsp
  have hscan := scanImageStrict_eq g spacingRows spacingCols skipChance width height
    (scanStart rng width height) rfl rfl
  unfold scanStart at hscan
  unfold GenImageMazeExStrict GenImageMazeExChecked
  rw [hscan]
  cases hc : scanImageChecked g spacingRows spacingCols skipChance
      (⟨GenImageColor width height BLACK, [], rng⟩ : ScanState σ) with
  | returned st =>
    have hst := (scanImageChecked_returned g spacingRows spacingCols skipChance rng width
      height st hc).1
    rw [hst0] at hst
    injection hst with hst
    subst hst
    rw [Outcome.bind_returned, Outcome.bind_returned]
    simp only
    have hcnt : ((st0.mazePoints.length : Nat) : Int)
        ≤ ((st0.mazePoints.length : Int) - 1) - 0 + 1 := by omega
    have hlen := g.sequence_length st0.rng st0.mazePoints.length 0 _ hcnt
    have hrange := g.sequence_range st0.rng st0.mazePoints.length 0 _ hcnt
    apply foldl_range_congr _ _
      (fun _ s => s.1.width = width ∧ s.1.height = height ∧ WellFormed s.1 ∧ BorderWhite s.1)
      st0.mazePoints.length _ ⟨hw, hh, hwf, hbw⟩
    · intro k s hk ⟨h1, h2, h3, h4⟩
      obtain ⟨s', hs', a1, a2, a3, a4, _⟩ :=
        growPoint_returned g fuel width height st0.mazePoints _ k hpts hlen hrange hk hfuel
          s h1 h2 h3 h4
      exact ⟨s', hs', a1, a2, a3, a4⟩
    · intro k s hk ⟨h1, h2, h3, h4⟩
      exact growPointStrict_eq g fuel width height st0.mazePoints _ k hpts hlen hrange hk s
        h1 h2 h3 (BorderWall_of_BorderWhite h4)
  | running => rfl
  | undefinedBehaviour => rfl

/-- With non-zero spacings, or on a grid without an interior, and with fuel
for one walk across the grid, `GenImageMazeEx` with `mazePoints` unbounded
returns a well-formed `width` by `height` image whose frame is white. -/
theorem GenImageMazeEx_returned_or_small {σ : Type} (g : RandomGen σ) (fuel : Nat) (rng : σ)
    (width height : Nat) (spacingRows spacingCols : Int) (skipChance : ℚ)
    (hsp : (spacingRows ≠ 0 ∧ spacingCols ≠ 0) ∨ width < 3 ∨ height < 3)
    (hfuel : width + height ≤ fuel) :
    ∃ res, GenImageMazeEx g fuel rng width height spacingRows spacingCols skipChance
        = Outcome.returned res ∧
      res.1.width = width ∧ res.1.height = height ∧ WellFormed res.1 ∧ BorderWhite res.1 := by
  rcases hsp with ⟨hsr, hsc⟩ | hsmall
  · exact GenImageMazeEx_returned g fuel rng width height spacingRows spacingCols skipChance
      hsr hsc hfuel
  · obtain ⟨res, hres, h⟩ :=
      GenImageMazeEx_returned g fuel rng width height 1 1 skipChance (by decide) (by decide)
        hfuel
    refine ⟨res, ?_, h⟩
    have hs := scanImage_small g spacingRows spacingCols skipChance width height hsmall _
      (scanStart_inv rng width height)
    unfold scanStart at hs
    unfold GenImageMazeEx at hres ⊢
    rw [hs]
    exact hres

/-- With non-zero spacings, or on a grid without an interior, with fuel for
one walk across the grid and no more interior cells than the array
`mazePoints` holds, the function with `mazePoints` as allocated returns a
well-formed `width` by `height` image whose frame is white. -/
theorem GenImageMazeExChecked_returned {σ : Type} (g : RandomGen σ) (fuel : Nat) (rng : σ)
    (width height : Nat) (spacingRows spacingCols : Int) (skipChance : ℚ)
    (hsp : (spacingRows ≠ 0 ∧ spacingCols ≠ 0) ∨ width < 3 ∨ height < 3)
    (hfuel : width + height ≤ fuel)
    (hcap : (width - 2) * (height - 2) ≤ mazePointsCapacity) :
    ∃ res, GenImageMazeExChecked g fuel rng width height spacingRows spacingCols skipChance
        = Outcome.returned res ∧
      res.1.width = width ∧ res.1.height = height ∧ WellFormed res.1 ∧ BorderWhite res.1 := by
  obtain ⟨st, hst, _, _, hlen⟩ :=
    scanImage_returned_or_small g spacingRows spacingCols skipChance rng width height hsp
  obtain ⟨res, hres, h⟩ := GenImageMazeEx_returned_or_small g fuel rng width height
    spacingRows spacingCols skipChance hsp hfuel
  refine ⟨res, ?_, h⟩
  rw [(GenImageMazeExChecked_of_scan g fuel rng width height spacingRows spacingCols
    skipChance).1 st hst (le_trans hlen hcap)]
  exact hres

/-- C12, counterexample: `GenImageMazeEx(3, 3, 0, 0, skipChance)` reaches the
interior cell (1, 1) and computes `x % spacingCols` with `spacingCols = 0`,
a division by zero: the outcome is undefined behaviour for every fuel and
every skip chance, with `mazePoints` unbounded and with `mazePoints` as
allocated. -/
theorem GenImageMazeEx_zero_spacing_counterexample :
    GenImageMazeEx maxGen 6 () 3 3 0 0 1 = Outcome.undefinedBehaviour ∧
      (∀ (fuel : Nat) (skipChance : ℚ),
        GenImageMazeEx maxGen fuel () 3 3 0 0 skipChance = Outcome.undefinedBehaviour) ∧
      ∀ (fuel : Nat) (skipChance : ℚ),
        GenImageMazeExChecked maxGen fuel () 3 3 0 0 skipChance
          = Outcome.undefinedBehaviour := by
  refine ⟨rfl, ?_, ?_⟩
  · intro fuel skipChance
    rfl
  · intro fuel skipChance
    rfl

/-- C12, amended: for every width ≥ 1 and height ≥ 1 with no more interior
cells than the array `mazePoints` holds, `(width - 2) * (height - 2) ≤ 64 *
64`, for every skip chance, and for integer spacings that are both non-zero
(negative ones included), or any spacings at all when width < 3 or
height < 3, `GenImageMazeEx` (with fuel for one walk across the grid) runs
without division by zero, without a write past `mazePoints` and without a
pixel access outside the image (the generator with every pixel access
checked returns the same result) and returns a `width` by `height` image
whose frame is white, an all-white image when width < 3 or height < 3. -/
theorem GenImageMazeExChecked_defined {σ : Type} (g : RandomGen σ) (fuel : Nat) (rng : σ)
    (width height : Nat) (spacingRows spacingCols : Int) (skipChance : ℚ)
    (hw : 1 ≤ width) (hh : 1 ≤ height)
    (hsp : (spacingRows ≠ 0 ∧ spacingCols ≠ 0) ∨ width < 3 ∨ height < 3)
    (hcap : (width - 2) * (height - 2) ≤ mazePointsCapacity)
    (hfuel : width + height ≤ fuel) :
    ∃ im rng',
      GenImageMazeExStrict g fuel rng width height spacingRows spacingCols skipChance
        = Outcome.returned (im, rng') ∧
      GenImageMazeExChecked g fuel rng width height spacingRows spacingCols skipChance
        = Outcome.returned (im, rng') ∧
      im.width = width ∧ im.height = height ∧ im.data.length = width * height ∧
      (∀ x y : Int, 0 ≤ x → x < width → 0 ≤ y → y < height →
        (x = 0 ∨ x = (width : Int) - 1 ∨ y = 0 ∨ y = (height : Int) - 1) →
        GetImageColor im x y = WHITE) ∧
      (width < 3 ∨ height < 3 → ∀ x y : Int, 0 ≤ x → x < width → 0 ≤ y → y < height →
        GetImageColor im x y = WHITE) := by
  have _ := hw; have _ := hh
  obtain ⟨res, hres, h1, h2, h3, h4⟩ := GenImageMazeExChecked_returned g fuel rng width height
    spacingRows spacingCols skipChance hsp hfuel hcap
  have hs : GenImageMazeExStrict g fuel rng width height spacingRows spacingCols skipChance
      = Outcome.returned res := by
    rw [GenImageMazeExStrict_eq g fuel rng width height spacingRows spacingCols skipChance
      hsp hfuel]
    exact hres
  have hborder : ∀ x y : Int, 0 ≤ x → x < width → 0 ≤ y → y < height →
      (x = 0 ∨ x = (width : Int) - 1 ∨ y = 0 ∨ y = (height : Int) - 1) →
      GetImageColor res.1 x y = WHITE := by
    intro x y hx0 hx1 hy0 hy1 hb
    apply h4 x y
    · unfold inBounds; rw [h1, h2]; exact ⟨hx0, hx1, hy0, hy1⟩
    · unfold onBorder; rw [h1, h2]; exact hb
  refine ⟨res.1, res.2, hs, hres, h1, h2, ?_, hborder, ?_⟩
  · unfold WellFormed at h3
    rw [h3, h1, h2]
  · intro hsmall x y hx0 hx1 hy0 hy1
    exact hborder x y hx0 hx1 hy0 hy1 (by omega)

/-- C12, amended, at negative spacings on a 4 by 4 grid. -/
theorem GenImageMazeExChecked_defined_witness :
    ∃ im rng',
      GenImageMazeExStrict maxGen 8 () 4 4 (-2) (-1) (mkRat 3 2) = Outcome.returned (im, rng') ∧
      GenImageMazeExChecked maxGen 8 () 4 4 (-2) (-1) (mkRat 3 2)
        = Outcome.returned (im, rng') ∧
      im.width = 4 ∧ im.height = 4 ∧ im.data.length = 4 * 4 ∧
      (∀ x y : Int, 0 ≤ x → x < (4 : Nat) → 0 ≤ y → y < (4 : Nat) →
        (x = 0 ∨ x = ((4 : Nat) : Int) - 1 ∨ y = 0 ∨ y = ((4 : Nat) : Int) - 1) →
        GetImageColor im x y = WHITE) ∧
      ((4 : Nat) < 3 ∨ (4 : Nat) < 3 → ∀ x y : Int, 0 ≤ x → x < (4 : Nat) → 0 ≤ y →
        y < (4 : Nat) → GetImageColor im x y = WHITE) :=
  GenImageMazeExChecked_defined maxGen 8 () 4 4 (-2) (-1) (mkRat 3 2) (by decide) (by decide)
    (Or.inl ⟨by decide, by decide⟩) (by decide) (by decide)

/-- C15: for every width ≥ 3, height ≥ 3, spacings ≥ 1 and every random
generator, no pixel access of `GenImageMazeEx` falls outside the image: the
generator in which such an access is undefined behaviour has the outcome of
the generator (both with the array `mazePoints` as allocated and with fuel
for one walk across the grid), and is not still running: it has returned or
has written past `mazePoints`; both return when the grid has no more
interior cells than `mazePoints` holds.  For the growth phase in particular,
from every seed strictly inside a frame of walls and in every direction, each
cell the walk paints satisfies `0 ≤ x < width` and `0 ≤ y < height`, and so
does the cell at which it stops. -/
theorem GenImageMazeExChecked_growth_in_bounds {σ : Type} (g : RandomGen σ) (fuel : Nat)
    (rng : σ) (width height : Nat) (spacingRows spacingCols : Int) (skipChance : ℚ)
    (hw : 3 ≤ width) (hh : 3 ≤ height) (hsr : 1 ≤ spacingRows) (hsc : 1 ≤ spacingCols)
    (hfuel : width + height ≤ fuel) :
    GenImageMazeExStrict g fuel rng width height spacingRows spacingCols skipChance
      = GenImageMazeExChecked g fuel rng width height spacingRows spacingCols skipChance ∧
    GenImageMazeExStrict g fuel rng width height spacingRows spacingCols skipChance
      ≠ Outcome.running ∧
    ((width - 2) * (height - 2) ≤ mazePointsCapacity →
      ∃ res,
        GenImageMazeExStrict g fuel rng width height spacingRows spacingCols skipChance
          = Outcome.returned res ∧
        GenImageMazeExChecked g fuel rng width height spacingRows spacingCols skipChance
          = Outcome.returned res) ∧
    ∀ (im : Image) (s d : Point), im.width = width → im.height = height → WellFormed im →
      BorderWall im → interior width height s → d ∈ directions →
      ∃ k, growWallCells fuel im ⟨s.x + d.x, s.y + d.y⟩ d
          = (List.range k).map (fun j => stepFrom s d (j + 1)) ∧
        ∀ j, 1 ≤ j → j ≤ k + 1 →
          0 ≤ (stepFrom s d j).x ∧ (stepFrom s d j).x < width ∧
          0 ≤ (stepFrom s d j).y ∧ (stepFrom s d j).y < height := by
  have _ := hw; have _ := hh
  have hsp : (spacingRows ≠ 0 ∧ spacingCols ≠ 0) ∨ width < 3 ∨ height < 3 :=
    Or.inl ⟨by omega, by omega⟩
  have heq := GenImageMazeExStrict_eq g fuel rng width height spacingRows spacingCols
    skipChance hsp hfuel
  refine ⟨heq, ?_, ?_, ?_⟩
  · rw [heq]
    exact GenImageMazeExChecked_ne_running g fuel rng width height spacingRows spacingCols
      skipChance (by omega) (by omega) hfuel
  · intro hcap
    obtain ⟨res, hres, _⟩ := GenImageMazeExChecked_returned g fuel rng width height
      spacingRows spacingCols skipChance hsp hfuel hcap
    exact ⟨res, by rw [heq]; exact hres, hres⟩
  · intro im s d hiw hih hwf hbw hs hd
    rw [← hiw, ← hih] at hs
    obtain ⟨hcur, hdist⟩ := wallDistance_of_interior hs hd
    obtain ⟨k, im', _, hcells, _, hpainted, hstopin, _⟩ :=
      growWall_walk d hd fuel im ⟨s.x + d.x, s.y + d.y⟩ hwf hbw hcur (by omega)
    refine ⟨k, ?_, ?_⟩
    · rw [hcells]
      apply List.map_congr_left
      intro j _
      exact stepFrom_succ s d j
    · intro j h1 hjk
      obtain ⟨j', rfl⟩ : ∃ j', j = j' + 1 := ⟨j - 1, by omega⟩
      rw [← hiw, ← hih]
      rcases Nat.lt_or_ge j' k with hlt | hge
      · have := (hpainted j' hlt).1
        rw [stepFrom_succ] at this
        exact this
      · have hjk' : j' = k := by omega
        subst hjk'
        rw [stepFrom_succ] at hstopin
        exact hstopin

/-- C15 on a 4 by 4 grid with spacing 2 and the generator `maxGen`: both
generators return the same image. -/
theorem GenImageMazeExChecked_growth_in_bounds_witness :
    (∃ res,
      GenImageMazeExStrict maxGen 8 () 4 4 2 2 (mkRat 1 2) = Outcome.returned res ∧
      GenImageMazeExChecked maxGen 8 () 4 4 2 2 (mkRat 1 2) = Outcome.returned res) ∧
    ∀ (im : Image) (s d : Point), im.width = 4 → im.height = 4 → WellFormed im →
      BorderWall im → interior 4 4 s → d ∈ directions →
      ∃ k, growWallCells 8 im ⟨s.x + d.x, s.y + d.y⟩ d
          = (List.range k).map (fun j => stepFrom s d (j + 1)) ∧
        ∀ j, 1 ≤ j → j ≤ k + 1 →
          0 ≤ (stepFrom s d j).x ∧ (stepFrom s d j).x < (4 : Nat) ∧
          0 ≤ (stepFrom s d j).y ∧ (stepFrom s d j).y < (4 : Nat) :=
  ⟨(GenImageMazeExChecked_growth_in_bounds maxGen 8 () 4 4 2 2 (mkRat 1 2) (by decide)
      (by decide) (by decide) (by decide) (by decide)).2.2.1 (by decide),
    (GenImageMazeExChecked_growth_in_bounds maxGen 8 () 4 4 2 2 (mkRat 1 2) (by decide)
      (by decide) (by decide) (by decide) (by decide)).2.2.2⟩

/-! ## The scan with `mazePoints` as allocated, pixel by pixel -/

/-- When the scan with `mazePoints` as allocated returns, it has stood at
every pixel in the state in which the scan with `mazePoints` unbounded stands
there, with no more points saved than at its end. -/
theorem scanUpToChecked_of_final {σ : Type} (g : RandomGen σ) (spacingRows spacingCols : Int)
    (hsr : spacingRows ≠ 0) (hsc : spacingCols ≠ 0) (skipChance : ℚ) (rng : σ)
    (W H : Nat) (final : ScanState σ)
    (hf : scanImageChecked g spacingRows spacingCols skipChance (scanStart rng W H)
      = Outcome.returned final)
    (y x : Nat) (hy : y < H) (hx : x ≤ W) :
    ∃ s, scanUpToChecked g spacingRows spacingCols skipChance (scanStart rng W H) y x
        = Outcome.returned s ∧
      scanUpTo g spacingRows spacingCols skipChance (scanStart rng W H) y x
        = Outcome.returned s ∧
      TraceInv g spacingRows spacingCols skipChance (scanStart rng W H) W H y x s ∧
      s.mazePoints.length ≤ final.mazePoints.length := by
  obtain ⟨hfs, hcap⟩ := scanImageChecked_returned g spacingRows spacingCols skipChance rng
    W H final hf
  obtain ⟨final', hf', _, hMF, _, _⟩ :=
    scanImage_trace g spacingRows spacingCols hsr hsc skipChance rng W H
  rw [hfs] at hf'
  injection hf' with hf'
  subst hf'
  obtain ⟨s, hs, hinv⟩ :=
    scanUpTo_trace g spacingRows spacingCols hsr hsc skipChance rng W H y x hy hx
  have hsub : ∀ p ∈ s.mazePoints, p ∈ final.mazePoints := by
    intro p hp
    obtain ⟨a, b, rfl⟩ := interior_nat W H p (hinv.1.2.2.2 p hp)
    obtain ⟨_, hint, hseed⟩ := (hinv.2.1 a b).1 hp
    refine (hMF a b).2 ⟨Or.inl ?_, hint, hseed⟩
    have := hint
    unfold interior at this
    simp only at this
    omega
  have hlen : s.mazePoints.length ≤ final.mazePoints.length :=
    (List.subperm_of_subset (nodup_of_pairwise_scanBefore _ hinv.2.2.1) hsub).length_le
  refine ⟨s, ?_, hs, hinv, hlen⟩
  exact (scanUpToChecked_refines g spacingRows spacingCols skipChance y x).2.2.2.1 _ s hs
    (le_trans hlen hcap)

/-- With non-zero spacings the scan with `mazePoints` as allocated is not
still running, and it returns when the grid has no more interior cells than
the array holds. -/
theorem scanImageChecked_ends {σ : Type} (g : RandomGen σ) (spacingRows spacingCols : Int)
    (hsr : spacingRows ≠ 0) (hsc : spacingCols ≠ 0) (skipChance : ℚ) (rng : σ)
    (W H : Nat) :
    ((W - 2) * (H - 2) ≤ mazePointsCapacity →
      ∃ final, scanImageChecked g spacingRows spacingCols skipChance (scanStart rng W H)
        = Outcome.returned final) ∧
    scanImageChecked g spacingRows spacingCols skipChance (scanStart rng W H)
      ≠ Outcome.running :=
  ⟨fun hcap => by
      obtain ⟨st, hst, hlen⟩ :=
        scanImage_length_le g spacingRows spacingCols hsr hsc skipChance rng W H
      exact ⟨st, scanImageChecked_of_le g spacingRows spacingCols skipChance rng W H st hst
        (le_trans hlen hcap)⟩,
    (scanImageChecked_refines g spacingRows spacingCols skipChance).2.2.2.2 _⟩

/-- With `skipChance = 0` and spacings ≥ 1 the scan with `mazePoints`
unbounded saves every interior pixel of the spacing lattice and leaves it
white. -/
theorem scanImage_skip_zero_spec {σ : Type} (g : RandomGen σ) (rng : σ)
    (width height : Nat) (spacingRows spacingCols : Int)
    (hsr : 1 ≤ spacingRows) (hsc : 1 ≤ spacingCols) :
    ∃ st,
      scanImage g spacingRows spacingCols 0 (scanStart rng width height)
        = Outcome.returned st ∧
      ∀ x y : Nat, interior width height ⟨x, y⟩ →
        (x : Int) % spacingCols = 0 → (y : Int) % spacingRows = 0 →
        (⟨x, y⟩ : Point) ∈ st.mazePoints ∧ GetImageColor st.imMaze x y = WHITE := by
  have hsr0 : spacingRows ≠ 0 := by omega
  have hsc0 : spacingCols ≠ 0 := by omega
  obtain ⟨final, hf, _, hMF, _, hCF⟩ :=
    scanImage_trace g spacingRows spacingCols hsr0 hsc0 0 rng width height
  refine ⟨final, hf, ?_⟩
  intro x y hint hmx hmy
  have hxy : y < height ∧ x ≤ width := by
    have := hint
    unfold interior at this
    simp only at this
    omega
  obtain ⟨s, hs, _⟩ :=
    scanUpTo_trace g spacingRows spacingCols hsr0 hsc0 0 rng width height y x hxy.1 hxy.2
  have hch : chanceAtLeast (g.GetRandomValue s.rng 0 100).1 0 = true := by
    rw [chanceAtLeast_iff]
    exact chanceValue_nonneg _ (g.value_range s.rng 0 100 (by decide)).1
  have hmem : (⟨x, y⟩ : Point) ∈ final.mazePoints :=
    (hMF x y).2 ⟨Or.inl hxy.1, hint,
      by rw [tmod_nat_eq_emod]; exact hmx, by rw [tmod_nat_eq_emod]; exact hmy, s, hs, hch⟩
  exact ⟨hmem, (hCF x y hint).1 hmem⟩

/-- The seed points are the points that the scan with `mazePoints` as
allocated leaves. -/
theorem seedPoints_returned {σ : Type} (g : RandomGen σ) (rng : σ) (width height : Nat)
    (spacingRows spacingCols : Int) (skipChance : ℚ) (l : List Point) :
    seedPoints g rng width height spacingRows spacingCols skipChance = Outcome.returned l ↔
      ∃ st, scanImageChecked g spacingRows spacingCols skipChance (scanStart rng width height)
          = Outcome.returned st ∧ st.mazePoints = l := by
  unfold seedPoints
  cases hc : scanImageChecked g spacingRows spacingCols skipChance
      (scanStart rng width height) with
  | returned st =>
    rw [Outcome.bind_returned]
    constructor
    · intro h
      injection h with h
      exact ⟨st, rfl, h⟩
    · rintro ⟨st', hst', hl⟩
      injection hst' with hst'
      rw [hst', hl]
  | running =>
    constructor
    · intro h; cases h
    · rintro ⟨st', hst', _⟩; cases hst'
  | undefinedBehaviour =>
    constructor
    · intro h; cases h
    · rintro ⟨st', hst', _⟩; cases hst'

/-- Under a higher `skipChance` the scan with `mazePoints` unbounded saves a
sublist of the points it saves under a lower one. -/
theorem scanImage_skipChance_antitone {σ : Type} (g : RandomGen σ) (rng : σ)
    (width height : Nat) (spacingRows spacingCols : Int)
    (hsr : spacingRows ≠ 0) (hsc : spacingCols ≠ 0) (skipChance1 skipChance2 : ℚ)
    (hle : skipChance1 ≤ skipChance2) :
    ∃ f1 f2,
      scanImage g spacingRows spacingCols skipChance1 (scanStart rng width height)
        = Outcome.returned f1 ∧
      scanImage g spacingRows spacingCols skipChance2 (scanStart rng width height)
        = Outcome.returned f2 ∧
      (∀ p ∈ f2.mazePoints, p ∈ f1.mazePoints) ∧ f2.mazePoints.Sublist f1.mazePoints := by
  obtain ⟨f1, hf1, hsi1, hM1, hP1, _⟩ :=
    scanImage_trace g spacingRows spacingCols hsr hsc skipChance1 rng width height
  obtain ⟨f2, hf2, hsi2, hM2, hP2, _⟩ :=
    scanImage_trace g spacingRows spacingCols hsr hsc skipChance2 rng width height
  have hsub : ∀ p ∈ f2.mazePoints, p ∈ f1.mazePoints := by
    intro p hp
    obtain ⟨a, b, rfl⟩ := interior_nat width height p (hsi2.2.2.2 p hp)
    obtain ⟨hscan, hint, hmx, hmy, s2, hs2, hch2⟩ := (hM2 a b).1 hp
    have hxy : b < height ∧ a ≤ width := by
      have := hint
      unfold interior at this
      simp only at this
      omega
    obtain ⟨s1, hs1, _⟩ :=
      scanUpTo_trace g spacingRows spacingCols hsr hsc skipChance1 rng width height b a
        hxy.1 hxy.2
    have hsame : SameDraws s1 s2 :=
      Outcome.Rel.returned
        (scanUpTo_sameDraws g spacingRows spacingCols skipChance1 skipChance2
          (scanStart rng width height) b a) hs1 hs2
    refine (hM1 a b).2 ⟨hscan, hint, hmx, hmy, s1, hs1, ?_⟩
    rw [hsame.1]
    exact chanceAtLeast_anti _ skipChance1 skipChance2 hle hch2
  have hnd : f2.mazePoints.Nodup := nodup_of_pairwise_scanBefore _ hP2
  have hanti : IsAntisymm Point scanBefore :=
    ⟨fun a b h1 h2 => by unfold scanBefore at h1 h2; omega⟩
  have hsl : f2.mazePoints.Sublist f1.mazePoints :=
    List.sublist_of_subperm_of_sorted (List.subperm_of_subset hnd hsub) hP2 hP1
  exact ⟨f1, f2, hf1, hf2, hsub, hsl⟩

/-- C17 fails as stated.  On a 3 by 3 grid with spacing 1 and the generator
`minGen`, whose every draw is the lowest value, the scan saves the seed point
`(1, 1)` under `skipChance = 0` and no seed point under `skipChance = 1`:
the seed point saved under the lower `skipChance` is lost under the higher
one. -/
theorem seedPoints_skipChance_counterexample :
    (0 : ℚ) ≤ 1 ∧
    seedPoints minGen () 3 3 1 1 0 = Outcome.returned [⟨1, 1⟩] ∧
    seedPoints minGen () 3 3 1 1 1 = Outcome.returned [] :=
  ⟨by norm_num, by decide!, by decide!⟩

/-- C17, amended: a higher `skipChance` plants fewer seeds.  For every fixed
width, height, non-zero spacings, generator and generator state, if
`skipChance1 ≤ skipChance2` then, whenever the scan of `GenImageMazeEx`, run
with the array `mazePoints` as allocated, returns under `skipChance1`, it
returns under `skipChance2` too, every seed point saved under `skipChance2`
is also saved under `skipChance1`, the seed points under `skipChance2` are a
sublist of those under `skipChance1`, and so the number of seed points never
increases as `skipChance` increases.  The scan returns under both when the
grid has no more interior cells than `mazePoints` holds. -/
theorem seedPoints_skipChance_antitone {σ : Type} (g : RandomGen σ) (rng : σ)
    (width height : Nat) (spacingRows spacingCols : Int)
    (hsr : spacingRows ≠ 0) (hsc : spacingCols ≠ 0) (skipChance1 skipChance2 : ℚ)
    (hle : skipChance1 ≤ skipChance2) :
    (∀ l1,
      seedPoints g rng width height spacingRows spacingCols skipChance1
        = Outcome.returned l1 →
      ∃ l2,
        seedPoints g rng width height spacingRows spacingCols skipChance2
          = Outcome.returned l2 ∧
        (∀ p ∈ l2, p ∈ l1) ∧ l2.Sublist l1 ∧ l2.length ≤ l1.length) ∧
    ((width - 2) * (height - 2) ≤ mazePointsCapacity →
      ∃ l1 l2,
        seedPoints g rng width height spacingRows spacingCols skipChance1
          = Outcome.returned l1 ∧
        seedPoints g rng width height spacingRows spacingCols skipChance2
          = Outcome.returned l2) := by
  obtain ⟨f1, f2, hf1, hf2, hsub, hsl⟩ :=
    scanImage_skipChance_antitone g rng width height spacingRows spacingCols hsr hsc
      skipChance1 skipChance2 hle
  constructor
  · intro l1 hl1
    obtain ⟨st, hst, rfl⟩ := (seedPoints_returned g rng width height spacingRows spacingCols
      skipChance1 _).1 hl1
    obtain ⟨hsts, hcap⟩ := scanImageChecked_returned g spacingRows spacingCols skipChance1
      rng width height st hst
    rw [hf1] at hsts
    injection hsts with hsts
    subst hsts
    refine ⟨f2.mazePoints, ?_, hsub, hsl, hsl.length_le⟩
    exact (seedPoints_returned g rng width height spacingRows spacingCols skipChance2 _).2
      ⟨f2, scanImageChecked_of_le g spacingRows spacingCols skipChance2 rng width height f2
        hf2 (le_trans hsl.length_le hcap), rfl⟩
  · intro hcap
    obtain ⟨s1, hs1⟩ := (scanImageChecked_ends g spacingRows spacingCols hsr hsc skipChance1
      rng width height).1 hcap
    obtain ⟨s2, hs2⟩ := (scanImageChecked_ends g spacingRows spacingCols hsr hsc skipChance2
      rng width height).1 hcap
    exact ⟨s1.mazePoints, s2.mazePoints,
      (seedPoints_returned g rng width height spacingRows spacingCols skipChance1 _).2
        ⟨s1, hs1, rfl⟩,
      (seedPoints_returned g rng width height spacingRows spacingCols skipChance2 _).2
        ⟨s2, hs2, rfl⟩⟩

/-- C17, amended, on a 5 by 5 grid with spacing 1, the generator `maxGen` and
the values 1/4 and 3/4 of `skipChance`: the scan returns under both. -/
theorem seedPoints_skipChance_antitone_witness :
    ∃ l1 l2,
      seedPoints maxGen () 5 5 1 1 (mkRat 1 4) = Outcome.returned l1 ∧
      seedPoints maxGen () 5 5 1 1 (mkRat 3 4) = Outcome.returned l2 ∧
      (∀ p ∈ l2, p ∈ l1) ∧ l2.Sublist l1 ∧ l2.length ≤ l1.length := by
  have h := seedPoints_skipChance_antitone maxGen () 5 5 1 1 (by decide) (by decide)
    (mkRat 1 4) (mkRat 3 4) (by decide!)
  obtain ⟨l1, _, hl1, _⟩ := h.2 (by decide)
  obtain ⟨l2, hl2, hrest⟩ := h.1 l1 hl1
  exact ⟨l1, l2, hl1, hl2, hrest⟩

/-! ## The number of seed points and the capacity of `mazePoints` -/

theorem interior_of_mem_interiorSet {width height : Nat} {p : Point}
    (h : p ∈ interiorSet width height) : interior width height p := by
  unfold interiorSet at h
  rw [Finset.mem_image] at h
  obtain ⟨⟨a, b⟩, hab, rfl⟩ := h
  rw [Finset.mem_product, Finset.mem_range, Finset.mem_range] at hab
  unfold interior
  simp only at hab ⊢
  omega

theorem interiorSet_card (width height : Nat) :
    (interiorSet width height).card = (width - 2) * (height - 2) := by
  unfold interiorSet
  rw [Finset.card_image_of_injective, Finset.card_product, Finset.card_range,
    Finset.card_range]
  intro ⟨a, b⟩ ⟨c, d⟩ h
  have h1 := (Point.eq_iff _ _).2 h
  simp only at h1
  obtain ⟨hx, hy⟩ := h1
  have ha : a = c := by omega
  have hb : b = d := by omega
  rw [ha, hb]

/-- With spacing 1 and `skipChance = 0` every interior cell is a seed point:
on a grid with more interior cells than the array `mazePoints` holds, the
scan writes past the array, whatever the generator. -/
theorem scanImageChecked_full_overflow {σ : Type} (g : RandomGen σ) (rng : σ)
    (width height : Nat) (hbig : mazePointsCapacity < (width - 2) * (height - 2)) :
    scanImageChecked g 1 1 0 (scanStart rng width height) = Outcome.undefinedBehaviour ∧
    seedPoints g rng width height 1 1 0 = Outcome.undefinedBehaviour ∧
    ∀ fuel, GenImageMazeExChecked g fuel rng width height 1 1 0
      = Outcome.undefinedBehaviour := by
  obtain ⟨st, hst, hall⟩ := scanImage_skip_zero_spec g rng width height 1 1 (by decide)
    (by decide)
  have hsub : interiorSet width height ⊆ st.mazePoints.toFinset := by
    intro p hp
    have hint := interior_of_mem_interiorSet hp
    obtain ⟨a, b, rfl⟩ := interior_nat width height p hint
    exact List.mem_toFinset.2 (hall a b hint (Int.emod_one _) (Int.emod_one _)).1
  have hcard := Finset.card_le_card hsub
  rw [interiorSet_card] at hcard
  have hlen : mazePointsCapacity < st.mazePoints.length :=
    lt_of_lt_of_le hbig (le_trans hcard (List.toFinset_card_le _))
  have hc := scanImageChecked_overflow g 1 1 0 rng width height st hst hlen
  refine ⟨hc, ?_, ?_⟩
  · unfold seedPoints
    rw [hc]
    rfl
  · intro fuel
    exact (GenImageMazeExChecked_of_scan g fuel rng width height 1 1 0).2.1 st hst hlen

/-- C28 fails as stated.  On a grid 1 wide and 5 high the scan records no
seed point, and 0 is more than `(width - 2) * (height - 2) = -3`.  And on a
grid 67 wide and 67 high, with spacing 1 and `skipChance = 0`, the 4225
interior cells are all seed points: the scan writes past the 4096 points of
`mazePoints`, whatever the generator. -/
theorem seedPoints_length_counterexample :
    seedPoints maxGen () 1 5 1 1 (mkRat 1 2) = Outcome.returned [] ∧
    ¬ ((([] : List Point).length : Int) ≤ ((1 : Int) - 2) * ((5 : Int) - 2)) ∧
    mazePointsCapacity = 4096 ∧ (67 - 2) * (67 - 2) = 4225 ∧
    ∀ (σ : Type) (g : RandomGen σ) (rng : σ),
      seedPoints g rng 67 67 1 1 0 = Outcome.undefinedBehaviour ∧
      ∀ fuel, GenImageMazeExChecked g fuel rng 67 67 1 1 0 = Outcome.undefinedBehaviour := by
  refine ⟨by decide!, by decide, by decide, by decide, ?_⟩
  intro σ g rng
  have h := scanImageChecked_full_overflow g rng 67 67 (by decide)
  exact ⟨h.2.1, h.2.2⟩

/-- C28, amended: for spacings ≥ 1 and every width ≥ 2, height ≥ 2,
`skipChance`, random generator and generator state, whenever the scan of
`GenImageMazeEx`, run with the array `mazePoints` as allocated, returns, the
number of seed points it has recorded is at most `(width - 2) * (height - 2)`
and at most `64 * 64`, the capacity `MAZE_WIDTH * MAZE_HEIGHT` of
`mazePoints`.  For width ≤ 64 and height ≤ 64 the scan returns and every
write into `mazePoints` is in range: before every interior pixel, the only
pixels at which the scan writes, the index `mazePointsCounter` of the next
write is below `(width - 2) * (height - 2)` and below `64 * 64`.  Whatever
the size the scan is not still running: it has returned or it has written
past `mazePoints`; and it does write past `mazePoints` on every grid with
more than `64 * 64` interior cells when the spacings are 1 and `skipChance`
is 0, every interior cell being a seed point then. -/
theorem seedPoints_length_le {σ : Type} (g : RandomGen σ) (rng : σ) (width height : Nat)
    (spacingRows spacingCols : Int) (hsr : 1 ≤ spacingRows) (hsc : 1 ≤ spacingCols)
    (hw : 2 ≤ width) (hh : 2 ≤ height) (skipChance : ℚ) :
    (∀ l, seedPoints g rng width height spacingRows spacingCols skipChance
        = Outcome.returned l →
      (l.length : Int) ≤ ((width : Int) - 2) * ((height : Int) - 2) ∧
      l.length ≤ mazePointsCapacity) ∧
    (width ≤ 64 → height ≤ 64 →
      ∃ l, seedPoints g rng width height spacingRows spacingCols skipChance
          = Outcome.returned l ∧
        l.length ≤ 64 * 64 ∧
        ∀ x y : Nat, interior width height ⟨x, y⟩ →
          ∃ s, scanUpToChecked g spacingRows spacingCols skipChance
                (scanStart rng width height) y x = Outcome.returned s ∧
            s.mazePoints.length < (width - 2) * (height - 2) ∧
            s.mazePoints.length < 64 * 64) ∧
    seedPoints g rng width height spacingRows spacingCols skipChance ≠ Outcome.running ∧
    (mazePointsCapacity < (width - 2) * (height - 2) →
      seedPoints g rng width height 1 1 0 = Outcome.undefinedBehaviour) := by
  have hsr0 : spacingRows ≠ 0 := by omega
  have hsc0 : spacingCols ≠ 0 := by omega
  have hbound : width ≤ 64 → height ≤ 64 → (width - 2) * (height - 2) ≤ 64 * 64 := by
    intro h1 h2
    exact Nat.mul_le_mul (by omega) (by omega)
  have hcast : (((width - 2) * (height - 2) : Nat) : Int)
      = ((width : Int) - 2) * ((height : Int) - 2) := by
    push_cast [Nat.cast_sub hw, Nat.cast_sub hh]
    rfl
  obtain ⟨st0, hst0, hlen0⟩ :=
    scanImage_length_le g spacingRows spacingCols hsr0 hsc0 skipChance rng width height
  refine ⟨?_, ?_, ?_, fun hbig => (scanImageChecked_full_overflow g rng width height hbig).2.1⟩
  · intro l hl
    obtain ⟨st, hst, rfl⟩ := (seedPoints_returned g rng width height spacingRows spacingCols
      skipChance _).1 hl
    obtain ⟨hsts, hcap⟩ := scanImageChecked_returned g spacingRows spacingCols skipChance
      rng width height st hst
    rw [hst0] at hsts
    injection hsts with hsts
    subst hsts
    refine ⟨?_, hcap⟩
    rw [← hcast]
    exact_mod_cast hlen0
  · intro h1 h2
    have hcap : (width - 2) * (height - 2) ≤ mazePointsCapacity := hbound h1 h2
    have hfc := scanImageChecked_of_le g spacingRows spacingCols skipChance rng width height
      st0 hst0 (le_trans hlen0 hcap)
    refine ⟨st0.mazePoints, (seedPoints_returned g rng width height spacingRows spacingCols
      skipChance _).2 ⟨st0, hfc, rfl⟩, le_trans hlen0 (hbound h1 h2), ?_⟩
    intro x y hint
    have hxy : y < height ∧ x ≤ width := by
      have := hint
      unfold interior at this
      simp only at this
      omega
    obtain ⟨s, hsc', _, ⟨hsi2, hM, hP2, _⟩, _⟩ := scanUpToChecked_of_final g spacingRows
      spacingCols hsr0 hsc0 skipChance rng width height st0 hfc y x hxy.1 hxy.2
    have hnot : (⟨x, y⟩ : Point) ∉ s.mazePoints := by
      intro hmem
      have := ((hM x y).1 hmem).1
      unfold scannedAt at this
      omega
    have hlen2 := length_le_of_interior width height ((⟨x, y⟩ : Point) :: s.mazePoints)
      (List.nodup_cons.2 ⟨hnot, nodup_of_pairwise_scanBefore _ hP2⟩)
      (by
        intro p hp
        rcases List.mem_cons.1 hp with rfl | hp
        · exact hint
        · exact hsi2.2.2.2 p hp)
    rw [List.length_cons] at hlen2
    have := hbound h1 h2
    exact ⟨s, hsc', by omega, by omega⟩
  · intro hrun
    unfold seedPoints at hrun
    cases hc : scanImageChecked g spacingRows spacingCols skipChance
        (scanStart rng width height) with
    | returned st => rw [hc] at hrun; cases hrun
    | running =>
      exact (scanImageChecked_ends g spacingRows spacingCols hsr0 hsc0 skipChance rng width
        height).2 hc
    | undefinedBehaviour => rw [hc] at hrun; cases hrun

/-- C28, amended, on a 5 by 5 grid with spacing 1 and the generator
`maxGen`: the scan returns and every write is in range. -/
theorem seedPoints_length_le_witness :
    ∃ l, seedPoints maxGen () 5 5 1 1 (mkRat 1 2) = Outcome.returned l ∧
      (l.length : Int) ≤ (((5 : Nat) : Int) - 2) * (((5 : Nat) : Int) - 2) ∧
      l.length ≤ mazePointsCapacity ∧
      l.length ≤ 64 * 64 ∧
      ∀ x y : Nat, interior 5 5 ⟨x, y⟩ →
        ∃ s, scanUpToChecked maxGen 1 1 (mkRat 1 2) (scanStart () 5 5) y x
              = Outcome.returned s ∧
          s.mazePoints.length < (5 - 2) * (5 - 2) ∧
          s.mazePoints.length < 64 * 64 := by
  have h := seedPoints_length_le maxGen () 5 5 1 1 (by decide) (by decide) (by decide)
    (by decide) (mkRat 1 2)
  obtain ⟨l, hl, h64, hall⟩ := h.2.1 (by decide) (by decide)
  exact ⟨l, hl, (h.1 l hl).1, (h.1 l hl).2, h64, hall⟩

/-! ## Claims on where the walls come from, and on `GenImageMaze` -/

theorem scanCellMaze_eq {σ : Type} (g : RandomGen σ) (skipChance : ℚ) (y x : Nat)
    (st : ScanState σ) :
    scanCellMaze g skipChance y x st = scanCellChecked g 3 3 skipChance y x st := by
  unfold scanCellMaze scanCellChecked
  by_cases hbord : ((x : Int) = 0 ∨ (x : Int) = (st.imMaze.width : Int) - 1 ∨
      (y : Int) = 0 ∨ (y : Int) = (st.imMaze.height : Int) - 1)
  · rw [if_pos hbord, if_pos hbord]
  · rw [if_neg hbord, if_neg hbord, if_neg (by decide : ¬ (3 : Int) = 0)]
    by_cases hmx : Int.tmod x 3 = 0
    · rw [if_pos hmx, if_neg (by decide : ¬ (3 : Int) = 0)]
      by_cases hmy : Int.tmod y 3 = 0
      · rw [if_pos ⟨hmx, hmy⟩, if_pos hmy]
      · rw [if_neg (fun h => hmy h.2), if_neg hmy]
    · rw [if_neg (fun h => hmx h.1), if_neg hmx]

theorem scanRowMaze_eq {σ : Type} (g : RandomGen σ) (skipChance : ℚ) (y : Nat)
    (st : ScanState σ) :
    scanRowMaze g skipChance y st = scanRowChecked g 3 3 skipChance y st := by
  unfold scanRowMaze scanRowChecked
  congr 1
  funext acc x
  congr 1
  funext s
  exact scanCellMaze_eq g skipChance y x s

theorem scanImageMaze_eq {σ : Type} (g : RandomGen σ) (skipChance : ℚ)
    (st : ScanState σ) :
    scanImageMaze g skipChance st = scanImageChecked g 3 3 skipChance st := by
  unfold scanImageMaze scanImageChecked
  congr 1
  funext acc y
  congr 1
  funext s
  exact scanRowMaze_eq g skipChance y s

/-- C27: `GenImageMaze(width, height, skipChance)` and
`GenImageMazeEx(width, height, 3, 3, skipChance)`, each run with its array
`mazePoints` as allocated, have the same outcome, for every width, height,
`skipChance`, random generator, generator state and fuel: when one returns so
does the other, with the same image and the same generator state afterwards,
so the same random values consumed, and when one writes past `mazePoints` so
does the other.  With fuel for one walk across the grid both return when the
grid has no more interior cells than `mazePoints` holds, and neither is still
running, whatever the size. -/
theorem GenImageMaze_eq_GenImageMazeEx {σ : Type} (g : RandomGen σ) (rng : σ)
    (width height : Nat) (skipChance : ℚ) :
    (∀ fuel, GenImageMaze g fuel rng width height skipChance
      = GenImageMazeExChecked g fuel rng width height 3 3 skipChance) ∧
    (∀ fuel, width + height ≤ fuel →
      GenImageMaze g fuel rng width height skipChance ≠ Outcome.running ∧
      ((width - 2) * (height - 2) ≤ mazePointsCapacity →
        ∃ res, GenImageMaze g fuel rng width height skipChance = Outcome.returned res ∧
          GenImageMazeExChecked g fuel rng width height 3 3 skipChance
            = Outcome.returned res)) := by
  have heq : ∀ fuel, GenImageMaze g fuel rng width height skipChance
      = GenImageMazeExChecked g fuel rng width height 3 3 skipChance := by
    intro fuel
    unfold GenImageMaze GenImageMazeExChecked
    rw [scanImageMaze_eq]
  refine ⟨heq, ?_⟩
  intro fuel hfuel
  refine ⟨?_, ?_⟩
  · rw [heq]
    exact GenImageMazeExChecked_ne_running g fuel rng width height 3 3 skipChance (by decide)
      (by decide) hfuel
  · intro hcap
    obtain ⟨res, hres, _⟩ := GenImageMazeExChecked_returned g fuel rng width height 3 3
      skipChance (Or.inl ⟨by decide, by decide⟩) hfuel hcap
    exact ⟨res, by rw [heq]; exact hres, hres⟩

/-! ## The generator on the memory that `malloc` returns -/

theorem scanCellMem_sim {σ : Type} (g : RandomGen σ) (spacingRows spacingCols : Int)
    (skipChance : ℚ) (y x : Nat) (m : ScanMem σ) (st : ScanState σ) (h : MemSim m st) :
    Outcome.Rel MemSim (scanCellMem g spacingRows spacingCols skipChance y x m)
      (scanCellChecked g spacingRows spacingCols skipChance y x st) := by
  obtain ⟨him, hrng, hcnt, hpts⟩ := h
  unfold scanCellMem scanCellChecked
  rw [him, hrng, hcnt]
  by_cases h1 : ((x : Int) = 0 ∨ (x : Int) = (st.imMaze.width : Int) - 1 ∨
      (y : Int) = 0 ∨ (y : Int) = (st.imMaze.height : Int) - 1)
  · rw [if_pos h1, if_pos h1]
    exact ⟨rfl, rfl, rfl, hpts⟩
  · rw [if_neg h1, if_neg h1]
    by_cases h2 : spacingCols = 0
    · rw [if_pos h2, if_pos h2]; trivial
    · rw [if_neg h2, if_neg h2]
      by_cases h3 : Int.tmod x spacingCols = 0
      · rw [if_pos h3, if_pos h3]
        by_cases h4 : spacingRows = 0
        · rw [if_pos h4, if_pos h4]; trivial
        · rw [if_neg h4, if_neg h4]
          by_cases h5 : Int.tmod y spacingRows = 0
          · rw [if_pos h5, if_pos h5]
            simp only
            by_cases h6 : chanceAtLeast (g.GetRandomValue st.rng 0 100).1 skipChance = true
            · rw [if_pos h6, if_pos h6]
              by_cases h7 : st.mazePoints.length < mazePointsCapacity
              · rw [if_pos h7, if_pos h7]
                refine ⟨rfl, rfl, by simp, ?_⟩
                intro i p hip
                simp only
                by_cases hi : i = st.mazePoints.length
                · rw [if_pos hi]
                  rw [hi, List.getElem?_append_right (le_refl _)] at hip
                  simpa using hip
                · rw [if_neg hi]
                  have hlt : i < st.mazePoints.length := by
                    have := lt_length_of_getElem? hip
                    simp only [List.length_append, List.length_singleton] at this
                    omega
                  rw [List.getElem?_append_left hlt] at hip
                  exact hpts i p hip
              · rw [if_neg h7, if_neg h7]; trivial
            · rw [if_neg h6, if_neg h6]
              exact ⟨rfl, rfl, rfl, hpts⟩
          · rw [if_neg h5, if_neg h5]
            exact ⟨him, hrng, hcnt, hpts⟩
      · rw [if_neg h3, if_neg h3]
        exact ⟨him, hrng, hcnt, hpts⟩

theorem scanRowMem_sim {σ : Type} (g : RandomGen σ) (spacingRows spacingCols : Int)
    (skipChance : ℚ) (y : Nat) (m : ScanMem σ) (st : ScanState σ) (h : MemSim m st) :
    Outcome.Rel MemSim (scanRowMem g spacingRows spacingCols skipChance y m)
      (scanRowChecked g spacingRows spacingCols skipChance y st) := by
  unfold scanRowMem scanRowChecked
  rw [h.1]
  exact Outcome.Rel.foldl _ _
    (fun k a b hab => scanCellMem_sim g spacingRows spacingCols skipChance y k a b hab) _ _ _ h

theorem scanImageMem_sim {σ : Type} (g : RandomGen σ) (spacingRows spacingCols : Int)
    (skipChance : ℚ) (m : ScanMem σ) (st : ScanState σ) (h : MemSim m st) :
    Outcome.Rel MemSim (scanImageMem g spacingRows spacingCols skipChance m)
      (scanImageChecked g spacingRows spacingCols skipChance st) := by
  unfold scanImageMem scanImageChecked
  rw [h.1]
  exact Outcome.Rel.foldl _ _
    (fun k a b hab => scanRowMem_sim g spacingRows spacingCols skipChance k a b hab) _ _ _ h

/-- Two loops over a list whose bodies agree at the entries of the list have
the same outcome. -/
theorem foldl_bind_congr_mem {α ι : Type} (f f' : ι → α → Outcome α) (l : List ι)
    (h : ∀ k ∈ l, ∀ s, f' k s = f k s) (o : Outcome α) :
    l.foldl (fun acc k => acc.bind (f' k)) o = l.foldl (fun acc k => acc.bind (f k)) o := by
  induction l generalizing o with
  | nil => rfl
  | cons a t ih =>
    rw [List.foldl_cons, List.foldl_cons]
    have ha : o.bind (f' a) = o.bind (f a) := by
      cases o with
      | returned s => exact h a (List.mem_cons_self _ _) s
      | running => rfl
      | undefinedBehaviour => rfl
    rw [ha]
    exact ih (fun k hk s => h k (List.mem_cons_of_mem _ hk) s) _

/-- The growth loop reads `mazePoints` at the slots the scan has written
only: on the block it does what it does on the list of the points saved. -/
theorem growPointMem_eq {σ : Type} (g : RandomGen σ) (fuel : Nat) (mp : Nat → Point)
    (pts : List Point) (pointIndices : List Int) (i : Nat)
    (hcap : pts.length ≤ mazePointsCapacity)
    (hpts : ∀ k p, pts[k]? = some p → mp k = p)
    (hlen : pointIndices.length = pts.length)
    (hrange : ∀ v ∈ pointIndices, 0 ≤ v ∧ v ≤ (pts.length : Int) - 1)
    (hi : i < pts.length) (st : Image × σ) :
    growPointMem g fuel mp pointIndices i st = growPoint g fuel pts pointIndices i st := by
  obtain ⟨idx, hidx, hidxmem⟩ := readAt_returned pointIndices (i : Int) (by omega) (by omega)
  obtain ⟨hidx0, hidx1⟩ := hrange idx hidxmem
  have hlt : idx.toNat < pts.length := by omega
  have hread : readAt pts idx = Outcome.returned (mp idx.toNat) := by
    unfold readAt
    rw [if_neg (by omega)]
    cases hg : pts.get? idx.toNat with
    | none =>
      exfalso
      rw [List.get?_eq_none] at hg
      omega
    | some p =>
      simp only
      rw [List.get?_eq_getElem?] at hg
      rw [hpts idx.toNat p hg]
  have hmem : readMem mp idx = Outcome.returned (mp idx.toNat) := by
    unfold readMem
    rw [if_neg (by omega), if_pos (by omega)]
  unfold growPointMem growPoint
  rw [hidx, Outcome.bind_returned, Outcome.bind_returned, hread, hmem]

/-- Whatever the block `mazePoints` holds when `malloc` returns it, the
function on the block has the outcome of the function on the list of the
points saved. -/
theorem GenImageMazeExMem_eq {σ : Type} (g : RandomGen σ) (fuel : Nat) (heap : Nat → Point)
    (rng : σ) (width height : Nat) (spacingRows spacingCols : Int) (skipChance : ℚ) :
    GenImageMazeExMem g fuel heap rng width height spacingRows spacingCols skipChance
      = GenImageMazeExChecked g fuel rng width height spacingRows spacingCols skipChance := by
  have hsim : MemSim (⟨GenImageColor width height BLACK, heap, 0, rng⟩ : ScanMem σ)
      (⟨GenImageColor width height BLACK, [], rng⟩ : ScanState σ) :=
    ⟨rfl, rfl, rfl, fun i p hp => by simp at hp⟩
  have hrel := scanImageMem_sim g spacingRows spacingCols skipChance _ _ hsim
  unfold GenImageMazeExMem GenImageMazeExChecked
  cases hm : scanImageMem g spacingRows spacingCols skipChance
      (⟨GenImageColor width height BLACK, heap, 0, rng⟩ : ScanMem σ) with
  | returned m =>
    cases hc : scanImageChecked g spacingRows spacingCols skipChance
        (⟨GenImageColor width height BLACK, [], rng⟩ : ScanState σ) with
    | returned st =>
      rw [hm, hc] at hrel
      obtain ⟨him, hrng, hcnt, hpts⟩ := hrel
      have hcap : st.mazePoints.length ≤ mazePointsCapacity :=
        (scanImageChecked_refines g spacingRows spacingCols skipChance).2.1 _ st hc
          (Nat.zero_le _)
      rw [Outcome.bind_returned, Outcome.bind_returned]
      simp only
      rw [him, hrng, hcnt]
      have hcount : ((st.mazePoints.length : Nat) : Int)
          ≤ ((st.mazePoints.length : Int) - 1) - 0 + 1 := by omega
      have hlen := g.sequence_length st.rng st.mazePoints.length 0 _ hcount
      have hrange := g.sequence_range st.rng st.mazePoints.length 0 _ hcount
      apply foldl_bind_congr_mem
      intro k hk s
      exact growPointMem_eq g fuel m.mazePoints st.mazePoints _ k hcap hpts hlen hrange
        (List.mem_range.1 hk) s
    | running => rw [hm, hc] at hrel; exact False.elim hrel
    | undefinedBehaviour => rw [hm, hc] at hrel; exact False.elim hrel
  | running =>
    cases hc : scanImageChecked g spacingRows spacingCols skipChance
        (⟨GenImageColor width height BLACK, [], rng⟩ : ScanState σ) with
    | returned st => rw [hm, hc] at hrel; exact False.elim hrel
    | running => rfl
    | undefinedBehaviour => rw [hm, hc] at hrel; exact False.elim hrel
  | undefinedBehaviour =>
    cases hc : scanImageChecked g spacingRows spacingCols skipChance
        (⟨GenImageColor width height BLACK, [], rng⟩ : ScanState σ) with
    | returned st => rw [hm, hc] at hrel; exact False.elim hrel
    | running => rw [hm, hc] at hrel; exact False.elim hrel
    | undefinedBehaviour => rfl

/-- C9: maze generation is deterministic.  Two runs of
`SetRandomSeed(seed); GenImageMazeEx(...)` with the same seed and the same
width, height, spacings and skip chance have the same outcome whatever the
generator state was before either run and whatever the block `mazePoints`
held when `malloc` returned it to either run: when one returns so does the
other, the two images have the same extents and the same colour in every
cell, and the generator is left in the same state.  The outcome is the one of
`GenImageMazeEx` on the list of the points saved, started in the state that
`SetRandomSeed(seed)` leaves. -/
theorem seededGenImageMazeEx_deterministic {σ : Type} (g : RandomGen σ) (fuel : Nat)
    (heap₁ heap₂ : Nat → Point) (prior₁ prior₂ : σ) (seed width height : Nat)
    (spacingRows spacingCols : Int) (skipChance : ℚ) :
    seededGenImageMazeEx g fuel heap₁ prior₁ seed width height spacingRows spacingCols
        skipChance
      = seededGenImageMazeEx g fuel heap₂ prior₂ seed width height spacingRows spacingCols
          skipChance ∧
    (∀ im₁ rng₁ im₂ rng₂,
      seededGenImageMazeEx g fuel heap₁ prior₁ seed width height spacingRows spacingCols
          skipChance = Outcome.returned (im₁, rng₁) →
      seededGenImageMazeEx g fuel heap₂ prior₂ seed width height spacingRows spacingCols
          skipChance = Outcome.returned (im₂, rng₂) →
      im₁ = im₂ ∧ rng₁ = rng₂ ∧
        ∀ x y : Int, GetImageColor im₁ x y = GetImageColor im₂ x y) ∧
    seededGenImageMazeEx g fuel heap₁ prior₁ seed width height spacingRows spacingCols
        skipChance
      = GenImageMazeExChecked g fuel (g.SetRandomSeed prior₂ seed) width height spacingRows
          spacingCols skipChance := by
  have h1 : seededGenImageMazeEx g fuel heap₁ prior₁ seed width height spacingRows
      spacingCols skipChance
      = GenImageMazeExChecked g fuel (g.SetRandomSeed prior₂ seed) width height spacingRows
          spacingCols skipChance := by
    unfold seededGenImageMazeEx
    rw [GenImageMazeExMem_eq, g.seed_resets prior₁ prior₂ seed]
  have h2 : seededGenImageMazeEx g fuel heap₂ prior₂ seed width height spacingRows
      spacingCols skipChance
      = GenImageMazeExChecked g fuel (g.SetRandomSeed prior₂ seed) width height spacingRows
          spacingCols skipChance := by
    unfold seededGenImageMazeEx
    rw [GenImageMazeExMem_eq]
  refine ⟨by rw [h1, h2], ?_, h1⟩
  intro im₁ rng₁ im₂ rng₂ e₁ e₂
  rw [h1] at e₁
  rw [h2, e₁] at e₂
  injection e₂ with e₂
  injection e₂ with ha hb
  subst ha; subst hb
  exact ⟨rfl, rfl, fun _ _ => rfl⟩

end MazeGame
